import Mathlib

/-!
Verification of the atree arena-backed tree library.

The model is a shallow embedding of the Rust sources:
  * `src/alloc.rs`  — the free-list slot allocator (`Allocator<T>`, `Cell<T>`),
  * `src/arena.rs`  — the arena (`Arena<T>`) and its node-level operations,
  * `src/token.rs`  — the token-indexed tree operations,
  * `src/iter.rs`   — the traversal engines.

Tokens are `NonZeroUsize` in the source; we model a token as a plain `Nat`
and treat the value `0` as the unrepresentable token (every accessor guards
on it, mirroring the type-level guarantee of `NonZeroUsize`).  A Rust panic
(or a diverging walk over a corrupt structure) is modelled as `none`; fuel
arguments bound the walks that the source performs with unbounded loops, and
every theorem that relies on a fuel bound proves the bound sufficient.
-/

namespace Atree

/-- Cell of the slot allocator (src/alloc.rs, `enum Cell<T>`): `just` is
`Cell::Just` (an occupied slot) and `nothing nx` is `Cell::Nothing` holding
the next free-list index. -/
inductive Cell (T : Type) where
  | just (v : T)
  | nothing (nx : Option Nat)
  deriving Repr, DecidableEq

/-- The slot allocator (src/alloc.rs, `struct Allocator<T>`): backing
storage, free-list head (a 1-based index) and occupied count. -/
structure Allocator (T : Type) where
  data : List (Cell T)
  head : Option Nat
  len : Nat
  deriving Repr, DecidableEq

namespace Allocator

/-- `Allocator::new` — one free cell, head at index 1, empty. -/
def new (T : Type) : Allocator T :=
  { data := [Cell.nothing none], head := some 1, len := 0 }

/-- `Allocator::capacity` — `self.data.len()`. -/
def capacity (a : Allocator T) : Nat := a.data.length

/-- `Allocator::is_empty`. -/
def isEmpty (a : Allocator T) : Bool := a.len == 0

/-- The cell a (1-based, nonzero) token addresses; `none` when out of range
or when the token is the unrepresentable 0. -/
def getCell (a : Allocator T) (tok : Nat) : Option (Cell T) :=
  if tok = 0 then none else a.data.get? (tok - 1)

/-- `Allocator::get` — occupancy-checked read. -/
def get (a : Allocator T) (tok : Nat) : Option T :=
  match a.getCell tok with
  | some (Cell.just v) => some v
  | _ => none

/-- `Allocator::is_valid_token`. -/
def isValidToken (a : Allocator T) (tok : Nat) : Bool :=
  (a.get tok).isSome

/-- The recursive walk inside `Allocator::find_last_available` (the `aux`
closure): follow the free-list links to the last free slot.  `none` models
both the "corrpt arena" panic and divergence on a cyclic free list (the
fuel is always instantiated so that a well-formed list fits). -/
def findLastAvailableAux (data : List (Cell T)) : Nat → Nat → Option Nat
  | 0, _ => none
  | fuel + 1, indx =>
    match data.get? (indx - 1) with
    | some (Cell.just _) | none => none
    | some (Cell.nothing nextHead) =>
      match nextHead with
      | some n => findLastAvailableAux data fuel n
      | none => some indx

/-- `Allocator::find_last_available`: `some none` when there is no free
list, `some (some i)` when slot `i` is its tail, `none` on a panic. -/
def findLastAvailable (a : Allocator T) : Option (Option Nat) :=
  match a.head with
  | none => some none
  | some h => (findLastAvailableAux a.data (a.data.length + 1) h).map some

/-- `Allocator::reserve`: append `additional` fresh free cells, chained
together, and splice them onto the tail of the existing free list (or make
them the whole free list).  `reserve_exact` on the vector is a no-op for the
model.  `additional = 0` underflows `take(additional - 1)` in the source and
cannot complete; it is modelled as a failure (it is unreachable from the
library's own call sites on well-formed allocators). -/
def reserve (a : Allocator T) (additional : Nat) : Option (Allocator T) :=
  if additional = 0 then none
  else
    (findLastAvailable a).bind fun r =>
      let headIndx := a.data.length + 1
      let a' : Allocator T :=
        match r with
        | none => { a with head := some headIndx }
        | some n => { a with data := a.data.set (n - 1) (Cell.nothing (some headIndx)) }
      let newCells : List (Cell T) :=
        ((List.range (additional - 1)).map fun k => Cell.nothing (some (headIndx + k + 1)))
          ++ [Cell.nothing none]
      some { a' with data := a'.data ++ newCells }

/-- `Allocator::head` (the method): the free-list head, growing by
`reserve(self.len())` first when the list is exhausted.  After that call the
head is always set, so the source's recursion unfolds exactly once. -/
def headTok (a : Allocator T) : Option (Allocator T × Nat) :=
  match a.head with
  | some h => some (a, h)
  | none =>
    (a.reserve a.len).bind fun a' =>
      match a'.head with
      | some h => some (a', h)
      | none => none

/-- The `Some(index)` arm of `Allocator::insert`: store `v` in the head
slot, advance the head to the slot's stored successor.  Panics ("corrupt
arena") when the head slot is not free. -/
def insertHere (a : Allocator T) (index : Nat) (v : T) : Option (Allocator T × Nat) :=
  match a.data.get? (index - 1) with
  | some (Cell.just _) | none => none
  | some (Cell.nothing nextHead) =>
    some ({ data := a.data.set (index - 1) (Cell.just v),
            head := nextHead, len := a.len + 1 }, index)

/-- `Allocator::insert`: take the free-list head, or grow by
`reserve(self.capacity())` first when the free list is empty (after which
the head is set, so the source's recursion unfolds exactly once). -/
def insert (a : Allocator T) (v : T) : Option (Allocator T × Nat) :=
  match a.head with
  | some index => a.insertHere index v
  | none =>
    (a.reserve a.capacity).bind fun a' =>
      match a'.head with
      | some index => a'.insertHere index v
      | none => none

/-- `Allocator::remove`: for an occupied slot, swap in a free cell pointing
at the old head, point the head at this slot, decrement the count and
return the value; silently return `none` for a free or out-of-range token. -/
def remove (a : Allocator T) (tok : Nat) : Allocator T × Option T :=
  match a.getCell tok with
  | some (Cell.just v) =>
    ({ data := a.data.set (tok - 1) (Cell.nothing a.head),
       head := some tok, len := a.len - 1 }, some v)
  | _ => (a, none)

/-- `Allocator::set`: `remove` followed by `insert`, returning the removed
value (if the slot was occupied, the freed slot becomes the head, so the
insertion lands back in the very same slot). -/
def set (a : Allocator T) (tok : Nat) (v : T) : Option (Allocator T × Option T) :=
  let p := a.remove tok
  (p.1.insert v).map fun q => (q.1, p.2)

end Allocator

/-- Modelled from the spec: the crate's `Error` enum (`crate::Error`) is
declared outside the given sources; §7 of the spec names exactly one
usage-error condition, "attach target is not a standalone free node",
which `Token::replace_node` raises as `Error::NotAFreeNode`. -/
inductive Error where
  | NotAFreeNode
  deriving Repr, DecidableEq

/-- A tree node (src/node.rs, `struct Node<T>`): payload, self-token and
the four structural links. -/
structure Node (T : Type) where
  data : T
  token : Nat
  parent : Option Nat
  previousSibling : Option Nat
  nextSibling : Option Nat
  firstChild : Option Nat
  deriving Repr, DecidableEq

/-- `Node::is_leaf`. -/
def Node.isLeaf (n : Node T) : Bool := n.firstChild.isNone

/-- The arena (src/arena.rs, `struct Arena<T>`): an allocator of nodes. -/
structure Arena (T : Type) where
  allocator : Allocator (Node T)
  deriving Repr, DecidableEq

namespace Arena

/-- `Arena::is_empty`. -/
def isEmpty (a : Arena T) : Bool := a.allocator.isEmpty

/-- `Arena::node_count`. -/
def nodeCount (a : Arena T) : Nat := a.allocator.len

/-- `Arena::capacity`. -/
def capacity (a : Arena T) : Nat := a.allocator.capacity

/-- `Arena::get`. -/
def get (a : Arena T) (tok : Nat) : Option (Node T) := a.allocator.get tok

/-- Overwrite the node stored at an occupied slot, leaving the allocator's
bookkeeping untouched: the effect of writing through the `&mut Node<T>`
that `Arena::get_mut` / `Index` hand out. -/
def setNodeAt (a : Arena T) (i : Nat) (n : Node T) : Arena T :=
  ⟨{ a.allocator with data := a.allocator.data.set (i - 1) (Cell.just n) }⟩

/-- Mutate the node a token addresses (the `arena[tok].field = v` and
`arena.get_mut(tok)` patterns); `none` models the "Invalid token" /
"Corrupt arena" panics on a free or out-of-range token. -/
def modifyNode (a : Arena T) (i : Nat) (f : Node T → Node T) : Option (Arena T) :=
  match a.get i with
  | none => none
  | some n => some (a.setNodeAt i (f n))

end Arena

/-- Modelled from the spec: `impl Default for Token` is declared outside
the given sources.  `Arena::with_data` stores the root node with
`Token::default()` as its self-token into a fresh allocator, whose first
insertion lands in slot 1; the spec's requirement that a node's stored
token refer back to the node itself makes index 1 the default. -/
def tokenDefault : Nat := 1

/-- `Arena::with_data`: a fresh allocator holding a single root node. -/
def withData (v : T) : Option (Arena T × Nat) :=
  let rootNode : Node T :=
    { data := v, parent := none, previousSibling := none, token := tokenDefault,
      nextSibling := none, firstChild := none }
  ((Allocator.new (Node T)).insert rootNode).map fun p => (⟨p.1⟩, p.2)

/-- The traversal-branch flag (src/iter.rs, `enum Branch`). -/
inductive Branch where
  | sibling
  | child
  | none
  deriving Repr, DecidableEq

/-- The traversal order (src/iter.rs, `enum TraversalOrder`). -/
inductive TraversalOrder where
  | pre
  | post
  | level
  deriving Repr, DecidableEq

/-- The loop of `preorder_next` (src/iter.rs): find the pre-order successor
of `nodeToken` inside the subtree rooted at `root`.  `none` models the
"Invalid token" panic, the unreachable `Branch::None` arm, and divergence
on a corrupt arena (fuel). -/
def preorderNextGo (a : Arena T) (root : Nat) : Nat → Nat → Branch → Option (Option Nat × Branch)
  | 0, _, _ => none
  | fuel + 1, nodeToken, branch =>
    match a.get nodeToken with
    | .none => none
    | some node =>
      match branch with
      | Branch.none => none
      | Branch.child =>
        match node.firstChild with
        | some token => some (some token, Branch.child)
        | .none =>
          if nodeToken = root then some (none, Branch.none)
          else preorderNextGo a root fuel nodeToken Branch.sibling
      | Branch.sibling =>
        match node.nextSibling with
        | some token => some (some token, Branch.child)
        | .none =>
          match node.parent with
          | .none => some (none, Branch.none)
          | some parent =>
            if parent = root then some (none, Branch.none)
            else preorderNextGo a root fuel parent Branch.sibling

/-- `preorder_next` with fuel covering any chain of occupied slots. -/
def preorderNext (a : Arena T) (nodeToken root : Nat) (branch : Branch) :
    Option (Option Nat × Branch) :=
  preorderNextGo a root (a.capacity + 2) nodeToken branch

/-- The loop of `postorder_next` (src/iter.rs): the `switchBranch` argument
is the source's `switch_branch` local, initially `true`. -/
def postorderNextGo (a : Arena T) (root : Nat) :
    Nat → Nat → Branch → Bool → Option (Option Nat × Branch)
  | 0, _, _, _ => none
  | fuel + 1, nodeToken, branch, switchBranch =>
    match a.get nodeToken with
    | .none => none
    | some node =>
      match branch with
      | Branch.none => some (none, Branch.none)
      | Branch.child =>
        match node.firstChild with
        | some token => postorderNextGo a root fuel token Branch.child false
        | .none =>
          match switchBranch with
          | false => some (some nodeToken, Branch.sibling)
          | true =>
            if nodeToken = root then some (some root, Branch.none)
            else postorderNextGo a root fuel nodeToken Branch.sibling switchBranch
      | Branch.sibling =>
        match node.nextSibling with
        | some token => postorderNextGo a root fuel token Branch.child false
        | .none =>
          match node.parent with
          | .none => some (none, Branch.child)
          | some parent =>
            if parent = root then some (some root, Branch.none)
            else some (some parent, Branch.sibling)

/-- `postorder_next` with fuel covering any chain of occupied slots. -/
def postorderNext (a : Arena T) (nodeToken root : Nat) (branch : Branch) :
    Option (Option Nat × Branch) :=
  postorderNextGo a root (a.capacity + 2) nodeToken branch true

/-- The `while` loop of `Token::remove_descendants` (src/token.rs): free
the current token after computing its post-order successor, stopping when
the branch flag reaches `Branch::None` (at which point the subtree root
itself — never freed — has just been reached). -/
def removeDescGo (root : Nat) : Nat → Arena T → Nat → Branch → Option (Arena T)
  | _, a, _, Branch.none => some a
  | 0, _, _, _ => none
  | fuel + 1, a, token, branch =>
    (postorderNext a token root branch).bind fun (t, b) =>
      let al := (a.allocator.remove token).1
      match t with
      | none => none
      | some t' => removeDescGo root fuel ⟨al⟩ t' b

/-- `Token::remove_descendants`: drive the post-order engine from just
below `self`, freeing every yielded slot, then clear `self.first_child`. -/
def removeDescendants (self : Nat) (a : Arena T) : Option (Arena T) :=
  (postorderNext a self self Branch.child).bind fun (t0, b0) =>
    match t0 with
    | none => some a
    | some token =>
      (removeDescGo self (a.capacity + 1) a token b0).bind fun a₁ =>
        a₁.modifyNode self fun n => { n with firstChild := none }

/-- `Arena::set` (crate-private): overwrite through the allocator; if the
slot previously held a node, remove the descendants reachable from that
node's stored token. -/
def Arena.setNode (a : Arena T) (indx : Nat) (node : Node T) : Option (Arena T) :=
  (a.allocator.set indx node).bind fun p =>
    match p.2 with
    | some old => removeDescendants old.token ⟨p.1⟩
    | none => some (⟨p.1⟩ : Arena T)

/-- `Arena::new_node`: a fresh free node at the allocator's head slot. -/
def newNode (a : Arena T) (v : T) : Option (Arena T × Nat) :=
  a.allocator.headTok.bind fun (al, token) =>
    let node : Node T :=
      { data := v, parent := none, previousSibling := none, token := token,
        nextSibling := none, firstChild := none }
    (Arena.setNode ⟨al⟩ token node).map fun a₁ => (a₁, token)

/-- One generic step list for the token iterators produced by the
`iterator!(@token ...)` macro (src/iter.rs): follow `field` from a start
link, panicking ("Stale token") on an invalid token.  `none` is the panic
or fuel exhaustion; the fuel is always instantiated to cover well-formed
chains. -/
def tokenIterCollect (a : Arena T) (field : Node T → Option Nat) :
    Nat → Option Nat → Option (List Nat)
  | _, none => some []
  | 0, some _ => none
  | fuel + 1, some tok =>
    match a.get tok with
    | none => none
    | some node => (tokenIterCollect a field fuel (field node)).map fun l => tok :: l

/-- The slot indices visited by a `iterator!(@mut ...)` iterator
(src/iter.rs): like the token iterators, but a stale token silently ends
the iteration instead of panicking. -/
def mutIterIdx (a : Arena T) (field : Node T → Option Nat) :
    Nat → Option Nat → Option (List Nat)
  | _, none => some []
  | 0, some _ => none
  | fuel + 1, some tok =>
    match a.get tok with
    | none => some []
    | some node => (mutIterIdx a field fuel (field node)).map fun l => tok :: l

/-- The nodes yielded (as mutable references) by a `iterator!(@mut ...)`
iterator, in order. -/
def mutIterNodes (a : Arena T) (field : Node T → Option Nat) :
    Nat → Option Nat → Option (List (Node T))
  | _, none => some []
  | 0, some _ => none
  | fuel + 1, some tok =>
    match a.get tok with
    | none => some []
    | some node => (mutIterNodes a field fuel (field node)).map fun l => node :: l

/-- `Token::append` (src/token.rs): take the allocator's head slot as the
new token, find the last valid child through `children_mut` (which checks
`self` and then stops silently at any stale link), hook the new node in as
the last child, and store it with `Arena::set`. -/
def append (self : Nat) (a : Arena T) (v : T) : Option (Arena T × Nat) :=
  a.allocator.headTok.bind fun (al, newNodeToken) =>
    let a₀ : Arena T := ⟨al⟩
    (a₀.get self).bind fun selfNode =>
      (mutIterIdx a₀ (fun n => n.nextSibling) (a₀.capacity + 1) selfNode.firstChild).bind
        fun kids =>
      (match kids.getLast? with
       | none =>
         (a₀.modifyNode self fun n => { n with firstChild := some newNodeToken }).map
           fun a₁ => (a₁, (none : Option Nat))
       | some lastIdx =>
         (a₀.get lastIdx).bind fun lastChild =>
           (a₀.modifyNode lastIdx fun n => { n with nextSibling := some newNodeToken }).map
             fun a₁ => (a₁, some lastChild.token)).bind
        fun (a₁, previousSibling) =>
      let node : Node T :=
        { data := v, token := newNodeToken, parent := some self,
          previousSibling := previousSibling, nextSibling := none, firstChild := none }
      (Arena.setNode a₁ newNodeToken node).map fun a₂ => (a₂, newNodeToken)

/-- `Token::insert_before` (src/token.rs).  Writes `self.previous_sibling`
before inspecting the old links, then panics when `self` had neither a
previous sibling nor a parent. -/
def insertBefore (self : Nat) (a : Arena T) (v : T) : Option (Arena T × Nat) :=
  a.allocator.headTok.bind fun (al, newNodeToken) =>
    let a₀ : Arena T := ⟨al⟩
    (a₀.get self).bind fun selfNode =>
      let selfParent := selfNode.parent
      let selfPreviousSibling := selfNode.previousSibling
      (a₀.modifyNode self fun n => { n with previousSibling := some newNodeToken }).bind
        fun a₁ =>
      (match selfPreviousSibling with
       | some sibling =>
         (a₁.modifyNode sibling fun n => { n with nextSibling := some newNodeToken }).map
           fun a₂ => (a₂, some sibling)
       | none =>
         match selfParent with
         | none => none
         | some p =>
           (a₁.modifyNode p fun n => { n with firstChild := some newNodeToken }).map
             fun a₂ => (a₂, (none : Option Nat))).bind
        fun (a₂, previousSibling) =>
      let node : Node T :=
        { data := v, token := newNodeToken, parent := selfParent,
          previousSibling := previousSibling, nextSibling := some self, firstChild := none }
      (Arena.setNode a₂ newNodeToken node).map fun a₃ => (a₃, newNodeToken)

/-- `Token::insert_after` (src/token.rs). -/
def insertAfter (self : Nat) (a : Arena T) (v : T) : Option (Arena T × Nat) :=
  a.allocator.headTok.bind fun (al, newNodeToken) =>
    let a₀ : Arena T := ⟨al⟩
    (a₀.get self).bind fun selfNode =>
      let selfParent := selfNode.parent
      let selfNextSibling := selfNode.nextSibling
      (a₀.modifyNode self fun n => { n with nextSibling := some newNodeToken }).bind
        fun a₁ =>
      (match selfNextSibling with
       | none => some (a₁, (none : Option Nat))
       | some sibling =>
         (a₁.modifyNode sibling fun n => { n with previousSibling := some newNodeToken }).map
           fun a₂ => (a₂, some sibling)).bind
        fun (a₂, nextSibling) =>
      let node : Node T :=
        { data := v, token := newNodeToken, parent := selfParent,
          previousSibling := some self, nextSibling := nextSibling, firstChild := none }
      (Arena.setNode a₂ newNodeToken node).map fun a₃ => (a₃, newNodeToken)

/-- `Token::detach` (src/token.rs): clear the three upward/sideways links of
`self` and repair the vacated position. -/
def detach (self : Nat) (a : Arena T) : Option (Arena T) :=
  (a.get self).bind fun selfNode =>
    let parent := selfNode.parent
    let previousSibling := selfNode.previousSibling
    let nextSibling := selfNode.nextSibling
    (a.modifyNode self fun n =>
        { n with parent := none, previousSibling := none, nextSibling := none }).bind
      fun a₁ =>
    (match previousSibling with
     | some token => a₁.modifyNode token fun n => { n with nextSibling := nextSibling }
     | none =>
       match parent with
       | some token => a₁.modifyNode token fun n => { n with firstChild := nextSibling }
       | none => some a₁).bind
      fun a₂ =>
    match nextSibling with
    | some token => a₂.modifyNode token fun n => { n with previousSibling := previousSibling }
    | none => some a₂

/-- `Token::replace_node` (src/token.rs): `other` steals `self`'s position;
returns `(arena, some NotAFreeNode)` — with the arena untouched — when
`other` is not a standalone free root. -/
def replaceNode (self : Nat) (a : Arena T) (other : Nat) :
    Option (Arena T × Option Error) :=
  (a.get self).bind fun selfNode =>
    let parent := selfNode.parent
    let previousSibling := selfNode.previousSibling
    let nextSibling := selfNode.nextSibling
    (a.get other).bind fun otherNode =>
      match otherNode.previousSibling, otherNode.nextSibling, otherNode.parent with
      | none, none, none =>
        (a.modifyNode other fun n =>
            { n with parent := parent, nextSibling := nextSibling,
                     previousSibling := previousSibling }).bind
          fun a₁ =>
        (a₁.modifyNode self fun n =>
            { n with parent := none, previousSibling := none, nextSibling := none }).bind
          fun a₂ =>
        (match previousSibling with
         | some sibling => a₂.modifyNode sibling fun n => { n with nextSibling := some other }
         | none =>
           match parent with
           | some p => a₂.modifyNode p fun n => { n with firstChild := some other }
           | none => some a₂).bind
          fun a₃ =>
        (match nextSibling with
         | some sibling => a₃.modifyNode sibling fun n => { n with previousSibling := some other }
         | none => some a₃).map
          fun a₄ => (a₄, (none : Option Error))
      | _, _, _ => some (a, some Error.NotAFreeNode)

/-- The `for child in token.children_mut(self)` loop of `Arena::remove`:
clear each child's parent link, advancing by the sibling link read when the
child was yielded (a stale link ends the loop silently). -/
def setParentsNoneChain (a : Arena T) : Nat → Option Nat → Option (Arena T)
  | _, none => some a
  | 0, some _ => none
  | fuel + 1, some tok =>
    match a.get tok with
    | none => some a
    | some node =>
      setParentsNoneChain (a.setNodeAt tok { node with parent := none }) fuel node.nextSibling

/-- `Arena::remove` (src/arena.rs): detach the node, orphan its children
(clearing only their parent links), free its slot, and collect the former
children left chained by their sibling links. -/
def arenaRemove (a : Arena T) (token : Nat) : Option (Arena T × List Nat) :=
  (detach token a).bind fun a₁ =>
    (a₁.get token).bind fun selfNode =>
      (setParentsNoneChain a₁ (a₁.capacity + 1) selfNode.firstChild).bind fun a₂ =>
        (a₂.get token).bind fun node =>
          let firstChild := node.firstChild
          let a₃ : Arena T := ⟨(a₂.allocator.remove token).1⟩
          (tokenIterCollect a₃ (fun n => n.nextSibling) (a₃.capacity + 1) firstChild).map
            fun children => (a₃, children)

/-- `Arena::uproot` (src/arena.rs): remove the node and its descendants,
then repair the neighbour links according to the node's old position. -/
def uproot (a : Arena T) (token : Nat) : Option (Arena T) :=
  (removeDescendants token a).bind fun a₁ =>
    let p := a₁.allocator.remove token
    let a₂ : Arena T := ⟨p.1⟩
    match p.2 with
    | none => none
    | some node =>
      match node.parent, node.previousSibling, node.nextSibling with
      | some _, some otkn, some ytkn =>
        (a₂.modifyNode otkn fun o => { o with nextSibling := some ytkn }).bind fun a₃ =>
          a₃.modifyNode ytkn fun y => { y with previousSibling := some otkn }
      | some _, some otkn, none =>
        a₂.modifyNode otkn fun o => { o with nextSibling := none }
      | some ptkn, none, some ytkn =>
        a₂.modifyNode ptkn fun p => { p with firstChild := some ytkn }
      | some ptkn, none, none =>
        a₂.modifyNode ptkn fun p => { p with firstChild := none }
      | none, none, none => some a₂
      | none, none, some _ => none
      | none, some _, none => none
      | none, some _, some _ => none

/-- `node_operation` (src/token.rs): run the data-taking operation with a
placeholder payload (`MaybeUninit::zeroed`, here the explicit `dummy`),
then replace the placeholder with `other`.  On the `NotAFreeNode` error the
`?` operator returns early, so the placeholder is NOT removed and stays in
the arena. -/
def nodeOperation (selfToken : Nat) (a : Arena T) (otherToken : Nat) (dummy : T)
    (func : Nat → Arena T → T → Option (Arena T × Nat)) :
    Option (Arena T × Option Error) :=
  (func selfToken a dummy).bind fun (a₁, token) =>
    (replaceNode token a₁ otherToken).bind fun (a₂, r) =>
      match r with
      | some e => some (a₂, some e)
      | none => (arenaRemove a₂ token).map fun q => (q.1, (none : Option Error))

/-- `Token::append_node`. -/
def appendNode (self : Nat) (a : Arena T) (other : Nat) (dummy : T) :
    Option (Arena T × Option Error) :=
  nodeOperation self a other dummy append

/-- `Token::insert_node_before`. -/
def insertNodeBefore (self : Nat) (a : Arena T) (other : Nat) (dummy : T) :
    Option (Arena T × Option Error) :=
  nodeOperation self a other dummy insertBefore

/-- `Token::insert_node_after`. -/
def insertNodeAfter (self : Nat) (a : Arena T) (other : Nat) (dummy : T) :
    Option (Arena T × Option Error) :=
  nodeOperation self a other dummy insertAfter

/-- `Arena::overwrite` (src/arena.rs). -/
def overwrite (a : Arena T) (indx : Nat) (v : T) : Option (Arena T) :=
  (removeDescendants indx a).bind fun a₁ =>
    match a₁.get indx with
    | some n => some (a₁.setNodeAt indx { n with data := v })
    | none => some a₁

/-- The state of a `SubtreeTokens` iterator (src/iter.rs): the `next`
function pointer is recovered from the traversal order at each step. -/
structure SubtreeState where
  subtreeRoot : Nat
  nodeToken : Option Nat
  branch : Branch
  currLevel : List Nat
  nextLevel : List Nat
  deriving Repr, DecidableEq

/-- `depth_first_tokens_next` (src/iter.rs): yield the stored token (after
checking it is still live — "Stale token" panics otherwise) and advance the
state with the given successor function. -/
def depthFirstTokensNext (a : Arena T) (st : SubtreeState)
    (func : Arena T → Nat → Nat → Branch → Option (Option Nat × Branch)) :
    Option (Option Nat × SubtreeState) :=
  match st.nodeToken with
  | none => some (none, st)
  | some token =>
    match a.get token with
    | none => none
    | some _ =>
      (func a token st.subtreeRoot st.branch).map fun (nextNode, branch) =>
        (some token, { st with nodeToken := nextNode, branch := branch })

/-- `breadth_first_tokens_next` (src/iter.rs): pop the current level's
front, push its children (via `children_tokens`, which panics on a stale
token) onto the next level; swap levels when the current one drains. -/
def breadthFirstTokensNext (a : Arena T) (st : SubtreeState) :
    Option (Option Nat × SubtreeState) :=
  match st.currLevel with
  | token :: rest =>
    (a.get token).bind fun node =>
      (tokenIterCollect a (fun n => n.nextSibling) (a.capacity + 1) node.firstChild).map
        fun kids => (some token, { st with currLevel := rest, nextLevel := st.nextLevel ++ kids })
  | [] =>
    match st.nextLevel with
    | [] => some (none, st)
    | token :: rest =>
      (a.get token).bind fun node =>
        (tokenIterCollect a (fun n => n.nextSibling) (a.capacity + 1) node.firstChild).map
          fun kids => (some token, { st with currLevel := rest, nextLevel := kids })

/-- `Token::subtree_tokens` (src/token.rs): the initial iterator state for
each traversal order (the post-order constructor already runs the engine
once to find the first node). -/
def subtreeTokensInit (a : Arena T) (self : Nat) (order : TraversalOrder) :
    Option SubtreeState :=
  match order with
  | TraversalOrder.pre =>
    some { subtreeRoot := self, nodeToken := some self, branch := Branch.child,
           currLevel := [], nextLevel := [] }
  | TraversalOrder.post =>
    (postorderNext a self self Branch.child).map fun (nodeToken, branch) =>
      { subtreeRoot := self, nodeToken := nodeToken, branch := branch,
        currLevel := [], nextLevel := [] }
  | TraversalOrder.level =>
    some { subtreeRoot := self, nodeToken := none, branch := Branch.none,
           currLevel := [self], nextLevel := [] }

/-- One step of a `SubtreeTokens` iterator, dispatching on the order the
way the stored `next` function pointer does. -/
def subtreeStep (a : Arena T) (order : TraversalOrder) (st : SubtreeState) :
    Option (Option Nat × SubtreeState) :=
  match order with
  | TraversalOrder.pre => depthFirstTokensNext a st preorderNext
  | TraversalOrder.post => depthFirstTokensNext a st postorderNext
  | TraversalOrder.level => breadthFirstTokensNext a st

/-- Drain a `SubtreeTokens` iterator: the collected tokens, with `some l`
meaning the iterator yielded exactly `l` and then reported exhaustion. -/
def collectTokens (a : Arena T) (order : TraversalOrder) :
    Nat → SubtreeState → Option (List Nat)
  | 0, _ => none
  | fuel + 1, st =>
    match subtreeStep a order st with
    | none => none
    | some (none, _) => some []
    | some (some tok, st') => (collectTokens a order fuel st').map fun l => tok :: l

/-- The full token sequence of `Token::subtree_tokens`. -/
def subtreeTokensList (a : Arena T) (self : Nat) (order : TraversalOrder) (fuel : Nat) :
    Option (List Nat) :=
  (subtreeTokensInit a self order).bind (collectTokens a order fuel)

/-- `Token::ancestors_tokens` (src/token.rs): tokens of the proper
ancestors, starting from the parent link (panics when `self` is invalid). -/
def ancestorsTokensList (self : Nat) (a : Arena T) (fuel : Nat) : Option (List Nat) :=
  (a.get self).bind fun n => tokenIterCollect a (fun m => m.parent) fuel n.parent

/-- `Token::children_tokens` (src/token.rs). -/
def childrenTokensList (self : Nat) (a : Arena T) (fuel : Nat) : Option (List Nat) :=
  (a.get self).bind fun n => tokenIterCollect a (fun m => m.nextSibling) fuel n.firstChild

/-- `Token::ancestors` (src/token.rs): the payloads along
`ancestors_tokens` (the `iterator!(@node ...)` wrapper maps token to
node). -/
def ancestorsDataList (self : Nat) (a : Arena T) (fuel : Nat) : Option (List T) :=
  (ancestorsTokensList self a fuel).bind fun toks =>
    toks.mapM fun t => (a.get t).map fun n => n.data

/-- `Token::ancestors_mut` (src/token.rs): the state starts from
`Some(self)` — the node itself, not its parent — and the `@mut` iterator
then follows the parent link; yielded payloads in order. -/
def ancestorsMutDataList (self : Nat) (a : Arena T) (fuel : Nat) : Option (List T) :=
  (mutIterNodes a (fun m => m.parent) fuel (some self)).map fun l => l.map fun n => n.data

end Atree

namespace Atree

/-! ## Concrete trees used by the claims -/

/-- The six-node tree of §8 of the spec: root with children A, B, C in that
order, and B with children D, E in that order, built through the public
construction operations. -/
def c5Build : Option (Arena Nat × Nat × Nat × Nat × Nat × Nat × Nat) :=
  (withData 0).bind fun (a, root) =>
  (append root a 1).bind fun (a, tA) =>
  (append root a 2).bind fun (a, tB) =>
  (append root a 3).bind fun (a, tC) =>
  (append tB a 4).bind fun (a, tD) =>
  (append tB a 5).bind fun (a, tE) =>
  some (a, root, tA, tB, tC, tD, tE)

/-- root → A, A → {B, C}: the shape on which `Arena::remove` exhibits its
child-orphaning behaviour. -/
def c1Build : Option (Arena Nat × Nat × Nat × Nat × Nat) :=
  (withData 0).bind fun (a, root) =>
  (append root a 1).bind fun (a, tA) =>
  (append tA a 2).bind fun (a, tB) =>
  (append tA a 3).bind fun (a, tC) =>
  some (a, root, tA, tB, tC)

/-- A three-generation chain root → child → grandchild for the ancestor
iterators. -/
def c4Build : Option (Arena Nat × Nat × Nat × Nat) :=
  (withData 10).bind fun (a, root) =>
  (append root a 20).bind fun (a, c) =>
  (append c a 30).bind fun (a, g) =>
  some (a, root, c, g)

/-- A root with one child: the child is not a free root, so attaching it
anywhere must fail. -/
def c2Build : Option (Arena Nat × Nat × Nat) :=
  (withData 0).bind fun (a, root) =>
  (append root a 1).bind fun (a, c) =>
  some (a, root, c)

/-! ## C5: traversal orders on the six-node tree -/

/-- C5.  For the six-node tree built as root with children A, B, C in that
order and B with children D, E in that order, `subtree_tokens` yields
exactly [root, A, B, D, E, C] in pre-order, [A, D, E, B, C, root] in
post-order, [root, A, B, C, D, E] in level-order, and each iterator then
reports exhaustion (the collector returns the complete finite list). -/
theorem subtree_traversal_orders_spec :
    ∃ a root tA tB tC tD tE,
      c5Build = some (a, root, tA, tB, tC, tD, tE) ∧
      subtreeTokensList a root TraversalOrder.pre 20 = some [root, tA, tB, tD, tE, tC] ∧
      subtreeTokensList a root TraversalOrder.post 20 = some [tA, tD, tE, tB, tC, root] ∧
      subtreeTokensList a root TraversalOrder.level 20 = some [root, tA, tB, tC, tD, tE] := by
  refine ⟨_, 1, 2, 3, 4, 5, 6, rfl, ?_, ?_, ?_⟩ <;> rfl

/-! ## C4: `ancestors_mut` starts at the node itself -/

/-- C4.  `ancestors(t)` on the grandchild of the chain root → child →
grandchild yields the payloads of the proper ancestors [child, root], but
`ancestors_mut(t)` — whose state is constructed from `Some(self)` instead
of the parent link — yields the payload of `t` itself first, so the
mutable variant does not traverse the same token sequence as its shared
counterpart. -/
theorem ancestors_mut_yields_self_first :
    ∃ a root c g,
      c4Build = some (a, root, c, g) ∧
      ancestorsDataList g a 10 = some [20, 10] ∧
      ancestorsMutDataList g a 10 = some [30, 20, 10] ∧
      ancestorsMutDataList g a 10 ≠ ancestorsDataList g a 10 := by
  refine ⟨_, 1, 2, 3, rfl, rfl, rfl, ?_⟩
  decide

/-! ## C2: failed node attachment leaks the placeholder -/

/-- C2.  Attaching a non-free node via `append_node` returns the
`NotAFreeNode` error, but the `?` early return in `node_operation` skips
the cleanup: the placeholder node (with the zeroed payload) stays in the
arena, `node_count` grows from 2 to 3, and the structural links of the
root and of the child have both been rewritten. -/
theorem append_node_error_leaks_placeholder :
    ∃ a root c a',
      c2Build = some (a, root, c) ∧
      a.nodeCount = 2 ∧
      appendNode root a c 0 = some (a', some Error.NotAFreeNode) ∧
      a'.nodeCount = 3 ∧
      (a'.get 3).isSome = true ∧
      (a'.get c).map Node.nextSibling = some (some 3) ∧
      (a.get c).map Node.nextSibling = some none := by
  refine ⟨_, 1, 2, _, rfl, rfl, rfl, rfl, rfl, rfl, rfl⟩

/-! ## C1 counterexample: `Arena::remove` does not re-parent children -/

/-- C1 counterexample.  In the tree root → A, A → {B, C}, removing A
leaves B with `parent = None`: the former children are NOT re-parented
into A's former parent (the root), contradicting the claim. -/
theorem remove_does_not_reparent_children :
    ∃ a root tA tB tC a' cs,
      c1Build = some (a, root, tA, tB, tC) ∧
      (a.get tA).map Node.parent = some (some root) ∧
      arenaRemove a tA = some (a', cs) ∧
      (a'.get tB).map Node.parent = some none ∧
      (a'.get tB).map Node.parent ≠ some (some root) := by
  refine ⟨_, 1, 2, 3, 4, _, _, rfl, rfl, rfl, rfl, ?_⟩
  decide

/-! ## C3 counterexample: the fourth link invariant fails after `remove` -/

/-- C3 counterexample.  After the operation sequence append, append,
append, `Arena::remove` (each on valid tokens meeting the stated
preconditions), node C is occupied with `parent = None` yet
`previous_sibling = Some B`: a node with no parent retains sibling links,
so the fourth invariant of the claim fails. -/
theorem remove_breaks_parentless_no_sibling_invariant :
    ∃ a root tA tB tC a' cs,
      c1Build = some (a, root, tA, tB, tC) ∧
      arenaRemove a tA = some (a', cs) ∧
      (a'.get tC).map Node.parent = some none ∧
      (a'.get tC).map Node.previousSibling = some (some tB) ∧
      ¬ ((a'.get tC).map Node.previousSibling = some none) := by
  refine ⟨_, 1, 2, 3, 4, _, _, rfl, rfl, rfl, rfl, ?_⟩
  decide

/-! ## C7 counterexample: a parentless node with a previous sibling
accepts `insert_before` -/

/-- C7 counterexample.  `Arena::remove` leaves C with `parent = None` and
`previous_sibling = Some B`; `insert_before` on C then completes normally
and returns a fresh token, so "no parent" alone does not make
`insert_before` fail. -/
theorem insert_before_parentless_with_sibling_succeeds :
    ∃ a root tA tB tC a' cs a'' t,
      c1Build = some (a, root, tA, tB, tC) ∧
      arenaRemove a tA = some (a', cs) ∧
      (a'.get tC).map Node.parent = some none ∧
      insertBefore tC a' 99 = some (a'', t) ∧
      (a''.get t).isSome = true := by
  refine ⟨_, 1, 2, 3, 4, _, _, _, _, rfl, rfl, rfl, rfl, rfl⟩

/-! ## The free-list chain and allocator well-formedness -/

namespace Allocator

/-- The free list as a relation: `Chain data hd L` says that starting from
the head pointer `hd` and following the successor stored in each free cell
visits exactly the slots `L` and ends at `none`. -/
inductive Chain (data : List (Cell T)) : Option Nat → List Nat → Prop
  | nil : Chain data none []
  | cons {i : Nat} {nx : Option Nat} {L : List Nat} :
      data.get? (i - 1) = some (Cell.nothing nx) → Chain data nx L →
      Chain data (some i) (i :: L)

theorem Chain.deterministic_links {data : List (Cell T)} :
    ∀ {hd L₁ L₂}, Chain data hd L₁ → Chain data hd L₂ → L₁ = L₂ := by
  intro hd L₁ L₂ h₁ h₂
  induction h₁ generalizing L₂ with
  | nil => cases h₂; rfl
  | cons hg _ ih =>
    cases h₂ with
    | cons hg' hc' =>
      rw [hg] at hg'
      cases hg'
      rw [ih hc']

theorem Chain.mem_suffix_links {data : List (Cell T)} :
    ∀ {hd L i}, Chain data hd L → i ∈ L → ∃ K, Chain data (some i) (i :: K) ∧
      (i :: K).length ≤ L.length := by
  intro hd L i h hm
  induction h with
  | nil => cases hm
  | cons hg hc ih =>
    rcases List.mem_cons.mp hm with rfl | hm'
    · exact ⟨_, Chain.cons hg hc, le_refl _⟩
    · obtain ⟨K, hK, hl⟩ := ih hm'
      exact ⟨K, hK, Nat.le_succ_of_le hl⟩

theorem Chain.nodup_links {data : List (Cell T)} :
    ∀ {hd L}, Chain data hd L → L.Nodup := by
  intro hd L h
  induction h with
  | nil => exact List.nodup_nil
  | cons hg hc ih =>
    refine List.nodup_cons.mpr ⟨?_, ih⟩
    intro hmem
    obtain ⟨K, hK, hl⟩ := Chain.mem_suffix_links hc hmem
    have heq := Chain.deterministic_links hK (Chain.cons hg hc)
    rw [List.cons.injEq] at heq
    rw [heq.2] at hl
    simp at hl

/-- Elements of the free chain lie inside the storage. -/
theorem Chain.mem_bounds {data : List (Cell T)} :
    ∀ {hd L i}, Chain data hd L → i ∈ L → i - 1 < data.length := by
  intro hd L i h hm
  induction h with
  | nil => cases hm
  | cons hg _ ih =>
    rcases List.mem_cons.mp hm with rfl | hm'
    · exact (List.get?_eq_some.mp hg).1
    · exact ih hm'

/-- A slot `getCell` resolves is nonzero and in range. -/
theorem getCell_bounds {a : Allocator T} {i : Nat} {c : Cell T}
    (h : a.getCell i = some c) : 1 ≤ i ∧ i - 1 < a.data.length := by
  unfold getCell at h
  split at h
  · cases h
  · exact ⟨by omega, (List.get?_eq_some.mp h).1⟩

/-- If the data is unchanged at every slot the chain visits, the chain is
preserved. -/
theorem Chain.congr_links {data data' : List (Cell T)} :
    ∀ {hd L}, Chain data hd L →
      (∀ i ∈ L, data'.get? (i - 1) = data.get? (i - 1)) →
      Chain data' hd L := by
  intro hd L h
  induction h with
  | nil => exact fun _ => Chain.nil
  | cons hg hc ih =>
    intro hagree
    refine Chain.cons ?_ (ih fun i hi => hagree i (List.mem_cons_of_mem _ hi))
    rw [hagree _ (List.mem_cons_self _ _), hg]

/-- Well-formedness of the allocator: the free list visits exactly the free
slots, and the occupied count complements its length.  (The `1 ≤` clause
records that the storage is never empty: `Allocator::new` starts with one
cell and nothing ever shrinks it.) -/
def WF (a : Allocator T) : Prop :=
  ∃ L, Chain a.data a.head L ∧
    (∀ i, i ∈ L ↔ ∃ nx, a.getCell i = some (Cell.nothing nx)) ∧
    a.len + L.length = a.data.length ∧
    1 ≤ a.data.length

theorem wf_new : WF (Allocator.new T) := by
  refine ⟨[1], ?_, ?_, by simp [new], by simp [new]⟩
  · exact Chain.cons (by simp [new]) Chain.nil
  · intro i
    constructor
    · rintro h
      simp at h
      subst h
      exact ⟨none, by simp [new, getCell]⟩
    · rintro ⟨nx, h⟩
      have hb := getCell_bounds h
      simp [new] at hb
      simp
      omega

end Allocator

namespace Allocator

/-- An occupied slot is never on a well-formed free chain, so the occupied
count is positive. -/
theorem WF.len_pos_of_occupied {a : Allocator T} {t : Nat} {v : T}
    (hwf : WF a) (ht : a.getCell t = some (Cell.just v)) : 1 ≤ a.len := by
  obtain ⟨L, hchain, hcov, hlen, _⟩ := hwf
  have htb := getCell_bounds ht
  have htL : t ∉ L := by
    intro hmem
    obtain ⟨nx, hnx⟩ := (hcov t).mp hmem
    rw [ht] at hnx
    cases hnx
  have hsub : L.toFinset ⊆ (Finset.Icc 1 a.data.length).erase t := by
    intro i hi
    have hiL := List.mem_toFinset.mp hi
    obtain ⟨nx, hnx⟩ := (hcov i).mp hiL
    have hib := getCell_bounds hnx
    refine Finset.mem_erase.mpr ⟨?_, Finset.mem_Icc.mpr ⟨hib.1, by omega⟩⟩
    rintro rfl
    exact htL hiL
  have hcard := Finset.card_le_card hsub
  rw [List.toFinset_card_of_nodup hchain.nodup_links] at hcard
  have : ((Finset.Icc 1 a.data.length).erase t).card ≤ a.data.length - 1 := by
    have h1 : t ∈ Finset.Icc 1 a.data.length := Finset.mem_Icc.mpr ⟨htb.1, by omega⟩
    rw [Finset.card_erase_of_mem h1]
    simp
  omega

/-- The effect of `Allocator::remove` on an occupied slot: the value comes
back, the slot joins the free list as its new head, the count drops by one
and every other slot is untouched; well-formedness is preserved. -/
theorem remove_wf {a : Allocator T} {t : Nat} {v : T}
    (hwf : WF a) (ht : a.getCell t = some (Cell.just v)) :
    (a.remove t).2 = some v ∧
    (a.remove t).1.data = a.data.set (t - 1) (Cell.nothing a.head) ∧
    (a.remove t).1.head = some t ∧
    (a.remove t).1.len + 1 = a.len ∧
    (a.remove t).1.data.length = a.data.length ∧
    (∀ i, i ≠ t → (a.remove t).1.getCell i = a.getCell i) ∧
    WF (a.remove t).1 := by
  have hlen1 := hwf.len_pos_of_occupied ht
  obtain ⟨L, hchain, hcov, hlen, hcap⟩ := hwf
  have htb := getCell_bounds ht
  have htL : t ∉ L := by
    intro hmem
    obtain ⟨nx, hnx⟩ := (hcov t).mp hmem
    rw [ht] at hnx
    cases hnx
  have hunf : a.remove t =
      ({ data := a.data.set (t - 1) (Cell.nothing a.head),
         head := some t, len := a.len - 1 }, some v) := by
    unfold remove
    rw [ht]
  have hother : ∀ i, i ≠ t → (a.remove t).1.getCell i = a.getCell i := by
    intro i hi
    rw [hunf]
    unfold getCell
    by_cases h0 : i = 0
    · simp [h0]
    · simp only [if_neg h0]
      exact List.get?_set_ne _ _ (by omega)
  refine ⟨by rw [hunf], by rw [hunf], by rw [hunf], by rw [hunf]; simp; omega,
          by rw [hunf]; simp, hother, ?_⟩
  refine ⟨t :: L, ?_, ?_, ?_, ?_⟩
  · rw [hunf]
    refine Chain.cons ?_ (hchain.congr_links ?_)
    · simp only
      exact List.get?_set_eq_of_lt _ htb.2
    · intro i hi
      have hib := Chain.mem_bounds hchain hi
      obtain ⟨nx, hnx⟩ := (hcov i).mp hi
      have hige := getCell_bounds hnx
      have hit : i ≠ t := fun h => htL (h ▸ hi)
      exact List.get?_set_ne _ _ (by omega)
  · intro i
    rw [List.mem_cons]
    constructor
    · rintro (rfl | hi)
      · refine ⟨a.head, ?_⟩
        rw [hunf]
        unfold getCell
        simp only [if_neg (by omega : ¬ i = 0)]
        exact List.get?_set_eq_of_lt _ htb.2
      · obtain ⟨nx, hnx⟩ := (hcov i).mp hi
        refine ⟨nx, ?_⟩
        have : i ≠ t := fun h => htL (h ▸ hi)
        rw [hother i this, hnx]
    · rintro ⟨nx, hnx⟩
      by_cases hit : i = t
      · exact Or.inl hit
      · right
        rw [hother i hit] at hnx
        exact (hcov i).mpr ⟨nx, hnx⟩
  · rw [hunf]
    simp
    omega
  · rw [hunf]
    simpa using hcap

end Allocator


namespace Allocator

theorem get_eq_some_iff {a : Allocator T} {t : Nat} {v : T} :
    a.get t = some v ↔ a.getCell t = some (Cell.just v) := by
  unfold get
  cases hc : a.getCell t with
  | none => simp
  | some c => cases c <;> simp

theorem get_eq_none_of_free {a : Allocator T} {t : Nat} {nx : Option Nat}
    (h : a.getCell t = some (Cell.nothing nx)) : a.get t = none := by
  unfold get
  rw [h]

theorem get_eq_none_of_no_cell {a : Allocator T} {t : Nat}
    (h : a.getCell t = none) : a.get t = none := by
  unfold get
  rw [h]

theorem getCell_eq_none_of_oob {a : Allocator T} {t : Nat}
    (h : a.data.length < t) : a.getCell t = none := by
  unfold getCell
  split
  · rfl
  · exact List.get?_eq_none.mpr (by omega)

/-- The occupied count never exceeds the storage size on a well-formed
allocator. -/
theorem WF.len_le {a : Allocator T} (hwf : WF a) : a.len ≤ a.data.length := by
  obtain ⟨L, _, _, hlen, _⟩ := hwf
  omega

/-- Inserting into the slot a set head names: the slot is filled, the head
advances, everything else is untouched and well-formedness is preserved. -/
theorem insertHere_wf {a : Allocator T} {h : Nat} (hwf : WF a) (hh : a.head = some h) (v : T) :
    ∃ a₂, a.insertHere h v = some (a₂, h) ∧ WF a₂ ∧ a₂.len = a.len + 1 ∧
      a₂.data.length = a.data.length ∧ a₂.getCell h = some (Cell.just v) ∧
      (∀ i, i ≠ h → a₂.getCell i = a.getCell i) ∧
      (∃ nx, a.getCell h = some (Cell.nothing nx)) := by
  obtain ⟨L, hchain, hcov, hlen, hcap⟩ := hwf
  rw [hh] at hchain
  cases hchain with
  | cons hg hc =>
    rename_i nx L'
    obtain ⟨nx', hfree⟩ := (hcov h).mp (List.mem_cons_self _ _)
    have hb := getCell_bounds hfree
    have hnodupL := (Chain.cons hg hc).nodup_links
    have hother : ∀ i, i ≠ h →
        ({ data := a.data.set (h - 1) (Cell.just v), head := nx,
           len := a.len + 1 } : Allocator T).getCell i = a.getCell i := by
      intro i hi
      unfold getCell
      by_cases h0 : i = 0
      · simp [h0]
      · simp only [if_neg h0]
        exact List.get?_set_ne _ _ (by omega)
    have hself : ({ data := a.data.set (h - 1) (Cell.just v), head := nx,
                    len := a.len + 1 } : Allocator T).getCell h = some (Cell.just v) := by
      unfold getCell
      simp only [if_neg (by omega : ¬ h = 0)]
      exact List.get?_set_eq_of_lt _ hb.2
    refine ⟨_, ?_, ?_, rfl, by simp, hself, hother, ⟨nx', hfree⟩⟩
    · unfold insertHere
      rw [hg]
    · refine ⟨L', ?_, ?_, ?_, ?_⟩
      · refine hc.congr_links ?_
        intro i hi
        obtain ⟨mx, hmx⟩ := (hcov i).mp (List.mem_cons_of_mem _ hi)
        have hib := getCell_bounds hmx
        have hih : i ≠ h := by
          intro he
          subst he
          exact (List.nodup_cons.mp hnodupL).1 hi
        exact List.get?_set_ne _ _ (by omega)
      · intro i
        constructor
        · intro hi
          obtain ⟨mx, hmx⟩ := (hcov i).mp (List.mem_cons_of_mem _ hi)
          have hih : i ≠ h := by
            intro he
            subst he
            exact (List.nodup_cons.mp hnodupL).1 hi
          exact ⟨mx, by rw [hother i hih, hmx]⟩
        · rintro ⟨mx, hmx⟩
          by_cases hih : i = h
          · subst hih
            rw [hself] at hmx
            cases hmx
          · rw [hother i hih] at hmx
            have := (hcov i).mpr ⟨mx, hmx⟩
            exact (List.mem_cons.mp this).resolve_left hih
      · simp only [List.length_set, List.length_cons] at hlen ⊢
        omega
      · simpa using hcap


/-- The cells `Allocator::reserve` appends: position `j` (of `k`) chains to
its successor, the last chains to `none`. -/
theorem newCells_get {T : Type} (base k j : Nat) (hk : 1 ≤ k) (hj : j < k) :
    (((List.range (k - 1)).map fun m => (Cell.nothing (some (base + 1 + m + 1)) : Cell T))
        ++ [Cell.nothing none]).get? j
      = some (Cell.nothing (if j = k - 1 then none else some (base + j + 2))) := by
  by_cases hlast : j = k - 1
  · subst hlast
    rw [List.get?_append_right (by simp)]
    simp
  · rw [List.get?_append (by simp; omega)]
    rw [List.get?_map, List.get?_range (by omega)]
    simp only [Option.map_some', if_neg hlast]
    congr 3
    omega

/-- The appended block forms one chain from `base + 1` through `base + k`. -/
theorem chain_block {T : Type} (data : List (Cell T)) (k : Nat) (hk : 1 ≤ k) :
    Chain (data ++ (((List.range (k - 1)).map fun m =>
          (Cell.nothing (some (data.length + 1 + m + 1)) : Cell T)) ++ [Cell.nothing none]))
      (some (data.length + 1)) ((List.range k).map fun j => data.length + 1 + j) := by
  set full := data ++ (((List.range (k - 1)).map fun m =>
      (Cell.nothing (some (data.length + 1 + m + 1)) : Cell T)) ++ [Cell.nothing none]) with hfull
  have hcell : ∀ j, j < k → full.get? (data.length + j) =
      some (Cell.nothing (if j = k - 1 then none else some (data.length + j + 2))) := by
    intro j hj
    rw [hfull, List.get?_append_right (by omega)]
    have h2 : data.length + j - data.length = j := by omega
    rw [h2]
    exact newCells_get data.length k j hk hj
  suffices haux : ∀ c m, m + c = k →
      Chain full (if c = 0 then none else some (data.length + 1 + m))
        ((List.range c).map fun j => data.length + 1 + m + j) by
    have := haux k 0 (by omega)
    simp only [if_neg (by omega : ¬ k = 0)] at this
    simpa using this
  intro c
  induction c with
  | zero =>
    intro m _
    simpa using Chain.nil
  | succ c ih =>
    intro m hm
    simp only [if_neg (Nat.succ_ne_zero c)]
    have hlist2 : (List.range (c + 1)).map (fun j => data.length + 1 + m + j)
        = (data.length + 1 + m) :: ((List.range c).map fun j => data.length + 1 + (m + 1) + j) := by
      rw [List.range_succ_eq_map, List.map_cons, List.map_map]
      simp only [Nat.add_zero]
      congr 1
      apply List.map_congr_left
      intro j _
      simp only [Function.comp]
      omega
    rw [hlist2]
    refine Chain.cons ?_ (ih (m + 1) (by omega))
    have h1 : data.length + 1 + m - 1 = data.length + m := by omega
    rw [h1, hcell m (by omega)]
    by_cases hlast : m = k - 1
    · have hc0 : c = 0 := by omega
      subst hc0
      rw [if_pos hlast]
      simp
    · have hc0 : ¬ c = 0 := by omega
      rw [if_neg hlast, if_neg hc0]
      congr 3
      omega


/-- `Allocator::reserve` called with an exhausted free list (the only way
the library reaches it): the storage grows by `k` chained free cells, the
head points at the first of them, and every existing cell is untouched. -/
theorem reserve_head_none_wf {a : Allocator T} (hwf : WF a) (hh : a.head = none)
    {k : Nat} (hk : 1 ≤ k) :
    ∃ a', a.reserve k = some a' ∧ WF a' ∧
      a'.data.length = a.data.length + k ∧
      a'.head = some (a.data.length + 1) ∧
      a'.len = a.len ∧
      (∀ i c, a.getCell i = some c → a'.getCell i = some c) := by
  obtain ⟨L, hchain, hcov, hlen, hcap⟩ := hwf
  rw [hh] at hchain
  cases hchain
  have hnofree : ∀ i, ¬ ∃ nx, a.getCell i = some (Cell.nothing nx) := by
    intro i hfree
    exact absurd ((hcov i).mpr hfree) (List.not_mem_nil i)
  have hres : a.reserve k = some
      { data := a.data ++ (((List.range (k - 1)).map fun m =>
          Cell.nothing (some (a.data.length + 1 + m + 1))) ++ [Cell.nothing none]),
        head := some (a.data.length + 1), len := a.len } := by
    unfold reserve findLastAvailable
    rw [hh, if_neg (by omega : ¬ k = 0)]
    rfl
  refine ⟨_, hres, ?_, by simp; omega, rfl, rfl, ?_⟩
  · refine ⟨(List.range k).map fun j => a.data.length + 1 + j,
      chain_block a.data k hk, ?_, ?_, ?_⟩
    · intro i
      constructor
      · intro hi
        obtain ⟨j, hj, rfl⟩ := List.mem_map.mp hi
        have hjk := List.mem_range.mp hj
        refine ⟨if j = k - 1 then none else some (a.data.length + j + 2), ?_⟩
        unfold getCell
        rw [if_neg (by omega : ¬ a.data.length + 1 + j = 0)]
        have h2 : a.data.length + 1 + j - 1 = a.data.length + j := by omega
        rw [h2, List.get?_append_right (by omega)]
        have h3 : a.data.length + j - a.data.length = j := by omega
        rw [h3]
        exact newCells_get a.data.length k j hk hjk
      · rintro ⟨nx, hnx⟩
        have hb := getCell_bounds hnx
        simp only [List.length_append, List.length_map, List.length_range, List.length_cons,
          List.length_nil] at hb
        unfold getCell at hnx
        rw [if_neg (by omega : ¬ i = 0)] at hnx
        by_cases hin : i - 1 < a.data.length
        · rw [List.get?_append hin] at hnx
          exact absurd ⟨nx, by unfold getCell; rw [if_neg (by omega : ¬ i = 0)]; exact hnx⟩
            (hnofree i)
        · refine List.mem_map.mpr ⟨i - 1 - a.data.length, List.mem_range.mpr (by omega), by omega⟩
    · simp at hlen ⊢
      omega
    · simp
      omega
  · intro i c hc
    have hb := getCell_bounds hc
    unfold getCell at hc ⊢
    rw [if_neg (by omega : ¬ i = 0)] at hc ⊢
    rw [List.get?_append hb.2]
    exact hc


/-- On a well-formed allocator a set head names a free slot. -/
theorem WF.head_free {a : Allocator T} (hwf : WF a) {h : Nat} (hh : a.head = some h) :
    ∃ nx, a.getCell h = some (Cell.nothing nx) := by
  obtain ⟨L, hchain, hcov, _, _⟩ := hwf
  rw [hh] at hchain
  cases hchain with
  | cons hg hc => exact (hcov h).mp (List.mem_cons_self _ _)

/-- With an exhausted free list the occupied count equals the storage size. -/
theorem WF.full_of_head_none {a : Allocator T} (hwf : WF a) (hh : a.head = none) :
    a.len = a.data.length := by
  obtain ⟨L, hchain, _, hlen, _⟩ := hwf
  rw [hh] at hchain
  cases hchain
  simpa using hlen

/-- `Allocator::insert` on a well-formed allocator always succeeds: the
value lands in a previously free (or freshly grown) slot, the count rises
by one, occupied slots are untouched, and the storage does not grow when
there was still room. -/
theorem insert_wf {a : Allocator T} (hwf : WF a) (v : T) :
    ∃ a₂ t, a.insert v = some (a₂, t) ∧ WF a₂ ∧
      a₂.len = a.len + 1 ∧
      a.data.length ≤ a₂.data.length ∧
      (a.len < a.data.length → a₂.data.length = a.data.length) ∧
      (∀ i w, a.get i = some w → a₂.get i = some w) ∧
      a₂.get t = some v ∧ a.get t = none := by
  cases hh : a.head with
  | some h =>
    obtain ⟨a₂, hins, hwf₂, hlen₂, hcap₂, hself, hother, ⟨nx, hfree⟩⟩ := insertHere_wf hwf hh v
    refine ⟨a₂, h, ?_, hwf₂, hlen₂, by omega, fun _ => hcap₂, ?_, ?_, ?_⟩
    · unfold insert
      rw [hh]
      exact hins
    · intro i w hw
      rw [get_eq_some_iff] at hw ⊢
      have hih : i ≠ h := by
        rintro rfl
        rw [hw] at hfree
        cases hfree
      rw [hother i hih]
      exact hw
    · rw [get_eq_some_iff]
      exact hself
    · exact get_eq_none_of_free hfree
  | none =>
    have hfull := hwf.full_of_head_none hh
    have hcap1 : 1 ≤ a.data.length := by
      obtain ⟨_, _, _, _, h⟩ := hwf
      exact h
    obtain ⟨a', hresv, hwf', hcapa', hhead', hlena', hkeep'⟩ :=
      reserve_head_none_wf hwf hh hcap1
    obtain ⟨a₂, hins, hwf₂, hlen₂, hcap₂, hself, hother, ⟨nx, hfree⟩⟩ :=
      insertHere_wf hwf' hhead' v
    refine ⟨a₂, a.data.length + 1, ?_, hwf₂, by omega, by omega, ?_, ?_, ?_, ?_⟩
    · unfold insert capacity
      rw [hh, hresv]
      simp only [Option.some_bind]
      rw [hhead']
      exact hins
    · intro hlt
      omega
    · intro i w hw
      rw [get_eq_some_iff] at hw ⊢
      have hb := getCell_bounds hw
      have hih : i ≠ a.data.length + 1 := by omega
      rw [hother i hih]
      exact hkeep' i _ hw
    · rw [get_eq_some_iff]
      exact hself
    · exact get_eq_none_of_no_cell (getCell_eq_none_of_oob (by omega))

/-- `Allocator::head` on a well-formed allocator: returns an allocator
whose head names a free slot, growing only when the free list was empty. -/
theorem headTok_wf {a : Allocator T} (hwf : WF a) :
    ∃ a' t, a.headTok = some (a', t) ∧ WF a' ∧ a'.head = some t ∧
      a'.len = a.len ∧ a.data.length ≤ a'.data.length ∧
      (∀ i c, a.getCell i = some c → a'.getCell i = some c) ∧
      (∃ nx, a'.getCell t = some (Cell.nothing nx)) := by
  cases hh : a.head with
  | some h =>
    refine ⟨a, h, ?_, hwf, hh, rfl, le_refl _, fun _ _ hc => hc, hwf.head_free hh⟩
    unfold headTok
    rw [hh]
  | none =>
    have hfull := hwf.full_of_head_none hh
    have hcap1 : 1 ≤ a.data.length := by
      obtain ⟨_, _, _, _, h⟩ := hwf
      exact h
    obtain ⟨a', hresv, hwf', hcapa', hhead', hlena', hkeep'⟩ :=
      reserve_head_none_wf hwf hh (show 1 ≤ a.len by omega)
    refine ⟨a', a.data.length + 1, ?_, hwf', hhead', hlena', by omega, hkeep',
      hwf'.head_free hhead'⟩
    unfold headTok
    rw [hh, hresv]
    simp only [Option.some_bind]
    rw [hhead']


/-- Sequential insertion of a list of values (the repeated-`insert` phases
of the spec's free-list-reuse property), collecting the returned tokens. -/
def insertN (a : Allocator T) : List T → Option (Allocator T × List Nat)
  | [] => some (a, [])
  | v :: vs => (a.insert v).bind fun p => (insertN p.1 vs).map fun q => (q.1, p.2 :: q.2)

/-- Sequential removal of a list of tokens (results discarded, as the
spec's removal phase does). -/
def removeAll (a : Allocator T) (ts : List Nat) : Allocator T :=
  ts.foldl (fun b t => (b.remove t).1) a

theorem insertN_wf {vs : List T} : ∀ {a : Allocator T}, WF a →
    ∃ a' toks, insertN a vs = some (a', toks) ∧ WF a' ∧
      a'.len = a.len + vs.length ∧ a.data.length ≤ a'.data.length ∧
      (∀ i w, a.get i = some w → a'.get i = some w) ∧
      (∀ t ∈ toks, ∃ w, a'.get t = some w) := by
  induction vs with
  | nil =>
    intro a hwf
    exact ⟨a, [], rfl, hwf, by simp, le_refl _, fun _ _ h => h, by simp⟩
  | cons v vs ih =>
    intro a hwf
    obtain ⟨a₂, t, hins, hwf₂, hlen₂, hcapmono₂, _, hkeep₂, hself₂, _⟩ := insert_wf hwf v
    obtain ⟨a₃, toks, hinsN, hwf₃, hlen₃, hcap₃, hkeep₃, hocc₃⟩ := ih hwf₂
    refine ⟨a₃, t :: toks, ?_, hwf₃, by simp; omega, by omega,
      fun i w hw => hkeep₃ i w (hkeep₂ i w hw), ?_⟩
    · simp only [insertN]
      rw [hins]
      simp only [Option.some_bind]
      rw [hinsN]
      rfl
    · intro t' ht'
      rcases List.mem_cons.mp ht' with rfl | ht''
      · exact ⟨v, hkeep₃ t' v hself₂⟩
      · exact hocc₃ t' ht''

theorem insertN_no_growth {vs : List T} : ∀ {a : Allocator T}, WF a →
    a.len + vs.length ≤ a.data.length →
    ∃ a' toks, insertN a vs = some (a', toks) ∧ WF a' ∧
      a'.data.length = a.data.length ∧ a'.len = a.len + vs.length := by
  induction vs with
  | nil =>
    intro a hwf _
    exact ⟨a, [], rfl, hwf, rfl, by simp⟩
  | cons v vs ih =>
    intro a hwf hroom
    obtain ⟨a₂, t, hins, hwf₂, hlen₂, _, hng₂, _, _, _⟩ := insert_wf hwf v
    have hng := hng₂ (by simp at hroom; omega)
    obtain ⟨a₃, toks, hinsN, hwf₃, hcap₃, hlen₃⟩ := ih hwf₂ (by simp at hroom; omega)
    refine ⟨a₃, t :: toks, ?_, hwf₃, by omega, by simp; omega⟩
    simp only [insertN]
    rw [hins]
    simp only [Option.some_bind]
    rw [hinsN]
    rfl

theorem removeAll_wf {ts : List Nat} : ∀ {a : Allocator T}, WF a → ts.Nodup →
    (∀ t ∈ ts, ∃ w, a.get t = some w) →
    WF (removeAll a ts) ∧ (removeAll a ts).len + ts.length = a.len ∧
    (removeAll a ts).data.length = a.data.length := by
  induction ts with
  | nil =>
    intro a hwf _ _
    exact ⟨hwf, by simp [removeAll], rfl⟩
  | cons t ts ih =>
    intro a hwf hnd hocc
    obtain ⟨w, hw⟩ := hocc t (List.mem_cons_self _ _)
    have hcell := get_eq_some_iff.mp hw
    obtain ⟨hval, hdata, hhead, hlen, hcap, hother, hwf'⟩ := remove_wf hwf hcell
    have hstep : removeAll a (t :: ts) = removeAll (a.remove t).1 ts := rfl
    have hocc' : ∀ t' ∈ ts, ∃ w', (a.remove t).1.get t' = some w' := by
      intro t' ht'
      obtain ⟨w', hw'⟩ := hocc t' (List.mem_cons_of_mem _ ht')
      have hne : t' ≠ t := by
        rintro rfl
        exact (List.nodup_cons.mp hnd).1 ht'
      refine ⟨w', ?_⟩
      rw [get_eq_some_iff, hother t' hne, ← get_eq_some_iff]
      exact hw'
    obtain ⟨hwf₂, hlen₂, hcap₂⟩ := ih hwf' (List.nodup_cons.mp hnd).2 hocc'
    rw [hstep]
    exact ⟨hwf₂, by simp at hlen₂ ⊢; omega, by omega⟩

end Allocator

/-! ## C8: free-list reuse without growth -/

/-- C8.  From a fresh allocator, insert the values `vs` (N elements), then
remove a duplicate-free selection `ts` of the returned tokens with
`ts.length = M < N`, then insert `ws` (M more values): the final insertions
all succeed and the capacity after them equals the capacity immediately
before them (the backing storage does not grow). -/
theorem free_list_reuse_capacity {T : Type} (vs ws : List T) (ts : List Nat)
    (a₁ : Allocator T) (toks : List Nat)
    (h1 : Allocator.insertN (Allocator.new T) vs = some (a₁, toks))
    (hsub : ∀ t ∈ ts, t ∈ toks) (hnd : ts.Nodup)
    (hM : ts.length < vs.length) (hw : ws.length = ts.length) :
    ∃ a₃ toks₂, Allocator.insertN (Allocator.removeAll a₁ ts) ws = some (a₃, toks₂) ∧
      a₃.capacity = (Allocator.removeAll a₁ ts).capacity := by
  obtain ⟨a₁', toks', h1', hwf₁, hlen₁, _, _, hocc₁⟩ :=
    @Allocator.insertN_wf T vs (Allocator.new T) Allocator.wf_new
  rw [h1] at h1'
  have hpair := Option.some.inj h1'
  have ha : a₁ = a₁' := congrArg Prod.fst hpair
  have ht : toks = toks' := congrArg Prod.snd hpair
  subst ha
  subst ht
  obtain ⟨hwf₂, hlen₂, hcap₂⟩ :=
    Allocator.removeAll_wf hwf₁ hnd (fun t htm => hocc₁ t (hsub t htm))
  have hn : a₁.len = vs.length := by
    simpa [Allocator.new] using hlen₁
  have hroom : (Allocator.removeAll a₁ ts).len + ws.length ≤
      (Allocator.removeAll a₁ ts).data.length := by
    have := hwf₁.len_le
    omega
  obtain ⟨a₃, toks₂, hins, _, hcapeq, _⟩ := Allocator.insertN_no_growth hwf₂ hroom
  exact ⟨a₃, toks₂, hins, hcapeq⟩

/-- C8 witness: two inserts, one removal of an inserted token, one more
insert; the theorem applies with every hypothesis discharged by
computation. -/
theorem free_list_reuse_capacity_witness :
    ∃ a₃ toks₂,
      Allocator.insertN (Allocator.removeAll
        ({ data := [Cell.just 10, Cell.just 20], head := none, len := 2 } : Allocator Nat)
        [1]) [30] = some (a₃, toks₂) ∧
      a₃.capacity = (Allocator.removeAll
        ({ data := [Cell.just 10, Cell.just 20], head := none, len := 2 } : Allocator Nat)
        [1]).capacity :=
  free_list_reuse_capacity [10, 20] [30] [1] _ [1, 2] rfl (by decide) (by decide)
    (by decide) rfl

/-! ## C10: `Allocator::set` semantics -/

/-- C10.  On a well-formed allocator, `set(token, value)`: when the token's
slot is occupied the old value is returned, the new value lands in that
very slot, and no other slot or the head changes; when the token's slot is
free `set` returns `none` and the value lands in the free-list head slot
instead, so a free token different from the head still reads back `none`
afterwards. -/
theorem alloc_set_spec {T : Type} (a : Allocator T) (t : Nat) (v : T)
    (hwf : Allocator.WF a) :
    (∀ w, a.get t = some w →
      ∃ a', a.set t v = some (a', some w) ∧ a'.get t = some v ∧
        a'.head = a.head ∧ a'.len = a.len - 1 + 1 ∧
        (∀ i, i ≠ t → a'.getCell i = a.getCell i)) ∧
    (∀ nx, a.getCell t = some (Cell.nothing nx) →
      ∃ h a', a.head = some h ∧ a.set t v = some (a', none) ∧
        a'.get h = some v ∧ (t ≠ h → a'.get t = none)) := by
  constructor
  · intro w hw
    have hcell := Allocator.get_eq_some_iff.mp hw
    have hb := Allocator.getCell_bounds hcell
    have hrm : a.remove t =
        (({ data := a.data.set (t - 1) (Cell.nothing a.head), head := some t,
            len := a.len - 1 } : Allocator T), some w) := by
      unfold Allocator.remove
      rw [hcell]
    have hget2 : (a.data.set (t - 1) (Cell.nothing a.head)).get? (t - 1)
        = some (Cell.nothing a.head) := List.get?_set_eq_of_lt _ hb.2
    refine ⟨{ data := (a.data.set (t - 1) (Cell.nothing a.head)).set (t - 1) (Cell.just v),
              head := a.head, len := a.len - 1 + 1 }, ?_, ?_, rfl, rfl, ?_⟩
    · unfold Allocator.set
      rw [hrm]
      unfold Allocator.insert Allocator.insertHere
      simp only
      rw [hget2]
      rfl
    · rw [Allocator.get_eq_some_iff]
      unfold Allocator.getCell
      rw [if_neg (by omega : ¬ t = 0)]
      simp only [List.set_set]
      exact List.get?_set_eq_of_lt _ hb.2
    · intro i hi
      unfold Allocator.getCell
      by_cases h0 : i = 0
      · simp [h0]
      · simp only [if_neg h0, List.set_set]
        exact List.get?_set_ne _ _ (by omega)
  · intro nx hfree
    obtain ⟨L, hchain, hcov, hlen, hcap⟩ := hwf
    have htL := (hcov t).mp
    have htmem := (hcov t).mpr ⟨nx, hfree⟩
    have hhead : ∃ h, a.head = some h := by
      cases hh0 : a.head with
      | some h => exact ⟨h, rfl⟩
      | none =>
        rw [hh0] at hchain
        cases hchain
        cases htmem
    obtain ⟨h, hh⟩ := hhead
    obtain ⟨a₂, hins, hwf₂, hlen₂, hcap₂, hself, hother, _⟩ :=
      Allocator.insertHere_wf ⟨L, hchain, hcov, hlen, hcap⟩ hh v
    have hrm : a.remove t = (a, none) := by
      unfold Allocator.remove
      rw [hfree]
    refine ⟨h, a₂, hh, ?_, ?_, ?_⟩
    · unfold Allocator.set
      rw [hrm]
      simp only
      have hinsa : a.insert v = some (a₂, h) := by
        unfold Allocator.insert
        rw [hh]
        exact hins
      rw [hinsa]
      rfl
    · rw [Allocator.get_eq_some_iff]
      exact hself
    · intro hne
      have := hother t hne
      exact Allocator.get_eq_none_of_free (by rw [this]; exact hfree)

/-- C10 witness: the occupied branch of the theorem at a one-slot
allocator holding the value 10. -/
theorem alloc_set_spec_witness :
    ∃ a', ({ data := [Cell.just 10], head := none, len := 1 } : Allocator Nat).set 1 99
        = some (a', some 10) ∧ a'.get 1 = some 99 ∧
      a'.head = ({ data := [Cell.just 10], head := none, len := 1 } : Allocator Nat).head ∧
      a'.len = 1 - 1 + 1 ∧
      (∀ i, i ≠ 1 →
        a'.getCell i = ({ data := [Cell.just 10], head := none, len := 1 } :
          Allocator Nat).getCell i) :=
  by
  have hwf : Allocator.WF ({ data := [Cell.just 10], head := none, len := 1 } :
      Allocator Nat) := by
    refine ⟨[], Allocator.Chain.nil, ?_, by simp, by simp⟩
    intro i
    simp only [List.not_mem_nil, false_iff]
    rintro ⟨nx, hnx⟩
    have hb := Allocator.getCell_bounds hnx
    simp at hb
    have h1 : i = 1 := by omega
    subst h1
    simp [Allocator.getCell] at hnx
  exact (alloc_set_spec _ 1 99 hwf).1 10 rfl

/-! ## C7 amended: `insert_before` fails exactly on parentless,
previous-sibling-less nodes -/

namespace Allocator

theorem findLastAvailableAux_points_free {data : List (Cell T)} :
    ∀ {fuel idx j}, findLastAvailableAux data fuel idx = some j →
      data.get? (j - 1) = some (Cell.nothing none) := by
  intro fuel
  induction fuel with
  | zero => intro idx j h; cases h
  | succ fuel ih =>
    intro idx j h
    unfold findLastAvailableAux at h
    cases hg : data.get? (idx - 1) with
    | none => rw [hg] at h; cases h
    | some c =>
      cases c with
      | just v => rw [hg] at h; cases h
      | nothing nextHead =>
        rw [hg] at h
        cases nextHead with
        | some n => exact ih h
        | none =>
          cases h
          exact hg

/-- `reserve` never disturbs an occupied slot (it only rewrites the free
tail cell and appends): no well-formedness needed. -/
theorem reserve_preserves_just {a : Allocator T} {k : Nat} {a' : Allocator T}
    (hres : a.reserve k = some a') {i : Nat} {w : T}
    (hw : a.data.get? i = some (Cell.just w)) : a'.data.get? i = some (Cell.just w) := by
  unfold reserve at hres
  split at hres
  · cases hres
  · cases hfla : a.findLastAvailable with
    | none => rw [hfla] at hres; cases hres
    | some r =>
      rw [hfla] at hres
      simp only [Option.some_bind] at hres
      have hiin := (List.get?_eq_some.mp hw).1
      cases r with
      | none =>
        cases hres
        exact (List.get?_append hiin).trans hw
      | some n =>
        cases hres
        unfold findLastAvailable at hfla
        cases hh : a.head with
        | none => rw [hh] at hfla; cases hfla
        | some hd =>
          rw [hh] at hfla
          simp only [Option.map_eq_some'] at hfla
          obtain ⟨j, hj, hjn⟩ := hfla
          have hjeq : j = n := Option.some.inj hjn
          subst hjeq
          have hfree := findLastAvailableAux_points_free hj
          have hne : j - 1 ≠ i := by
            intro he
            rw [he, hw] at hfree
            simp at hfree
          exact (List.get?_append (by simpa using hiin)).trans
            ((List.get?_set_ne _ _ hne).trans hw)

/-- `Allocator::head` never disturbs an occupied slot. -/
theorem headTok_preserves_get {a al : Allocator T} {tok : Nat}
    (hht : a.headTok = some (al, tok)) {i : Nat} {w : T}
    (hw : a.get i = some w) : al.get i = some w := by
  unfold headTok at hht
  cases hh : a.head with
  | some h =>
    rw [hh] at hht
    cases hht
    exact hw
  | none =>
    rw [hh] at hht
    cases hres : a.reserve a.len with
    | none => rw [hres] at hht; cases hht
    | some a'' =>
      rw [hres] at hht
      simp only [Option.some_bind] at hht
      cases hh2 : a''.head with
      | none => rw [hh2] at hht; cases hht
      | some h2 =>
        rw [hh2] at hht
        cases hht
        rw [get_eq_some_iff] at hw ⊢
        unfold getCell at hw ⊢
        split at hw
        · cases hw
        · rw [if_neg (by assumption)]
          exact reserve_preserves_just hres hw

end Allocator

/-- C7 amended.  For every arena and valid token `r` whose node has no
previous sibling and no parent, `insert_before(r, data)` fails: the source
reaches the "Cannot insert as the previous sibling of the root node" abort
(and when the allocator cannot even produce a head slot, it aborts
earlier); either way no token is returned. -/
theorem insert_before_root_fails {T : Type} (a : Arena T) (r : Nat) (n : Node T) (v : T)
    (h : a.get r = some n) (hp : n.parent = none) (hps : n.previousSibling = none) :
    insertBefore r a v = none := by
  unfold insertBefore
  cases hht : a.allocator.headTok with
  | none => rfl
  | some p =>
    obtain ⟨al, tok⟩ := p
    have hget : (⟨al⟩ : Arena T).get r = some n :=
      Allocator.headTok_preserves_get hht h
    simp only [Option.some_bind]
    rw [show Arena.get (⟨al⟩ : Arena T) r = some n from hget]
    simp only [Option.some_bind]
    have hmod : (⟨al⟩ : Arena T).modifyNode r
        (fun m => { m with previousSibling := some tok }) =
        some ((⟨al⟩ : Arena T).setNodeAt r { n with previousSibling := some tok }) := by
      unfold Arena.modifyNode
      rw [hget]
    rw [hmod]
    simp only [Option.some_bind]
    rw [hps, hp]
    rfl

/-- C7 amended witness: the root of a freshly created one-node arena. -/
theorem insert_before_root_fails_witness :
    insertBefore 1
      (⟨{ data :=
            [Cell.just
              { data := 0, token := 1, parent := none, previousSibling := none,
                nextSibling := none, firstChild := none }],
          head := none, len := 1 }⟩ : Arena Nat) 5 = none :=
  insert_before_root_fails _ 1 _ 5 rfl rfl rfl

/-! ## Generic link walks and the arena structural invariant -/

/-- A link walk halts: following `g` from `i` eventually reaches `none`. -/
inductive Halts (g : Nat → Option Nat) : Nat → Prop
  | stop {i : Nat} : g i = none → Halts g i
  | step {i j : Nat} : g i = some j → Halts g j → Halts g i

/-- The full visited list of a halting link walk. -/
inductive Walk (g : Nat → Option Nat) : Nat → List Nat → Prop
  | last {i : Nat} : g i = none → Walk g i [i]
  | step {i j : Nat} {L : List Nat} : g i = some j → Walk g j L → Walk g i (i :: L)

theorem Halts.to_walk {g : Nat → Option Nat} : ∀ {i}, Halts g i → ∃ L, Walk g i L := by
  intro i h
  induction h with
  | stop hg => exact ⟨_, Walk.last hg⟩
  | step hg _ ih =>
    obtain ⟨L, hL⟩ := ih
    exact ⟨_, Walk.step hg hL⟩

theorem Walk.deterministic {g : Nat → Option Nat} :
    ∀ {i L₁ L₂}, Walk g i L₁ → Walk g i L₂ → L₁ = L₂ := by
  intro i L₁ L₂ h₁ h₂
  induction h₁ generalizing L₂ with
  | last hg => cases h₂ with
    | last _ => rfl
    | step hg' _ => rw [hg] at hg'; cases hg'
  | step hg _ ih =>
    cases h₂ with
    | last hg' => rw [hg] at hg'; cases hg'
    | step hg' hw' =>
      rw [hg] at hg'
      cases hg'
      rw [ih hw']

theorem Walk.head_mem {g : Nat → Option Nat} : ∀ {i L}, Walk g i L → i ∈ L := by
  intro i L h
  cases h with
  | last _ => exact List.mem_cons_self _ _
  | step _ _ => exact List.mem_cons_self _ _

theorem Walk.mem_suffix {g : Nat → Option Nat} :
    ∀ {i L j}, Walk g i L → j ∈ L → ∃ K, Walk g j K ∧ K.length ≤ L.length := by
  intro i L j h hm
  induction h with
  | last hg =>
    rcases List.mem_singleton.mp hm with rfl
    exact ⟨_, Walk.last hg, le_refl _⟩
  | step hg hw ih =>
    rcases List.mem_cons.mp hm with rfl | hm'
    · exact ⟨_, Walk.step hg hw, le_refl _⟩
    · obtain ⟨K, hK, hl⟩ := ih hm'
      exact ⟨K, hK, Nat.le_succ_of_le hl⟩

theorem Walk.nodup {g : Nat → Option Nat} : ∀ {i L}, Walk g i L → L.Nodup := by
  intro i L h
  induction h with
  | last _ => simp
  | step hg hw ih =>
    refine List.nodup_cons.mpr ⟨?_, ih⟩
    intro hmem
    obtain ⟨K, hK, hl⟩ := Walk.mem_suffix hw hmem
    have heq := Walk.deterministic hK (Walk.step hg hw)
    subst heq
    simp at hl

/-- A halting walk never self-loops. -/
theorem Halts.no_self_loop {g : Nat → Option Nat} : ∀ {i}, Halts g i → g i ≠ some i := by
  intro i h
  induction h with
  | stop hg => intro hc; rw [hg] at hc; cases hc
  | step hg _ ih =>
    intro hc
    rw [hg] at hc
    cases hc
    exact ih hg

/-- A halting walk admits no two-cycle. -/
theorem Halts.no_two_cycle {g : Nat → Option Nat} :
    ∀ {i}, Halts g i → ∀ {j}, g i = some j → g j = some i → False := by
  intro i h
  induction h with
  | stop hg => intro j hc _; rw [hg] at hc; cases hc
  | step hg _ ih =>
    intro j hc hc'
    rw [hg] at hc
    cases hc
    exact ih hc' hg

namespace Arena

/-- The parent-link step function on an arena. -/
def stepParent (a : Arena T) (i : Nat) : Option Nat := (a.get i).bind fun n => n.parent

/-- The previous-sibling step function on an arena. -/
def stepPrev (a : Arena T) (i : Nat) : Option Nat := (a.get i).bind fun n => n.previousSibling

/-- The next-sibling step function on an arena. -/
def stepNext (a : Arena T) (i : Nat) : Option Nat := (a.get i).bind fun n => n.nextSibling

end Arena

/-- The structural invariant of an arena (the spec's §3 link invariants,
without the root-has-no-sibling clause, which `Arena::remove`
deliberately does not maintain for the children it orphans): sibling links
are mutual inverses and stay within one parent, a first child points back
to its parent and has no previous sibling, a first-sibling's parent points
back at it, all links target occupied slots, every node records its own
token, the three link walks halt (no cycles), and the underlying
allocator's free list is intact. -/
structure Inv (a : Arena T) : Prop where
  wf_alloc : Allocator.WF a.allocator
  token_eq : ∀ i n, a.get i = some n → n.token = i
  next_prev : ∀ i n j, a.get i = some n → n.nextSibling = some j →
    ∃ m, a.get j = some m ∧ m.previousSibling = some i ∧ m.parent = n.parent
  prev_next : ∀ i n j, a.get i = some n → n.previousSibling = some j →
    ∃ m, a.get j = some m ∧ m.nextSibling = some i
  first_child : ∀ i n c, a.get i = some n → n.firstChild = some c →
    ∃ m, a.get c = some m ∧ m.parent = some i ∧ m.previousSibling = none
  parent_first : ∀ i n p, a.get i = some n → n.parent = some p →
    ∃ q, a.get p = some q ∧ (n.previousSibling = none → q.firstChild = some i)
  parent_halts : ∀ i n, a.get i = some n → Halts (Arena.stepParent a) i
  prev_halts : ∀ i n, a.get i = some n → Halts (Arena.stepPrev a) i
  next_halts : ∀ i n, a.get i = some n → Halts (Arena.stepNext a) i

namespace Arena

theorem get_eq_allocator_get (a : Arena T) (i : Nat) : a.get i = a.allocator.get i := rfl

theorem get_bounds {a : Arena T} {i : Nat} {n : Node T} (h : a.get i = some n) :
    1 ≤ i ∧ i - 1 < a.allocator.data.length :=
  Allocator.getCell_bounds (Allocator.get_eq_some_iff.mp h)

theorem get_setNodeAt_same {a : Arena T} {i : Nat} {n : Node T}
    (h : a.get i = some n) (m : Node T) : (a.setNodeAt i m).get i = some m := by
  have hb := get_bounds h
  show Allocator.get _ i = _
  rw [Allocator.get_eq_some_iff]
  unfold Allocator.getCell setNodeAt
  simp only [if_neg (by omega : ¬ i = 0)]
  exact List.get?_set_eq_of_lt _ hb.2

theorem get_setNodeAt_ne {a : Arena T} {i : Nat} {n : Node T}
    (h : a.get i = some n) (m : Node T) {j : Nat} (hne : j ≠ i) :
    (a.setNodeAt i m).get j = a.get j := by
  have hb := get_bounds h
  show Allocator.get _ j = Allocator.get _ j
  unfold Allocator.get Allocator.getCell setNodeAt
  by_cases h0 : j = 0
  · simp [h0]
  · simp only [if_neg h0]
    rw [List.get?_set_ne _ _ (by omega)]

theorem setNodeAt_capacity (a : Arena T) (i : Nat) (m : Node T) :
    (a.setNodeAt i m).capacity = a.capacity := by
  unfold capacity setNodeAt Allocator.capacity
  simp

theorem setNodeAt_nodeCount (a : Arena T) (i : Nat) (m : Node T) :
    (a.setNodeAt i m).nodeCount = a.nodeCount := rfl

theorem setNodeAt_head (a : Arena T) (i : Nat) (m : Node T) :
    (a.setNodeAt i m).allocator.head = a.allocator.head := rfl

theorem modifyNode_eq {a : Arena T} {i : Nat} {n : Node T}
    (h : a.get i = some n) (f : Node T → Node T) :
    a.modifyNode i f = some (a.setNodeAt i (f n)) := by
  unfold modifyNode
  rw [h]

/-- Overwriting an occupied slot with another node leaves the allocator's
free list well-formed. -/
theorem wf_setNodeAt {a : Arena T} (hwf : Allocator.WF a.allocator)
    {i : Nat} {n : Node T} (h : a.get i = some n) (m : Node T) :
    Allocator.WF (a.setNodeAt i m).allocator := by
  obtain ⟨L, hchain, hcov, hlen, hcap⟩ := hwf
  have hcell := Allocator.get_eq_some_iff.mp h
  have hb := Allocator.getCell_bounds hcell
  have hiL : i ∉ L := by
    intro hmem
    obtain ⟨nx, hnx⟩ := (hcov i).mp hmem
    rw [hcell] at hnx
    cases hnx
  have hother : ∀ j, j ≠ i → (a.setNodeAt i m).allocator.getCell j = a.allocator.getCell j := by
    intro j hj
    unfold Allocator.getCell setNodeAt
    by_cases h0 : j = 0
    · simp [h0]
    · simp only [if_neg h0]
      exact List.get?_set_ne _ _ (by omega)
  have hselfcell : (a.setNodeAt i m).allocator.getCell i = some (Cell.just m) := by
    unfold Allocator.getCell setNodeAt
    simp only [if_neg (by omega : ¬ i = 0)]
    exact List.get?_set_eq_of_lt _ hb.2
  refine ⟨L, ?_, ?_, ?_, ?_⟩
  · refine hchain.congr_links ?_
    intro j hj
    obtain ⟨nx, hnx⟩ := (hcov j).mp hj
    have hjb := Allocator.getCell_bounds hnx
    have hji : j ≠ i := by
      intro he
      subst he
      rw [hcell] at hnx
      cases hnx
    show (a.allocator.data.set (i - 1) (Cell.just m)).get? (j - 1) = _
    exact List.get?_set_ne _ _ (by omega)
  · intro j
    constructor
    · intro hj
      have hji : j ≠ i := fun he => hiL (he ▸ hj)
      obtain ⟨nx, hnx⟩ := (hcov j).mp hj
      exact ⟨nx, by rw [hother j hji]; exact hnx⟩
    · rintro ⟨nx, hnx⟩
      by_cases hji : j = i
      · subst hji
        rw [hselfcell] at hnx
        cases hnx
      · rw [hother j hji] at hnx
        exact (hcov j).mpr ⟨nx, hnx⟩
  · show a.allocator.len + L.length = (a.allocator.data.set (i - 1) (Cell.just m)).length
    simpa using hlen
  · show 1 ≤ (a.allocator.data.set (i - 1) (Cell.just m)).length
    simpa using hcap

end Arena

namespace Inv

variable {T : Type} {a : Arena T}

theorem prev_ne_self (hinv : Inv a) {t : Nat} {n : Node T} (h : a.get t = some n) :
    n.previousSibling ≠ some t := by
  intro hc
  exact (hinv.prev_halts t n h).no_self_loop (by unfold Arena.stepPrev; rw [h]; simpa using hc)

theorem next_ne_self (hinv : Inv a) {t : Nat} {n : Node T} (h : a.get t = some n) :
    n.nextSibling ≠ some t := by
  intro hc
  exact (hinv.next_halts t n h).no_self_loop (by unfold Arena.stepNext; rw [h]; simpa using hc)

theorem parent_ne_self (hinv : Inv a) {t : Nat} {n : Node T} (h : a.get t = some n) :
    n.parent ≠ some t := by
  intro hc
  exact (hinv.parent_halts t n h).no_self_loop (by unfold Arena.stepParent; rw [h]; simpa using hc)

theorem prev_ne_next (hinv : Inv a) {t p q : Nat} {n : Node T} (h : a.get t = some n)
    (hp : n.previousSibling = some p) (hq : n.nextSibling = some q) : p ≠ q := by
  rintro rfl
  obtain ⟨m, hm, hmn⟩ := hinv.prev_next t n p h hp
  exact (hinv.next_halts t n h).no_two_cycle
    (by unfold Arena.stepNext; rw [h]; simpa using hq)
    (by unfold Arena.stepNext; rw [hm]; simpa using hmn)

theorem parent_ne_prev (hinv : Inv a) {t p : Nat} {n : Node T} (h : a.get t = some n)
    (hp : n.previousSibling = some p) : n.parent ≠ some p := by
  intro hc
  obtain ⟨m, hm, hmn⟩ := hinv.prev_next t n p h hp
  obtain ⟨m', hm', _, hmp⟩ := hinv.next_prev p m t hm hmn
  rw [h] at hm'
  cases hm'
  rw [hc] at hmp
  exact (hinv.parent_halts p m hm).no_self_loop
    (by unfold Arena.stepParent; rw [hm]; simpa using hmp.symm)

theorem parent_ne_next (hinv : Inv a) {t q : Nat} {n : Node T} (h : a.get t = some n)
    (hq : n.nextSibling = some q) : n.parent ≠ some q := by
  intro hc
  obtain ⟨m, hm, _, hmp⟩ := hinv.next_prev t n q h hq
  rw [hc] at hmp
  exact (hinv.parent_halts q m hm).no_self_loop
    (by unfold Arena.stepParent; rw [hm]; simpa using hmp)

end Inv

/-- Along a next-sibling walk that starts at an occupied slot every
visited slot is occupied (links always target occupied slots). -/
theorem walk_occupied {T : Type} {a : Arena T} {f : Node T → Option Nat}
    (hlink : ∀ i n j, a.get i = some n → f n = some j → (a.get j).isSome) :
    ∀ {c L}, Walk (fun i => (a.get i).bind f) c L → (a.get c).isSome →
      ∀ j ∈ L, (a.get j).isSome := by
  intro c L hw
  induction hw with
  | last hg =>
    intro hc j hj
    rcases List.mem_singleton.mp hj with rfl
    exact hc
  | step hg hw ih =>
    intro hc j hj
    rename_i i k L'
    obtain ⟨n, hn⟩ := Option.isSome_iff_exists.mp hc
    have hfk : f n = some k := by
      simp only [hn, Option.some_bind] at hg
      exact hg
    rcases List.mem_cons.mp hj with rfl | hj'
    · exact hc
    · exact ih (hlink i n k hn hfk) j hj'

/-- A token iterator reproduces the walk of its link function when every
visited slot is occupied and the fuel covers the walk. -/
theorem walk_collect {T : Type} {a : Arena T} {f : Node T → Option Nat} :
    ∀ {c L}, Walk (fun i => (a.get i).bind f) c L → (∀ j ∈ L, (a.get j).isSome) →
      ∀ fuel, L.length ≤ fuel → tokenIterCollect a f fuel (some c) = some L := by
  intro c L hw
  induction hw with
  | last hg =>
    rename_i i
    intro hocc fuel hfuel
    obtain ⟨n, hn⟩ := Option.isSome_iff_exists.mp (hocc _ (List.mem_singleton_self _))
    have hfn : f n = none := by
      simp only [hn, Option.some_bind] at hg
      exact hg
    match fuel, hfuel with
    | fuel + 1, _ =>
      unfold tokenIterCollect
      rw [hn]
      change (tokenIterCollect a f fuel (f n)).map (fun l => i :: l) = some [i]
      rw [hfn]
      cases fuel <;> rfl
  | step hg hw ih =>
    intro hocc fuel hfuel
    rename_i i k L'
    obtain ⟨n, hn⟩ := Option.isSome_iff_exists.mp (hocc _ (List.mem_cons_self _ _))
    have hfk : f n = some k := by
      simp only [hn, Option.some_bind] at hg
      exact hg
    match fuel, hfuel with
    | fuel + 1, hfuel =>
      unfold tokenIterCollect
      rw [hn]
      change (tokenIterCollect a f fuel (f n)).map (fun l => i :: l) = some (i :: L')
      rw [hfk]
      rw [ih (fun j hj => hocc j (List.mem_cons_of_mem _ hj)) fuel (by simp at hfuel; omega)]
      rfl

/-- The `@mut` iterators visit the same slots as the token iterators on an
all-occupied walk. -/
theorem walk_mutIterIdx {T : Type} {a : Arena T} {f : Node T → Option Nat} :
    ∀ {c L}, Walk (fun i => (a.get i).bind f) c L → (∀ j ∈ L, (a.get j).isSome) →
      ∀ fuel, L.length ≤ fuel → mutIterIdx a f fuel (some c) = some L := by
  intro c L hw
  induction hw with
  | last hg =>
    rename_i i
    intro hocc fuel hfuel
    obtain ⟨n, hn⟩ := Option.isSome_iff_exists.mp (hocc _ (List.mem_singleton_self _))
    have hfn : f n = none := by
      simp only [hn, Option.some_bind] at hg
      exact hg
    match fuel, hfuel with
    | fuel + 1, _ =>
      unfold mutIterIdx
      rw [hn]
      change (mutIterIdx a f fuel (f n)).map (fun l => i :: l) = some [i]
      rw [hfn]
      cases fuel <;> rfl
  | step hg hw ih =>
    intro hocc fuel hfuel
    rename_i i k L'
    obtain ⟨n, hn⟩ := Option.isSome_iff_exists.mp (hocc _ (List.mem_cons_self _ _))
    have hfk : f n = some k := by
      simp only [hn, Option.some_bind] at hg
      exact hg
    match fuel, hfuel with
    | fuel + 1, hfuel =>
      unfold mutIterIdx
      rw [hn]
      change (mutIterIdx a f fuel (f n)).map (fun l => i :: l) = some (i :: L')
      rw [hfk]
      rw [ih (fun j hj => hocc j (List.mem_cons_of_mem _ hj)) fuel (by simp at hfuel; omega)]
      rfl

/-- A duplicate-free list of occupied slots is no longer than the
capacity. -/
theorem occ_list_length_le {T : Type} {a : Arena T} {L : List Nat} (hnd : L.Nodup)
    (hocc : ∀ j ∈ L, (a.get j).isSome) : L.length ≤ a.capacity := by
  have hsub : L.toFinset ⊆ Finset.Icc 1 a.capacity := by
    intro i hi
    have hiL := List.mem_toFinset.mp hi
    obtain ⟨n, hn⟩ := Option.isSome_iff_exists.mp (hocc i hiL)
    have hb := Arena.get_bounds hn
    exact Finset.mem_Icc.mpr ⟨hb.1, by unfold Arena.capacity Allocator.capacity; omega⟩
  have := Finset.card_le_card hsub
  rw [List.toFinset_card_of_nodup hnd] at this
  simpa using this


/-- The effect of `Token::detach` on a well-formed arena: the node's three
upward/sideways links are cleared, the vacated position is bridged (old
previous sibling or parent now reaches the old next sibling, and vice
versa), and nothing else changes. -/
theorem detach_spec {T : Type} {a : Arena T} (hinv : Inv a) {t : Nat} {n : Node T}
    (hget : a.get t = some n) :
    ∃ a', detach t a = some a' ∧
      a'.capacity = a.capacity ∧
      a'.nodeCount = a.nodeCount ∧
      a'.allocator.head = a.allocator.head ∧
      Allocator.WF a'.allocator ∧
      a'.get t = some { n with parent := none, previousSibling := none, nextSibling := none } ∧
      (∀ p, n.previousSibling = some p → ∃ mp, a.get p = some mp ∧
        a'.get p = some { mp with nextSibling := n.nextSibling }) ∧
      (∀ pp, n.previousSibling = none → n.parent = some pp → ∃ mq, a.get pp = some mq ∧
        a'.get pp = some { mq with firstChild := n.nextSibling }) ∧
      (∀ q, n.nextSibling = some q → ∃ mq, a.get q = some mq ∧
        a'.get q = some { mq with previousSibling := n.previousSibling }) ∧
      (∀ i, i ≠ t → n.previousSibling ≠ some i →
        ¬(n.previousSibling = none ∧ n.parent = some i) → n.nextSibling ≠ some i →
        a'.get i = a.get i) := by
  have hg1 : ((a.setNodeAt t { n with parent := none, previousSibling := none, nextSibling := none }).get t) =
      some { n with parent := none, previousSibling := none, nextSibling := none } :=
    Arena.get_setNodeAt_same hget _
  cases hps : n.previousSibling with
  | some p =>
    have hpt : p ≠ t := by
      intro he
      exact hinv.prev_ne_self hget (he ▸ hps)
    obtain ⟨mp, hmp, hmpn⟩ := hinv.prev_next t n p hget hps
    have hp1 : (a.setNodeAt t { n with parent := none, previousSibling := none, nextSibling := none }).get p = some mp := by
      rw [Arena.get_setNodeAt_ne hget _ hpt]
      exact hmp
    cases hnn : n.nextSibling with
    | some q =>
      have hqt : q ≠ t := by
        intro he
        exact hinv.next_ne_self hget (he ▸ hnn)
      have hqp : q ≠ p := (hinv.prev_ne_next hget hps hnn).symm
      obtain ⟨mq, hmq, _, _⟩ := hinv.next_prev t n q hget hnn
      have hq2 : ((a.setNodeAt t { n with parent := none, previousSibling := none, nextSibling := none }).setNodeAt p
            { mp with nextSibling := some q }).get q = some mq := by
        rw [Arena.get_setNodeAt_ne hp1 _ hqp, Arena.get_setNodeAt_ne hget _ hqt]
        exact hmq
      have hdet : detach t a = some
          (((a.setNodeAt t { n with parent := none, previousSibling := none, nextSibling := none }).setNodeAt p
              { mp with nextSibling := some q }).setNodeAt q
                { mq with previousSibling := some p }) := by
        unfold detach
        simp only [hget, Option.some_bind, Arena.modifyNode_eq hget, hps,
          Arena.modifyNode_eq hp1, Option.some_bind, hnn, Arena.modifyNode_eq hq2]
      refine ⟨_, hdet, ?_, rfl, rfl, ?_, ?_, ?_, ?_, ?_, ?_⟩
      · simp [Arena.setNodeAt_capacity]
      · exact Arena.wf_setNodeAt (Arena.wf_setNodeAt (Arena.wf_setNodeAt hinv.wf_alloc hget _)
          hp1 _) hq2 _
      · rw [Arena.get_setNodeAt_ne hq2 _ (fun he => hqt he.symm),
          Arena.get_setNodeAt_ne hp1 _ (fun he => hpt he.symm), hg1]
      · intro p' hp'
        have hpe := Option.some.inj hp'
        subst hpe
        refine ⟨mp, hmp, ?_⟩
        rw [Arena.get_setNodeAt_ne hq2 _ (fun he => hqp he.symm)]
        exact Arena.get_setNodeAt_same hp1 _
      · intro pp hnone _
        cases hnone
      · intro q' hq'
        have hqe := Option.some.inj hq'
        subst hqe
        exact ⟨mq, hmq, Arena.get_setNodeAt_same hq2 _⟩
      · intro i hit hip _ hiq
        rw [Arena.get_setNodeAt_ne hq2 _ (fun he => hiq (by rw [he])),
          Arena.get_setNodeAt_ne hp1 _ (fun he => hip (by rw [he])),
          Arena.get_setNodeAt_ne hget _ hit]
    | none =>
      have hdet : detach t a = some
          ((a.setNodeAt t { n with parent := none, previousSibling := none, nextSibling := none }).setNodeAt p
              { mp with nextSibling := none }) := by
        unfold detach
        simp only [hget, Option.some_bind, Arena.modifyNode_eq hget, hps,
          Arena.modifyNode_eq hp1, Option.some_bind, hnn]
      refine ⟨_, hdet, ?_, rfl, rfl, ?_, ?_, ?_, ?_, ?_, ?_⟩
      · simp [Arena.setNodeAt_capacity]
      · exact Arena.wf_setNodeAt (Arena.wf_setNodeAt hinv.wf_alloc hget _) hp1 _
      · rw [Arena.get_setNodeAt_ne hp1 _ (fun he => hpt he.symm), hg1]
      · intro p' hp'
        have hpe := Option.some.inj hp'
        subst hpe
        exact ⟨mp, hmp, Arena.get_setNodeAt_same hp1 _⟩
      · intro pp hnone _
        cases hnone
      · intro q' hq'
        cases hq'
      · intro i hit hip _ _
        rw [Arena.get_setNodeAt_ne hp1 _ (fun he => hip (by rw [he])),
          Arena.get_setNodeAt_ne hget _ hit]
  | none =>
    cases hpp : n.parent with
    | some pp =>
      have hppt : pp ≠ t := by
        intro he
        exact hinv.parent_ne_self hget (he ▸ hpp)
      obtain ⟨mq, hmqa, _⟩ := hinv.parent_first t n pp hget hpp
      have hpp1 : (a.setNodeAt t { n with parent := none, previousSibling := none, nextSibling := none }).get pp = some mq := by
        rw [Arena.get_setNodeAt_ne hget _ hppt]
        exact hmqa
      cases hnn : n.nextSibling with
      | some q =>
        have hqt : q ≠ t := by
          intro he
          exact hinv.next_ne_self hget (he ▸ hnn)
        have hqpp : q ≠ pp := by
          intro he
          exact hinv.parent_ne_next hget hnn (by rw [hpp, he])
        obtain ⟨mq2, hmq2, _, _⟩ := hinv.next_prev t n q hget hnn
        have hq2 : ((a.setNodeAt t { n with parent := none, previousSibling := none, nextSibling := none }).setNodeAt pp
              { mq with firstChild := some q }).get q = some mq2 := by
          rw [Arena.get_setNodeAt_ne hpp1 _ hqpp, Arena.get_setNodeAt_ne hget _ hqt]
          exact hmq2
        have hdet : detach t a = some
            (((a.setNodeAt t { n with parent := none, previousSibling := none, nextSibling := none }).setNodeAt pp
                { mq with firstChild := some q }).setNodeAt q
                  { mq2 with previousSibling := none }) := by
          unfold detach
          simp only [hget, Option.some_bind, Arena.modifyNode_eq hget, hps, hpp,
            Arena.modifyNode_eq hpp1, Option.some_bind, hnn, Arena.modifyNode_eq hq2]
        refine ⟨_, hdet, ?_, rfl, rfl, ?_, ?_, ?_, ?_, ?_, ?_⟩
        · simp [Arena.setNodeAt_capacity]
        · exact Arena.wf_setNodeAt (Arena.wf_setNodeAt (Arena.wf_setNodeAt hinv.wf_alloc
            hget _) hpp1 _) hq2 _
        · rw [Arena.get_setNodeAt_ne hq2 _ (fun he => hqt he.symm),
            Arena.get_setNodeAt_ne hpp1 _ (fun he => hppt he.symm), hg1]
        · intro p' hp'
          cases hp'
        · intro pp' _ hpp'
          have hppe := Option.some.inj hpp'
          subst hppe
          refine ⟨mq, hmqa, ?_⟩
          rw [Arena.get_setNodeAt_ne hq2 _ (fun he => hqpp he.symm)]
          exact Arena.get_setNodeAt_same hpp1 _
        · intro q' hq'
          have hqe := Option.some.inj hq'
          subst hqe
          exact ⟨mq2, hmq2, Arena.get_setNodeAt_same hq2 _⟩
        · intro i hit _ hippc hiq
          have hipp : i ≠ pp := by
            intro he
            exact hippc ⟨rfl, by rw [he]⟩
          rw [Arena.get_setNodeAt_ne hq2 _ (fun he => hiq (by rw [he])),
            Arena.get_setNodeAt_ne hpp1 _ hipp,
            Arena.get_setNodeAt_ne hget _ hit]
      | none =>
        have hdet : detach t a = some
            ((a.setNodeAt t { n with parent := none, previousSibling := none, nextSibling := none }).setNodeAt pp
                { mq with firstChild := none }) := by
          unfold detach
          simp only [hget, Option.some_bind, Arena.modifyNode_eq hget, hps, hpp,
            Arena.modifyNode_eq hpp1, Option.some_bind, hnn]
        refine ⟨_, hdet, ?_, rfl, rfl, ?_, ?_, ?_, ?_, ?_, ?_⟩
        · simp [Arena.setNodeAt_capacity]
        · exact Arena.wf_setNodeAt (Arena.wf_setNodeAt hinv.wf_alloc hget _) hpp1 _
        · rw [Arena.get_setNodeAt_ne hpp1 _ (fun he => hppt he.symm), hg1]
        · intro p' hp'
          cases hp'
        · intro pp' _ hpp'
          have hppe := Option.some.inj hpp'
          subst hppe
          exact ⟨mq, hmqa, Arena.get_setNodeAt_same hpp1 _⟩
        · intro q' hq'
          cases hq'
        · intro i hit _ hippc _
          have hipp : i ≠ pp := by
            intro he
            exact hippc ⟨rfl, by rw [he]⟩
          rw [Arena.get_setNodeAt_ne hpp1 _ hipp,
            Arena.get_setNodeAt_ne hget _ hit]
    | none =>
      cases hnn : n.nextSibling with
      | some q =>
        have hqt : q ≠ t := by
          intro he
          exact hinv.next_ne_self hget (he ▸ hnn)
        obtain ⟨mq2, hmq2, _, _⟩ := hinv.next_prev t n q hget hnn
        have hq1 : (a.setNodeAt t { n with parent := none, previousSibling := none, nextSibling := none }).get q = some mq2 := by
          rw [Arena.get_setNodeAt_ne hget _ hqt]
          exact hmq2
        have hdet : detach t a = some
            ((a.setNodeAt t { n with parent := none, previousSibling := none, nextSibling := none }).setNodeAt q
                { mq2 with previousSibling := none }) := by
          unfold detach
          simp only [hget, Option.some_bind, Arena.modifyNode_eq hget, hps, hpp,
            Option.some_bind, hnn, Arena.modifyNode_eq hq1]
        refine ⟨_, hdet, ?_, rfl, rfl, ?_, ?_, ?_, ?_, ?_, ?_⟩
        · simp [Arena.setNodeAt_capacity]
        · exact Arena.wf_setNodeAt (Arena.wf_setNodeAt hinv.wf_alloc hget _) hq1 _
        · rw [Arena.get_setNodeAt_ne hq1 _ (fun he => hqt he.symm), hg1]
        · intro p' hp'
          cases hp'
        · intro pp' _ hpp'
          cases hpp'
        · intro q' hq'
          have hqe := Option.some.inj hq'
          subst hqe
          exact ⟨mq2, hmq2, Arena.get_setNodeAt_same hq1 _⟩
        · intro i hit _ _ hiq
          rw [Arena.get_setNodeAt_ne hq1 _ (fun he => hiq (by rw [he])),
            Arena.get_setNodeAt_ne hget _ hit]
      | none =>
        have hdet : detach t a = some
            (a.setNodeAt t { n with parent := none, previousSibling := none, nextSibling := none }) := by
          unfold detach
          simp only [hget, Option.some_bind, Arena.modifyNode_eq hget, hps, hpp,
            Option.some_bind, hnn]
        refine ⟨_, hdet, ?_, rfl, rfl, ?_, ?_, ?_, ?_, ?_, ?_⟩
        · simp [Arena.setNodeAt_capacity]
        · exact Arena.wf_setNodeAt hinv.wf_alloc hget _
        · exact hg1
        · intro p' hp'
          cases hp'
        · intro pp' _ hpp'
          cases hpp'
        · intro q' hq'
          cases hq'
        · intro i hit _ _ _
          rw [Arena.get_setNodeAt_ne hget _ hit]

/-- A walk only depends on the link function at the slots it visits. -/
theorem Walk.congr {g g' : Nat → Option Nat} :
    ∀ {i L}, Walk g i L → (∀ j ∈ L, g' j = g j) → Walk g' i L := by
  intro i L h
  induction h with
  | last hg =>
    intro hagree
    exact Walk.last ((hagree _ (List.mem_singleton_self _)).trans hg)
  | step hg hw ih =>
    intro hagree
    exact Walk.step ((hagree _ (List.mem_cons_self _ _)).trans hg)
      (ih fun j hj => hagree j (List.mem_cons_of_mem _ hj))

/-- Every node on the sibling chain below `t`'s first child is occupied and
has `t` as its parent. -/
theorem children_walk_parent {T : Type} {a : Arena T} (hinv : Inv a) {t : Nat} {n : Node T}
    (hget : a.get t = some n) {c₀ : Nat} (hfc : n.firstChild = some c₀) :
    ∀ {cs}, Walk (fun i => (a.get i).bind fun m => m.nextSibling) c₀ cs →
      ∀ c ∈ cs, ∃ m, a.get c = some m ∧ m.parent = some t := by
  obtain ⟨m₀, hm₀, hm₀p, _⟩ := hinv.first_child t n c₀ hget hfc
  suffices haux : ∀ {c cs m}, a.get c = some m → m.parent = some t →
      Walk (fun i => (a.get i).bind fun mm => mm.nextSibling) c cs →
      ∀ j ∈ cs, ∃ mj, a.get j = some mj ∧ mj.parent = some t by
    intro cs hw
    exact haux hm₀ hm₀p hw
  intro c cs m hm hmp hw
  induction hw generalizing m with
  | last hg =>
    intro j hj
    rcases List.mem_singleton.mp hj with rfl
    exact ⟨m, hm, hmp⟩
  | step hg hw ih =>
    rename_i i k L'
    intro j hj
    have hik : (a.get i).bind (fun mm => mm.nextSibling) = some k := hg
    rw [hm, Option.some_bind] at hik
    obtain ⟨mk, hmk, _, hmkp⟩ := hinv.next_prev i m k hm hik
    rcases List.mem_cons.mp hj with rfl | hj'
    · exact ⟨m, hm, hmp⟩
    · exact ih hmk (by rw [hmkp, hmp]) j hj'

/-- The effect of the `for child in children_mut` loop of `Arena::remove`:
each slot on the chain has its parent cleared, and nothing else changes. -/
theorem setParentsNoneChain_spec {T : Type} :
    ∀ (cs : List Nat) (b : Arena T) (c : Nat),
      Walk (fun i => (b.get i).bind fun m => m.nextSibling) c cs →
      (∀ j ∈ cs, (b.get j).isSome) → cs.Nodup → ∀ fuel, cs.length ≤ fuel →
      ∃ b', setParentsNoneChain b fuel (some c) = some b' ∧
        b'.capacity = b.capacity ∧ b'.nodeCount = b.nodeCount ∧
        b'.allocator.head = b.allocator.head ∧
        (Allocator.WF b.allocator → Allocator.WF b'.allocator) ∧
        ∀ i, b'.get i = if i ∈ cs then
            (b.get i).map (fun m => { m with parent := none })
          else b.get i := by
  intro cs
  induction cs with
  | nil =>
    intro b c hw
    cases hw
  | cons c₀ rest ih =>
    intro b c hw hocc hnd fuel hfuel
    obtain ⟨m, hm⟩ := Option.isSome_iff_exists.mp (hocc _ (List.mem_cons_self _ _))
    match fuel, hfuel with
    | fuel + 1, hfuel =>
      cases hw with
      | last hg =>
        have hnext : m.nextSibling = none := by
          have hg' : (b.get c₀).bind (fun mm => mm.nextSibling) = none := hg
          rw [hm, Option.some_bind] at hg'
          exact hg'
        refine ⟨b.setNodeAt c₀ { m with parent := none }, ?_, ?_, rfl, rfl, ?_, ?_⟩
        · conv_lhs => rw [setParentsNoneChain.eq_def]
          simp only [hm, hnext]
          cases fuel <;> rfl
        · simp [Arena.setNodeAt_capacity]
        · intro hwf
          exact Arena.wf_setNodeAt hwf hm _
        · intro i
          by_cases hic : i = c₀
          · subst hic
            simp only [List.mem_singleton, if_pos rfl]
            rw [Arena.get_setNodeAt_same hm _, hm]
            rfl
          · simp only [List.mem_singleton, if_neg hic]
            exact Arena.get_setNodeAt_ne hm _ hic
      | step hg hw =>
        rename_i k
        have hnext : m.nextSibling = some k := by
          have hg' : (b.get c₀).bind (fun mm => mm.nextSibling) = some k := hg
          rw [hm, Option.some_bind] at hg'
          exact hg'
        have hc₀rest : c₀ ∉ rest := (List.nodup_cons.mp hnd).1
        have hb₁get : ∀ j, j ≠ c₀ →
            (b.setNodeAt c₀ { m with parent := none }).get j = b.get j := by
          intro j hj
          exact Arena.get_setNodeAt_ne hm _ hj
        have hw' : Walk (fun i =>
            ((b.setNodeAt c₀ { m with parent := none }).get i).bind fun mm => mm.nextSibling)
            k rest := by
          refine hw.congr ?_
          intro j hj
          rw [hb₁get j (fun he => hc₀rest (he ▸ hj))]
        obtain ⟨b'', hrun, hcap'', hcnt'', hhead'', hwf'', hpt''⟩ :=
          ih (b.setNodeAt c₀ { m with parent := none }) k hw'
            (by
              intro j hj
              rw [hb₁get j (fun he => hc₀rest (he ▸ hj))]
              exact hocc j (List.mem_cons_of_mem _ hj))
            (List.nodup_cons.mp hnd).2 fuel (by simp at hfuel; omega)
        refine ⟨b'', ?_, ?_, ?_, ?_, ?_, ?_⟩
        · conv_lhs => rw [setParentsNoneChain.eq_def]
          rw [hnext] at hrun
          simp only [hm, hnext]
          exact hrun
        · rw [hcap'']
          simp [Arena.setNodeAt_capacity]
        · rw [hcnt'']
          rfl
        · rw [hhead'']
          rfl
        · intro hwf
          exact hwf'' (Arena.wf_setNodeAt hwf hm _)
        · intro i
          rw [hpt'' i]
          by_cases hic : i = c₀
          · subst hic
            rw [if_neg (fun hx => hc₀rest hx)]
            simp only [List.mem_cons, true_or, if_pos (Or.inl rfl)]
            rw [Arena.get_setNodeAt_same hm _, hm]
            rfl
          · rw [hb₁get i hic]
            by_cases hir : i ∈ rest
            · rw [if_pos hir, if_pos (List.mem_cons.mpr (Or.inr hir))]
            · rw [if_neg hir, if_neg (by
                intro hx
                rcases List.mem_cons.mp hx with he | hx'
                · exact hic he
                · exact hir hx')]

theorem setParentsNoneChain_none {T : Type} (a : Arena T) (fuel : Nat) :
    setParentsNoneChain a fuel none = some a := by
  cases fuel <;> rfl

theorem tokenIterCollect_none {T : Type} (a : Arena T) (f : Node T → Option Nat) (fuel : Nat) :
    tokenIterCollect a f fuel none = some [] := by
  cases fuel <;> rfl

/-- Under the invariant, a child of `t` is never `t` itself, `t`'s previous
sibling, `t`'s next sibling, or (when `t` is a first sibling) `t`'s
parent. -/
theorem children_not_neighbours {T : Type} {a : Arena T} (hinv : Inv a) {t : Nat} {n : Node T}
    (hget : a.get t = some n) {c : Nat} {m : Node T}
    (hm : a.get c = some m) (hmp : m.parent = some t) :
    c ≠ t ∧ n.previousSibling ≠ some c ∧
    ¬(n.previousSibling = none ∧ n.parent = some c) ∧ n.nextSibling ≠ some c := by
  refine ⟨?_, ?_, ?_, ?_⟩
  · rintro rfl
    rw [hget] at hm
    have he := Option.some.inj hm
    subst he
    exact hinv.parent_ne_self hget hmp
  · intro hp
    obtain ⟨m', hm', hm'n⟩ := hinv.prev_next t n c hget hp
    rw [hm] at hm'
    have he := Option.some.inj hm'
    subst he
    obtain ⟨n', hn', _, hn'p⟩ := hinv.next_prev c m t hm hm'n
    rw [hget] at hn'
    have he' := Option.some.inj hn'
    subst he'
    rw [hmp] at hn'p
    exact hinv.parent_ne_self hget hn'p
  · rintro ⟨-, hpp⟩
    exact (hinv.parent_halts t n hget).no_two_cycle
      (by unfold Arena.stepParent; rw [hget]; simpa using hpp)
      (by unfold Arena.stepParent; rw [hm]; simpa using hmp)
  · intro hq
    obtain ⟨m', hm', _, hpar⟩ := hinv.next_prev t n c hget hq
    rw [hm] at hm'
    have he := Option.some.inj hm'
    subst he
    rw [hpar] at hmp
    exact hinv.parent_ne_self hget hmp

/-- The effect of `Arena::remove` on a well-formed arena: the detach
bridging happens, every former child merely loses its parent link (keeping
its sibling links), the node's own slot is freed and returned to the free
list, the children come back in left-to-right order (as
`children_tokens` would list them before the call), and nothing else
changes. -/
theorem arenaRemove_spec {T : Type} {a : Arena T} (hinv : Inv a) {t : Nat} {n : Node T}
    (hget : a.get t = some n) :
    ∃ (a' : Arena T) (cs : List Nat), arenaRemove a t = some (a', cs) ∧
      childrenTokensList t a (a.capacity + 1) = some cs ∧
      a'.capacity = a.capacity ∧
      a'.nodeCount + 1 = a.nodeCount ∧
      Allocator.WF a'.allocator ∧
      a'.get t = none ∧
      (∀ c ∈ cs, ∃ m, a.get c = some m ∧ m.parent = some t ∧
        a'.get c = some { m with parent := none }) ∧
      (∀ p, n.previousSibling = some p → ∃ mp, a.get p = some mp ∧
        a'.get p = some { mp with nextSibling := n.nextSibling }) ∧
      (∀ pp, n.previousSibling = none → n.parent = some pp → ∃ mq, a.get pp = some mq ∧
        a'.get pp = some { mq with firstChild := n.nextSibling }) ∧
      (∀ q, n.nextSibling = some q → ∃ mq, a.get q = some mq ∧
        a'.get q = some { mq with previousSibling := n.previousSibling }) ∧
      (∀ i, i ≠ t → i ∉ cs → n.previousSibling ≠ some i →
        ¬(n.previousSibling = none ∧ n.parent = some i) → n.nextSibling ≠ some i →
        a'.get i = a.get i) := by
  obtain ⟨a₁, hdet, hcap₁, hcnt₁, hhead₁, hwf₁, hat₁, hprev₁, hpar₁, hnext₁, hframe₁⟩ :=
    detach_spec hinv hget
  cases hfc : n.firstChild with
  | none =>
    have hcell₂ : a₁.allocator.getCell t =
        some (Cell.just { n with parent := none, previousSibling := none, nextSibling := none }) := Allocator.get_eq_some_iff.mp hat₁
    obtain ⟨hv₃, hdata₃, hhead₃, hlen₃, hlength₃, hother₃, hwf₃⟩ :=
      Allocator.remove_wf hwf₁ hcell₂
    have hframe₃ : ∀ i, i ≠ t →
        (⟨(a₁.allocator.remove t).1⟩ : Arena T).get i = a₁.get i := by
      intro i hi
      show Allocator.get (a₁.allocator.remove t).1 i = Allocator.get a₁.allocator i
      unfold Allocator.get
      rw [hother₃ i hi]
    have hb₂ := Arena.get_bounds hat₁
    have hat₃ : (⟨(a₁.allocator.remove t).1⟩ : Arena T).get t = none := by
      have hcellfree : Allocator.getCell (a₁.allocator.remove t).1 t =
          some (Cell.nothing a₁.allocator.head) := by
        unfold Allocator.getCell
        rw [if_neg (by omega : ¬ t = 0), hdata₃]
        exact List.get?_set_eq_of_lt _ hb₂.2
      exact Allocator.get_eq_none_of_free hcellfree
    have hrem : arenaRemove a t = some (⟨(a₁.allocator.remove t).1⟩, []) := by
      unfold arenaRemove
      rw [hdet]
      simp only [Option.some_bind]
      rw [hat₁]
      simp only [Option.some_bind]
      rw [show (Node.firstChild { n with parent := none, previousSibling := none, nextSibling := none } : Option Nat) = none from hfc]
      rw [setParentsNoneChain_none]
      simp only [Option.some_bind]
      rw [hat₁]
      simp only [Option.some_bind]
      rw [show (Node.firstChild { n with parent := none, previousSibling := none, nextSibling := none } : Option Nat) = none from hfc]
      rw [tokenIterCollect_none]
      rfl
    refine ⟨⟨(a₁.allocator.remove t).1⟩, [], hrem, ?_, ?_, ?_, hwf₃, hat₃, ?_, ?_, ?_, ?_, ?_⟩
    · unfold childrenTokensList
      rw [hget]
      simp only [Option.some_bind]
      rw [hfc]
      exact tokenIterCollect_none _ _ _
    · have h1 : (⟨(a₁.allocator.remove t).1⟩ : Arena T).capacity = a₁.capacity := by
        show (a₁.allocator.remove t).1.data.length = a₁.allocator.data.length
        exact hlength₃
      rw [h1, hcap₁]
    · show (a₁.allocator.remove t).1.len + 1 = a.nodeCount
      rw [hlen₃]
      show a₁.nodeCount = a.nodeCount
      exact hcnt₁
    · intro c hc
      exact absurd hc (List.not_mem_nil c)
    · intro p hp
      obtain ⟨mp, hmpa, hmp₁⟩ := hprev₁ p hp
      have hpt : p ≠ t := by
        rintro rfl
        exact hinv.prev_ne_self hget hp
      exact ⟨mp, hmpa, by rw [hframe₃ p hpt]; exact hmp₁⟩
    · intro pp hpnone hpp
      obtain ⟨mq, hmqa, hmq₁⟩ := hpar₁ pp hpnone hpp
      have hppt : pp ≠ t := by
        rintro rfl
        exact hinv.parent_ne_self hget hpp
      exact ⟨mq, hmqa, by rw [hframe₃ pp hppt]; exact hmq₁⟩
    · intro q hq
      obtain ⟨mq, hmqa, hmq₁⟩ := hnext₁ q hq
      have hqt : q ≠ t := by
        rintro rfl
        exact hinv.next_ne_self hget hq
      exact ⟨mq, hmqa, by rw [hframe₃ q hqt]; exact hmq₁⟩
    · intro i hit _ hip hipp hiq
      rw [hframe₃ i hit]
      exact hframe₁ i hit hip hipp hiq
  | some c₀ =>
    obtain ⟨m₀, hm₀, hm₀p, hm₀prev⟩ := hinv.first_child t n c₀ hget hfc
    obtain ⟨cs, hwcs₀⟩ := (hinv.next_halts c₀ m₀ hm₀).to_walk
    have hwcs : Walk (fun i => (a.get i).bind fun m => m.nextSibling) c₀ cs :=
      hwcs₀.congr (fun j _ => rfl)
    have hchildren := children_walk_parent hinv hget hfc hwcs
    have hnds : cs.Nodup := hwcs.nodup
    have hoccs : ∀ j ∈ cs, (a.get j).isSome := by
      intro j hj
      obtain ⟨m, hm, -⟩ := hchildren j hj
      rw [hm]
      rfl
    have hlencs : cs.length ≤ a.capacity := occ_list_length_le hnds hoccs
    have hdist : ∀ c ∈ cs, c ≠ t ∧ n.previousSibling ≠ some c ∧
        ¬(n.previousSibling = none ∧ n.parent = some c) ∧ n.nextSibling ≠ some c := by
      intro c hc
      obtain ⟨m, hm, hmp⟩ := hchildren c hc
      exact children_not_neighbours hinv hget hm hmp
    have htcs : t ∉ cs := fun hmem => (hdist t hmem).1 rfl
    have hframe₁cs : ∀ c ∈ cs, a₁.get c = a.get c := by
      intro c hc
      obtain ⟨h1, h2, h3, h4⟩ := hdist c hc
      exact hframe₁ c h1 h2 h3 h4
    have hwcs₁ : Walk (fun i => (a₁.get i).bind fun m => m.nextSibling) c₀ cs := by
      refine hwcs.congr ?_
      intro j hj
      rw [hframe₁cs j hj]
    obtain ⟨a₂, hrun₂, hcap₂, hcnt₂, hhead₂, hwf₂f, hpt₂⟩ :=
      setParentsNoneChain_spec cs a₁ c₀ hwcs₁
        (by
          intro j hj
          rw [hframe₁cs j hj]
          exact hoccs j hj)
        hnds (a₁.capacity + 1) (by rw [hcap₁]; omega)
    have hwf₂ : Allocator.WF a₂.allocator := hwf₂f hwf₁
    have hat₂ : a₂.get t = some { n with parent := none, previousSibling := none, nextSibling := none } := by
      rw [hpt₂ t, if_neg htcs]
      exact hat₁
    have hcell₂ : a₂.allocator.getCell t =
        some (Cell.just { n with parent := none, previousSibling := none, nextSibling := none }) := Allocator.get_eq_some_iff.mp hat₂
    obtain ⟨hv₃, hdata₃, hhead₃, hlen₃, hlength₃, hother₃, hwf₃⟩ :=
      Allocator.remove_wf hwf₂ hcell₂
    have hframe₃ : ∀ i, i ≠ t →
        (⟨(a₂.allocator.remove t).1⟩ : Arena T).get i = a₂.get i := by
      intro i hi
      show Allocator.get (a₂.allocator.remove t).1 i = Allocator.get a₂.allocator i
      unfold Allocator.get
      rw [hother₃ i hi]
    have hb₂ := Arena.get_bounds hat₂
    have hat₃ : (⟨(a₂.allocator.remove t).1⟩ : Arena T).get t = none := by
      have hcellfree : Allocator.getCell (a₂.allocator.remove t).1 t =
          some (Cell.nothing a₂.allocator.head) := by
        unfold Allocator.getCell
        rw [if_neg (by omega : ¬ t = 0), hdata₃]
        exact List.get?_set_eq_of_lt _ hb₂.2
      exact Allocator.get_eq_none_of_free hcellfree
    have hc₃get : ∀ c ∈ cs, ∃ m, a.get c = some m ∧ m.parent = some t ∧
        (⟨(a₂.allocator.remove t).1⟩ : Arena T).get c = some { m with parent := none } := by
      intro c hc
      obtain ⟨m, hm, hmp⟩ := hchildren c hc
      refine ⟨m, hm, hmp, ?_⟩
      rw [hframe₃ c (hdist c hc).1, hpt₂ c, if_pos hc, hframe₁cs c hc, hm]
      rfl
    have hw₃ : Walk (fun i =>
        ((⟨(a₂.allocator.remove t).1⟩ : Arena T).get i).bind fun m => m.nextSibling) c₀ cs := by
      refine hwcs.congr ?_
      intro j hj
      obtain ⟨m, hm, -, hm₃⟩ := hc₃get j hj
      rw [hm₃, hm]
      rfl
    have hocc₃ : ∀ j ∈ cs, ((⟨(a₂.allocator.remove t).1⟩ : Arena T).get j).isSome := by
      intro j hj
      obtain ⟨m, -, -, hm₃⟩ := hc₃get j hj
      rw [hm₃]
      rfl
    have hcap₃ : (⟨(a₂.allocator.remove t).1⟩ : Arena T).capacity = a.capacity := by
      have h1 : (⟨(a₂.allocator.remove t).1⟩ : Arena T).capacity = a₂.capacity := by
        show (a₂.allocator.remove t).1.data.length = a₂.allocator.data.length
        exact hlength₃
      rw [h1, hcap₂, hcap₁]
    have hcollect₃ : tokenIterCollect (⟨(a₂.allocator.remove t).1⟩ : Arena T)
        (fun n => n.nextSibling)
        ((⟨(a₂.allocator.remove t).1⟩ : Arena T).capacity + 1) (some c₀) = some cs :=
      walk_collect hw₃ hocc₃ _ (by rw [hcap₃]; omega)
    have hrem : arenaRemove a t = some (⟨(a₂.allocator.remove t).1⟩, cs) := by
      unfold arenaRemove
      rw [hdet]
      simp only [Option.some_bind]
      rw [hat₁]
      simp only [Option.some_bind]
      rw [show (Node.firstChild { n with parent := none, previousSibling := none, nextSibling := none } : Option Nat) = some c₀ from hfc]
      rw [hrun₂]
      simp only [Option.some_bind]
      rw [hat₂]
      simp only [Option.some_bind]
      rw [show (Node.firstChild { n with parent := none, previousSibling := none, nextSibling := none } : Option Nat) = some c₀ from hfc]
      rw [hcollect₃]
      rfl
    refine ⟨⟨(a₂.allocator.remove t).1⟩, cs, hrem, ?_, hcap₃, ?_, hwf₃, hat₃, hc₃get,
      ?_, ?_, ?_, ?_⟩
    · unfold childrenTokensList
      rw [hget]
      simp only [Option.some_bind]
      rw [hfc]
      exact walk_collect hwcs hoccs _ (by omega)
    · show (a₂.allocator.remove t).1.len + 1 = a.nodeCount
      rw [hlen₃]
      show a₂.nodeCount = a.nodeCount
      rw [hcnt₂]
      exact hcnt₁
    · intro p hp
      obtain ⟨mp, hmpa, hmp₁⟩ := hprev₁ p hp
      have hpt : p ≠ t := by
        rintro rfl
        exact hinv.prev_ne_self hget hp
      have hpcs : p ∉ cs := fun hmem => (hdist p hmem).2.1 hp
      refine ⟨mp, hmpa, ?_⟩
      rw [hframe₃ p hpt, hpt₂ p, if_neg hpcs]
      exact hmp₁
    · intro pp hpnone hpp
      obtain ⟨mq, hmqa, hmq₁⟩ := hpar₁ pp hpnone hpp
      have hppt : pp ≠ t := by
        rintro rfl
        exact hinv.parent_ne_self hget hpp
      have hppcs : pp ∉ cs := fun hmem => (hdist pp hmem).2.2.1 ⟨hpnone, hpp⟩
      refine ⟨mq, hmqa, ?_⟩
      rw [hframe₃ pp hppt, hpt₂ pp, if_neg hppcs]
      exact hmq₁
    · intro q hq
      obtain ⟨mq, hmqa, hmq₁⟩ := hnext₁ q hq
      have hqt : q ≠ t := by
        rintro rfl
        exact hinv.next_ne_self hget hq
      have hqcs : q ∉ cs := fun hmem => (hdist q hmem).2.2.2 hq
      refine ⟨mq, hmqa, ?_⟩
      rw [hframe₃ q hqt, hpt₂ q, if_neg hqcs]
      exact hmq₁
    · intro i hit hics hip hipp hiq
      rw [hframe₃ i hit, hpt₂ i, if_neg hics]
      exact hframe₁ i hit hip hipp hiq

/-- Bounded executable check that a link walk halts within `fuel` steps. -/
def haltsB (g : Nat → Option Nat) : Nat → Nat → Bool
  | 0, _ => false
  | fuel + 1, i =>
    match g i with
    | none => true
    | some j => haltsB g fuel j

theorem haltsB_halts {g : Nat → Option Nat} (fuel : Nat) :
    ∀ {i}, haltsB g fuel i = true → Halts g i := by
  induction fuel with
  | zero =>
    intro i h
    simp [haltsB] at h
  | succ fuel ih =>
    intro i h
    unfold haltsB at h
    cases hg : g i with
    | none => exact Halts.stop hg
    | some j =>
      rw [hg] at h
      exact Halts.step hg (ih h)

/-- A three-node example arena: a root (token 1, payload 10) with two
children in order (token 2, payload 20, then token 3, payload 30). -/
def w9n1 : Node Nat := { data := 10, token := 1, parent := none, previousSibling := none, nextSibling := none, firstChild := some 2 }

def w9n2 : Node Nat := { data := 20, token := 2, parent := some 1, previousSibling := none, nextSibling := some 3, firstChild := none }

def w9n3 : Node Nat := { data := 30, token := 3, parent := some 1, previousSibling := some 2, nextSibling := none, firstChild := none }

def w9arena : Arena Nat :=
  ⟨{ data := [Cell.just w9n1, Cell.just w9n2, Cell.just w9n3], head := none, len := 3 }⟩

theorem w9arena_cases {i : Nat} {nn : Node Nat} (h : w9arena.get i = some nn) :
    (i = 1 ∧ nn = w9n1) ∨ (i = 2 ∧ nn = w9n2) ∨ (i = 3 ∧ nn = w9n3) := by
  have hb := Arena.get_bounds h
  have hlen : w9arena.allocator.data.length = 3 := rfl
  rw [hlen] at hb
  have hi : i = 1 ∨ i = 2 ∨ i = 3 := by omega
  rcases hi with rfl | rfl | rfl
  · exact Or.inl ⟨rfl, (Option.some.inj (h : some w9n1 = some nn)).symm⟩
  · exact Or.inr (Or.inl ⟨rfl, (Option.some.inj (h : some w9n2 = some nn)).symm⟩)
  · exact Or.inr (Or.inr ⟨rfl, (Option.some.inj (h : some w9n3 = some nn)).symm⟩)

theorem w9arena_inv : Inv w9arena := by
  refine ⟨?_, ?_, ?_, ?_, ?_, ?_, ?_, ?_, ?_⟩
  · refine ⟨[], Allocator.Chain.nil, ?_, rfl, by decide⟩
    intro i
    simp only [List.not_mem_nil, false_iff]
    rintro ⟨nx, hnx⟩
    have hb := Allocator.getCell_bounds hnx
    have hlen : w9arena.allocator.data.length = 3 := rfl
    rw [hlen] at hb
    have hi : i = 1 ∨ i = 2 ∨ i = 3 := by omega
    rcases hi with rfl | rfl | rfl
    · exact Cell.noConfusion (Option.some.inj (hnx : some (Cell.just w9n1) = some (Cell.nothing nx)))
    · exact Cell.noConfusion (Option.some.inj (hnx : some (Cell.just w9n2) = some (Cell.nothing nx)))
    · exact Cell.noConfusion (Option.some.inj (hnx : some (Cell.just w9n3) = some (Cell.nothing nx)))
  · intro i nn h
    rcases w9arena_cases h with ⟨rfl, rfl⟩ | ⟨rfl, rfl⟩ | ⟨rfl, rfl⟩ <;> rfl
  · intro i nn j h hj
    rcases w9arena_cases h with ⟨rfl, rfl⟩ | ⟨rfl, rfl⟩ | ⟨rfl, rfl⟩
    · exact Option.noConfusion hj
    · cases Option.some.inj (hj : some 3 = some j)
      exact ⟨w9n3, rfl, rfl, rfl⟩
    · exact Option.noConfusion hj
  · intro i nn j h hj
    rcases w9arena_cases h with ⟨rfl, rfl⟩ | ⟨rfl, rfl⟩ | ⟨rfl, rfl⟩
    · exact Option.noConfusion hj
    · exact Option.noConfusion hj
    · cases Option.some.inj (hj : some 2 = some j)
      exact ⟨w9n2, rfl, rfl⟩
  · intro i nn c h hc
    rcases w9arena_cases h with ⟨rfl, rfl⟩ | ⟨rfl, rfl⟩ | ⟨rfl, rfl⟩
    · cases Option.some.inj (hc : some 2 = some c)
      exact ⟨w9n2, rfl, rfl, rfl⟩
    · exact Option.noConfusion hc
    · exact Option.noConfusion hc
  · intro i nn p h hp
    rcases w9arena_cases h with ⟨rfl, rfl⟩ | ⟨rfl, rfl⟩ | ⟨rfl, rfl⟩
    · exact Option.noConfusion hp
    · cases Option.some.inj (hp : some 1 = some p)
      exact ⟨w9n1, rfl, fun _ => rfl⟩
    · cases Option.some.inj (hp : some 1 = some p)
      exact ⟨w9n1, rfl, fun hc => Option.noConfusion hc⟩
  · intro i nn h
    rcases w9arena_cases h with ⟨rfl, -⟩ | ⟨rfl, -⟩ | ⟨rfl, -⟩
    · exact haltsB_halts 4 rfl
    · exact haltsB_halts 4 rfl
    · exact haltsB_halts 4 rfl
  · intro i nn h
    rcases w9arena_cases h with ⟨rfl, -⟩ | ⟨rfl, -⟩ | ⟨rfl, -⟩
    · exact haltsB_halts 4 rfl
    · exact haltsB_halts 4 rfl
    · exact haltsB_halts 4 rfl
  · intro i nn h
    rcases w9arena_cases h with ⟨rfl, -⟩ | ⟨rfl, -⟩ | ⟨rfl, -⟩
    · exact haltsB_halts 4 rfl
    · exact haltsB_halts 4 rfl
    · exact haltsB_halts 4 rfl

/-- C9.  On a well-formed arena, `Arena::remove(t)` returns exactly the
tokens of `t`'s former children, in their original left-to-right order
(the `children_tokens` sequence before the call), and afterwards each of
those children keeps its entire node — payload, previous_sibling,
next_sibling, first_child — unchanged except that its parent is now
`None`: the children stay a detached sibling chain, not attached under any
node. -/
theorem remove_returns_orphaned_children_in_order {T : Type} {a : Arena T} (hinv : Inv a)
    {t : Nat} {n : Node T} (hget : a.get t = some n) :
    ∃ (a' : Arena T) (cs : List Nat), arenaRemove a t = some (a', cs) ∧
      childrenTokensList t a (a.capacity + 1) = some cs ∧
      ∀ c ∈ cs, ∃ m, a.get c = some m ∧ m.parent = some t ∧
        a'.get c = some { m with parent := none } := by
  obtain ⟨a', cs, h1, h2, -, -, -, -, h7, -, -, -, -⟩ := arenaRemove_spec hinv hget
  exact ⟨a', cs, h1, h2, h7⟩

/-- C9 witness: removing the root of the three-node example arena returns
its two children in order with their parent links cleared. -/
theorem remove_returns_orphaned_children_in_order_witness :
    ∃ (a' : Arena Nat) (cs : List Nat), arenaRemove w9arena 1 = some (a', cs) ∧
      childrenTokensList 1 w9arena (w9arena.capacity + 1) = some cs ∧
      ∀ c ∈ cs, ∃ m, w9arena.get c = some m ∧ m.parent = some 1 ∧
        a'.get c = some { m with parent := none } :=
  remove_returns_orphaned_children_in_order w9arena_inv rfl

/-- C1 corrected.  On a well-formed arena, for a valid token `t` whose node
has a parent, `Arena::remove(t)` frees only `t`'s own slot (`t` reads back
empty and the node count drops by one) and bridges `t`'s old neighbours
directly — the previous sibling, or the parent's first-child link when
there is none, now reaches `t`'s old next sibling and vice versa — but it
does not re-parent the children: each former child of `t` ends with
`parent = None` (not `t`'s former parent), its sibling links and the rest
of its node unchanged. -/
theorem remove_frees_slot_and_orphans_children {T : Type} {a : Arena T} (hinv : Inv a)
    {t pp : Nat} {n : Node T} (hget : a.get t = some n) (hpp : n.parent = some pp) :
    ∃ (a' : Arena T) (cs : List Nat), arenaRemove a t = some (a', cs) ∧
      a'.get t = none ∧
      a'.nodeCount + 1 = a.nodeCount ∧
      a'.capacity = a.capacity ∧
      (∀ p, n.previousSibling = some p → ∃ mp, a.get p = some mp ∧
        a'.get p = some { mp with nextSibling := n.nextSibling }) ∧
      (n.previousSibling = none → ∃ mq, a.get pp = some mq ∧
        a'.get pp = some { mq with firstChild := n.nextSibling }) ∧
      (∀ q, n.nextSibling = some q → ∃ mq, a.get q = some mq ∧
        a'.get q = some { mq with previousSibling := n.previousSibling }) ∧
      (∀ c ∈ cs, ∃ m, a.get c = some m ∧ m.parent = some t ∧
        a'.get c = some { m with parent := none } ∧
        ({ m with parent := none } : Node T).parent ≠ some pp) := by
  obtain ⟨a', cs, h1, -, h3, h4, -, h6, h7, h8, h9, h10, -⟩ := arenaRemove_spec hinv hget
  refine ⟨a', cs, h1, h6, h4, h3, h8, fun hpn => h9 pp hpn hpp, h10, ?_⟩
  intro c hc
  obtain ⟨m, hm, hmp, hm'⟩ := h7 c hc
  exact ⟨m, hm, hmp, hm', fun hcc => Option.noConfusion hcc⟩

/-- C1 corrected witness: removing the first child (token 2) of the
three-node example arena. -/
theorem remove_frees_slot_and_orphans_children_witness :
    ∃ (a' : Arena Nat) (cs : List Nat), arenaRemove w9arena 2 = some (a', cs) ∧
      a'.get 2 = none ∧
      a'.nodeCount + 1 = w9arena.nodeCount ∧
      a'.capacity = w9arena.capacity ∧
      (∀ p, w9n2.previousSibling = some p → ∃ mp, w9arena.get p = some mp ∧
        a'.get p = some { mp with nextSibling := w9n2.nextSibling }) ∧
      (w9n2.previousSibling = none → ∃ mq, w9arena.get 1 = some mq ∧
        a'.get 1 = some { mq with firstChild := w9n2.nextSibling }) ∧
      (∀ q, w9n2.nextSibling = some q → ∃ mq, w9arena.get q = some mq ∧
        a'.get q = some { mq with previousSibling := w9n2.previousSibling }) ∧
      (∀ c ∈ cs, ∃ m, w9arena.get c = some m ∧ m.parent = some 2 ∧
        a'.get c = some { m with parent := none } ∧
        ({ m with parent := none } : Node Nat).parent ≠ some 1) :=
  remove_frees_slot_and_orphans_children w9arena_inv rfl rfl

/-- The post-order token sequence of the forest hanging off a sibling
chain: for a chain starting at `t`, first the post-order sequence of `t`'s
own subtree (descendants first, then `t`), then the sequence of the chain
after `t`. -/
inductive PForest (a : Arena T) : Option Nat → List Nat → Prop
  | nil : PForest a none []
  | cons {t : Nat} {n : Node T} {l₁ l₂ : List Nat} :
      a.get t = some n → PForest a n.firstChild l₁ → PForest a n.nextSibling l₂ →
      PForest a (some t) (l₁ ++ t :: l₂)

theorem PForest.occupied {T : Type} {a : Arena T} :
    ∀ {o l}, PForest a o l → ∀ j ∈ l, ∃ m, a.get j = some m := by
  intro o l h
  induction h with
  | nil => intro j hj; cases hj
  | cons hx _ _ ih₁ ih₂ =>
    intro j hj
    rcases List.mem_append.mp hj with hj₁ | hj₂
    · exact ih₁ j hj₁
    · rcases List.mem_cons.mp hj₂ with rfl | hj₃
      · exact ⟨_, hx⟩
      · exact ih₂ j hj₃

/-- Under the invariant every occupied slot roots a post-order forest: the
recursion terminates because following a child link strictly lengthens the
(capacity-bounded) parent walk and following a sibling link strictly
shortens the sibling walk. -/
theorem pforest_exists {T : Type} {a : Arena T} (hinv : Inv a) :
    ∀ (N : Nat) {t : Nat} {n : Node T} (WP S : List Nat), a.get t = some n →
      Walk (Arena.stepParent a) t WP → Walk (Arena.stepNext a) t S →
      (a.capacity + 1 - WP.length) * (a.capacity + 2) + S.length ≤ N →
      ∃ l, PForest a (some t) l := by
  have hplink : ∀ i m j, a.get i = some m → m.parent = some j → (a.get j).isSome := by
    intro i m j hm hp
    obtain ⟨q, hq, -⟩ := hinv.parent_first i m j hm hp
    rw [hq]; rfl
  have hnlink : ∀ i m j, a.get i = some m → m.nextSibling = some j → (a.get j).isSome := by
    intro i m j hm hp
    obtain ⟨q, hq, -⟩ := hinv.next_prev i m j hm hp
    rw [hq]; rfl
  have hwplen : ∀ {i m W}, a.get i = some m → Walk (Arena.stepParent a) i W →
      W.length ≤ a.capacity := by
    intro i m W hm hw
    refine occ_list_length_le hw.nodup ?_
    refine walk_occupied hplink ?_ (by rw [hm]; rfl)
    exact hw.congr (fun j _ => rfl)
  have hwslen : ∀ {i m W}, a.get i = some m → Walk (Arena.stepNext a) i W →
      W.length ≤ a.capacity := by
    intro i m W hm hw
    refine occ_list_length_le hw.nodup ?_
    refine walk_occupied hnlink ?_ (by rw [hm]; rfl)
    exact hw.congr (fun j _ => rfl)
  intro N
  induction N with
  | zero =>
    intro t n WP S hget hWP hS hle
    have : S ≠ [] := by
      intro he
      rw [he] at hS
      exact absurd hS.head_mem (by simp)
    have : 1 ≤ S.length := by
      cases S with
      | nil => exact absurd rfl this
      | cons x xs => simp
    omega
  | succ N ih =>
    intro t n WP S hget hWP hS hle
    have hWPcap : WP.length ≤ a.capacity := hwplen hget hWP
    have hS1 : 1 ≤ S.length := by
      cases hS <;> simp
    -- the subtree forest below t
    have hchild : ∃ l₁, PForest a n.firstChild l₁ := by
      cases hfc : n.firstChild with
      | none => exact ⟨[], PForest.nil⟩
      | some c =>
        obtain ⟨mc, hmc, hmcp, -⟩ := hinv.first_child t n c hget hfc
        have hWc : Walk (Arena.stepParent a) c (c :: WP) := by
          refine Walk.step ?_ hWP
          show (a.get c).bind (fun m => m.parent) = some t
          rw [hmc, Option.some_bind, hmcp]
        obtain ⟨Sc, hSc⟩ := ((hinv.next_halts c mc hmc).to_walk)
        have hSccap : Sc.length ≤ a.capacity := hwslen hmc hSc
        have hm1 : (a.capacity + 1 - (c :: WP).length) * (a.capacity + 2) + (a.capacity + 2) =
            (a.capacity + 1 - WP.length) * (a.capacity + 2) := by
          have h2 : a.capacity + 1 - WP.length = (a.capacity + 1 - (c :: WP).length) + 1 := by
            simp only [List.length_cons]
            omega
          rw [h2, Nat.succ_mul]
        obtain ⟨l₁, hl₁⟩ := ih (c :: WP) Sc hmc hWc hSc (by omega)
        exact ⟨l₁, hfc ▸ hl₁⟩
    obtain ⟨l₁, hl₁⟩ := hchild
    have hsib : ∃ l₂, PForest a n.nextSibling l₂ := by
      cases hns : n.nextSibling with
      | none => exact ⟨[], PForest.nil⟩
      | some s₂ =>
        obtain ⟨m₂, hm₂, -, hm₂p⟩ := hinv.next_prev t n s₂ hget hns
        have hstep : Arena.stepNext a t = some s₂ := by
          show (a.get t).bind (fun m => m.nextSibling) = some s₂
          rw [hget, Option.some_bind, hns]
        obtain ⟨S₂, hS₂, hSeq⟩ : ∃ S₂, Walk (Arena.stepNext a) s₂ S₂ ∧ S = t :: S₂ := by
          cases hS with
          | last hg => rw [hg] at hstep; cases hstep
          | step hg hw =>
            rw [hstep] at hg
            cases hg
            exact ⟨_, hw, rfl⟩
        have hW₂ : ∃ W₂, Walk (Arena.stepParent a) s₂ W₂ ∧ W₂.length = WP.length := by
          cases hpp : n.parent with
          | none =>
            refine ⟨[s₂], Walk.last ?_, ?_⟩
            · show (a.get s₂).bind (fun m => m.parent) = none
              rw [hm₂, Option.some_bind, hm₂p, hpp]
            · cases hWP with
              | last _ => rfl
              | step hg _ =>
                exfalso
                have : (a.get t).bind (fun m => m.parent) = some _ := hg
                rw [hget, Option.some_bind, hpp] at this
                cases this
          | some p =>
            obtain ⟨WPp, hWPp, hWPeq⟩ : ∃ WPp, Walk (Arena.stepParent a) p WPp ∧ WP = t :: WPp := by
              cases hWP with
              | last hg =>
                exfalso
                have hg' : (a.get t).bind (fun m => m.parent) = none := hg
                rw [hget, Option.some_bind, hpp] at hg'
                cases hg'
              | step hg hw =>
                have hg' : (a.get t).bind (fun m => m.parent) = some _ := hg
                rw [hget, Option.some_bind, hpp] at hg'
                cases hg'
                exact ⟨_, hw, rfl⟩
            refine ⟨s₂ :: WPp, Walk.step ?_ hWPp, by rw [hWPeq]; rfl⟩
            show (a.get s₂).bind (fun m => m.parent) = some p
            rw [hm₂, Option.some_bind, hm₂p, hpp]
        obtain ⟨W₂, hW₂, hW₂len⟩ := hW₂
        obtain ⟨l₂, hl₂⟩ := ih W₂ S₂ hm₂ hW₂ hS₂ (by
          rw [hW₂len]
          have : S.length = S₂.length + 1 := by rw [hSeq]; rfl
          omega)
        exact ⟨l₂, hns ▸ hl₂⟩
    obtain ⟨l₂, hl₂⟩ := hsib
    exact ⟨l₁ ++ t :: l₂, PForest.cons hget hl₁ hl₂⟩

/-- Existence of the post-order forest below any occupied slot. -/
theorem pforest_exists_of_get {T : Type} {a : Arena T} (hinv : Inv a) {t : Nat} {n : Node T}
    (hget : a.get t = some n) : ∃ l, PForest a (some t) l := by
  obtain ⟨WP, hWP⟩ := (hinv.parent_halts t n hget).to_walk
  obtain ⟨S, hS⟩ := (hinv.next_halts t n hget).to_walk
  exact pforest_exists hinv ((a.capacity + 1 - WP.length) * (a.capacity + 2) + S.length)
    WP S hget hWP hS (le_refl _)

/-- Separation of a post-order forest: every member's parent walk passes
through a member of the chain's sibling walk and then continues with the
common parent's walk; consequently the list has no duplicates. -/
theorem pforest_mem_nodup {T : Type} {a : Arena T} (hinv : Inv a) :
    ∀ {o l}, PForest a o l →
    ∀ (po : Option Nat) (WT S : List Nat),
      (∀ x, o = some x → ∃ nx, a.get x = some nx ∧ nx.parent = po) →
      (po = none → WT = []) →
      (∀ p, po = some p → Walk (Arena.stepParent a) p WT) →
      (∀ x, o = some x → Walk (Arena.stepNext a) x S) →
      (∀ j ∈ l, ∃ Q q, Walk (Arena.stepParent a) j (Q ++ q :: WT) ∧ q ∈ S) ∧ l.Nodup := by
  intro o l h
  induction h with
  | nil =>
    intro po WT S hhook hWTn hWTs hSw
    exact ⟨fun j hj => absurd hj (List.not_mem_nil j), List.nodup_nil⟩
  | cons hx hl₁ hl₂ ih₁ ih₂ =>
    rename_i t n l₁ l₂
    intro po WT S hhook hWTn hWTs hSw
    obtain ⟨n', hn', hn'p⟩ := hhook t rfl
    rw [hx] at hn'
    have hne := Option.some.inj hn'
    subst hne
    have hpar : n.parent = po := hn'p
    have hS : Walk (Arena.stepNext a) t S := hSw t rfl
    have hwt : Walk (Arena.stepParent a) t (t :: WT) := by
      cases po with
      | none =>
        rw [hWTn rfl]
        refine Walk.last ?_
        show (a.get t).bind (fun m => m.parent) = none
        rw [hx, Option.some_bind, hpar]
      | some p =>
        refine Walk.step ?_ (hWTs p rfl)
        show (a.get t).bind (fun m => m.parent) = some p
        rw [hx, Option.some_bind, hpar]
    -- the children chain walk
    have hchild : ∃ C, (∀ x, n.firstChild = some x → Walk (Arena.stepNext a) x C) ∧
        ((∀ j ∈ l₁, ∃ Q q, Walk (Arena.stepParent a) j (Q ++ q :: (t :: WT)) ∧ q ∈ C) ∧
          l₁.Nodup) := by
      cases hfc : n.firstChild with
      | none =>
        rw [hfc] at hl₁
        cases hl₁
        exact ⟨[], fun x hx' => Option.noConfusion hx',
          fun j hj => absurd hj (List.not_mem_nil j), List.nodup_nil⟩
      | some c =>
        obtain ⟨mc, hmc, hmcp, -⟩ := hinv.first_child t n c hx hfc
        obtain ⟨C, hC⟩ := (hinv.next_halts c mc hmc).to_walk
        refine ⟨C, ?_, ?_⟩
        · intro x hx'
          cases Option.some.inj hx'
          exact hC
        · refine ih₁ (some t) (t :: WT) C ?_ (fun hc => Option.noConfusion hc)
            (fun p hp => by cases Option.some.inj hp; exact hwt) ?_
          · intro x hx'
            cases Option.some.inj (hfc.symm.trans hx')
            exact ⟨mc, hmc, hmcp⟩
          · intro x hx'
            cases Option.some.inj (hfc.symm.trans hx')
            exact hC
    obtain ⟨C, hCw, hmem₁, hnd₁⟩ := hchild
    -- the remaining chain
    have hsib : ∃ S₂, S = t :: S₂ ∧
        ((∀ j ∈ l₂, ∃ Q q, Walk (Arena.stepParent a) j (Q ++ q :: WT) ∧ q ∈ S₂) ∧
          l₂.Nodup) := by
      cases hns : n.nextSibling with
      | none =>
        rw [hns] at hl₂
        cases hl₂
        have hstep : Arena.stepNext a t = none := by
          show (a.get t).bind (fun m => m.nextSibling) = none
          rw [hx, Option.some_bind, hns]
        cases hS with
        | last _ =>
          exact ⟨[], rfl, fun j hj => absurd hj (List.not_mem_nil j), List.nodup_nil⟩
        | step hg _ => rw [hstep] at hg; cases hg
      | some s₂ =>
        obtain ⟨m₂, hm₂, -, hm₂p⟩ := hinv.next_prev t n s₂ hx hns
        have hstep : Arena.stepNext a t = some s₂ := by
          show (a.get t).bind (fun m => m.nextSibling) = some s₂
          rw [hx, Option.some_bind, hns]
        obtain ⟨S₂, hS₂, hSeq⟩ : ∃ S₂, Walk (Arena.stepNext a) s₂ S₂ ∧ S = t :: S₂ := by
          cases hS with
          | last hg => rw [hstep] at hg; cases hg
          | step hg hw =>
            rw [hstep] at hg
            cases hg
            exact ⟨_, hw, rfl⟩
        refine ⟨S₂, hSeq, ?_⟩
        refine ih₂ po WT S₂ ?_ hWTn hWTs ?_
        · intro x hx'
          cases Option.some.inj (hns.symm.trans hx')
          exact ⟨m₂, hm₂, by rw [hm₂p, hpar]⟩
        · intro x hx'
          cases Option.some.inj (hns.symm.trans hx')
          exact hS₂
    obtain ⟨S₂, hSeq, hmem₂, hnd₂⟩ := hsib
    have htS : t ∈ S := hS.head_mem
    have hSnd : S.Nodup := hS.nodup
    have htS₂ : t ∉ S₂ := by
      rw [hSeq] at hSnd
      exact (List.nodup_cons.mp hSnd).1
    constructor
    · intro j hj
      rcases List.mem_append.mp hj with hj₁ | hj₂
      · obtain ⟨Q, q, hw, hq⟩ := hmem₁ j hj₁
        refine ⟨Q ++ [q], t, ?_, htS⟩
        have : (Q ++ [q]) ++ t :: WT = Q ++ q :: (t :: WT) := by simp
        rw [this]
        exact hw
      · rcases List.mem_cons.mp hj₂ with rfl | hj₃
        · exact ⟨[], j, hwt, htS⟩
        · obtain ⟨Q, q, hw, hq⟩ := hmem₂ j hj₃
          exact ⟨Q, q, hw, by rw [hSeq]; exact List.mem_cons_of_mem _ hq⟩
    · refine List.nodup_append.mpr ⟨hnd₁, List.nodup_cons.mpr ⟨?_, hnd₂⟩, ?_⟩
      · -- t ∉ l₂
        intro htl₂
        obtain ⟨Q, q, hw, hq⟩ := hmem₂ t htl₂
        have heq := Walk.deterministic hw hwt
        have hlens := congrArg List.length heq
        simp only [List.length_append, List.length_cons] at hlens
        have hQ : Q = [] := List.length_eq_zero.mp (by omega)
        rw [hQ, List.nil_append] at heq
        have hqt : q = t := List.head_eq_of_cons_eq heq
        rw [hqt] at hq
        exact htS₂ hq
      · -- Disjoint l₁ (t :: l₂)
        intro j hj₁ hj₂
        obtain ⟨Q₁, q₁, hw₁, hq₁⟩ := hmem₁ j hj₁
        rcases List.mem_cons.mp hj₂ with rfl | hj₃
        · have heq := Walk.deterministic hw₁ hwt
          have hlens := congrArg List.length heq
          simp only [List.length_append, List.length_cons] at hlens
          omega
        · obtain ⟨Q₂, q₂, hw₂, hq₂⟩ := hmem₂ j hj₃
          have heq := Walk.deterministic hw₁ hw₂
          have heq' : ((Q₁ ++ [q₁]) ++ [t]) ++ WT = (Q₂ ++ [q₂]) ++ WT := by
            have h1 : ((Q₁ ++ [q₁]) ++ [t]) ++ WT = Q₁ ++ q₁ :: (t :: WT) := by simp
            have h2 : (Q₂ ++ [q₂]) ++ WT = Q₂ ++ q₂ :: WT := by simp
            rw [h1, h2]
            exact heq
          have h3 := (List.append_inj' heq' rfl).1
          have h4 := (List.append_inj' h3 rfl).2
          have h5 : t = q₂ := by
            have := List.head_eq_of_cons_eq h4
            exact this
          rw [← h5] at hq₂
          exact htS₂ hq₂

theorem Arena.get_congr_of_getCell {T : Type} {b c : Arena T} {j : Nat}
    (h : c.allocator.getCell j = b.allocator.getCell j) : c.get j = b.get j := by
  show Allocator.get _ j = Allocator.get _ j
  unfold Allocator.get
  rw [h]

/-- One-step unfolding of `postorderNextGo` on positive fuel. -/
theorem postorderNextGo_succ {T : Type} (b : Arena T) (r fuel tok : Nat) (br : Branch)
    (sw : Bool) :
    postorderNextGo b r (fuel + 1) tok br sw =
      match b.get tok with
      | none => none
      | some node =>
        match br with
        | Branch.none => some (none, Branch.none)
        | Branch.child =>
          match node.firstChild with
          | some token => postorderNextGo b r fuel token Branch.child false
          | none =>
            match sw with
            | false => some (some tok, Branch.sibling)
            | true =>
              if tok = r then some (some r, Branch.none)
              else postorderNextGo b r fuel tok Branch.sibling sw
        | Branch.sibling =>
          match node.nextSibling with
          | some token => postorderNextGo b r fuel token Branch.child false
          | none =>
            match node.parent with
            | none => some (none, Branch.child)
            | some parent =>
              if parent = r then some (some r, Branch.none)
              else some (some parent, Branch.sibling) := rfl

/-- The child-branch descent of `postorder_next` with `switch_branch`
off: it runs down the left spine and stops at the first element of the
forest's post-order sequence, switching to the sibling branch. -/
theorem pforest_descend {T : Type} {a b : Arena T} {r : Nat} :
    ∀ {o l}, PForest a o l →
      (∀ j ∈ l, b.get j = a.get j) →
      ∀ fuel s, o = some s → l.length < fuel →
      ∃ h rest, l = h :: rest ∧
        postorderNextGo b r fuel s Branch.child false = some (some h, Branch.sibling) := by
  intro o l hF
  induction hF with
  | nil =>
    intro hb fuel s hos
    cases hos
  | cons hx hl₁ hl₂ ih₁ ih₂ =>
    rename_i t n l₁ l₂
    intro hb fuel s hos hlen
    cases Option.some.inj hos
    have hbt : b.get t = a.get t := hb t (List.mem_append.mpr (Or.inr (List.mem_cons_self _ _)))
    match fuel, hlen with
    | fuel + 1, hlen =>
      cases hfc : n.firstChild with
      | none =>
        rw [hfc] at hl₁
        cases hl₁
        refine ⟨t, l₂, rfl, ?_⟩
        rw [postorderNextGo_succ]
        simp only [hbt, hx, hfc]
      | some c =>
        obtain ⟨h₁, rest₁, hl₁eq, heng⟩ :=
          ih₁ (fun j hj => hb j (List.mem_append.mpr (Or.inl hj))) fuel c hfc
            (by
              have := hlen
              simp only [List.length_append, List.length_cons] at this
              omega)
        refine ⟨h₁, rest₁ ++ t :: l₂, by rw [hl₁eq]; rfl, ?_⟩
        rw [postorderNextGo_succ]
        simp only [hbt, hx, hfc]
        exact heng

theorem PForest.ne_nil {T : Type} {a : Arena T} {s : Nat} {l : List Nat}
    (h : PForest a (some s) l) : l ≠ [] := by
  cases h
  simp

theorem removeDescGo_none_branch {T : Type} (r : Nat) (fuel : Nat) (b : Arena T) (tok : Nat) :
    removeDescGo r fuel b tok Branch.none = some b := by
  cases fuel <;> rfl

/-- One-step unfolding of the removal loop on positive fuel and the
sibling branch. -/
theorem removeDescGo_succ_sib {T : Type} (r fuel : Nat) (b : Arena T) (tok : Nat) :
    removeDescGo r (fuel + 1) b tok Branch.sibling =
      (postorderNext b tok r Branch.sibling).bind fun p =>
        match p with
        | (t, br) =>
          match t with
          | none => none
          | some t' => removeDescGo r fuel ⟨(b.allocator.remove tok).1⟩ t' br := rfl

/-- The freeing loop of `Token::remove_descendants`, one sibling-chain
forest at a time: entered at the first post-order element of the forest
with the sibling branch, it frees exactly the forest's slots and then
either terminates (when the chain hangs directly under the traversal
root) or continues at the chain's parent. -/
theorem removeDescGo_forest {T : Type} {a : Arena T} (hinv : Inv a) (r : Nat) :
    ∀ {o l}, PForest a o l → l.Nodup → r ∉ l →
    ∀ {s : Nat}, o = some s → ∀ {ns : Node T}, a.get s = some ns →
    ∀ {pt : Nat}, ns.parent = some pt →
    ∀ (b : Arena T), (∀ j ∈ l, b.get j = a.get j) →
      Allocator.WF b.allocator → b.capacity = a.capacity →
    ∀ h rest, l = h :: rest →
      ∃ b', Allocator.WF b'.allocator ∧
        b'.capacity = b.capacity ∧
        b'.nodeCount + l.length = b.nodeCount ∧
        (∀ j ∈ l, b'.get j = none) ∧
        (∀ j, j ∉ l → b'.allocator.getCell j = b.allocator.getCell j) ∧
        ∀ fuel,
          (pt = r → removeDescGo r (fuel + l.length) b h Branch.sibling = some b') ∧
          (pt ≠ r → removeDescGo r (fuel + l.length) b h Branch.sibling =
            removeDescGo r fuel b' pt Branch.sibling) := by
  intro o l hF
  induction hF with
  | nil =>
    intro _ _ s hos
    cases hos
  | cons hx hl₁ hl₂ ih₁ ih₂ =>
    rename_i t n l₁ l₂
    intro hnd hrl s hos ns hgets pt hpar b hb hwfb hcapb h rest hl
    cases Option.some.inj hos
    rw [hx] at hgets
    cases Option.some.inj hgets
    obtain ⟨hnd₁, hndtl₂, hdisj⟩ := List.nodup_append.mp hnd
    have htl₂ : t ∉ l₂ := (List.nodup_cons.mp hndtl₂).1
    have hnd₂ : l₂.Nodup := (List.nodup_cons.mp hndtl₂).2
    have htl₁ : t ∉ l₁ := fun ht => hdisj ht (List.mem_cons_self _ _)
    have hdisj₁₂ : ∀ j ∈ l₁, j ∉ l₂ := fun j hj hj₂ => hdisj hj (List.mem_cons_of_mem _ hj₂)
    have hr₁ : r ∉ l₁ := fun hh => hrl (List.mem_append.mpr (Or.inl hh))
    have hrt : t ≠ r := fun he =>
      hrl (List.mem_append.mpr (Or.inr (he ▸ List.mem_cons_self _ _)))
    have hr₂ : r ∉ l₂ := fun hh =>
      hrl (List.mem_append.mpr (Or.inr (List.mem_cons_of_mem _ hh)))
    have hocc₂ : ∀ j ∈ l₂, ((a.get j).isSome : Prop) := by
      intro j hj
      obtain ⟨m, hm⟩ := PForest.occupied hl₂ j hj
      rw [hm]; rfl
    have hlen₂cap : l₂.length ≤ a.capacity := occ_list_length_le hnd₂ hocc₂
    have hcont : ∀ (b₁ : Arena T), (∀ j, j = t ∨ j ∈ l₂ → b₁.get j = a.get j) →
        Allocator.WF b₁.allocator → b₁.capacity = a.capacity →
        ∃ b', Allocator.WF b'.allocator ∧
          b'.capacity = b₁.capacity ∧
          b'.nodeCount + (1 + l₂.length) = b₁.nodeCount ∧
          (∀ j, j = t ∨ j ∈ l₂ → b'.get j = none) ∧
          (∀ j, ¬(j = t ∨ j ∈ l₂) → b'.allocator.getCell j = b₁.allocator.getCell j) ∧
          ∀ fuel,
            (pt = r → removeDescGo r (fuel + (1 + l₂.length)) b₁ t Branch.sibling = some b') ∧
            (pt ≠ r → removeDescGo r (fuel + (1 + l₂.length)) b₁ t Branch.sibling =
              removeDescGo r fuel b' pt Branch.sibling) := by
      intro b₁ hb₁ hwf₁ hcap₁
      have hb₁t : b₁.get t = a.get t := hb₁ t (Or.inl rfl)
      have hcell : b₁.allocator.getCell t = some (Cell.just n) :=
        Allocator.get_eq_some_iff.mp (by show b₁.get t = some n; rw [hb₁t]; exact hx)
      obtain ⟨-, hdata₂, -, hlen₂, hlength₂, hother₂, hwf₂⟩ := Allocator.remove_wf hwf₁ hcell
      have hbnd := Allocator.getCell_bounds hcell
      have hb₂frame : ∀ j, j ≠ t →
          (⟨(b₁.allocator.remove t).1⟩ : Arena T).get j = b₁.get j :=
        fun j hj => Arena.get_congr_of_getCell (hother₂ j hj)
      have hb₂t : (⟨(b₁.allocator.remove t).1⟩ : Arena T).get t = none := by
        have hcellfree : Allocator.getCell (b₁.allocator.remove t).1 t =
            some (Cell.nothing b₁.allocator.head) := by
          unfold Allocator.getCell
          rw [if_neg (by omega : ¬ t = 0), hdata₂]
          exact List.get?_set_eq_of_lt _ hbnd.2
        exact Allocator.get_eq_none_of_free hcellfree
      have hcap₂ : (⟨(b₁.allocator.remove t).1⟩ : Arena T).capacity = b₁.capacity := by
        show (b₁.allocator.remove t).1.data.length = b₁.allocator.data.length
        exact hlength₂
      cases hnsib : n.nextSibling with
      | none =>
        rw [hnsib] at hl₂
        cases hl₂
        have hpostr : pt = r → postorderNext b₁ t r Branch.sibling =
            some (some r, Branch.none) := by
          intro hptr
          show postorderNextGo b₁ r (b₁.capacity + 2) t Branch.sibling true = _
          rw [postorderNextGo_succ]
          simp only [hb₁t, hx, hnsib, hpar]
          rw [if_pos hptr]
        have hpostn : pt ≠ r → postorderNext b₁ t r Branch.sibling =
            some (some pt, Branch.sibling) := by
          intro hptr
          show postorderNextGo b₁ r (b₁.capacity + 2) t Branch.sibling true = _
          rw [postorderNextGo_succ]
          simp only [hb₁t, hx, hnsib, hpar]
          rw [if_neg hptr]
        refine ⟨⟨(b₁.allocator.remove t).1⟩, hwf₂, hcap₂, ?_, ?_, ?_, ?_⟩
        · show (b₁.allocator.remove t).1.len + (1 + List.length []) = b₁.allocator.len
          have h1 : (b₁.allocator.remove t).1.len + 1 = b₁.allocator.len := hlen₂
          simp only [List.length_nil]
          omega
        · intro j hj
          rcases hj with rfl | hj₂
          · exact hb₂t
          · cases hj₂
        · intro j hj
          exact hother₂ j (fun he => hj (Or.inl he))
        · intro fuel
          constructor
          · intro hptr
            show removeDescGo r (fuel + 1) b₁ t Branch.sibling = _
            rw [removeDescGo_succ_sib, hpostr hptr]
            simp only [Option.some_bind]
            exact removeDescGo_none_branch r fuel _ r
          · intro hptr
            show removeDescGo r (fuel + 1) b₁ t Branch.sibling = _
            rw [removeDescGo_succ_sib, hpostn hptr]
            simp only [Option.some_bind]
      | some s₂ =>
        rw [hnsib] at hl₂
        obtain ⟨m₂, hm₂, -, hm₂p⟩ := hinv.next_prev t n s₂ hx hnsib
        have hm₂pt : m₂.parent = some pt := by rw [hm₂p, hpar]
        have hbl₂ : ∀ j ∈ l₂, b₁.get j = a.get j := fun j hj => hb₁ j (Or.inr hj)
        obtain ⟨h₂, rest₂, hl₂eq, heng⟩ :=
          pforest_descend hl₂ hbl₂ (b₁.capacity + 1) s₂ rfl (by rw [hcap₁]; omega)
        have hpost : postorderNext b₁ t r Branch.sibling = some (some h₂, Branch.sibling) := by
          show postorderNextGo b₁ r (b₁.capacity + 2) t Branch.sibling true = _
          rw [postorderNextGo_succ]
          simp only [hb₁t, hx, hnsib]
          exact heng
        obtain ⟨b₃, hwf₃, hcap₃, hcnt₃, hfree₃, hframe₃, hrun₃⟩ :=
          ih₂ hnd₂ hr₂ hnsib hm₂ hm₂pt (⟨(b₁.allocator.remove t).1⟩ : Arena T)
            (by
              intro j hj
              rw [hb₂frame j (fun he => htl₂ (he ▸ hj))]
              exact hbl₂ j hj)
            hwf₂ (hcap₂.trans hcap₁) h₂ rest₂ hl₂eq
        refine ⟨b₃, hwf₃, hcap₃.trans hcap₂, ?_, ?_, ?_, ?_⟩
        · have h1 : (b₁.allocator.remove t).1.len + 1 = b₁.allocator.len := hlen₂
          have h2 : b₃.nodeCount + l₂.length = (b₁.allocator.remove t).1.len := hcnt₃
          show b₃.nodeCount + (1 + l₂.length) = b₁.allocator.len
          omega
        · intro j hj
          rcases hj with rfl | hj₂
          · rw [Arena.get_congr_of_getCell (hframe₃ j htl₂)]
            exact hb₂t
          · exact hfree₃ j hj₂
        · intro j hj
          have hjt : j ≠ t := fun he => hj (Or.inl he)
          have hjl₂ : j ∉ l₂ := fun he => hj (Or.inr he)
          exact (hframe₃ j hjl₂).trans (hother₂ j hjt)
        · intro fuel
          have hstep : removeDescGo r ((fuel + l₂.length) + 1) b₁ t Branch.sibling =
              removeDescGo r (fuel + l₂.length) (⟨(b₁.allocator.remove t).1⟩ : Arena T)
                h₂ Branch.sibling := by
            rw [removeDescGo_succ_sib, hpost]
            simp only [Option.some_bind]
          have hfe : fuel + (1 + l₂.length) = (fuel + l₂.length) + 1 := by omega
          constructor
          · intro hptr
            rw [hfe, hstep]
            exact (hrun₃ fuel).1 hptr
          · intro hptr
            rw [hfe, hstep]
            exact (hrun₃ fuel).2 hptr
    cases hfcc : n.firstChild with
    | none =>
      rw [hfcc] at hl₁
      cases hl₁
      have hlh : t = h ∧ l₂ = rest := by
        rw [List.nil_append] at hl
        exact ⟨(List.head_eq_of_cons_eq hl), (List.tail_eq_of_cons_eq hl)⟩
      have hth : t = h := hlh.1
      have hl₂rest : l₂ = rest := hlh.2
      subst hth
      subst hl₂rest
      obtain ⟨b', hwf', hcap', hcnt', hfree', hframe', hrun'⟩ :=
        hcont b (fun j hj => hb j (by
          rcases hj with rfl | hj₂
          · exact List.mem_append.mpr (Or.inr (List.mem_cons_self _ _))
          · exact List.mem_append.mpr (Or.inr (List.mem_cons_of_mem _ hj₂))))
          hwfb hcapb
      refine ⟨b', hwf', hcap', ?_, ?_, ?_, ?_⟩
      · have : ([] ++ t :: l₂).length = 1 + l₂.length := by simp; omega
        rw [this]
        exact hcnt'
      · intro j hj
        refine hfree' j ?_
        rcases List.mem_append.mp hj with hj₁ | hj₂
        · cases hj₁
        · rcases List.mem_cons.mp hj₂ with rfl | hj₃
          · exact Or.inl rfl
          · exact Or.inr hj₃
      · intro j hj
        refine hframe' j ?_
        intro hc
        rcases hc with rfl | hc₂
        · exact hj (List.mem_append.mpr (Or.inr (List.mem_cons_self _ _)))
        · exact hj (List.mem_append.mpr (Or.inr (List.mem_cons_of_mem _ hc₂)))
      · intro fuel
        have hfe : fuel + ([] ++ t :: l₂).length = fuel + (1 + l₂.length) := by simp; omega
        constructor
        · intro hptr
          rw [hfe]
          exact (hrun' fuel).1 hptr
        · intro hptr
          rw [hfe]
          exact (hrun' fuel).2 hptr
    | some c =>
      rw [hfcc] at hl₁
      obtain ⟨mc, hmc, hmcp, -⟩ := hinv.first_child t n c hx hfcc
      cases hl₁l : l₁ with
      | nil =>
        exact absurd (hl₁l ▸ hl₁).ne_nil (by simp)
      | cons h₁ rest₁ =>
        have hheq : h₁ = h := by
          rw [hl₁l] at hl
          exact List.head_eq_of_cons_eq hl
        subst hheq
        obtain ⟨b₁, hwf₁, hcap₁b, hcnt₁, hfree₁, hframe₁, hrun₁⟩ :=
          ih₁ hnd₁ hr₁ hfcc hmc hmcp b
            (fun j hj => hb j (List.mem_append.mpr (Or.inl hj)))
            hwfb hcapb h₁ rest₁ hl₁l
        obtain ⟨b', hwf', hcap', hcnt', hfree', hframe', hrun'⟩ :=
          hcont b₁
            (by
              intro j hj
              have hjl₁ : j ∉ l₁ := by
                rcases hj with rfl | hj₂
                · exact htl₁
                · intro hc
                  exact hdisj₁₂ j hc hj₂
              rw [Arena.get_congr_of_getCell (hframe₁ j hjl₁)]
              refine hb j ?_
              rcases hj with rfl | hj₂
              · exact List.mem_append.mpr (Or.inr (List.mem_cons_self _ _))
              · exact List.mem_append.mpr (Or.inr (List.mem_cons_of_mem _ hj₂)))
            hwf₁ (hcap₁b.trans hcapb)
        rw [show (h₁ :: rest₁ : List Nat) = l₁ from hl₁l.symm]
        refine ⟨b', hwf', hcap'.trans hcap₁b, ?_, ?_, ?_, ?_⟩
        · have h1 : b₁.nodeCount + l₁.length = b.nodeCount := hcnt₁
          have h2 : b'.nodeCount + (1 + l₂.length) = b₁.nodeCount := hcnt'
          have h3 : (l₁ ++ t :: l₂).length = l₁.length + (1 + l₂.length) := by simp; omega
          rw [h3]
          omega
        · intro j hj
          rcases List.mem_append.mp hj with hj₁ | hj₂
          · have hjtl₂ : ¬(j = t ∨ j ∈ l₂) := by
              intro hc
              rcases hc with rfl | hc₂
              · exact htl₁ hj₁
              · exact hdisj₁₂ j hj₁ hc₂
            rw [Arena.get_congr_of_getCell (hframe' j hjtl₂)]
            exact hfree₁ j hj₁
          · refine hfree' j ?_
            rcases List.mem_cons.mp hj₂ with rfl | hj₃
            · exact Or.inl rfl
            · exact Or.inr hj₃
        · intro j hj
          have hjl₁ : j ∉ l₁ := fun hc => hj (List.mem_append.mpr (Or.inl hc))
          have hjtl₂ : ¬(j = t ∨ j ∈ l₂) := by
            intro hc
            rcases hc with rfl | hc₂
            · exact hj (List.mem_append.mpr (Or.inr (List.mem_cons_self _ _)))
            · exact hj (List.mem_append.mpr (Or.inr (List.mem_cons_of_mem _ hc₂)))
          exact (hframe' j hjtl₂).trans (hframe₁ j hjl₁)
        · intro fuel
          have hfe : fuel + (l₁ ++ t :: l₂).length =
              (fuel + (1 + l₂.length)) + l₁.length := by simp; omega
          have hchain : removeDescGo r ((fuel + (1 + l₂.length)) + l₁.length)
              b h₁ Branch.sibling =
              removeDescGo r (fuel + (1 + l₂.length)) b₁ t Branch.sibling :=
            (hrun₁ (fuel + (1 + l₂.length))).2 hrt
          constructor
          · intro hptr
            rw [hfe, hchain]
            exact (hrun' fuel).1 hptr
          · intro hptr
            rw [hfe, hchain]
            exact (hrun' fuel).2 hptr

/-- The effect of `Token::remove_descendants` on a well-formed arena:
exactly the proper descendants (the post-order forest below the node) are
freed, the node count drops by their number, the node keeps its payload,
parent and sibling links and only loses its `first_child`, and every other
slot is untouched. -/
theorem removeDescendants_spec {T : Type} {a : Arena T} (hinv : Inv a) {t : Nat} {n : Node T}
    (hget : a.get t = some n) :
    ∃ (a' : Arena T) (ds : List Nat), PForest a n.firstChild ds ∧
      removeDescendants t a = some a' ∧
      a'.capacity = a.capacity ∧
      a'.nodeCount + ds.length = a.nodeCount ∧
      Allocator.WF a'.allocator ∧
      a'.get t = some { n with firstChild := none } ∧
      (∀ d ∈ ds, a'.get d = none) ∧
      (∀ i, i ≠ t → i ∉ ds → a'.get i = a.get i) := by
  cases hfc : n.firstChild with
  | none =>
    have hpost : postorderNext a t t Branch.child = some (some t, Branch.none) := by
      show postorderNextGo a t (a.capacity + 2) t Branch.child true = _
      rw [postorderNextGo_succ]
      simp [hget, hfc]
    refine ⟨a.setNodeAt t { n with firstChild := none }, [], PForest.nil,
      ?_, ?_, ?_, ?_, ?_, ?_, ?_⟩
    · unfold removeDescendants
      rw [hpost]
      simp only [Option.some_bind]
      rw [removeDescGo_none_branch]
      simp only [Option.some_bind]
      exact Arena.modifyNode_eq hget _
    · exact Arena.setNodeAt_capacity a t _
    · rfl
    · exact Arena.wf_setNodeAt hinv.wf_alloc hget _
    · exact Arena.get_setNodeAt_same hget _
    · intro d hd
      cases hd
    · intro i hi _
      exact Arena.get_setNodeAt_ne hget _ hi
  | some c =>
    obtain ⟨mc, hmc, hmcp, -⟩ := hinv.first_child t n c hget hfc
    obtain ⟨l, hl⟩ := pforest_exists_of_get hinv hmc
    obtain ⟨Wt, hWt⟩ := (hinv.parent_halts t n hget).to_walk
    obtain ⟨C, hC⟩ := (hinv.next_halts c mc hmc).to_walk
    obtain ⟨hmem, hnd⟩ := pforest_mem_nodup hinv hl (some t) Wt C
      (by
        intro x hx
        cases Option.some.inj hx
        exact ⟨mc, hmc, hmcp⟩)
      (fun hc => Option.noConfusion hc)
      (by
        intro p hp
        cases Option.some.inj hp
        exact hWt)
      (by
        intro x hx
        cases Option.some.inj hx
        exact hC)
    have htl : t ∉ l := by
      intro htmem
      obtain ⟨Q, q, hw, -⟩ := hmem t htmem
      have heq := Walk.deterministic hw hWt
      have hlens := congrArg List.length heq
      simp only [List.length_append, List.length_cons] at hlens
      omega
    have hocc : ∀ j ∈ l, ((a.get j).isSome : Prop) := by
      intro j hj
      obtain ⟨m, hm⟩ := PForest.occupied hl j hj
      rw [hm]; rfl
    have hlcap : l.length ≤ a.capacity := occ_list_length_le hnd hocc
    obtain ⟨h, rest, hleq, heng⟩ :=
      pforest_descend hl (fun j hj => rfl) (a.capacity + 1) c rfl (by omega)
    have hpost : postorderNext a t t Branch.child = some (some h, Branch.sibling) := by
      show postorderNextGo a t (a.capacity + 2) t Branch.child true = _
      rw [postorderNextGo_succ]
      simp only [hget, hfc]
      exact heng
    obtain ⟨b', hwf', hcap', hcnt', hfree', hframe', hrun'⟩ :=
      removeDescGo_forest hinv t hl hnd htl rfl hmc hmcp a
        (fun j hj => rfl) hinv.wf_alloc rfl h rest hleq
    have hrunEq : removeDescGo t (a.capacity + 1) a h Branch.sibling = some b' := by
      have := (hrun' (a.capacity + 1 - l.length)).1 rfl
      rw [show (a.capacity + 1 - l.length) + l.length = a.capacity + 1 from by omega] at this
      exact this
    have hb't : b'.get t = some n := by
      rw [Arena.get_congr_of_getCell (hframe' t htl)]
      exact hget
    refine ⟨b'.setNodeAt t { n with firstChild := none }, l, hl,
      ?_, ?_, ?_, ?_, ?_, ?_, ?_⟩
    · unfold removeDescendants
      rw [hpost]
      simp only [Option.some_bind]
      rw [hrunEq]
      simp only [Option.some_bind]
      exact Arena.modifyNode_eq hb't _
    · exact (Arena.setNodeAt_capacity b' t _).trans hcap'
    · show b'.nodeCount + l.length = a.nodeCount
      exact hcnt'
    · exact Arena.wf_setNodeAt hwf' hb't _
    · exact Arena.get_setNodeAt_same hb't _
    · intro d hd
      rw [Arena.get_setNodeAt_ne hb't _ (fun he => htl (he ▸ hd))]
      exact hfree' d hd
    · intro i hit hil
      rw [Arena.get_setNodeAt_ne hb't _ hit]
      exact Arena.get_congr_of_getCell (hframe' i hil)

/-- C6.  On a well-formed arena, for every valid token `t`,
`remove_descendants(t)` succeeds; afterwards `t`'s children iterator
yields the empty sequence (its `first_child` is `None`), the node count
has dropped by exactly the number of proper descendants `t` had before
the call (the length of the post-order forest below `t`), and `t`'s slot
keeps its payload, parent and sibling links, changing only
`first_child`. -/
theorem remove_descendants_empties_children {T : Type} {a : Arena T} (hinv : Inv a)
    {t : Nat} {n : Node T} (hget : a.get t = some n) :
    ∃ (a' : Arena T) (ds : List Nat), PForest a n.firstChild ds ∧
      removeDescendants t a = some a' ∧
      childrenTokensList t a' (a'.capacity + 1) = some [] ∧
      a'.get t = some { n with firstChild := none } ∧
      a'.nodeCount + ds.length = a.nodeCount := by
  obtain ⟨a', ds, h1, h2, -, h4, -, h6, -, -⟩ := removeDescendants_spec hinv hget
  refine ⟨a', ds, h1, h2, ?_, h6, h4⟩
  unfold childrenTokensList
  rw [h6]
  simp only [Option.some_bind]
  exact tokenIterCollect_none _ _ _

/-- C6 witness: removing the descendants of the root of the three-node
example arena. -/
theorem remove_descendants_empties_children_witness :
    ∃ (a' : Arena Nat) (ds : List Nat), PForest w9arena w9n1.firstChild ds ∧
      removeDescendants 1 w9arena = some a' ∧
      childrenTokensList 1 a' (a'.capacity + 1) = some [] ∧
      a'.get 1 = some { w9n1 with firstChild := none } ∧
      a'.nodeCount + ds.length = w9arena.nodeCount :=
  remove_descendants_empties_children w9arena_inv rfl

theorem walk_halts {g : Nat → Option Nat} : ∀ {i L}, Walk g i L → Halts g i := by
  intro i L h
  induction h with
  | last hg => exact Halts.stop hg
  | step hg _ ih => exact Halts.step hg ih

/-- Transport of halting along a changed link function: every slot of the
old walk either kept its link or halts outright in the new function. -/
theorem halts_transport {g g' : Nat → Option Nat} :
    ∀ {i L}, Walk g i L → (∀ j ∈ L, g' j = g j ∨ Halts g' j) → Halts g' i := by
  intro i L h
  induction h with
  | last hg =>
    intro hagree
    rcases hagree _ (List.mem_singleton_self _) with he | hh
    · exact Halts.stop (he.trans hg)
    · exact hh
  | step hg hw ih =>
    intro hagree
    rcases hagree _ (List.mem_cons_self _ _) with he | hh
    · exact Halts.step (he.trans hg) (ih fun j hj => hagree j (List.mem_cons_of_mem _ hj))
    · exact hh

/-- A walk list is closed under following the link. -/
theorem Walk.mem_next {g : Nat → Option Nat} :
    ∀ {s L}, Walk g s L → ∀ {j k}, j ∈ L → g j = some k → k ∈ L := by
  intro s L h
  induction h with
  | last hg =>
    intro j k hj hgj
    rcases List.mem_singleton.mp hj with rfl
    rw [hg] at hgj
    cases hgj
  | step hg hw ih =>
    rename_i i m L'
    intro j k hj hgj
    rcases List.mem_cons.mp hj with rfl | hj'
    · rw [hg] at hgj
      cases hgj
      exact List.mem_cons_of_mem _ hw.head_mem
    · exact List.mem_cons_of_mem _ (ih hj' hgj)

/-- No element of a walk links back to the walk's start. -/
theorem walk_no_cycle {g : Nat → Option Nat} {i : Nat} {L : List Nat}
    (hw : Walk g i L) {j : Nat} (hj : j ∈ L) (hgj : g j = some i) : False := by
  obtain ⟨K, hK, -⟩ := hw.mem_suffix hj
  have hK' : Walk g j (j :: L) := by
    cases hK with
    | last hg => rw [hgj] at hg; cases hg
    | step hg hw' =>
      rw [hgj] at hg
      cases hg
      rename_i L''
      have : L'' = L := Walk.deterministic hw' hw
      subst this
      exact Walk.step hgj hw
  have := hK'.nodup
  exact (List.nodup_cons.mp this).1 hj

/-- Claim bullet (c) under the invariant: every node with a parent appears
in that parent's `children_tokens` sequence. -/
theorem Inv.mem_children {T : Type} {a : Arena T} (hinv : Inv a) {i : Nat} {m : Node T}
    (hm : a.get i = some m) {p : Nat} (hp : m.parent = some p) :
    ∃ cs, childrenTokensList p a (a.capacity + 1) = some cs ∧ i ∈ cs := by
  -- climb the previous-sibling chain to the first sibling
  obtain ⟨W, hW⟩ := (hinv.prev_halts i m hm).to_walk
  -- every element of the chain shares the parent, is occupied, and the
  -- last element is the parent's first child; moreover every element lies
  -- on the next-sibling walk of the last element
  suffices haux : ∀ (W : List Nat) (j : Nat), Walk (Arena.stepPrev a) j W →
      ∀ (mj : Node T), a.get j = some mj → mj.parent = some p →
      ∃ f nf, a.get f = some nf ∧ nf.parent = some p ∧ nf.previousSibling = none ∧
        ∀ L, Walk (Arena.stepNext a) f L → j ∈ L by
    obtain ⟨f, nf, hf, hfp, hfprev, hmem⟩ := haux W i hW m hm hp
    obtain ⟨q, hq, hqf⟩ := hinv.parent_first f nf p hf hfp
    have hqfc : q.firstChild = some f := hqf hfprev
    obtain ⟨L, hL⟩ := (hinv.next_halts f nf hf).to_walk
    have hocc : ∀ j ∈ L, ((a.get j).isSome : Prop) := by
      refine walk_occupied ?_ (hL.congr fun j _ => rfl)
        (by rw [hf]; rfl)
      intro i' m' j' hm' hj'
      obtain ⟨mj', hmj', -⟩ := hinv.next_prev i' m' j' hm' hj'
      rw [hmj']; rfl
    have hlen : L.length ≤ a.capacity := occ_list_length_le hL.nodup hocc
    refine ⟨L, ?_, hmem L hL⟩
    unfold childrenTokensList
    rw [hq]
    simp only [Option.some_bind]
    rw [hqfc]
    exact walk_collect (hL.congr fun j _ => rfl) hocc _ (by omega)
  intro W j hWj
  induction hWj with
  | last hg =>
    intro mj hj hjp
    have hprev : mj.previousSibling = none := by
      have hg' : (a.get _).bind (fun m => m.previousSibling) = none := hg
      rw [hj, Option.some_bind] at hg'
      exact hg'
    exact ⟨_, mj, hj, hjp, hprev, fun L hL => hL.head_mem⟩
  | step hg hw ih =>
    rename_i j' k L'
    intro mj hj hjp
    have hprev : mj.previousSibling = some k := by
      have hg' : (a.get j').bind (fun m => m.previousSibling) = some k := hg
      rw [hj, Option.some_bind] at hg'
      exact hg'
    obtain ⟨mk, hmk, hmkn⟩ := hinv.prev_next j' mj k hj hprev
    obtain ⟨mj', hmj', -, hmjpar⟩ := hinv.next_prev k mk j' hmk hmkn
    rw [hj] at hmj'
    cases Option.some.inj hmj'
    have hkp : mk.parent = some p := by rw [← hmjpar, hjp]
    obtain ⟨f, nf, hf, hfp, hfprev, hmem⟩ := ih mk hmk hkp
    refine ⟨f, nf, hf, hfp, hfprev, ?_⟩
    intro L hL
    have hkL : k ∈ L := hmem L hL
    refine hL.mem_next hkL ?_
    show (a.get k).bind (fun m => m.nextSibling) = some j'
    rw [hmk, Option.some_bind, hmkn]

/-- The spec's root clause (§3): a node without a parent has no sibling
links either.  `Arena::remove` is the one operation that violates it. -/
def RootsClean (a : Arena T) : Prop :=
  ∀ i m, a.get i = some m → m.parent = none →
    m.previousSibling = none ∧ m.nextSibling = none

/-- `Token::detach` preserves the structural invariant and the root
clause. -/
theorem detach_pres {T : Type} {a : Arena T} (hinv : Inv a) {t : Nat} {n : Node T}
    (hget : a.get t = some n) :
    ∃ a', detach t a = some a' ∧ Inv a' ∧ (RootsClean a → RootsClean a') := by
  obtain ⟨a', hdet, hcap, hcnt, hhead, hwf, hat, hprev, hpar, hnext, hframe⟩ :=
    detach_spec hinv hget
  have hclass : ∀ i mi', a'.get i = some mi' →
      (i = t ∧ mi' = { n with parent := none, previousSibling := none, nextSibling := none }) ∨
      (n.previousSibling = some i ∧ ∃ mp, a.get i = some mp ∧ mp.nextSibling = some t ∧
        mp.parent = n.parent ∧ mi' = { mp with nextSibling := n.nextSibling }) ∨
      (n.previousSibling = none ∧ n.parent = some i ∧ ∃ mq, a.get i = some mq ∧
        mq.firstChild = some t ∧ mi' = { mq with firstChild := n.nextSibling }) ∨
      (n.nextSibling = some i ∧ ∃ mq, a.get i = some mq ∧ mq.previousSibling = some t ∧
        mq.parent = n.parent ∧ mi' = { mq with previousSibling := n.previousSibling }) ∨
      (i ≠ t ∧ n.previousSibling ≠ some i ∧ ¬(n.previousSibling = none ∧ n.parent = some i) ∧
        n.nextSibling ≠ some i ∧ a.get i = some mi') := by
    intro i mi' hi
    by_cases hit : i = t
    · subst hit
      rw [hat] at hi
      exact Or.inl ⟨rfl, (Option.some.inj hi).symm⟩
    by_cases hpi : n.previousSibling = some i
    · obtain ⟨mp, hmpa, hmp'⟩ := hprev i hpi
      rw [hmp'] at hi
      obtain ⟨mp₂, hmp₂, hmp₂n⟩ := hinv.prev_next t n i hget hpi
      rw [hmpa] at hmp₂
      cases Option.some.inj hmp₂
      obtain ⟨n₂, hn₂, -, hn₂par⟩ := hinv.next_prev i mp t hmpa hmp₂n
      rw [hget] at hn₂
      cases Option.some.inj hn₂
      exact Or.inr (Or.inl ⟨hpi, mp, hmpa, hmp₂n, hn₂par.symm, (Option.some.inj hi).symm⟩)
    by_cases hppi : n.previousSibling = none ∧ n.parent = some i
    · obtain ⟨mq, hmqa, hmq'⟩ := hpar i hppi.1 hppi.2
      rw [hmq'] at hi
      obtain ⟨q₂, hq₂, hq₂f⟩ := hinv.parent_first t n i hget hppi.2
      rw [hmqa] at hq₂
      cases Option.some.inj hq₂
      exact Or.inr (Or.inr (Or.inl ⟨hppi.1, hppi.2, mq, hmqa, hq₂f hppi.1,
        (Option.some.inj hi).symm⟩))
    by_cases hqi : n.nextSibling = some i
    · obtain ⟨mq, hmqa, hmq'⟩ := hnext i hqi
      rw [hmq'] at hi
      obtain ⟨mq₂, hmq₂, hmq₂p, hmq₂par⟩ := hinv.next_prev t n i hget hqi
      rw [hmqa] at hmq₂
      cases Option.some.inj hmq₂
      exact Or.inr (Or.inr (Or.inr (Or.inl ⟨hqi, mq, hmqa, hmq₂p, hmq₂par,
        (Option.some.inj hi).symm⟩)))
    · rw [hframe i hit hpi hppi hqi] at hi
      exact Or.inr (Or.inr (Or.inr (Or.inr ⟨hit, hpi, hppi, hqi, hi⟩)))
  have hoccA : ∀ i mi', a'.get i = some mi' → ∃ mi, a.get i = some mi := by
    intro i mi' hi
    rcases hclass i mi' hi with ⟨rfl, -⟩ | ⟨-, mp, hmp, -⟩ | ⟨-, -, mq, hmq, -⟩ |
      ⟨-, mq, hmq, -⟩ | ⟨-, -, -, -, hfr⟩
    · exact ⟨n, hget⟩
    · exact ⟨mp, hmp⟩
    · exact ⟨mq, hmq⟩
    · exact ⟨mq, hmq⟩
    · exact ⟨mi', hfr⟩
  -- pointwise equality of the three step functions off their changed slots
  have hparEq : ∀ j, j ≠ t →
      (a'.get j).bind (fun m => m.parent) = (a.get j).bind (fun m => m.parent) := by
    intro j hjt
    by_cases hpj : n.previousSibling = some j
    · obtain ⟨mp, hmpa, hmp'⟩ := hprev j hpj
      rw [hmp', hmpa]
      rfl
    by_cases hppj : n.previousSibling = none ∧ n.parent = some j
    · obtain ⟨mq, hmqa, hmq'⟩ := hpar j hppj.1 hppj.2
      rw [hmq', hmqa]
      rfl
    by_cases hqj : n.nextSibling = some j
    · obtain ⟨mq, hmqa, hmq'⟩ := hnext j hqj
      rw [hmq', hmqa]
      rfl
    · rw [hframe j hjt hpj hppj hqj]
  have hprevEq : ∀ j, j ≠ t → n.nextSibling ≠ some j →
      (a'.get j).bind (fun m => m.previousSibling) =
      (a.get j).bind (fun m => m.previousSibling) := by
    intro j hjt hqj
    by_cases hpj : n.previousSibling = some j
    · obtain ⟨mp, hmpa, hmp'⟩ := hprev j hpj
      rw [hmp', hmpa]
      rfl
    by_cases hppj : n.previousSibling = none ∧ n.parent = some j
    · obtain ⟨mq, hmqa, hmq'⟩ := hpar j hppj.1 hppj.2
      rw [hmq', hmqa]
      rfl
    · rw [hframe j hjt hpj hppj hqj]
  have hnextEq : ∀ j, j ≠ t → n.previousSibling ≠ some j →
      (a'.get j).bind (fun m => m.nextSibling) =
      (a.get j).bind (fun m => m.nextSibling) := by
    intro j hjt hpj
    by_cases hppj : n.previousSibling = none ∧ n.parent = some j
    · obtain ⟨mq, hmqa, hmq'⟩ := hpar j hppj.1 hppj.2
      rw [hmq', hmqa]
      rfl
    by_cases hqj : n.nextSibling = some j
    · obtain ⟨mq, hmqa, hmq'⟩ := hnext j hqj
      rw [hmq', hmqa]
      rfl
    · rw [hframe j hjt hpj hppj hqj]
  have hPt : n.previousSibling ≠ some t := hinv.prev_ne_self hget
  have hQt : n.nextSibling ≠ some t := hinv.next_ne_self hget
  have hPPt : n.parent ≠ some t := hinv.parent_ne_self hget
  have hstept : ∀ {x}, n.parent = some x → Arena.stepParent a t = some x := by
    intro x hx
    show (a.get t).bind (fun m => m.parent) = some x
    rw [hget, Option.some_bind, hx]
  refine ⟨a', hdet, ⟨hwf, ?_, ?_, ?_, ?_, ?_, ?_, ?_, ?_⟩, ?_⟩
  · -- token_eq
    intro i mi' hi
    rcases hclass i mi' hi with ⟨rfl, rfl⟩ | ⟨hpi, mp, hmp, -, -, rfl⟩ |
      ⟨hpn, hpp, mq, hmq, -, rfl⟩ | ⟨hqi, mq, hmq, -, -, rfl⟩ | ⟨-, -, -, -, hfr⟩
    · exact hinv.token_eq i n hget
    · exact hinv.token_eq i mp hmp
    · exact hinv.token_eq i mq hmq
    · exact hinv.token_eq i mq hmq
    · exact hinv.token_eq i mi' hfr
  · -- next_prev
    intro i mi' j hi hj
    rcases hclass i mi' hi with ⟨rfl, rfl⟩ | ⟨hpi, mp, hmp, hmpn, hmppar, rfl⟩ |
      ⟨hpn, hpp, mq, hmq, hmqf, rfl⟩ | ⟨hqi, mq, hmq, hmqp, hmqpar, rfl⟩ |
      ⟨hit, hpi, hppi, hqi, hfr⟩
    · exact Option.noConfusion hj
    · -- i is the old previous sibling
      have hqj : n.nextSibling = some j := hj
      obtain ⟨mj, hmja, hmjp, hmjpar⟩ := hinv.next_prev t n j hget hqj
      obtain ⟨mq', hmq'a, hmq''⟩ := hnext j hqj
      rw [hmja] at hmq'a
      cases Option.some.inj hmq'a
      refine ⟨{ mj with previousSibling := n.previousSibling }, hmq'', hpi, ?_⟩
      show mj.parent = mp.parent
      rw [hmjpar, hmppar]
    · -- i is the parent whose first-child link was repaired
      have hj' : mq.nextSibling = some j := hj
      obtain ⟨mj, hmja, hmjp, hmjpar⟩ := hinv.next_prev i mq j hmq hj'
      have hjt : j ≠ t := by
        rintro rfl
        rw [hget] at hmja
        cases Option.some.inj hmja
        rw [hpn] at hmjp
        cases hmjp
      have hPj : n.previousSibling ≠ some j := by
        rw [hpn]
        exact fun hc => Option.noConfusion hc
      have hPPj : ¬(n.previousSibling = none ∧ n.parent = some j) := by
        rintro ⟨-, hpj⟩
        rw [hpp] at hpj
        cases Option.some.inj hpj
        exact hinv.next_ne_self hmq hj'
      have hQj : n.nextSibling ≠ some j := by
        intro hq
        obtain ⟨mq₂, hmq₂, hmq₂p, -⟩ := hinv.next_prev t n j hget hq
        rw [hmja] at hmq₂
        cases Option.some.inj hmq₂
        rw [hmjp] at hmq₂p
        have := Option.some.inj hmq₂p
        rw [← this] at hPPt
        exact hPPt hpp
      refine ⟨mj, ?_, hmjp, hmjpar⟩
      rw [hframe j hjt hPj hPPj hQj]
      exact hmja
    · -- i is the old next sibling
      have hj' : mq.nextSibling = some j := hj
      obtain ⟨mj, hmja, hmjp, hmjpar⟩ := hinv.next_prev i mq j hmq hj'
      have hjt : j ≠ t := by
        rintro rfl
        rw [hget] at hmja
        cases Option.some.inj hmja
        exact hinv.prev_ne_next hget hmjp hqi rfl
      have hPj : n.previousSibling ≠ some j := by
        intro hpj
        obtain ⟨mp₂, hmp₂a, hmp₂n⟩ := hinv.prev_next t n j hget hpj
        rw [hmja] at hmp₂a
        cases Option.some.inj hmp₂a
        obtain ⟨L, hL⟩ := (hinv.next_halts t n hget).to_walk
        have hgt : Arena.stepNext a t = some i := by
          show (a.get t).bind (fun m => m.nextSibling) = some i
          rw [hget, Option.some_bind, hqi]
        have hgi : Arena.stepNext a i = some j := by
          show (a.get i).bind (fun m => m.nextSibling) = some j
          rw [hmq, Option.some_bind, hj']
        have hgj : Arena.stepNext a j = some t := by
          show (a.get j).bind (fun m => m.nextSibling) = some t
          rw [hmja, Option.some_bind, hmp₂n]
        have hiL : i ∈ L := hL.mem_next hL.head_mem hgt
        have hjL : j ∈ L := hL.mem_next hiL hgi
        exact walk_no_cycle hL hjL hgj
      have hPPj : ¬(n.previousSibling = none ∧ n.parent = some j) := by
        rintro ⟨-, hpj'⟩
        have hmjpar' : mj.parent = some j := by
          rw [hmjpar, hmqpar, hpj']
        exact hinv.parent_ne_self hmja hmjpar'
      have hQj : n.nextSibling ≠ some j := by
        intro hq'
        rw [hqi] at hq'
        cases Option.some.inj hq'
        exact hinv.next_ne_self hmq hj'
      refine ⟨mj, ?_, hmjp, hmjpar⟩
      rw [hframe j hjt hPj hPPj hQj]
      exact hmja
    · -- i untouched
      obtain ⟨mj, hmja, hmjp, hmjpar⟩ := hinv.next_prev i mi' j hfr hj
      have hjt : j ≠ t := by
        rintro rfl
        rw [hget] at hmja
        cases Option.some.inj hmja
        exact hpi hmjp
      by_cases hpj : n.previousSibling = some j
      · obtain ⟨mp, hmpa, hmp'⟩ := hprev j hpj
        rw [hmja] at hmpa
        cases Option.some.inj hmpa
        exact ⟨{ mj with nextSibling := n.nextSibling }, hmp', hmjp, hmjpar⟩
      by_cases hppj : n.previousSibling = none ∧ n.parent = some j
      · obtain ⟨mq, hmqa, hmq'⟩ := hpar j hppj.1 hppj.2
        rw [hmja] at hmqa
        cases Option.some.inj hmqa
        exact ⟨{ mj with firstChild := n.nextSibling }, hmq', hmjp, hmjpar⟩
      by_cases hqj : n.nextSibling = some j
      · exfalso
        obtain ⟨mq₂, hmq₂, hmq₂p, -⟩ := hinv.next_prev t n j hget hqj
        rw [hmja] at hmq₂
        cases Option.some.inj hmq₂
        exact hit (Option.some.inj (hmjp.symm.trans hmq₂p))
      · refine ⟨mj, ?_, hmjp, hmjpar⟩
        rw [hframe j hjt hpj hppj hqj]
        exact hmja
  · -- prev_next
    intro i mi' j hi hj
    rcases hclass i mi' hi with ⟨rfl, rfl⟩ | ⟨hpi, mp, hmp, hmpn, hmppar, rfl⟩ |
      ⟨hpn, hpp, mq, hmq, hmqf, rfl⟩ | ⟨hqi, mq, hmq, hmqp, hmqpar, rfl⟩ |
      ⟨hit, hpi, hppi, hqi, hfr⟩
    · exact Option.noConfusion hj
    · -- i is the old previous sibling; its previous link is unchanged
      have hj' : mp.previousSibling = some j := hj
      obtain ⟨mj, hmja, hmjn⟩ := hinv.prev_next i mp j hmp hj'
      have hjt : j ≠ t := by
        rintro rfl
        rw [hget] at hmja
        cases Option.some.inj hmja
        exact hinv.prev_ne_next hget hpi hmjn rfl
      have hPj : n.previousSibling ≠ some j := by
        intro hpj'
        rw [hpi] at hpj'
        cases Option.some.inj hpj'
        exact hinv.prev_ne_self hmp hj'
      have hPPj : ¬(n.previousSibling = none ∧ n.parent = some j) := by
        rintro ⟨hc, -⟩
        rw [hpi] at hc
        cases hc
      have hQj : n.nextSibling ≠ some j := by
        intro hqj'
        obtain ⟨mq₂, hmq₂a, hmq₂p, -⟩ := hinv.next_prev t n j hget hqj'
        rw [hmja] at hmq₂a
        cases Option.some.inj hmq₂a
        obtain ⟨L, hL⟩ := (hinv.next_halts t n hget).to_walk
        have hgt : Arena.stepNext a t = some j := by
          show (a.get t).bind (fun m => m.nextSibling) = some j
          rw [hget, Option.some_bind, hqj']
        have hgj : Arena.stepNext a j = some i := by
          show (a.get j).bind (fun m => m.nextSibling) = some i
          rw [hmja, Option.some_bind, hmjn]
        have hgi : Arena.stepNext a i = some t := by
          show (a.get i).bind (fun m => m.nextSibling) = some t
          rw [hmp, Option.some_bind, hmpn]
        have hjL : j ∈ L := hL.mem_next hL.head_mem hgt
        have hiL : i ∈ L := hL.mem_next hjL hgj
        exact walk_no_cycle hL hiL hgi
      refine ⟨mj, ?_, hmjn⟩
      rw [hframe j hjt hPj hPPj hQj]
      exact hmja
    · -- i is the parent; its previous link is unchanged
      have hj' : mq.previousSibling = some j := hj
      obtain ⟨mj, hmja, hmjn⟩ := hinv.prev_next i mq j hmq hj'
      have hjt : j ≠ t := by
        rintro rfl
        rw [hget] at hmja
        cases Option.some.inj hmja
        exact hinv.parent_ne_next hget hmjn hpp
      have hPj : n.previousSibling ≠ some j := by
        rw [hpn]
        exact fun hc => Option.noConfusion hc
      have hPPj : ¬(n.previousSibling = none ∧ n.parent = some j) := by
        rintro ⟨-, hc⟩
        rw [hpp] at hc
        cases Option.some.inj hc
        exact hinv.prev_ne_self hmq hj'
      have hQj : n.nextSibling ≠ some j := by
        intro hqj'
        obtain ⟨mq₂, hmq₂a, hmq₂p, hmq₂par⟩ := hinv.next_prev t n j hget hqj'
        rw [hmja] at hmq₂a
        cases Option.some.inj hmq₂a
        obtain ⟨mi₂, hmi₂, -, hmi₂par⟩ := hinv.next_prev j mj i hmja hmjn
        rw [hmq] at hmi₂
        cases Option.some.inj hmi₂
        have : mq.parent = some i := by
          rw [hmi₂par, hmq₂par, hpp]
        exact hinv.parent_ne_self hmq this
      refine ⟨mj, ?_, hmjn⟩
      rw [hframe j hjt hPj hPPj hQj]
      exact hmja
    · -- i is the old next sibling: its new previous is n's old previous
      have hj' : n.previousSibling = some j := hj
      obtain ⟨mp, hmpa, hmp'⟩ := hprev j hj'
      refine ⟨{ mp with nextSibling := n.nextSibling }, hmp', ?_⟩
      show n.nextSibling = some i
      exact hqi
    · -- i untouched
      obtain ⟨mj, hmja, hmjn⟩ := hinv.prev_next i mi' j hfr hj
      have hjt : j ≠ t := by
        rintro rfl
        rw [hget] at hmja
        cases Option.some.inj hmja
        exact hqi hmjn
      by_cases hpj : n.previousSibling = some j
      · exfalso
        obtain ⟨mp₂, hmp₂a, hmp₂n⟩ := hinv.prev_next t n j hget hpj
        rw [hmja] at hmp₂a
        cases Option.some.inj hmp₂a
        rw [hmjn] at hmp₂n
        exact hit (Option.some.inj hmp₂n)
      by_cases hppj : n.previousSibling = none ∧ n.parent = some j
      · obtain ⟨mq, hmqa, hmq'⟩ := hpar j hppj.1 hppj.2
        rw [hmja] at hmqa
        cases Option.some.inj hmqa
        exact ⟨{ mj with firstChild := n.nextSibling }, hmq', hmjn⟩
      by_cases hqj : n.nextSibling = some j
      · obtain ⟨mq, hmqa, hmq'⟩ := hnext j hqj
        rw [hmja] at hmqa
        cases Option.some.inj hmqa
        exact ⟨{ mj with previousSibling := n.previousSibling }, hmq', hmjn⟩
      · refine ⟨mj, ?_, hmjn⟩
        rw [hframe j hjt hpj hppj hqj]
        exact hmja
  · -- first_child
    intro i mi' c hi hc
    rcases hclass i mi' hi with ⟨rfl, rfl⟩ | ⟨hpi, mp, hmp, hmpn, hmppar, rfl⟩ |
      ⟨hpn, hpp, mq, hmq, hmqf, rfl⟩ | ⟨hqi, mq, hmq, hmqp, hmqpar, rfl⟩ |
      ⟨hit, hpi, hppi, hqi, hfr⟩
    · -- i = t keeps its children
      have hc' : n.firstChild = some c := hc
      obtain ⟨mc, hmca, hmcp, hmcprev⟩ := hinv.first_child i n c hget hc'
      obtain ⟨hct, hcP, hcPP, hcQ⟩ := children_not_neighbours hinv hget hmca hmcp
      refine ⟨mc, ?_, hmcp, hmcprev⟩
      rw [hframe c hct hcP hcPP hcQ]
      exact hmca
    · -- i is the old previous sibling
      have hc' : mp.firstChild = some c := hc
      obtain ⟨mc, hmca, hmcp, hmcprev⟩ := hinv.first_child i mp c hmp hc'
      have hct : c ≠ t := by
        rintro rfl
        rw [hget] at hmca
        cases Option.some.inj hmca
        rw [hpi] at hmcprev
        cases hmcprev
      have hcP : n.previousSibling ≠ some c := by
        intro hc₂
        rw [hpi] at hc₂
        cases Option.some.inj hc₂
        rw [hmp] at hmca
        cases Option.some.inj hmca
        exact hinv.parent_ne_self hmp hmcp
      have hcPP : ¬(n.previousSibling = none ∧ n.parent = some c) := by
        rintro ⟨hcn, -⟩
        rw [hpi] at hcn
        cases hcn
      have hcQ : n.nextSibling ≠ some c := by
        intro hq'
        obtain ⟨mq₂, hmq₂a, hmq₂p, -⟩ := hinv.next_prev t n c hget hq'
        rw [hmca] at hmq₂a
        cases Option.some.inj hmq₂a
        rw [hmq₂p] at hmcprev
        cases hmcprev
      refine ⟨mc, ?_, hmcp, hmcprev⟩
      rw [hframe c hct hcP hcPP hcQ]
      exact hmca
    · -- i is the parent: its new first child is n's old next sibling
      have hc' : n.nextSibling = some c := hc
      obtain ⟨mq₂, hmq₂a, hmq₂p, hmq₂par⟩ := hinv.next_prev t n c hget hc'
      obtain ⟨mq', hmq'a, hmq''⟩ := hnext c hc'
      rw [hmq₂a] at hmq'a
      cases Option.some.inj hmq'a
      refine ⟨{ mq₂ with previousSibling := n.previousSibling }, hmq'', ?_, ?_⟩
      · show mq₂.parent = some i
        rw [hmq₂par, hpp]
      · show n.previousSibling = none
        exact hpn
    · -- i is the old next sibling
      have hc' : mq.firstChild = some c := hc
      obtain ⟨mc, hmca, hmcp, hmcprev⟩ := hinv.first_child i mq c hmq hc'
      have hct : c ≠ t := by
        rintro rfl
        rw [hget] at hmca
        cases Option.some.inj hmca
        exact hinv.parent_ne_next hget hqi hmcp
      have hcP : n.previousSibling ≠ some c := by
        intro hpc
        obtain ⟨mp₂, hmp₂a, hmp₂n⟩ := hinv.prev_next t n c hget hpc
        rw [hmca] at hmp₂a
        cases Option.some.inj hmp₂a
        obtain ⟨n₂, hn₂, -, hn₂par⟩ := hinv.next_prev c mc t hmca hmp₂n
        rw [hget] at hn₂
        cases Option.some.inj hn₂
        exact hinv.parent_ne_next hget hqi (by rw [hn₂par, hmcp])
      have hcPP : ¬(n.previousSibling = none ∧ n.parent = some c) := by
        rintro ⟨-, hppc⟩
        apply (hinv.parent_halts i mq hmq).no_two_cycle
        · show (a.get i).bind (fun m => m.parent) = some c
          rw [hmq, Option.some_bind, hmqpar, hppc]
        · show (a.get c).bind (fun m => m.parent) = some i
          rw [hmca, Option.some_bind, hmcp]
      have hcQ : n.nextSibling ≠ some c := by
        intro hq'
        rw [hqi] at hq'
        cases Option.some.inj hq'
        rw [hmq] at hmca
        cases Option.some.inj hmca
        exact hinv.parent_ne_self hmq hmcp
      refine ⟨mc, ?_, hmcp, hmcprev⟩
      rw [hframe c hct hcP hcPP hcQ]
      exact hmca
    · -- i untouched
      obtain ⟨mc, hmca, hmcp, hmcprev⟩ := hinv.first_child i mi' c hfr hc
      have hct : c ≠ t := by
        rintro rfl
        rw [hget] at hmca
        cases Option.some.inj hmca
        exact hppi ⟨hmcprev, hmcp⟩
      by_cases hpc : n.previousSibling = some c
      · obtain ⟨mp, hmpa, hmp'⟩ := hprev c hpc
        rw [hmca] at hmpa
        cases Option.some.inj hmpa
        exact ⟨{ mc with nextSibling := n.nextSibling }, hmp', hmcp, hmcprev⟩
      by_cases hppc : n.previousSibling = none ∧ n.parent = some c
      · obtain ⟨mq, hmqa, hmq'⟩ := hpar c hppc.1 hppc.2
        rw [hmca] at hmqa
        cases Option.some.inj hmqa
        exact ⟨{ mc with firstChild := n.nextSibling }, hmq', hmcp, hmcprev⟩
      by_cases hqc : n.nextSibling = some c
      · exfalso
        obtain ⟨mq₂, hmq₂a, hmq₂p, -⟩ := hinv.next_prev t n c hget hqc
        rw [hmca] at hmq₂a
        cases Option.some.inj hmq₂a
        rw [hmq₂p] at hmcprev
        cases hmcprev
      · refine ⟨mc, ?_, hmcp, hmcprev⟩
        rw [hframe c hct hpc hppc hqc]
        exact hmca
  · -- parent_first
    intro i mi' pr hi hpr
    rcases hclass i mi' hi with ⟨rfl, rfl⟩ | ⟨hpi, mp, hmp, hmpn, hmppar, rfl⟩ |
      ⟨hpn, hpp, mq, hmq, hmqf, rfl⟩ | ⟨hqi, mq, hmq, hmqp, hmqpar, rfl⟩ |
      ⟨hit, hpi, hppi, hqi, hfr⟩
    · exact Option.noConfusion hpr
    · -- i is the old previous sibling
      have hpr' : mp.parent = some pr := hpr
      obtain ⟨qn, hqna, hqnf⟩ := hinv.parent_first i mp pr hmp hpr'
      have hnppr : n.parent = some pr := by
        rw [← hmppar]
        exact hpr'
      have hprt : pr ≠ t := fun he => hPPt (he ▸ hnppr)
      have hprP : n.previousSibling ≠ some pr := by
        intro hc₂
        rw [hpi] at hc₂
        cases Option.some.inj hc₂
        exact hinv.parent_ne_self hmp hpr'
      have hprPP : ¬(n.previousSibling = none ∧ n.parent = some pr) := by
        rintro ⟨hcn, -⟩
        rw [hpi] at hcn
        cases hcn
      have hprQ : n.nextSibling ≠ some pr := by
        intro hq'
        exact hinv.parent_ne_next hget hq' hnppr
      refine ⟨qn, ?_, fun h => hqnf h⟩
      rw [hframe pr hprt hprP hprPP hprQ]
      exact hqna
    · -- i is the parent
      have hpr' : mq.parent = some pr := hpr
      obtain ⟨qn, hqna, hqnf⟩ := hinv.parent_first i mq pr hmq hpr'
      have hprt : pr ≠ t := by
        intro he
        refine (hinv.parent_halts t n hget).no_two_cycle (hstept hpp) ?_
        show (a.get i).bind (fun m => m.parent) = some t
        rw [hmq, Option.some_bind, hpr', he]
      have hprP : n.previousSibling ≠ some pr := by
        rw [hpn]
        exact fun hc₂ => Option.noConfusion hc₂
      have hprPP : ¬(n.previousSibling = none ∧ n.parent = some pr) := by
        rintro ⟨-, hc₂⟩
        rw [hpp] at hc₂
        cases Option.some.inj hc₂
        exact hinv.parent_ne_self hmq hpr'
      have hprQ : n.nextSibling ≠ some pr := by
        intro hq'
        obtain ⟨mq₂, hmq₂a, hmq₂p, hmq₂par⟩ := hinv.next_prev t n pr hget hq'
        apply (hinv.parent_halts i mq hmq).no_two_cycle
        · show (a.get i).bind (fun m => m.parent) = some pr
          rw [hmq, Option.some_bind, hpr']
        · show (a.get pr).bind (fun m => m.parent) = some i
          rw [hmq₂a, Option.some_bind, hmq₂par, hpp]
      refine ⟨qn, ?_, fun h => hqnf h⟩
      rw [hframe pr hprt hprP hprPP hprQ]
      exact hqna
    · -- i is the old next sibling
      have hpr' : mq.parent = some pr := hpr
      have hnpr : n.parent = some pr := by rw [← hmqpar]; exact hpr'
      cases hP : n.previousSibling with
      | none =>
        obtain ⟨mqq, hmqqa, hmqq'⟩ := hpar pr hP hnpr
        refine ⟨{ mqq with firstChild := n.nextSibling }, hmqq', ?_⟩
        intro _
        show n.nextSibling = some i
        exact hqi
      | some p' =>
        have hprt : pr ≠ t := by
          rintro rfl
          exact hPPt hnpr
        have hprP : n.previousSibling ≠ some pr := by
          intro hc₂
          exact hinv.parent_ne_prev hget hc₂ hnpr
        have hprPP : ¬(n.previousSibling = none ∧ n.parent = some pr) := by
          rintro ⟨hcn, -⟩
          rw [hP] at hcn
          cases hcn
        have hprQ : n.nextSibling ≠ some pr := by
          intro hq'
          rw [hqi] at hq'
          cases Option.some.inj hq'
          exact hinv.parent_ne_self hmq hpr'
        obtain ⟨qn, hqna, -⟩ := hinv.parent_first t n pr hget hnpr
        refine ⟨qn, ?_, ?_⟩
        · rw [hframe pr hprt hprP hprPP hprQ]
          exact hqna
        · intro hcon
          exact Option.noConfusion hcon
    · -- i untouched
      obtain ⟨qn, hqna, hqnf⟩ := hinv.parent_first i mi' pr hfr hpr
      by_cases hprt : pr = t
      · subst hprt
        rw [hget] at hqna
        cases Option.some.inj hqna
        refine ⟨{ n with parent := none, previousSibling := none, nextSibling := none },
          hat, ?_⟩
        intro h
        show n.firstChild = some i
        exact hqnf h
      by_cases hprP : n.previousSibling = some pr
      · obtain ⟨mp, hmpa, hmp'⟩ := hprev pr hprP
        rw [hqna] at hmpa
        cases Option.some.inj hmpa
        exact ⟨{ qn with nextSibling := n.nextSibling }, hmp', fun h => hqnf h⟩
      by_cases hprPP : n.previousSibling = none ∧ n.parent = some pr
      · obtain ⟨mqq, hmqqa, hmqq'⟩ := hpar pr hprPP.1 hprPP.2
        rw [hqna] at hmqqa
        cases Option.some.inj hmqqa
        obtain ⟨q₂, hq₂, hq₂f⟩ := hinv.parent_first t n pr hget hprPP.2
        rw [hqna] at hq₂
        cases Option.some.inj hq₂
        refine ⟨{ qn with firstChild := n.nextSibling }, hmqq', ?_⟩
        intro h
        exact ((hit (Option.some.inj ((hqnf h).symm.trans (hq₂f hprPP.1)))).elim :
          ({ qn with firstChild := n.nextSibling } : Node T).firstChild = some i)
      by_cases hprQ : n.nextSibling = some pr
      · obtain ⟨mq, hmqa, hmq'⟩ := hnext pr hprQ
        rw [hqna] at hmqa
        cases Option.some.inj hmqa
        exact ⟨{ qn with previousSibling := n.previousSibling }, hmq', fun h => hqnf h⟩
      · refine ⟨qn, ?_, fun h => hqnf h⟩
        rw [hframe pr hprt hprP hprPP hprQ]
        exact hqna
  · -- parent_halts
    intro i mi' hi
    obtain ⟨mi, hmia⟩ := hoccA i mi' hi
    obtain ⟨L, hL⟩ := (hinv.parent_halts i mi hmia).to_walk
    refine halts_transport hL ?_
    intro j hjL
    by_cases hjt : j = t
    · refine Or.inr (Halts.stop ?_)
      rw [hjt]
      show (a'.get t).bind (fun m => m.parent) = none
      rw [hat]
      rfl
    · exact Or.inl (hparEq j hjt)
  · -- prev_halts
    intro i mi' hi
    obtain ⟨mi, hmia⟩ := hoccA i mi' hi
    obtain ⟨L, hL⟩ := (hinv.prev_halts i mi hmia).to_walk
    have hq_halts : ∀ j, n.nextSibling = some j → Halts (Arena.stepPrev a') j := by
      intro j hqj
      obtain ⟨mq', hmq'a, hmq''⟩ := hnext j hqj
      have hgj : Arena.stepPrev a' j = n.previousSibling := by
        show (a'.get j).bind (fun m => m.previousSibling) = n.previousSibling
        rw [hmq'']
        rfl
      cases hP : n.previousSibling with
      | none =>
        refine Halts.stop ?_
        rw [hgj, hP]
      | some p' =>
        obtain ⟨mp', hmp'a, hmp'n⟩ := hinv.prev_next t n p' hget hP
        obtain ⟨Wp, hWp⟩ := (hinv.prev_halts p' mp' hmp'a).to_walk
        refine Halts.step (by rw [hgj, hP]) (halts_transport hWp ?_)
        intro k hkW
        have hkt : k ≠ t := by
          intro he
          refine walk_no_cycle hWp (he ▸ hkW) ?_
          show (a.get t).bind (fun m => m.previousSibling) = some p'
          rw [hget, Option.some_bind, hP]
        have hkq : n.nextSibling ≠ some k := by
          intro hqk
          obtain ⟨mq₂, hmq₂a, hmq₂p, -⟩ := hinv.next_prev t n k hget hqk
          have hgk : Arena.stepPrev a k = some t := by
            show (a.get k).bind (fun m => m.previousSibling) = some t
            rw [hmq₂a, Option.some_bind, hmq₂p]
          have htW : t ∈ Wp := hWp.mem_next hkW hgk
          refine walk_no_cycle hWp htW ?_
          show (a.get t).bind (fun m => m.previousSibling) = some p'
          rw [hget, Option.some_bind, hP]
        exact Or.inl (hprevEq k hkt hkq)
    refine halts_transport hL ?_
    intro j hjL
    by_cases hjt : j = t
    · refine Or.inr (Halts.stop ?_)
      rw [hjt]
      show (a'.get t).bind (fun m => m.previousSibling) = none
      rw [hat]
      rfl
    by_cases hjq : n.nextSibling = some j
    · exact Or.inr (hq_halts j hjq)
    · exact Or.inl (hprevEq j hjt hjq)
  · -- next_halts
    intro i mi' hi
    obtain ⟨mi, hmia⟩ := hoccA i mi' hi
    obtain ⟨L, hL⟩ := (hinv.next_halts i mi hmia).to_walk
    have hp_halts : ∀ j, n.previousSibling = some j → Halts (Arena.stepNext a') j := by
      intro j hpj
      obtain ⟨mp', hmp'a, hmp''⟩ := hprev j hpj
      have hgj : Arena.stepNext a' j = n.nextSibling := by
        show (a'.get j).bind (fun m => m.nextSibling) = n.nextSibling
        rw [hmp'']
        rfl
      cases hQ : n.nextSibling with
      | none =>
        refine Halts.stop ?_
        rw [hgj, hQ]
      | some q' =>
        obtain ⟨mq', hmq'a, hmq'p, -⟩ := hinv.next_prev t n q' hget hQ
        obtain ⟨Wq, hWq⟩ := (hinv.next_halts q' mq' hmq'a).to_walk
        refine Halts.step (by rw [hgj, hQ]) (halts_transport hWq ?_)
        intro k hkW
        have hkt : k ≠ t := by
          intro he
          refine walk_no_cycle hWq (he ▸ hkW) ?_
          show (a.get t).bind (fun m => m.nextSibling) = some q'
          rw [hget, Option.some_bind, hQ]
        have hkp : n.previousSibling ≠ some k := by
          intro hpk
          obtain ⟨mp₂, hmp₂a, hmp₂n⟩ := hinv.prev_next t n k hget hpk
          have hgk : Arena.stepNext a k = some t := by
            show (a.get k).bind (fun m => m.nextSibling) = some t
            rw [hmp₂a, Option.some_bind, hmp₂n]
          have htW : t ∈ Wq := hWq.mem_next hkW hgk
          refine walk_no_cycle hWq htW ?_
          show (a.get t).bind (fun m => m.nextSibling) = some q'
          rw [hget, Option.some_bind, hQ]
        exact Or.inl (hnextEq k hkt hkp)
    refine halts_transport hL ?_
    intro j hjL
    by_cases hjt : j = t
    · refine Or.inr (Halts.stop ?_)
      rw [hjt]
      show (a'.get t).bind (fun m => m.nextSibling) = none
      rw [hat]
      rfl
    by_cases hjp : n.previousSibling = some j
    · exact Or.inr (hp_halts j hjp)
    · exact Or.inl (hnextEq j hjt hjp)
  · -- RootsClean is preserved
    intro hrc i mi' hi hpar'
    rcases hclass i mi' hi with ⟨rfl, rfl⟩ | ⟨hpi, mp, hmp, hmpn, hmppar, rfl⟩ |
      ⟨hpn, hpp, mq, hmq, hmqf, rfl⟩ | ⟨hqi, mq, hmq, hmqp, hmqpar, rfl⟩ |
      ⟨hit, hpi, hppi, hqi, hfr⟩
    · exact ⟨rfl, rfl⟩
    · -- old previous sibling: has a next sibling in a, so no parent is absurd
      have hpar'' : mp.parent = none := hpar'
      obtain ⟨-, hnone⟩ := hrc i mp hmp hpar''
      rw [hmpn] at hnone
      cases hnone
    · -- the parent keeps clean links
      have hpar'' : mq.parent = none := hpar'
      obtain ⟨h1, h2⟩ := hrc i mq hmq hpar''
      exact ⟨h1, h2⟩
    · -- old next sibling: had previous sibling t in a
      have hpar'' : mq.parent = none := hpar'
      obtain ⟨hnone, -⟩ := hrc i mq hmq hpar''
      rw [hmqp] at hnone
      cases hnone
    · exact hrc i mi' hfr hpar'

/-- A successful token-iterator collection is a walk of its link
function. -/
theorem collect_walk {T : Type} {a : Arena T} {f : Node T → Option Nat} :
    ∀ {fuel c L}, tokenIterCollect a f fuel (some c) = some L →
      Walk (fun i => (a.get i).bind f) c L := by
  intro fuel
  induction fuel with
  | zero =>
    intro c L h
    cases h
  | succ fuel ih =>
    intro c L h
    unfold tokenIterCollect at h
    cases hg : a.get c with
    | none =>
      rw [hg] at h
      cases h
    | some node =>
      rw [hg] at h
      obtain ⟨L', hL', hLeq⟩ := Option.map_eq_some'.mp h
      subst hLeq
      cases hf : f node with
      | none =>
        rw [hf, tokenIterCollect_none] at hL'
        cases Option.some.inj hL'
        refine Walk.last ?_
        rw [hg, Option.some_bind, hf]
      | some k =>
        rw [hf] at hL'
        refine Walk.step ?_ (ih hL')
        rw [hg, Option.some_bind, hf]

/-- On a sibling chain, a member's previous sibling is the chain's
predecessor: it lies in the chain unless the member is the chain head. -/
theorem walk_prev_mem {T : Type} {a : Arena T} (hinv : Inv a) :
    ∀ {c cs}, Walk (fun i => (a.get i).bind fun m => m.nextSibling) c cs →
      ∀ d ∈ cs, ∀ md j, a.get d = some md → md.previousSibling = some j →
        d = c ∨ j ∈ cs := by
  intro c cs hw
  induction hw with
  | last hg =>
    intro d hd md j hmd hj
    rcases List.mem_singleton.mp hd with rfl
    exact Or.inl rfl
  | step hg hw ih =>
    rename_i i k L'
    intro d hd md j hmd hj
    rcases List.mem_cons.mp hd with rfl | hd'
    · exact Or.inl rfl
    · rcases ih d hd' md j hmd hj with rfl | hj'
      · obtain ⟨mi, hmi⟩ : ∃ mi, a.get i = some mi := by
          cases hgi : a.get i with
          | none => rw [hgi] at hg; cases hg
          | some mi => exact ⟨mi, rfl⟩
        have hminext : mi.nextSibling = some d := by
          rw [hmi, Option.some_bind] at hg
          exact hg
        obtain ⟨md₂, hmd₂, hmd₂p, -⟩ := hinv.next_prev i mi d hmi hminext
        rw [hmd] at hmd₂
        cases Option.some.inj hmd₂
        have hji : j = i := Option.some.inj (hj.symm.trans hmd₂p)
        exact Or.inr (hji ▸ List.mem_cons_self _ _)
      · exact Or.inr (List.mem_cons_of_mem _ hj')

/-- `Arena::remove` preserves the structural invariant (but not the root
clause: the orphaned children keep their sibling links). -/
theorem arenaRemove_pres {T : Type} {a : Arena T} (hinv : Inv a) {t : Nat} {n : Node T}
    (hget : a.get t = some n) :
    ∃ a' cs, arenaRemove a t = some (a', cs) ∧ Inv a' := by
  obtain ⟨a', cs, hrem, hchl, hcap, hcnt, hwf, hatn, hcs, hprev, hpar, hnext, hframe⟩ :=
    arenaRemove_spec hinv hget
  have hcsfacts : (∀ c ∈ cs, ∀ mc, a.get c = some mc → ∀ j, mc.nextSibling = some j → j ∈ cs) ∧
      (∀ c ∈ cs, ∀ mc, a.get c = some mc → ∀ j, mc.previousSibling = some j → j ∈ cs) := by
    have hchl' := hchl
    unfold childrenTokensList at hchl'
    rw [hget, Option.some_bind] at hchl'
    cases hfc : n.firstChild with
    | none =>
      rw [hfc, tokenIterCollect_none] at hchl'
      cases Option.some.inj hchl'
      exact ⟨fun c hc => absurd hc (List.not_mem_nil c),
        fun c hc => absurd hc (List.not_mem_nil c)⟩
    | some c₀ =>
      rw [hfc] at hchl'
      have hw := collect_walk hchl'
      obtain ⟨mc₀, hmc₀, -, hmc₀prev⟩ := hinv.first_child t n c₀ hget hfc
      constructor
      · intro c hc mc hmc j hj
        exact hw.mem_next hc (by rw [hmc, Option.some_bind, hj])
      · intro c hc mc hmc j hj
        rcases walk_prev_mem hinv hw c hc mc j hmc hj with rfl | hj'
        · rw [hmc₀] at hmc
          cases Option.some.inj hmc
          rw [hmc₀prev] at hj
          cases hj
        · exact hj'
  obtain ⟨hcsnext, hcsprev⟩ := hcsfacts
  have hcnn : ∀ c ∈ cs, c ≠ t ∧ n.previousSibling ≠ some c ∧
      ¬(n.previousSibling = none ∧ n.parent = some c) ∧ n.nextSibling ≠ some c := by
    intro c hc
    obtain ⟨m, hm, hmp, -⟩ := hcs c hc
    exact children_not_neighbours hinv hget hm hmp
  have htcs : t ∉ cs := fun h => (hcnn t h).1 rfl
  have hpar_t_mem : ∀ i mi, a.get i = some mi → mi.parent = some t → i ∈ cs := by
    intro i mi hmi hmip
    obtain ⟨cs', hcs', hmem⟩ := hinv.mem_children hmi hmip
    cases Option.some.inj (hcs'.symm.trans hchl)
    exact hmem
  have hPt : n.previousSibling ≠ some t := hinv.prev_ne_self hget
  have hQt : n.nextSibling ≠ some t := hinv.next_ne_self hget
  have hPPt : n.parent ≠ some t := hinv.parent_ne_self hget
  have hstept : ∀ {x}, n.parent = some x → Arena.stepParent a t = some x := by
    intro x hx
    show (a.get t).bind (fun m => m.parent) = some x
    rw [hget, Option.some_bind, hx]
  have hclass : ∀ i mi', a'.get i = some mi' →
      (i ∈ cs ∧ ∃ m, a.get i = some m ∧ m.parent = some t ∧
        mi' = { m with parent := none }) ∨
      (i ∉ cs ∧ n.previousSibling = some i ∧ ∃ mp, a.get i = some mp ∧
        mp.nextSibling = some t ∧ mp.parent = n.parent ∧
        mi' = { mp with nextSibling := n.nextSibling }) ∨
      (i ∉ cs ∧ n.previousSibling = none ∧ n.parent = some i ∧ ∃ mq, a.get i = some mq ∧
        mq.firstChild = some t ∧ mi' = { mq with firstChild := n.nextSibling }) ∨
      (i ∉ cs ∧ n.nextSibling = some i ∧ ∃ mq, a.get i = some mq ∧
        mq.previousSibling = some t ∧ mq.parent = n.parent ∧
        mi' = { mq with previousSibling := n.previousSibling }) ∨
      (i ≠ t ∧ i ∉ cs ∧ n.previousSibling ≠ some i ∧
        ¬(n.previousSibling = none ∧ n.parent = some i) ∧
        n.nextSibling ≠ some i ∧ a.get i = some mi') := by
    intro i mi' hi
    have hit : i ≠ t := by
      intro he
      rw [he, hatn] at hi
      cases hi
    by_cases hics : i ∈ cs
    · obtain ⟨m, hm, hmp, hm'⟩ := hcs i hics
      rw [hm'] at hi
      exact Or.inl ⟨hics, m, hm, hmp, (Option.some.inj hi).symm⟩
    by_cases hpi : n.previousSibling = some i
    · obtain ⟨mp, hmpa, hmp'⟩ := hprev i hpi
      rw [hmp'] at hi
      obtain ⟨mp₂, hmp₂, hmp₂n⟩ := hinv.prev_next t n i hget hpi
      rw [hmpa] at hmp₂
      cases Option.some.inj hmp₂
      obtain ⟨n₂, hn₂, -, hn₂par⟩ := hinv.next_prev i mp t hmpa hmp₂n
      rw [hget] at hn₂
      cases Option.some.inj hn₂
      exact Or.inr (Or.inl ⟨hics, hpi, mp, hmpa, hmp₂n, hn₂par.symm, (Option.some.inj hi).symm⟩)
    by_cases hppi : n.previousSibling = none ∧ n.parent = some i
    · obtain ⟨mq, hmqa, hmq'⟩ := hpar i hppi.1 hppi.2
      rw [hmq'] at hi
      obtain ⟨q₂, hq₂, hq₂f⟩ := hinv.parent_first t n i hget hppi.2
      rw [hmqa] at hq₂
      cases Option.some.inj hq₂
      exact Or.inr (Or.inr (Or.inl ⟨hics, hppi.1, hppi.2, mq, hmqa, hq₂f hppi.1,
        (Option.some.inj hi).symm⟩))
    by_cases hqi : n.nextSibling = some i
    · obtain ⟨mq, hmqa, hmq'⟩ := hnext i hqi
      rw [hmq'] at hi
      obtain ⟨mq₂, hmq₂, hmq₂p, hmq₂par⟩ := hinv.next_prev t n i hget hqi
      rw [hmqa] at hmq₂
      cases Option.some.inj hmq₂
      exact Or.inr (Or.inr (Or.inr (Or.inl ⟨hics, hqi, mq, hmqa, hmq₂p, hmq₂par,
        (Option.some.inj hi).symm⟩)))
    · rw [hframe i hit hics hpi hppi hqi] at hi
      exact Or.inr (Or.inr (Or.inr (Or.inr ⟨hit, hics, hpi, hppi, hqi, hi⟩)))
  have hoccA : ∀ i mi', a'.get i = some mi' → ∃ mi, a.get i = some mi := by
    intro i mi' hi
    rcases hclass i mi' hi with ⟨-, m, hm, -⟩ | ⟨-, -, mp, hmp, -⟩ | ⟨-, -, -, mq, hmq, -⟩ |
      ⟨-, -, mq, hmq, -⟩ | ⟨-, -, -, -, -, hfr⟩
    · exact ⟨m, hm⟩
    · exact ⟨mp, hmp⟩
    · exact ⟨mq, hmq⟩
    · exact ⟨mq, hmq⟩
    · exact ⟨mi', hfr⟩
  have hparEq : ∀ j, j ≠ t → j ∉ cs →
      (a'.get j).bind (fun m => m.parent) = (a.get j).bind (fun m => m.parent) := by
    intro j hjt hjcs
    by_cases hpj : n.previousSibling = some j
    · obtain ⟨mp, hmpa, hmp'⟩ := hprev j hpj
      rw [hmp', hmpa]
      rfl
    by_cases hppj : n.previousSibling = none ∧ n.parent = some j
    · obtain ⟨mq, hmqa, hmq'⟩ := hpar j hppj.1 hppj.2
      rw [hmq', hmqa]
      rfl
    by_cases hqj : n.nextSibling = some j
    · obtain ⟨mq, hmqa, hmq'⟩ := hnext j hqj
      rw [hmq', hmqa]
      rfl
    · rw [hframe j hjt hjcs hpj hppj hqj]
  have hprevEq : ∀ j, j ≠ t → n.nextSibling ≠ some j →
      (a'.get j).bind (fun m => m.previousSibling) =
      (a.get j).bind (fun m => m.previousSibling) := by
    intro j hjt hqj
    by_cases hjcs : j ∈ cs
    · obtain ⟨m, hm, -, hm'⟩ := hcs j hjcs
      rw [hm', hm]
      rfl
    by_cases hpj : n.previousSibling = some j
    · obtain ⟨mp, hmpa, hmp'⟩ := hprev j hpj
      rw [hmp', hmpa]
      rfl
    by_cases hppj : n.previousSibling = none ∧ n.parent = some j
    · obtain ⟨mq, hmqa, hmq'⟩ := hpar j hppj.1 hppj.2
      rw [hmq', hmqa]
      rfl
    · rw [hframe j hjt hjcs hpj hppj hqj]
  have hnextEq : ∀ j, j ≠ t → n.previousSibling ≠ some j →
      (a'.get j).bind (fun m => m.nextSibling) =
      (a.get j).bind (fun m => m.nextSibling) := by
    intro j hjt hpj
    by_cases hjcs : j ∈ cs
    · obtain ⟨m, hm, -, hm'⟩ := hcs j hjcs
      rw [hm', hm]
      rfl
    by_cases hppj : n.previousSibling = none ∧ n.parent = some j
    · obtain ⟨mq, hmqa, hmq'⟩ := hpar j hppj.1 hppj.2
      rw [hmq', hmqa]
      rfl
    by_cases hqj : n.nextSibling = some j
    · obtain ⟨mq, hmqa, hmq'⟩ := hnext j hqj
      rw [hmq', hmqa]
      rfl
    · rw [hframe j hjt hjcs hpj hppj hqj]
  refine ⟨a', cs, hrem, hwf, ?_, ?_, ?_, ?_, ?_, ?_, ?_, ?_⟩
  · -- token_eq
    intro i mi' hi
    rcases hclass i mi' hi with ⟨-, m, hm, -, rfl⟩ | ⟨-, -, mp, hmp, -, -, rfl⟩ |
      ⟨-, -, -, mq, hmq, -, rfl⟩ | ⟨-, -, mq, hmq, -, -, rfl⟩ | ⟨-, -, -, -, -, hfr⟩
    · exact hinv.token_eq i m hm
    · exact hinv.token_eq i mp hmp
    · exact hinv.token_eq i mq hmq
    · exact hinv.token_eq i mq hmq
    · exact hinv.token_eq i mi' hfr
  · -- next_prev
    intro i mi' j hi hj
    rcases hclass i mi' hi with ⟨hics, m, hm, hmp, rfl⟩ | ⟨hics, hpi, mp, hmp, hmpn, hmppar, rfl⟩ |
      ⟨hics, hpn, hpp, mq, hmq, hmqf, rfl⟩ | ⟨hics, hqi, mq, hmq, hmqp, hmqpar, rfl⟩ |
      ⟨hit, hics, hpi, hppi, hqi, hfr⟩
    · -- i is an orphaned child: its next sibling was orphaned too
      have hj' : m.nextSibling = some j := hj
      have hjcs : j ∈ cs := hcsnext i hics m hm j hj'
      obtain ⟨mj, hmja, hmjpar, hmj'⟩ := hcs j hjcs
      obtain ⟨mj₂, hmj₂a, hmj₂p, -⟩ := hinv.next_prev i m j hm hj'
      rw [hmja] at hmj₂a
      cases Option.some.inj hmj₂a
      refine ⟨{ mj with parent := none }, hmj', hmj₂p, rfl⟩
    · -- i is the old previous sibling
      have hqj : n.nextSibling = some j := hj
      have hjcs : j ∉ cs := fun hc => (hcnn j hc).2.2.2 hqj
      obtain ⟨mj, hmja, hmjp, hmjpar⟩ := hinv.next_prev t n j hget hqj
      obtain ⟨mq', hmq'a, hmq''⟩ := hnext j hqj
      rw [hmja] at hmq'a
      cases Option.some.inj hmq'a
      refine ⟨{ mj with previousSibling := n.previousSibling }, hmq'', hpi, ?_⟩
      show mj.parent = mp.parent
      rw [hmjpar, hmppar]
    · -- i is the parent
      have hj' : mq.nextSibling = some j := hj
      obtain ⟨mj, hmja, hmjp, hmjpar⟩ := hinv.next_prev i mq j hmq hj'
      have hjt : j ≠ t := by
        rintro rfl
        rw [hget] at hmja
        cases Option.some.inj hmja
        rw [hpn] at hmjp
        cases hmjp
      have hjcs : j ∉ cs := by
        intro hc
        obtain ⟨mj₃, hmj₃, hmj₃p, -⟩ := hcs j hc
        rw [hmja] at hmj₃
        cases Option.some.inj hmj₃
        rw [hmjpar] at hmj₃p
        exact (hinv.parent_halts t n hget).no_two_cycle (hstept hpp)
          (by show (a.get i).bind (fun m => m.parent) = some t
              rw [hmq, Option.some_bind, hmj₃p])
      have hPj : n.previousSibling ≠ some j := by
        rw [hpn]
        exact fun hc => Option.noConfusion hc
      have hPPj : ¬(n.previousSibling = none ∧ n.parent = some j) := by
        rintro ⟨-, hpj⟩
        rw [hpp] at hpj
        cases Option.some.inj hpj
        exact hinv.next_ne_self hmq hj'
      have hQj : n.nextSibling ≠ some j := by
        intro hq
        obtain ⟨mq₂, hmq₂, hmq₂p, -⟩ := hinv.next_prev t n j hget hq
        rw [hmja] at hmq₂
        cases Option.some.inj hmq₂
        rw [hmjp] at hmq₂p
        have := Option.some.inj hmq₂p
        rw [← this] at hPPt
        exact hPPt hpp
      refine ⟨mj, ?_, hmjp, hmjpar⟩
      rw [hframe j hjt hjcs hPj hPPj hQj]
      exact hmja
    · -- i is the old next sibling
      have hj' : mq.nextSibling = some j := hj
      obtain ⟨mj, hmja, hmjp, hmjpar⟩ := hinv.next_prev i mq j hmq hj'
      have hjt : j ≠ t := by
        rintro rfl
        rw [hget] at hmja
        cases Option.some.inj hmja
        exact hinv.prev_ne_next hget hmjp hqi rfl
      have hjcs : j ∉ cs := by
        intro hc
        obtain ⟨mj₃, hmj₃, hmj₃p, -⟩ := hcs j hc
        rw [hmja] at hmj₃
        cases Option.some.inj hmj₃
        rw [hmjpar, hmqpar] at hmj₃p
        exact hPPt hmj₃p
      have hPj : n.previousSibling ≠ some j := by
        intro hpj
        obtain ⟨mp₂, hmp₂a, hmp₂n⟩ := hinv.prev_next t n j hget hpj
        rw [hmja] at hmp₂a
        cases Option.some.inj hmp₂a
        obtain ⟨L, hL⟩ := (hinv.next_halts t n hget).to_walk
        have hgt : Arena.stepNext a t = some i := by
          show (a.get t).bind (fun m => m.nextSibling) = some i
          rw [hget, Option.some_bind, hqi]
        have hgi : Arena.stepNext a i = some j := by
          show (a.get i).bind (fun m => m.nextSibling) = some j
          rw [hmq, Option.some_bind, hj']
        have hgj : Arena.stepNext a j = some t := by
          show (a.get j).bind (fun m => m.nextSibling) = some t
          rw [hmja, Option.some_bind, hmp₂n]
        have hiL : i ∈ L := hL.mem_next hL.head_mem hgt
        have hjL : j ∈ L := hL.mem_next hiL hgi
        exact walk_no_cycle hL hjL hgj
      have hPPj : ¬(n.previousSibling = none ∧ n.parent = some j) := by
        rintro ⟨-, hpj'⟩
        have hmjpar' : mj.parent = some j := by
          rw [hmjpar, hmqpar, hpj']
        exact hinv.parent_ne_self hmja hmjpar'
      have hQj : n.nextSibling ≠ some j := by
        intro hq'
        rw [hqi] at hq'
        cases Option.some.inj hq'
        exact hinv.next_ne_self hmq hj'
      refine ⟨mj, ?_, hmjp, hmjpar⟩
      rw [hframe j hjt hjcs hPj hPPj hQj]
      exact hmja
    · -- i untouched
      obtain ⟨mj, hmja, hmjp, hmjpar⟩ := hinv.next_prev i mi' j hfr hj
      have hjt : j ≠ t := by
        rintro rfl
        rw [hget] at hmja
        cases Option.some.inj hmja
        exact hpi hmjp
      by_cases hjcs : j ∈ cs
      · exfalso
        have hics' : i ∈ cs := hcsprev j hjcs mj hmja i hmjp
        exact hics hics'
      by_cases hpj : n.previousSibling = some j
      · obtain ⟨mp, hmpa, hmp'⟩ := hprev j hpj
        rw [hmja] at hmpa
        cases Option.some.inj hmpa
        exact ⟨{ mj with nextSibling := n.nextSibling }, hmp', hmjp, hmjpar⟩
      by_cases hppj : n.previousSibling = none ∧ n.parent = some j
      · obtain ⟨mq, hmqa, hmq'⟩ := hpar j hppj.1 hppj.2
        rw [hmja] at hmqa
        cases Option.some.inj hmqa
        exact ⟨{ mj with firstChild := n.nextSibling }, hmq', hmjp, hmjpar⟩
      by_cases hqj : n.nextSibling = some j
      · exfalso
        obtain ⟨mq₂, hmq₂, hmq₂p, -⟩ := hinv.next_prev t n j hget hqj
        rw [hmja] at hmq₂
        cases Option.some.inj hmq₂
        exact hit (Option.some.inj (hmjp.symm.trans hmq₂p))
      · refine ⟨mj, ?_, hmjp, hmjpar⟩
        rw [hframe j hjt hjcs hpj hppj hqj]
        exact hmja
  · -- prev_next
    intro i mi' j hi hj
    rcases hclass i mi' hi with ⟨hics, m, hm, hmp, rfl⟩ | ⟨hics, hpi, mp, hmp, hmpn, hmppar, rfl⟩ |
      ⟨hics, hpn, hpp, mq, hmq, hmqf, rfl⟩ | ⟨hics, hqi, mq, hmq, hmqp, hmqpar, rfl⟩ |
      ⟨hit, hics, hpi, hppi, hqi, hfr⟩
    · -- orphaned child: its previous sibling is an orphaned child too
      have hj' : m.previousSibling = some j := hj
      have hjcs : j ∈ cs := hcsprev i hics m hm j hj'
      obtain ⟨mj, hmja, -, hmj'⟩ := hcs j hjcs
      obtain ⟨mj₂, hmj₂a, hmj₂n⟩ := hinv.prev_next i m j hm hj'
      rw [hmja] at hmj₂a
      cases Option.some.inj hmj₂a
      exact ⟨{ mj with parent := none }, hmj', hmj₂n⟩
    · -- old previous sibling
      have hj' : mp.previousSibling = some j := hj
      obtain ⟨mj, hmja, hmjn⟩ := hinv.prev_next i mp j hmp hj'
      have hjt : j ≠ t := by
        rintro rfl
        rw [hget] at hmja
        cases Option.some.inj hmja
        exact hinv.prev_ne_next hget hpi hmjn rfl
      have hjcs : j ∉ cs := by
        intro hc
        exact hics (hcsnext j hc mj hmja i hmjn)
      have hPj : n.previousSibling ≠ some j := by
        intro hpj'
        rw [hpi] at hpj'
        cases Option.some.inj hpj'
        exact hinv.prev_ne_self hmp hj'
      have hPPj : ¬(n.previousSibling = none ∧ n.parent = some j) := by
        rintro ⟨hc, -⟩
        rw [hpi] at hc
        cases hc
      have hQj : n.nextSibling ≠ some j := by
        intro hqj'
        obtain ⟨mq₂, hmq₂a, hmq₂p, -⟩ := hinv.next_prev t n j hget hqj'
        rw [hmja] at hmq₂a
        cases Option.some.inj hmq₂a
        obtain ⟨L, hL⟩ := (hinv.next_halts t n hget).to_walk
        have hgt : Arena.stepNext a t = some j := by
          show (a.get t).bind (fun m => m.nextSibling) = some j
          rw [hget, Option.some_bind, hqj']
        have hgj : Arena.stepNext a j = some i := by
          show (a.get j).bind (fun m => m.nextSibling) = some i
          rw [hmja, Option.some_bind, hmjn]
        have hgi : Arena.stepNext a i = some t := by
          show (a.get i).bind (fun m => m.nextSibling) = some t
          rw [hmp, Option.some_bind, hmpn]
        have hjL : j ∈ L := hL.mem_next hL.head_mem hgt
        have hiL : i ∈ L := hL.mem_next hjL hgj
        exact walk_no_cycle hL hiL hgi
      refine ⟨mj, ?_, hmjn⟩
      rw [hframe j hjt hjcs hPj hPPj hQj]
      exact hmja
    · -- the parent
      have hj' : mq.previousSibling = some j := hj
      obtain ⟨mj, hmja, hmjn⟩ := hinv.prev_next i mq j hmq hj'
      have hjt : j ≠ t := by
        rintro rfl
        rw [hget] at hmja
        cases Option.some.inj hmja
        exact hinv.parent_ne_next hget hmjn hpp
      have hjcs : j ∉ cs := by
        intro hc
        obtain ⟨mj₃, hmj₃, hmj₃p, -⟩ := hcs j hc
        rw [hmja] at hmj₃
        cases Option.some.inj hmj₃
        obtain ⟨mi₂, hmi₂, -, hmi₂par⟩ := hinv.next_prev j mj i hmja hmjn
        rw [hmq] at hmi₂
        cases Option.some.inj hmi₂
        refine (hinv.parent_halts t n hget).no_two_cycle (hstept hpp) ?_
        show (a.get i).bind (fun m => m.parent) = some t
        rw [hmq, Option.some_bind, hmi₂par, hmj₃p]
      have hPj : n.previousSibling ≠ some j := by
        rw [hpn]
        exact fun hc => Option.noConfusion hc
      have hPPj : ¬(n.previousSibling = none ∧ n.parent = some j) := by
        rintro ⟨-, hc⟩
        rw [hpp] at hc
        cases Option.some.inj hc
        exact hinv.prev_ne_self hmq hj'
      have hQj : n.nextSibling ≠ some j := by
        intro hqj'
        obtain ⟨mq₂, hmq₂a, hmq₂p, hmq₂par⟩ := hinv.next_prev t n j hget hqj'
        rw [hmja] at hmq₂a
        cases Option.some.inj hmq₂a
        obtain ⟨mi₂, hmi₂, -, hmi₂par⟩ := hinv.next_prev j mj i hmja hmjn
        rw [hmq] at hmi₂
        cases Option.some.inj hmi₂
        have : mq.parent = some i := by
          rw [hmi₂par, hmq₂par, hpp]
        exact hinv.parent_ne_self hmq this
      refine ⟨mj, ?_, hmjn⟩
      rw [hframe j hjt hjcs hPj hPPj hQj]
      exact hmja
    · -- old next sibling: new previous is n's old previous
      have hj' : n.previousSibling = some j := hj
      obtain ⟨mp, hmpa, hmp'⟩ := hprev j hj'
      refine ⟨{ mp with nextSibling := n.nextSibling }, hmp', ?_⟩
      show n.nextSibling = some i
      exact hqi
    · -- untouched
      obtain ⟨mj, hmja, hmjn⟩ := hinv.prev_next i mi' j hfr hj
      have hjt : j ≠ t := by
        rintro rfl
        rw [hget] at hmja
        cases Option.some.inj hmja
        exact hqi hmjn
      by_cases hjcs : j ∈ cs
      · exfalso
        exact hics (hcsnext j hjcs mj hmja i hmjn)
      by_cases hpj : n.previousSibling = some j
      · exfalso
        obtain ⟨mp₂, hmp₂a, hmp₂n⟩ := hinv.prev_next t n j hget hpj
        rw [hmja] at hmp₂a
        cases Option.some.inj hmp₂a
        rw [hmjn] at hmp₂n
        exact hit (Option.some.inj hmp₂n)
      by_cases hppj : n.previousSibling = none ∧ n.parent = some j
      · obtain ⟨mq, hmqa, hmq'⟩ := hpar j hppj.1 hppj.2
        rw [hmja] at hmqa
        cases Option.some.inj hmqa
        exact ⟨{ mj with firstChild := n.nextSibling }, hmq', hmjn⟩
      by_cases hqj : n.nextSibling = some j
      · obtain ⟨mq, hmqa, hmq'⟩ := hnext j hqj
        rw [hmja] at hmqa
        cases Option.some.inj hmqa
        exact ⟨{ mj with previousSibling := n.previousSibling }, hmq', hmjn⟩
      · refine ⟨mj, ?_, hmjn⟩
        rw [hframe j hjt hjcs hpj hppj hqj]
        exact hmja
  · -- first_child
    intro i mi' c hi hc
    rcases hclass i mi' hi with ⟨hics, m, hm, hmp, rfl⟩ | ⟨hics, hpi, mp, hmp, hmpn, hmppar, rfl⟩ |
      ⟨hics, hpn, hpp, mq, hmq, hmqf, rfl⟩ | ⟨hics, hqi, mq, hmq, hmqp, hmqpar, rfl⟩ |
      ⟨hit, hics, hpi, hppi, hqi, hfr⟩
    · -- orphaned child keeps its own children
      have hc' : m.firstChild = some c := hc
      obtain ⟨mc, hmca, hmcp, hmcprev⟩ := hinv.first_child i m c hm hc'
      have hiparent : Arena.stepParent a i = some t := by
        show (a.get i).bind (fun mm => mm.parent) = some t
        rw [hm, Option.some_bind, hmp]
      have hcparent : Arena.stepParent a c = some i := by
        show (a.get c).bind (fun mm => mm.parent) = some i
        rw [hmca, Option.some_bind, hmcp]
      have hct : c ≠ t := by
        rintro rfl
        exact (hinv.parent_halts i m hm).no_two_cycle hiparent hcparent
      have hccs : c ∉ cs := by
        intro hc₂
        obtain ⟨mc₃, hmc₃, hmc₃p, -⟩ := hcs c hc₂
        rw [hmca] at hmc₃
        cases Option.some.inj hmc₃
        rw [hmcp] at hmc₃p
        cases Option.some.inj hmc₃p
        exact htcs hics
      have hcP : n.previousSibling ≠ some c := by
        intro hpc
        obtain ⟨mp₂, hmp₂a, hmp₂n⟩ := hinv.prev_next t n c hget hpc
        rw [hmca] at hmp₂a
        cases Option.some.inj hmp₂a
        obtain ⟨n₂, hn₂, -, hn₂par⟩ := hinv.next_prev c mc t hmca hmp₂n
        rw [hget] at hn₂
        cases Option.some.inj hn₂
        obtain ⟨L, hL⟩ := (hinv.parent_halts t n hget).to_walk
        have hgt : Arena.stepParent a t = some i := by
          show (a.get t).bind (fun mm => mm.parent) = some i
          rw [hget, Option.some_bind, hn₂par, hmcp]
        have hiL : i ∈ L := hL.mem_next hL.head_mem hgt
        exact walk_no_cycle hL hiL hiparent
      have hcPP : ¬(n.previousSibling = none ∧ n.parent = some c) := by
        rintro ⟨-, hppc⟩
        obtain ⟨L, hL⟩ := (hinv.parent_halts t n hget).to_walk
        have hcL : c ∈ L := hL.mem_next hL.head_mem (hstept hppc)
        have hiL : i ∈ L := hL.mem_next hcL hcparent
        exact walk_no_cycle hL hiL hiparent
      have hcQ : n.nextSibling ≠ some c := by
        intro hqc
        obtain ⟨mq₂, hmq₂a, -, hmq₂par⟩ := hinv.next_prev t n c hget hqc
        rw [hmca] at hmq₂a
        cases Option.some.inj hmq₂a
        rw [hmcp] at hmq₂par
        obtain ⟨L, hL⟩ := (hinv.parent_halts t n hget).to_walk
        have hgt : Arena.stepParent a t = some i := by
          show (a.get t).bind (fun mm => mm.parent) = some i
          rw [hget, Option.some_bind, ← hmq₂par]
        have hiL : i ∈ L := hL.mem_next hL.head_mem hgt
        exact walk_no_cycle hL hiL hiparent
      refine ⟨mc, ?_, hmcp, hmcprev⟩
      rw [hframe c hct hccs hcP hcPP hcQ]
      exact hmca
    · -- old previous sibling
      have hc' : mp.firstChild = some c := hc
      obtain ⟨mc, hmca, hmcp, hmcprev⟩ := hinv.first_child i mp c hmp hc'
      have hct : c ≠ t := by
        rintro rfl
        rw [hget] at hmca
        cases Option.some.inj hmca
        rw [hpi] at hmcprev
        cases hmcprev
      have hccs : c ∉ cs := by
        intro hc₂
        obtain ⟨mc₃, hmc₃, hmc₃p, -⟩ := hcs c hc₂
        rw [hmca] at hmc₃
        cases Option.some.inj hmc₃
        have hit2 : i = t := Option.some.inj (hmcp.symm.trans hmc₃p)
        exact hPt (hit2 ▸ hpi)
      have hcP : n.previousSibling ≠ some c := by
        intro hc₂
        rw [hpi] at hc₂
        cases Option.some.inj hc₂
        rw [hmp] at hmca
        cases Option.some.inj hmca
        exact hinv.parent_ne_self hmp hmcp
      have hcPP : ¬(n.previousSibling = none ∧ n.parent = some c) := by
        rintro ⟨hcn, -⟩
        rw [hpi] at hcn
        cases hcn
      have hcQ : n.nextSibling ≠ some c := by
        intro hq'
        obtain ⟨mq₂, hmq₂a, hmq₂p, -⟩ := hinv.next_prev t n c hget hq'
        rw [hmca] at hmq₂a
        cases Option.some.inj hmq₂a
        rw [hmq₂p] at hmcprev
        cases hmcprev
      refine ⟨mc, ?_, hmcp, hmcprev⟩
      rw [hframe c hct hccs hcP hcPP hcQ]
      exact hmca
    · -- the parent: its new first child is n's old next sibling
      have hc' : n.nextSibling = some c := hc
      obtain ⟨mq₂, hmq₂a, hmq₂p, hmq₂par⟩ := hinv.next_prev t n c hget hc'
      obtain ⟨mq', hmq'a, hmq''⟩ := hnext c hc'
      rw [hmq₂a] at hmq'a
      cases Option.some.inj hmq'a
      refine ⟨{ mq₂ with previousSibling := n.previousSibling }, hmq'', ?_, ?_⟩
      · show mq₂.parent = some i
        rw [hmq₂par, hpp]
      · show n.previousSibling = none
        exact hpn
    · -- old next sibling
      have hc' : mq.firstChild = some c := hc
      obtain ⟨mc, hmca, hmcp, hmcprev⟩ := hinv.first_child i mq c hmq hc'
      have hct : c ≠ t := by
        rintro rfl
        rw [hget] at hmca
        cases Option.some.inj hmca
        exact hinv.parent_ne_next hget hqi hmcp
      have hccs : c ∉ cs := by
        intro hc₂
        obtain ⟨mc₃, hmc₃, hmc₃p, -⟩ := hcs c hc₂
        rw [hmca] at hmc₃
        cases Option.some.inj hmc₃
        have hit2 : i = t := Option.some.inj (hmcp.symm.trans hmc₃p)
        exact hQt (hit2 ▸ hqi)
      have hcP : n.previousSibling ≠ some c := by
        intro hpc
        obtain ⟨mp₂, hmp₂a, hmp₂n⟩ := hinv.prev_next t n c hget hpc
        rw [hmca] at hmp₂a
        cases Option.some.inj hmp₂a
        obtain ⟨n₂, hn₂, -, hn₂par⟩ := hinv.next_prev c mc t hmca hmp₂n
        rw [hget] at hn₂
        cases Option.some.inj hn₂
        exact hinv.parent_ne_next hget hqi (by rw [hn₂par, hmcp])
      have hcPP : ¬(n.previousSibling = none ∧ n.parent = some c) := by
        rintro ⟨-, hppc⟩
        apply (hinv.parent_halts i mq hmq).no_two_cycle
        · show (a.get i).bind (fun mm => mm.parent) = some c
          rw [hmq, Option.some_bind, hmqpar, hppc]
        · show (a.get c).bind (fun mm => mm.parent) = some i
          rw [hmca, Option.some_bind, hmcp]
      have hcQ : n.nextSibling ≠ some c := by
        intro hq'
        rw [hqi] at hq'
        cases Option.some.inj hq'
        rw [hmq] at hmca
        cases Option.some.inj hmca
        exact hinv.parent_ne_self hmq hmcp
      refine ⟨mc, ?_, hmcp, hmcprev⟩
      rw [hframe c hct hccs hcP hcPP hcQ]
      exact hmca
    · -- untouched
      obtain ⟨mc, hmca, hmcp, hmcprev⟩ := hinv.first_child i mi' c hfr hc
      have hct : c ≠ t := by
        rintro rfl
        rw [hget] at hmca
        cases Option.some.inj hmca
        exact hppi ⟨hmcprev, hmcp⟩
      by_cases hccs : c ∈ cs
      · exfalso
        obtain ⟨mc₃, hmc₃, hmc₃p, -⟩ := hcs c hccs
        rw [hmca] at hmc₃
        cases Option.some.inj hmc₃
        rw [hmcp] at hmc₃p
        cases Option.some.inj hmc₃p
        exact hit rfl
      by_cases hpc : n.previousSibling = some c
      · obtain ⟨mp, hmpa, hmp'⟩ := hprev c hpc
        rw [hmca] at hmpa
        cases Option.some.inj hmpa
        exact ⟨{ mc with nextSibling := n.nextSibling }, hmp', hmcp, hmcprev⟩
      by_cases hppc : n.previousSibling = none ∧ n.parent = some c
      · obtain ⟨mq, hmqa, hmq'⟩ := hpar c hppc.1 hppc.2
        rw [hmca] at hmqa
        cases Option.some.inj hmqa
        exact ⟨{ mc with firstChild := n.nextSibling }, hmq', hmcp, hmcprev⟩
      by_cases hqc : n.nextSibling = some c
      · exfalso
        obtain ⟨mq₂, hmq₂a, hmq₂p, -⟩ := hinv.next_prev t n c hget hqc
        rw [hmca] at hmq₂a
        cases Option.some.inj hmq₂a
        rw [hmq₂p] at hmcprev
        cases hmcprev
      · refine ⟨mc, ?_, hmcp, hmcprev⟩
        rw [hframe c hct hccs hpc hppc hqc]
        exact hmca
  · -- parent_first
    intro i mi' pr hi hpr
    rcases hclass i mi' hi with ⟨hics, m, hm, hmp, rfl⟩ | ⟨hics, hpi, mp, hmp, hmpn, hmppar, rfl⟩ |
      ⟨hics, hpn, hpp, mq, hmq, hmqf, rfl⟩ | ⟨hics, hqi, mq, hmq, hmqp, hmqpar, rfl⟩ |
      ⟨hit, hics, hpi, hppi, hqi, hfr⟩
    · exact Option.noConfusion hpr
    · -- old previous sibling
      have hpr' : mp.parent = some pr := hpr
      obtain ⟨qn, hqna, hqnf⟩ := hinv.parent_first i mp pr hmp hpr'
      have hnppr : n.parent = some pr := by
        rw [← hmppar]
        exact hpr'
      have hprt : pr ≠ t := fun he => hPPt (he ▸ hnppr)
      have hprcs : pr ∉ cs := by
        intro hc₂
        obtain ⟨mpr, hmpr, hmprp, -⟩ := hcs pr hc₂
        refine (hinv.parent_halts t n hget).no_two_cycle (hstept hnppr) ?_
        show (a.get pr).bind (fun mm => mm.parent) = some t
        rw [hmpr, Option.some_bind, hmprp]
      have hprP : n.previousSibling ≠ some pr := by
        intro hc₂
        rw [hpi] at hc₂
        cases Option.some.inj hc₂
        exact hinv.parent_ne_self hmp hpr'
      have hprPP : ¬(n.previousSibling = none ∧ n.parent = some pr) := by
        rintro ⟨hcn, -⟩
        rw [hpi] at hcn
        cases hcn
      have hprQ : n.nextSibling ≠ some pr := by
        intro hq'
        exact hinv.parent_ne_next hget hq' hnppr
      refine ⟨qn, ?_, fun h => hqnf h⟩
      rw [hframe pr hprt hprcs hprP hprPP hprQ]
      exact hqna
    · -- the parent
      have hpr' : mq.parent = some pr := hpr
      obtain ⟨qn, hqna, hqnf⟩ := hinv.parent_first i mq pr hmq hpr'
      have hprt : pr ≠ t := by
        intro he
        refine (hinv.parent_halts t n hget).no_two_cycle (hstept hpp) ?_
        show (a.get i).bind (fun mm => mm.parent) = some t
        rw [hmq, Option.some_bind, hpr', he]
      have hprcs : pr ∉ cs := by
        intro hc₂
        obtain ⟨mpr, hmpr, hmprp, -⟩ := hcs pr hc₂
        obtain ⟨L, hL⟩ := (hinv.parent_halts t n hget).to_walk
        have hgi : Arena.stepParent a i = some pr := by
          show (a.get i).bind (fun mm => mm.parent) = some pr
          rw [hmq, Option.some_bind, hpr']
        have hgpr : Arena.stepParent a pr = some t := by
          show (a.get pr).bind (fun mm => mm.parent) = some t
          rw [hmpr, Option.some_bind, hmprp]
        have hiL : i ∈ L := hL.mem_next hL.head_mem (hstept hpp)
        have hprL : pr ∈ L := hL.mem_next hiL hgi
        exact walk_no_cycle hL hprL hgpr
      have hprP : n.previousSibling ≠ some pr := by
        rw [hpn]
        exact fun hc₂ => Option.noConfusion hc₂
      have hprPP : ¬(n.previousSibling = none ∧ n.parent = some pr) := by
        rintro ⟨-, hc₂⟩
        rw [hpp] at hc₂
        cases Option.some.inj hc₂
        exact hinv.parent_ne_self hmq hpr'
      have hprQ : n.nextSibling ≠ some pr := by
        intro hq'
        obtain ⟨mq₂, hmq₂a, hmq₂p, hmq₂par⟩ := hinv.next_prev t n pr hget hq'
        apply (hinv.parent_halts i mq hmq).no_two_cycle
        · show (a.get i).bind (fun mm => mm.parent) = some pr
          rw [hmq, Option.some_bind, hpr']
        · show (a.get pr).bind (fun mm => mm.parent) = some i
          rw [hmq₂a, Option.some_bind, hmq₂par, hpp]
      refine ⟨qn, ?_, fun h => hqnf h⟩
      rw [hframe pr hprt hprcs hprP hprPP hprQ]
      exact hqna
    · -- old next sibling
      have hpr' : mq.parent = some pr := hpr
      have hnpr : n.parent = some pr := by
        rw [← hmqpar]
        exact hpr'
      cases hP : n.previousSibling with
      | none =>
        obtain ⟨mqq, hmqqa, hmqq'⟩ := hpar pr hP hnpr
        refine ⟨{ mqq with firstChild := n.nextSibling }, hmqq', ?_⟩
        intro _
        show n.nextSibling = some i
        exact hqi
      | some p' =>
        have hprt : pr ≠ t := fun he => hPPt (he ▸ hnpr)
        have hprcs : pr ∉ cs := by
          intro hc₂
          obtain ⟨mpr, hmpr, hmprp, -⟩ := hcs pr hc₂
          refine (hinv.parent_halts t n hget).no_two_cycle (hstept hnpr) ?_
          show (a.get pr).bind (fun mm => mm.parent) = some t
          rw [hmpr, Option.some_bind, hmprp]
        have hprP : n.previousSibling ≠ some pr := by
          intro hc₂
          exact hinv.parent_ne_prev hget hc₂ hnpr
        have hprPP : ¬(n.previousSibling = none ∧ n.parent = some pr) := by
          rintro ⟨hcn, -⟩
          rw [hP] at hcn
          cases hcn
        have hprQ : n.nextSibling ≠ some pr := by
          intro hq'
          rw [hqi] at hq'
          cases Option.some.inj hq'
          exact hinv.parent_ne_self hmq hpr'
        obtain ⟨qn, hqna, -⟩ := hinv.parent_first t n pr hget hnpr
        refine ⟨qn, ?_, ?_⟩
        · rw [hframe pr hprt hprcs hprP hprPP hprQ]
          exact hqna
        · intro hcon
          exact Option.noConfusion hcon
    · -- untouched
      obtain ⟨qn, hqna, hqnf⟩ := hinv.parent_first i mi' pr hfr hpr
      have hprt : pr ≠ t := by
        intro he
        rw [he, hget] at hqna
        cases Option.some.inj hqna
        exact hics (hpar_t_mem i mi' hfr (he ▸ hpr))
      by_cases hprcs : pr ∈ cs
      · obtain ⟨mpr, hmpr, hmprp, hmpr'⟩ := hcs pr hprcs
        rw [hqna] at hmpr
        cases Option.some.inj hmpr
        exact ⟨{ qn with parent := none }, hmpr', fun h => hqnf h⟩
      by_cases hprP : n.previousSibling = some pr
      · obtain ⟨mp, hmpa, hmp'⟩ := hprev pr hprP
        rw [hqna] at hmpa
        cases Option.some.inj hmpa
        exact ⟨{ qn with nextSibling := n.nextSibling }, hmp', fun h => hqnf h⟩
      by_cases hprPP : n.previousSibling = none ∧ n.parent = some pr
      · obtain ⟨mqq, hmqqa, hmqq'⟩ := hpar pr hprPP.1 hprPP.2
        rw [hqna] at hmqqa
        cases Option.some.inj hmqqa
        obtain ⟨q₂, hq₂, hq₂f⟩ := hinv.parent_first t n pr hget hprPP.2
        rw [hqna] at hq₂
        cases Option.some.inj hq₂
        refine ⟨{ qn with firstChild := n.nextSibling }, hmqq', ?_⟩
        intro h
        exact ((hit (Option.some.inj ((hqnf h).symm.trans (hq₂f hprPP.1)))).elim :
          ({ qn with firstChild := n.nextSibling } : Node T).firstChild = some i)
      by_cases hprQ : n.nextSibling = some pr
      · obtain ⟨mq, hmqa, hmq'⟩ := hnext pr hprQ
        rw [hqna] at hmqa
        cases Option.some.inj hmqa
        exact ⟨{ qn with previousSibling := n.previousSibling }, hmq', fun h => hqnf h⟩
      · refine ⟨qn, ?_, fun h => hqnf h⟩
        rw [hframe pr hprt hprcs hprP hprPP hprQ]
        exact hqna
  · -- parent_halts
    intro i mi' hi
    obtain ⟨mi, hmia⟩ := hoccA i mi' hi
    obtain ⟨L, hL⟩ := (hinv.parent_halts i mi hmia).to_walk
    refine halts_transport hL ?_
    intro j hjL
    by_cases hjt : j = t
    · refine Or.inr (Halts.stop ?_)
      rw [hjt]
      show (a'.get t).bind (fun m => m.parent) = none
      rw [hatn]
      rfl
    by_cases hjcs : j ∈ cs
    · obtain ⟨m, hm, -, hm'⟩ := hcs j hjcs
      refine Or.inr (Halts.stop ?_)
      show (a'.get j).bind (fun m => m.parent) = none
      rw [hm']
      rfl
    · exact Or.inl (hparEq j hjt hjcs)
  · -- prev_halts
    intro i mi' hi
    obtain ⟨mi, hmia⟩ := hoccA i mi' hi
    obtain ⟨L, hL⟩ := (hinv.prev_halts i mi hmia).to_walk
    have hq_halts : ∀ j, n.nextSibling = some j → Halts (Arena.stepPrev a') j := by
      intro j hqj
      obtain ⟨mq', hmq'a, hmq''⟩ := hnext j hqj
      have hgj : Arena.stepPrev a' j = n.previousSibling := by
        show (a'.get j).bind (fun m => m.previousSibling) = n.previousSibling
        rw [hmq'']
        rfl
      cases hP : n.previousSibling with
      | none =>
        refine Halts.stop ?_
        rw [hgj, hP]
      | some p' =>
        obtain ⟨mp', hmp'a, hmp'n⟩ := hinv.prev_next t n p' hget hP
        obtain ⟨Wp, hWp⟩ := (hinv.prev_halts p' mp' hmp'a).to_walk
        refine Halts.step (by rw [hgj, hP]) (halts_transport hWp ?_)
        intro k hkW
        have hkt : k ≠ t := by
          intro he
          refine walk_no_cycle hWp (he ▸ hkW) ?_
          show (a.get t).bind (fun m => m.previousSibling) = some p'
          rw [hget, Option.some_bind, hP]
        have hkq : n.nextSibling ≠ some k := by
          intro hqk
          obtain ⟨mq₂, hmq₂a, hmq₂p, -⟩ := hinv.next_prev t n k hget hqk
          have hgk : Arena.stepPrev a k = some t := by
            show (a.get k).bind (fun m => m.previousSibling) = some t
            rw [hmq₂a, Option.some_bind, hmq₂p]
          have htW : t ∈ Wp := hWp.mem_next hkW hgk
          refine walk_no_cycle hWp htW ?_
          show (a.get t).bind (fun m => m.previousSibling) = some p'
          rw [hget, Option.some_bind, hP]
        exact Or.inl (hprevEq k hkt hkq)
    refine halts_transport hL ?_
    intro j hjL
    by_cases hjt : j = t
    · refine Or.inr (Halts.stop ?_)
      rw [hjt]
      show (a'.get t).bind (fun m => m.previousSibling) = none
      rw [hatn]
      rfl
    by_cases hjq : n.nextSibling = some j
    · exact Or.inr (hq_halts j hjq)
    · exact Or.inl (hprevEq j hjt hjq)
  · -- next_halts
    intro i mi' hi
    obtain ⟨mi, hmia⟩ := hoccA i mi' hi
    obtain ⟨L, hL⟩ := (hinv.next_halts i mi hmia).to_walk
    have hp_halts : ∀ j, n.previousSibling = some j → Halts (Arena.stepNext a') j := by
      intro j hpj
      obtain ⟨mp', hmp'a, hmp''⟩ := hprev j hpj
      have hgj : Arena.stepNext a' j = n.nextSibling := by
        show (a'.get j).bind (fun m => m.nextSibling) = n.nextSibling
        rw [hmp'']
        rfl
      cases hQ : n.nextSibling with
      | none =>
        refine Halts.stop ?_
        rw [hgj, hQ]
      | some q' =>
        obtain ⟨mq', hmq'a, hmq'p, -⟩ := hinv.next_prev t n q' hget hQ
        obtain ⟨Wq, hWq⟩ := (hinv.next_halts q' mq' hmq'a).to_walk
        refine Halts.step (by rw [hgj, hQ]) (halts_transport hWq ?_)
        intro k hkW
        have hkt : k ≠ t := by
          intro he
          refine walk_no_cycle hWq (he ▸ hkW) ?_
          show (a.get t).bind (fun m => m.nextSibling) = some q'
          rw [hget, Option.some_bind, hQ]
        have hkp : n.previousSibling ≠ some k := by
          intro hpk
          obtain ⟨mp₂, hmp₂a, hmp₂n⟩ := hinv.prev_next t n k hget hpk
          have hgk : Arena.stepNext a k = some t := by
            show (a.get k).bind (fun m => m.nextSibling) = some t
            rw [hmp₂a, Option.some_bind, hmp₂n]
          have htW : t ∈ Wq := hWq.mem_next hkW hgk
          refine walk_no_cycle hWq htW ?_
          show (a.get t).bind (fun m => m.nextSibling) = some q'
          rw [hget, Option.some_bind, hQ]
        exact Or.inl (hnextEq k hkt hkp)
    refine halts_transport hL ?_
    intro j hjL
    by_cases hjt : j = t
    · refine Or.inr (Halts.stop ?_)
      rw [hjt]
      show (a'.get t).bind (fun m => m.nextSibling) = none
      rw [hatn]
      rfl
    by_cases hjp : n.previousSibling = some j
    · exact Or.inr (hp_halts j hjp)
    · exact Or.inl (hnextEq j hjt hjp)

theorem pforest_head_mem {T : Type} {a : Arena T} {s : Nat} {l : List Nat}
    (h : PForest a (some s) l) : s ∈ l := by
  cases h
  exact List.mem_append.mpr (Or.inr (List.mem_cons_self _ _))

theorem walk_last_none {g : Nat → Option Nat} :
    ∀ {i L}, Walk g i L → ∃ z ∈ L, g z = none := by
  intro i L h
  induction h with
  | last hg => exact ⟨_, List.mem_singleton_self _, hg⟩
  | step hg hw ih =>
    obtain ⟨z, hz, hgz⟩ := ih
    exact ⟨z, List.mem_cons_of_mem _ hz, hgz⟩

theorem walk_closed_subset {g : Nat → Option Nat} {S : Nat → Prop} :
    ∀ {i L}, Walk g i L → S i → (∀ j k, S j → g j = some k → S k) → ∀ j ∈ L, S j := by
  intro i L h
  induction h with
  | last hg =>
    intro hS hcl j hj
    rcases List.mem_singleton.mp hj with rfl
    exact hS
  | step hg hw ih =>
    intro hS hcl j hj
    rcases List.mem_cons.mp hj with rfl | hj'
    · exact hS
    · exact ih (hcl _ _ hS hg) hcl j hj'

/-- Link closure of a post-order forest: members' sibling and child links
stay inside the forest, parents stay inside or hit the hook parent, and
every member has a parent. -/
theorem pforest_links {T : Type} {a : Arena T} (hinv : Inv a) :
    ∀ {o l}, PForest a o l →
    ∀ (pt : Nat) (pv : Option Nat),
      (∀ x, o = some x → ∃ nx, a.get x = some nx ∧ nx.parent = some pt ∧
        nx.previousSibling = pv) →
      ∀ d ∈ l, ∀ md, a.get d = some md →
        (∀ j, md.nextSibling = some j → j ∈ l) ∧
        (∀ j, md.previousSibling = some j → j ∈ l ∨ pv = some j) ∧
        (∀ j, md.parent = some j → j = pt ∨ j ∈ l) ∧
        (∀ j, md.firstChild = some j → j ∈ l) ∧
        (∃ j, md.parent = some j) := by
  intro o l h
  induction h with
  | nil =>
    intro pt pv hhook d hd
    cases hd
  | cons hx hl₁ hl₂ ih₁ ih₂ =>
    rename_i x nx l₁ l₂
    intro pt pv hhook d hd md hmd
    obtain ⟨nx', hnx', hnx'p, hnx'v⟩ := hhook x rfl
    rw [hx] at hnx'
    cases Option.some.inj hnx'
    have hhook₁ : ∀ c, nx.firstChild = some c → ∃ nc, a.get c = some nc ∧
        nc.parent = some x ∧ nc.previousSibling = none := by
      intro c hc
      obtain ⟨nc, hnc, hncp, hncv⟩ := hinv.first_child x nx c hx hc
      exact ⟨nc, hnc, hncp, hncv⟩
    have hhook₂ : ∀ s, nx.nextSibling = some s → ∃ ns, a.get s = some ns ∧
        ns.parent = some pt ∧ ns.previousSibling = some x := by
      intro s hs
      obtain ⟨ns, hns, hnsv, hnspar⟩ := hinv.next_prev x nx s hx hs
      exact ⟨ns, hns, by rw [hnspar, hnx'p], hnsv⟩
    rcases List.mem_append.mp hd with hd₁ | hd₂
    · obtain ⟨hN, hP, hPA, hFC, hPS⟩ := ih₁ x none hhook₁ d hd₁ md hmd
      refine ⟨?_, ?_, ?_, ?_, hPS⟩
      · intro j hj
        exact List.mem_append.mpr (Or.inl (hN j hj))
      · intro j hj
        rcases hP j hj with hj' | hj''
        · exact Or.inl (List.mem_append.mpr (Or.inl hj'))
        · cases hj''
      · intro j hj
        rcases hPA j hj with rfl | hj'
        · exact Or.inr (List.mem_append.mpr (Or.inr (List.mem_cons_self _ _)))
        · exact Or.inr (List.mem_append.mpr (Or.inl hj'))
      · intro j hj
        exact List.mem_append.mpr (Or.inl (hFC j hj))
    rcases List.mem_cons.mp hd₂ with rfl | hd₃
    · -- d = x, the chain element itself
      rw [hx] at hmd
      cases Option.some.inj hmd
      refine ⟨?_, ?_, ?_, ?_, pt, hnx'p⟩
      · intro j hj
        rw [hj] at hl₂
        exact List.mem_append.mpr (Or.inr (List.mem_cons_of_mem _ (pforest_head_mem hl₂)))
      · intro j hj
        exact Or.inr (by rw [← hnx'v, hj])
      · intro j hj
        exact Or.inl (Option.some.inj (hnx'p.symm.trans hj)).symm
      · intro j hj
        rw [hj] at hl₁
        exact List.mem_append.mpr (Or.inl (pforest_head_mem hl₁))
    · obtain ⟨hN, hP, hPA, hFC, hPS⟩ := ih₂ pt (some x) hhook₂ d hd₃ md hmd
      refine ⟨?_, ?_, ?_, ?_, hPS⟩
      · intro j hj
        exact List.mem_append.mpr (Or.inr (List.mem_cons_of_mem _ (hN j hj)))
      · intro j hj
        rcases hP j hj with hj' | hj''
        · exact Or.inl (List.mem_append.mpr (Or.inr (List.mem_cons_of_mem _ hj')))
        · cases Option.some.inj hj''
          exact Or.inl (List.mem_append.mpr (Or.inr (List.mem_cons_self _ _)))
      · intro j hj
        rcases hPA j hj with rfl | hj'
        · exact Or.inl rfl
        · exact Or.inr (List.mem_append.mpr (Or.inr (List.mem_cons_of_mem _ hj')))
      · intro j hj
        exact List.mem_append.mpr (Or.inr (List.mem_cons_of_mem _ (hFC j hj)))

/-- `Token::remove_descendants` preserves the structural invariant and the
root clause. -/
theorem removeDescendants_pres {T : Type} {a : Arena T} (hinv : Inv a) {t : Nat} {n : Node T}
    (hget : a.get t = some n) :
    ∃ a', removeDescendants t a = some a' ∧ Inv a' ∧ (RootsClean a → RootsClean a') := by
  obtain ⟨a', ds, hPF, hrun, hcap, hcnt, hwf, hat, hfree, hframe⟩ :=
    removeDescendants_spec hinv hget
  have hhook : ∀ x, n.firstChild = some x → ∃ nx, a.get x = some nx ∧
      nx.parent = some t ∧ nx.previousSibling = none := by
    intro x hx
    obtain ⟨nx, hnx, hnxp, hnxv⟩ := hinv.first_child t n x hget hx
    exact ⟨nx, hnx, hnxp, hnxv⟩
  have hlinks := pforest_links hinv hPF t none hhook
  have htds : t ∉ ds := by
    intro h
    have h1 := hfree t h
    rw [hat] at h1
    cases h1
  have hdocc : ∀ d ∈ ds, ∃ md, a.get d = some md := PForest.occupied hPF
  have hchild_mem : ∀ i mi, a.get i = some mi → ∀ w, mi.parent = some w →
      (w = t ∨ w ∈ ds) → i ∈ ds := by
    intro i mi hmi w hw hwcase
    obtain ⟨cs', hcs', hmem⟩ := hinv.mem_children hmi hw
    unfold childrenTokensList at hcs'
    rcases hwcase with rfl | hwds
    · rw [hget, Option.some_bind] at hcs'
      cases hfc : n.firstChild with
      | none =>
        rw [hfc, tokenIterCollect_none] at hcs'
        cases Option.some.inj hcs'
        cases hmem
      | some c₀ =>
        rw [hfc] at hcs'
        have hw₀ := collect_walk hcs'
        rw [hfc] at hPF
        refine walk_closed_subset hw₀ (pforest_head_mem hPF) ?_ i hmem
        intro j k hj hgk
        obtain ⟨mj, hmj⟩ := hdocc j hj
        have hgk' : mj.nextSibling = some k := by
          rw [hmj, Option.some_bind] at hgk
          exact hgk
        exact (hlinks j hj mj hmj).1 k hgk'
    · obtain ⟨mw, hmw⟩ := hdocc w hwds
      rw [hmw, Option.some_bind] at hcs'
      cases hfc : mw.firstChild with
      | none =>
        rw [hfc, tokenIterCollect_none] at hcs'
        cases Option.some.inj hcs'
        cases hmem
      | some c₀ =>
        rw [hfc] at hcs'
        have hw₀ := collect_walk hcs'
        refine walk_closed_subset hw₀ ((hlinks w hwds mw hmw).2.2.2.1 c₀ hfc) ?_ i hmem
        intro j k hj hgk
        obtain ⟨mj, hmj⟩ := hdocc j hj
        have hgk' : mj.nextSibling = some k := by
          rw [hmj, Option.some_bind] at hgk
          exact hgk
        exact (hlinks j hj mj hmj).1 k hgk'
  have hpar_not_ds : ∀ pr, n.parent = some pr → pr ∉ ds := by
    intro pr hpr hprds
    obtain ⟨W, hW⟩ := (hinv.parent_halts t n hget).to_walk
    have hsub : ∀ j ∈ W, j = t ∨ j ∈ ds := by
      refine walk_closed_subset hW (Or.inl rfl) ?_
      intro j k hj hgk
      rcases hj with rfl | hj'
      · have hgk' : n.parent = some k := by
          have h2 : (a.get j).bind (fun m => m.parent) = some k := hgk
          rw [hget, Option.some_bind] at h2
          exact h2
        cases Option.some.inj (hpr.symm.trans hgk')
        exact Or.inr hprds
      · obtain ⟨mj, hmj⟩ := hdocc j hj'
        have hgk' : mj.parent = some k := by
          have h2 : (a.get j).bind (fun m => m.parent) = some k := hgk
          rw [hmj, Option.some_bind] at h2
          exact h2
        rcases (hlinks j hj' mj hmj).2.2.1 k hgk' with rfl | hk
        · exact Or.inl rfl
        · exact Or.inr hk
    obtain ⟨z, hzW, hzg⟩ := walk_last_none hW
    rcases hsub z hzW with rfl | hzds
    · have h2 : (a.get z).bind (fun m => m.parent) = none := hzg
      rw [hget, Option.some_bind, hpr] at h2
      cases h2
    · obtain ⟨mz, hmz⟩ := hdocc z hzds
      obtain ⟨jz, hjz⟩ := (hlinks z hzds mz hmz).2.2.2.2
      have h2 : (a.get z).bind (fun m => m.parent) = none := hzg
      rw [hmz, Option.some_bind, hjz] at h2
      cases h2
  have hclass : ∀ i mi', a'.get i = some mi' →
      (i = t ∧ mi' = { n with firstChild := none }) ∨
      (i ≠ t ∧ i ∉ ds ∧ a.get i = some mi') := by
    intro i mi' hi
    by_cases hit : i = t
    · rw [hit, hat] at hi
      exact Or.inl ⟨hit, (Option.some.inj hi).symm⟩
    by_cases hids : i ∈ ds
    · rw [hfree i hids] at hi
      cases hi
    · rw [hframe i hit hids] at hi
      exact Or.inr ⟨hit, hids, hi⟩
  have hparEq : ∀ j, j ∉ ds →
      (a'.get j).bind (fun m => m.parent) = (a.get j).bind (fun m => m.parent) := by
    intro j hjds
    by_cases hjt : j = t
    · rw [hjt, hat, hget]
      rfl
    · rw [hframe j hjt hjds]
  have hprevEq : ∀ j, j ∉ ds →
      (a'.get j).bind (fun m => m.previousSibling) =
      (a.get j).bind (fun m => m.previousSibling) := by
    intro j hjds
    by_cases hjt : j = t
    · rw [hjt, hat, hget]
      rfl
    · rw [hframe j hjt hjds]
  have hnextEq : ∀ j, j ∉ ds →
      (a'.get j).bind (fun m => m.nextSibling) =
      (a.get j).bind (fun m => m.nextSibling) := by
    intro j hjds
    by_cases hjt : j = t
    · rw [hjt, hat, hget]
      rfl
    · rw [hframe j hjt hjds]
  refine ⟨a', hrun, ⟨hwf, ?_, ?_, ?_, ?_, ?_, ?_, ?_, ?_⟩, ?_⟩
  · -- token_eq
    intro i mi' hi
    rcases hclass i mi' hi with ⟨rfl, rfl⟩ | ⟨-, -, hfr⟩
    · exact hinv.token_eq i n hget
    · exact hinv.token_eq i mi' hfr
  · -- next_prev
    intro i mi' j hi hj
    rcases hclass i mi' hi with ⟨rfl, rfl⟩ | ⟨hit, hids, hfr⟩
    · have hj' : n.nextSibling = some j := hj
      obtain ⟨mj, hmja, hmjp, hmjpar⟩ := hinv.next_prev i n j hget hj'
      have hjt : j ≠ i := fun he => hinv.next_ne_self hget (he ▸ hj')
      have hjds : j ∉ ds := by
        intro hd
        rcases (hlinks j hd mj hmja).2.1 i hmjp with hi' | hn'
        · exact htds hi'
        · cases hn'
      refine ⟨mj, ?_, hmjp, hmjpar⟩
      rw [hframe j hjt hjds]
      exact hmja
    · obtain ⟨mj, hmja, hmjp, hmjpar⟩ := hinv.next_prev i mi' j hfr hj
      by_cases hjt : j = t
      · have hmj' : a.get t = some mj := hjt ▸ hmja
        rw [hget] at hmj'
        cases Option.some.inj hmj'
        refine ⟨{ n with firstChild := none }, by rw [hjt]; exact hat, hmjp, hmjpar⟩
      have hjds : j ∉ ds := by
        intro hd
        rcases (hlinks j hd mj hmja).2.1 i hmjp with hi' | hn'
        · exact hids hi'
        · cases hn'
      refine ⟨mj, ?_, hmjp, hmjpar⟩
      rw [hframe j hjt hjds]
      exact hmja
  · -- prev_next
    intro i mi' j hi hj
    rcases hclass i mi' hi with ⟨rfl, rfl⟩ | ⟨hit, hids, hfr⟩
    · have hj' : n.previousSibling = some j := hj
      obtain ⟨mj, hmja, hmjn⟩ := hinv.prev_next i n j hget hj'
      have hjt : j ≠ i := fun he => hinv.prev_ne_self hget (he ▸ hj')
      have hjds : j ∉ ds := by
        intro hd
        have := (hlinks j hd mj hmja).1 i hmjn
        exact htds this
      refine ⟨mj, ?_, hmjn⟩
      rw [hframe j hjt hjds]
      exact hmja
    · obtain ⟨mj, hmja, hmjn⟩ := hinv.prev_next i mi' j hfr hj
      by_cases hjt : j = t
      · have hmj' : a.get t = some mj := hjt ▸ hmja
        rw [hget] at hmj'
        cases Option.some.inj hmj'
        refine ⟨{ n with firstChild := none }, by rw [hjt]; exact hat, hmjn⟩
      have hjds : j ∉ ds := by
        intro hd
        exact hids ((hlinks j hd mj hmja).1 i hmjn)
      refine ⟨mj, ?_, hmjn⟩
      rw [hframe j hjt hjds]
      exact hmja
  · -- first_child
    intro i mi' c hi hc
    rcases hclass i mi' hi with ⟨rfl, rfl⟩ | ⟨hit, hids, hfr⟩
    · exact Option.noConfusion hc
    · obtain ⟨mc, hmca, hmcp, hmcprev⟩ := hinv.first_child i mi' c hfr hc
      by_cases hct : c = t
      · have hmc' : a.get t = some mc := hct ▸ hmca
        rw [hget] at hmc'
        cases Option.some.inj hmc'
        exact ⟨{ n with firstChild := none }, by rw [hct]; exact hat, hmcp, hmcprev⟩
      have hcds : c ∉ ds := by
        intro hd
        rcases (hlinks c hd mc hmca).2.2.1 i hmcp with rfl | hi'
        · exact hit rfl
        · exact hids hi'
      refine ⟨mc, ?_, hmcp, hmcprev⟩
      rw [hframe c hct hcds]
      exact hmca
  · -- parent_first
    intro i mi' pr hi hpr
    rcases hclass i mi' hi with ⟨rfl, rfl⟩ | ⟨hit, hids, hfr⟩
    · have hpr' : n.parent = some pr := hpr
      obtain ⟨qn, hqna, hqnf⟩ := hinv.parent_first i n pr hget hpr'
      have hprt : pr ≠ i := fun he => hinv.parent_ne_self hget (he ▸ hpr')
      have hprds : pr ∉ ds := hpar_not_ds pr hpr'
      refine ⟨qn, ?_, fun h => hqnf h⟩
      rw [hframe pr hprt hprds]
      exact hqna
    · obtain ⟨qn, hqna, hqnf⟩ := hinv.parent_first i mi' pr hfr hpr
      have hprt : pr ≠ t := by
        intro he
        exact hids (hchild_mem i mi' hfr pr hpr (Or.inl he))
      have hprds : pr ∉ ds := by
        intro hd
        exact hids (hchild_mem i mi' hfr pr hpr (Or.inr hd))
      refine ⟨qn, ?_, fun h => hqnf h⟩
      rw [hframe pr hprt hprds]
      exact hqna
  · -- parent_halts
    intro i mi' hi
    have hocc : ∃ mi, a.get i = some mi := by
      rcases hclass i mi' hi with ⟨rfl, -⟩ | ⟨-, -, hfr⟩
      · exact ⟨n, hget⟩
      · exact ⟨mi', hfr⟩
    obtain ⟨mi, hmia⟩ := hocc
    obtain ⟨L, hL⟩ := (hinv.parent_halts i mi hmia).to_walk
    refine halts_transport hL ?_
    intro j hjL
    by_cases hjds : j ∈ ds
    · refine Or.inr (Halts.stop ?_)
      show (a'.get j).bind (fun m => m.parent) = none
      rw [hfree j hjds]
      rfl
    · exact Or.inl (hparEq j hjds)
  · -- prev_halts
    intro i mi' hi
    have hocc : ∃ mi, a.get i = some mi := by
      rcases hclass i mi' hi with ⟨rfl, -⟩ | ⟨-, -, hfr⟩
      · exact ⟨n, hget⟩
      · exact ⟨mi', hfr⟩
    obtain ⟨mi, hmia⟩ := hocc
    obtain ⟨L, hL⟩ := (hinv.prev_halts i mi hmia).to_walk
    refine halts_transport hL ?_
    intro j hjL
    by_cases hjds : j ∈ ds
    · refine Or.inr (Halts.stop ?_)
      show (a'.get j).bind (fun m => m.previousSibling) = none
      rw [hfree j hjds]
      rfl
    · exact Or.inl (hprevEq j hjds)
  · -- next_halts
    intro i mi' hi
    have hocc : ∃ mi, a.get i = some mi := by
      rcases hclass i mi' hi with ⟨rfl, -⟩ | ⟨-, -, hfr⟩
      · exact ⟨n, hget⟩
      · exact ⟨mi', hfr⟩
    obtain ⟨mi, hmia⟩ := hocc
    obtain ⟨L, hL⟩ := (hinv.next_halts i mi hmia).to_walk
    refine halts_transport hL ?_
    intro j hjL
    by_cases hjds : j ∈ ds
    · refine Or.inr (Halts.stop ?_)
      show (a'.get j).bind (fun m => m.nextSibling) = none
      rw [hfree j hjds]
      rfl
    · exact Or.inl (hnextEq j hjds)
  · -- RootsClean
    intro hrc i mi' hi hpar'
    rcases hclass i mi' hi with ⟨rfl, rfl⟩ | ⟨-, -, hfr⟩
    · have hpar'' : n.parent = none := hpar'
      obtain ⟨h1, h2⟩ := hrc i n hget hpar''
      exact ⟨h1, h2⟩
    · exact hrc i mi' hfr hpar'

/-- `reserve` changes no `get`-visible entry: occupied slots keep their
value, the rewritten free-tail cell stays free, and the grown cells are
free. -/
theorem Allocator.reserve_get_eq {T : Type} {a a' : Allocator T} {k : Nat}
    (hres : a.reserve k = some a') (i : Nat) : a'.get i = a.get i := by
  unfold Allocator.reserve at hres
  split at hres
  · cases hres
  · cases hfla : a.findLastAvailable with
    | none => rw [hfla] at hres; cases hres
    | some r =>
      rw [hfla] at hres
      simp only [Option.some_bind] at hres
      have hnewmem : ∀ c ∈ (((List.range (k - 1)).map fun j =>
            Cell.nothing (some (a.data.length + 1 + j + 1))) ++
            [(Cell.nothing none : Cell T)]), ∃ nx, c = Cell.nothing nx := by
        intro c hc
        rcases List.mem_append.mp hc with hl | hr
        · obtain ⟨j, -, hj⟩ := List.mem_map.mp hl
          exact ⟨_, hj.symm⟩
        · rcases List.mem_singleton.mp hr with rfl
          exact ⟨none, rfl⟩
      cases r with
      | none =>
        cases hres
        show Allocator.get _ i = Allocator.get _ i
        unfold Allocator.get Allocator.getCell
        by_cases h0 : i = 0
        · simp [h0]
        simp only [if_neg h0]
        by_cases hlt : i - 1 < a.data.length
        · rw [List.get?_append hlt]
        · rw [List.get?_eq_none.mpr (by omega : a.data.length ≤ i - 1)]
          cases hc : (a.data ++ _).get? (i - 1) with
          | none => rfl
          | some c =>
            rw [List.get?_append_right (by omega : a.data.length ≤ i - 1)] at hc
            obtain ⟨nx, rfl⟩ := hnewmem c (List.get?_mem hc)
            rfl
      | some n =>
        cases hres
        have hfree : a.data.get? (n - 1) = some (Cell.nothing none) := by
          unfold Allocator.findLastAvailable at hfla
          cases hh : a.head with
          | none => rw [hh] at hfla; simp at hfla
          | some hd =>
            rw [hh] at hfla
            obtain ⟨j, hj, hjn⟩ := Option.map_eq_some'.mp hfla
            cases Option.some.inj hjn
            exact Allocator.findLastAvailableAux_points_free hj
        have hnb : n - 1 < a.data.length := (List.get?_eq_some.mp hfree).1
        show Allocator.get _ i = Allocator.get _ i
        unfold Allocator.get Allocator.getCell
        by_cases h0 : i = 0
        · simp [h0]
        simp only [if_neg h0]
        by_cases hlt : i - 1 < a.data.length
        · rw [List.get?_append (by simpa using hlt)]
          by_cases heq : i - 1 = n - 1
          · rw [heq, hfree]
            rw [List.get?_set_eq_of_lt _ hnb]
          · rw [List.get?_set_ne _ _ (by omega)]
        · rw [List.get?_eq_none.mpr (by omega : a.data.length ≤ i - 1)]
          cases hc : (a.data.set (n - 1) _ ++ _).get? (i - 1) with
          | none => rfl
          | some c =>
            rw [List.get?_append_right (by simp; omega)] at hc
            simp only [List.length_set] at hc
            obtain ⟨nx, rfl⟩ := hnewmem c (List.get?_mem hc)
            rfl

/-- `Allocator::head` changes no `get`-visible entry. -/
theorem Allocator.headTok_get_eq {T : Type} {a al : Allocator T} {tok : Nat}
    (hht : a.headTok = some (al, tok)) (i : Nat) : al.get i = a.get i := by
  unfold Allocator.headTok at hht
  cases hh : a.head with
  | some h => rw [hh] at hht; cases hht; rfl
  | none =>
    rw [hh] at hht
    cases hres : a.reserve a.len with
    | none => rw [hres] at hht; cases hht
    | some a'' =>
      rw [hres] at hht
      simp only [Option.some_bind] at hht
      cases hh2 : a''.head with
      | none => rw [hh2] at hht; cases hht
      | some h2 =>
        rw [hh2] at hht
        cases hht
        exact Allocator.reserve_get_eq hres i

/-- The structural invariant only depends on the `get` view of the arena
(plus free-list well-formedness). -/
theorem Inv_congr_get {T : Type} {a a' : Arena T} (hinv : Inv a)
    (hwf' : Allocator.WF a'.allocator) (heq : ∀ i, a'.get i = a.get i) : Inv a' := by
  have hP : ∀ j, Arena.stepParent a' j = Arena.stepParent a j := by
    intro j
    unfold Arena.stepParent
    rw [heq]
  have hV : ∀ j, Arena.stepPrev a' j = Arena.stepPrev a j := by
    intro j
    unfold Arena.stepPrev
    rw [heq]
  have hN : ∀ j, Arena.stepNext a' j = Arena.stepNext a j := by
    intro j
    unfold Arena.stepNext
    rw [heq]
  refine ⟨hwf', ?_, ?_, ?_, ?_, ?_, ?_, ?_, ?_⟩
  · intro i n hi
    rw [heq] at hi
    exact hinv.token_eq i n hi
  · intro i n j hi hj
    rw [heq] at hi
    obtain ⟨m, hm, h1, h2⟩ := hinv.next_prev i n j hi hj
    refine ⟨m, ?_, h1, h2⟩
    rw [heq]
    exact hm
  · intro i n j hi hj
    rw [heq] at hi
    obtain ⟨m, hm, h1⟩ := hinv.prev_next i n j hi hj
    refine ⟨m, ?_, h1⟩
    rw [heq]
    exact hm
  · intro i n c hi hc
    rw [heq] at hi
    obtain ⟨m, hm, h1, h2⟩ := hinv.first_child i n c hi hc
    refine ⟨m, ?_, h1, h2⟩
    rw [heq]
    exact hm
  · intro i n p hi hp
    rw [heq] at hi
    obtain ⟨q, hq, h1⟩ := hinv.parent_first i n p hi hp
    refine ⟨q, ?_, h1⟩
    rw [heq]
    exact hq
  · intro i n hi
    rw [heq] at hi
    obtain ⟨L, hL⟩ := (hinv.parent_halts i n hi).to_walk
    exact halts_transport hL fun j _ => Or.inl (hP j)
  · intro i n hi
    rw [heq] at hi
    obtain ⟨L, hL⟩ := (hinv.prev_halts i n hi).to_walk
    exact halts_transport hL fun j _ => Or.inl (hV j)
  · intro i n hi
    rw [heq] at hi
    obtain ⟨L, hL⟩ := (hinv.next_halts i n hi).to_walk
    exact halts_transport hL fun j _ => Or.inl (hN j)

/-- `Arena::set` on the free slot the allocator head names: a pure fresh
insertion, landing the node exactly at that slot. -/
theorem setNode_fresh {T : Type} {a : Arena T} (hwf : Allocator.WF a.allocator) {h : Nat}
    (hh : a.allocator.head = some h) (node : Node T) :
    ∃ a', Arena.setNode a h node = some a' ∧ Allocator.WF a'.allocator ∧
      a'.get h = some node ∧ (∀ i, i ≠ h → a'.get i = a.get i) ∧
      a'.nodeCount = a.nodeCount + 1 ∧ a'.capacity = a.capacity ∧ a.get h = none := by
  obtain ⟨nx, hfreecell⟩ := hwf.head_free hh
  obtain ⟨a₂, hins, hwf₂, hlen₂, hcap₂, hself, hother, -⟩ :=
    Allocator.insertHere_wf hwf hh node
  refine ⟨⟨a₂⟩, ?_, hwf₂, ?_, ?_, hlen₂, hcap₂, Allocator.get_eq_none_of_free hfreecell⟩
  · unfold Arena.setNode Allocator.set Allocator.remove
    rw [hfreecell]
    show ((a.allocator.insert node).map _).bind _ = _
    unfold Allocator.insert
    rw [hh]
    show ((a.allocator.insertHere h node).map _).bind _ = _
    rw [hins]
    rfl
  · show Allocator.get a₂ h = some node
    rw [Allocator.get_eq_some_iff]
    exact hself
  · intro i hi
    show Allocator.get a₂ i = Allocator.get a.allocator i
    unfold Allocator.get
    rw [hother i hi]

/-- The last element of a halting walk has no successor link. -/
theorem Walk.getLast_none {g : Nat → Option Nat} :
    ∀ {i L}, Walk g i L → ∀ z, L.getLast? = some z → g z = none := by
  intro i L h
  induction h with
  | last hg =>
    intro z hz
    cases Option.some.inj hz
    exact hg
  | step hg hw ih =>
    intro z hz
    refine ih z ?_
    cases hw with
    | last h₂ => rw [List.getLast?_cons_cons] at hz; exact hz
    | step h₂ h₃ => rw [List.getLast?_cons_cons] at hz; exact hz

/-- When every link reached from an occupied slot is occupied, the silent
`@mut` iterator walks the same list as the panicking token iterator. -/
theorem mutIter_walk {T : Type} {a : Arena T} {f : Node T → Option Nat}
    (hlink : ∀ i m j, a.get i = some m → f m = some j → (a.get j).isSome) :
    ∀ {fuel c L}, mutIterIdx a f fuel (some c) = some L → (a.get c).isSome →
      Walk (fun i => (a.get i).bind f) c L := by
  intro fuel
  induction fuel with
  | zero =>
    intro c L h hc
    cases h
  | succ fuel ih =>
    intro c L h hc
    obtain ⟨m, hm⟩ := Option.isSome_iff_exists.mp hc
    unfold mutIterIdx at h
    rw [hm] at h
    have h' : (mutIterIdx a f fuel (f m)).map (fun l => c :: l) = some L := h
    cases hf : f m with
    | none =>
      rw [hf] at h'
      have h2 : (some [] : Option (List Nat)).map (fun l => c :: l) = some L := by
        cases fuel <;> exact h'
      cases Option.some.inj h2
      refine Walk.last ?_
      rw [hm, Option.some_bind, hf]
    | some k =>
      rw [hf] at h'
      obtain ⟨L', hL', hLeq⟩ := Option.map_eq_some'.mp h'
      subst hLeq
      refine Walk.step ?_ (ih hL' (hlink c m k hm hf))
      rw [hm, Option.some_bind, hf]

/-- Splicing a fresh node into a sibling chain directly after an existing
member `u` preserves the structural invariant: the shared effect of
`Token::append` (after the last child), `Token::insert_before` (after the
old previous sibling) and `Token::insert_after` (after `self`).  The new
node occupies the previously free slot `h`; `u`'s next-sibling link and the
right neighbour's previous-sibling link (when there is one) are the only
rewritten links. -/
theorem splice_inv_after {T : Type} {a a' : Arena T} (hinv : Inv a)
    (hwf' : Allocator.WF a'.allocator) {h u : Nat} {z mu : Node T} {P X : Option Nat}
    (hfree : a.get h = none)
    (hz : a'.get h = some z)
    (hztok : z.token = h) (hzpar : z.parent = P) (hzprev : z.previousSibling = some u)
    (hznext : z.nextSibling = X) (hzfc : z.firstChild = none)
    (hu : a.get u = some mu) (hun : mu.nextSibling = X) (hup : mu.parent = P)
    (hu' : a'.get u = some { mu with nextSibling := some h })
    (hXhook : ∀ w, X = some w → ∃ mw, a.get w = some mw ∧ mw.previousSibling = some u ∧
        mw.parent = P ∧ a'.get w = some { mw with previousSibling := some h })
    (hPocc : ∀ p, P = some p → ∃ q, a.get p = some q)
    (hframe : ∀ i, i ≠ h → i ≠ u → (∀ w, X = some w → i ≠ w) → a'.get i = a.get i) :
    Inv a' := by
  have hXsplit : X = none ∨ ∃ w, X = some w := by
    cases X with
    | none => exact Or.inl rfl
    | some w => exact Or.inr ⟨w, rfl⟩
  have hne : ∀ {x : Nat} {mx : Node T}, a.get x = some mx → x ≠ h := by
    intro x mx hx he
    rw [he, hfree] at hx
    cases hx
  have hnsl_next : ∀ x mx, a.get x = some mx → mx.nextSibling = some x → False := by
    intro x mx hx hc
    refine (hinv.next_halts x mx hx).no_self_loop ?_
    show Arena.stepNext a x = some x
    unfold Arena.stepNext
    rw [hx, Option.some_bind]
    exact hc
  have hnsl_prev : ∀ x mx, a.get x = some mx → mx.previousSibling = some x → False := by
    intro x mx hx hc
    refine (hinv.prev_halts x mx hx).no_self_loop ?_
    show Arena.stepPrev a x = some x
    unfold Arena.stepPrev
    rw [hx, Option.some_bind]
    exact hc
  have hnsl_par : ∀ x mx, a.get x = some mx → mx.parent = some x → False := by
    intro x mx hx hc
    refine (hinv.parent_halts x mx hx).no_self_loop ?_
    show Arena.stepParent a x = some x
    unfold Arena.stepParent
    rw [hx, Option.some_bind]
    exact hc
  have hn2c_next : ∀ x mx y my, a.get x = some mx → a.get y = some my →
      mx.nextSibling = some y → my.nextSibling = some x → False := by
    intro x mx y my hx hy hxy hyx
    refine (hinv.next_halts x mx hx).no_two_cycle
      (show Arena.stepNext a x = some y by unfold Arena.stepNext; rw [hx, Option.some_bind]; exact hxy)
      (show Arena.stepNext a y = some x by unfold Arena.stepNext; rw [hy, Option.some_bind]; exact hyx)
  have hn2c_par : ∀ x mx y my, a.get x = some mx → a.get y = some my →
      mx.parent = some y → my.parent = some x → False := by
    intro x mx y my hx hy hxy hyx
    refine (hinv.parent_halts x mx hx).no_two_cycle
      (show Arena.stepParent a x = some y by unfold Arena.stepParent; rw [hx, Option.some_bind]; exact hxy)
      (show Arena.stepParent a y = some x by unfold Arena.stepParent; rw [hy, Option.some_bind]; exact hyx)
  have hlinkN : ∀ i n j, a.get i = some n → n.nextSibling = some j →
      ((a.get j).isSome : Prop) := by
    intro i n j hi hj
    obtain ⟨m, hm, -, -⟩ := hinv.next_prev i n j hi hj
    rw [hm]
    rfl
  have hlinkV : ∀ i n j, a.get i = some n → n.previousSibling = some j →
      ((a.get j).isSome : Prop) := by
    intro i n j hi hj
    obtain ⟨m, hm, -⟩ := hinv.prev_next i n j hi hj
    rw [hm]
    rfl
  have hlinkP : ∀ i n j, a.get i = some n → n.parent = some j →
      ((a.get j).isSome : Prop) := by
    intro i n j hi hj
    obtain ⟨q, hq, -⟩ := hinv.parent_first i n j hi hj
    rw [hq]
    rfl
  have hoccwalkN : ∀ {c L}, Walk (Arena.stepNext a) c L → ((a.get c).isSome : Prop) →
      ∀ j ∈ L, ((a.get j).isSome : Prop) :=
    fun hw hc => walk_occupied hlinkN (hw.congr fun j _ => rfl) hc
  have hoccwalkV : ∀ {c L}, Walk (Arena.stepPrev a) c L → ((a.get c).isSome : Prop) →
      ∀ j ∈ L, ((a.get j).isSome : Prop) :=
    fun hw hc => walk_occupied hlinkV (hw.congr fun j _ => rfl) hc
  have hoccwalkP : ∀ {c L}, Walk (Arena.stepParent a) c L → ((a.get c).isSome : Prop) →
      ∀ j ∈ L, ((a.get j).isSome : Prop) :=
    fun hw hc => walk_occupied hlinkP (hw.congr fun j _ => rfl) hc
  have hclass : ∀ i mi', a'.get i = some mi' →
      (i = h ∧ mi' = z) ∨ (i = u ∧ mi' = { mu with nextSibling := some h }) ∨
      (∃ w mw, X = some w ∧ i = w ∧ a.get w = some mw ∧ mw.previousSibling = some u ∧
        mw.parent = P ∧ mi' = { mw with previousSibling := some h }) ∨
      (i ≠ h ∧ i ≠ u ∧ (∀ w, X = some w → i ≠ w) ∧ a.get i = some mi') := by
    intro i mi' hi
    by_cases hih : i = h
    · rw [hih, hz] at hi
      exact Or.inl ⟨hih, (Option.some.inj hi).symm⟩
    by_cases hiu : i = u
    · rw [hiu, hu'] at hi
      exact Or.inr (Or.inl ⟨hiu, (Option.some.inj hi).symm⟩)
    rcases hXsplit with hX2 | ⟨w, hX2⟩
    ·
      have hcond : ∀ w, X = some w → i ≠ w :=
        fun w h0 => Option.noConfusion (hX2.symm.trans h0)
      refine Or.inr (Or.inr (Or.inr ⟨hih, hiu, hcond, ?_⟩))
      rw [← hframe i hih hiu hcond]
      exact hi
    ·
      obtain ⟨mw, hw, hwv, hwp, hw'⟩ := hXhook w hX2
      by_cases hiw : i = w
      · rw [hiw, hw'] at hi
        exact Or.inr (Or.inr (Or.inl ⟨w, mw, hX2, hiw, hw, hwv, hwp, (Option.some.inj hi).symm⟩))
      · have hcond : ∀ w', X = some w' → i ≠ w' := by
          intro w' h0
          cases Option.some.inj (hX2.symm.trans h0)
          exact hiw
        refine Or.inr (Or.inr (Or.inr ⟨hih, hiu, hcond, ?_⟩))
        rw [← hframe i hih hiu hcond]
        exact hi
  have hparEq : ∀ j, j ≠ h → Arena.stepParent a' j = Arena.stepParent a j := by
    intro j hjh
    unfold Arena.stepParent
    by_cases hju : j = u
    · rw [hju, hu', hu]
      rfl
    rcases hXsplit with hX2 | ⟨w, hX2⟩
    ·
      rw [hframe j hjh hju (fun w h0 => Option.noConfusion (hX2.symm.trans h0))]
    ·
      obtain ⟨mw, hw, hwv, hwp, hw'⟩ := hXhook w hX2
      by_cases hjw : j = w
      · rw [hjw, hw', hw]
        rfl
      · rw [hframe j hjh hju (fun w' h0 => by
          cases Option.some.inj (hX2.symm.trans h0); exact hjw)]
  have hprevEq : ∀ j, j ≠ h → (∀ w, X = some w → j ≠ w) →
      Arena.stepPrev a' j = Arena.stepPrev a j := by
    intro j hjh hjw
    unfold Arena.stepPrev
    by_cases hju : j = u
    · rw [hju, hu', hu]
      rfl
    · rw [hframe j hjh hju hjw]
  have hnextEq : ∀ j, j ≠ h → j ≠ u → Arena.stepNext a' j = Arena.stepNext a j := by
    intro j hjh hju
    unfold Arena.stepNext
    rcases hXsplit with hX2 | ⟨w, hX2⟩
    ·
      rw [hframe j hjh hju (fun w h0 => Option.noConfusion (hX2.symm.trans h0))]
    ·
      obtain ⟨mw, hw, hwv, hwp, hw'⟩ := hXhook w hX2
      by_cases hjw : j = w
      · rw [hjw, hw', hw]
        rfl
      · rw [hframe j hjh hju (fun w' h0 => by
          cases Option.some.inj (hX2.symm.trans h0); exact hjw)]
  have HnextW : ∀ w, X = some w → Halts (Arena.stepNext a') w := by
    intro w hX2
    obtain ⟨mw, hw, hwv, hwp, hw'⟩ := hXhook w hX2
    obtain ⟨Lw, hLw⟩ := (hinv.next_halts w mw hw).to_walk
    have hocc := hoccwalkN hLw (by rw [hw]; rfl)
    have hnu : u ∉ Lw := by
      intro hmem
      refine walk_no_cycle hLw hmem ?_
      show Arena.stepNext a u = some w
      unfold Arena.stepNext
      rw [hu, Option.some_bind, hun, hX2]
    refine halts_transport hLw ?_
    intro j hj
    obtain ⟨mj, hmj⟩ := Option.isSome_iff_exists.mp (hocc j hj)
    refine Or.inl (hnextEq j (hne hmj) ?_)
    intro he
    exact hnu (he ▸ hj)
  have HnextH : Halts (Arena.stepNext a') h := by
    rcases hXsplit with hX2 | ⟨w, hX2⟩
    ·
      refine Halts.stop ?_
      unfold Arena.stepNext
      rw [hz, Option.some_bind, hznext, hX2]
    ·
      refine Halts.step ?_ (HnextW w hX2)
      unfold Arena.stepNext
      rw [hz, Option.some_bind, hznext, hX2]
  have HnextU : Halts (Arena.stepNext a') u := by
    refine Halts.step ?_ HnextH
    unfold Arena.stepNext
    rw [hu', Option.some_bind]
  have HnextOcc : ∀ x mx, a.get x = some mx → Halts (Arena.stepNext a') x := by
    intro x mx hx
    obtain ⟨L, hL⟩ := (hinv.next_halts x mx hx).to_walk
    have hocc := hoccwalkN hL (by rw [hx]; rfl)
    refine halts_transport hL ?_
    intro j hj
    by_cases hju : j = u
    · exact Or.inr (hju ▸ HnextU)
    · obtain ⟨mj, hmj⟩ := Option.isSome_iff_exists.mp (hocc j hj)
      exact Or.inl (hnextEq j (hne hmj) hju)
  have HprevU : Halts (Arena.stepPrev a') u := by
    obtain ⟨Lu, hLu⟩ := (hinv.prev_halts u mu hu).to_walk
    have hocc := hoccwalkV hLu (by rw [hu]; rfl)
    have hwnot : ∀ w, X = some w → w ∉ Lu := by
      intro w hX2 hmem
      obtain ⟨mw, hw, hwv, hwp, hw'⟩ := hXhook w hX2
      refine walk_no_cycle hLu hmem ?_
      show Arena.stepPrev a w = some u
      unfold Arena.stepPrev
      rw [hw, Option.some_bind, hwv]
    refine halts_transport hLu ?_
    intro j hj
    obtain ⟨mj, hmj⟩ := Option.isSome_iff_exists.mp (hocc j hj)
    refine Or.inl (hprevEq j (hne hmj) ?_)
    intro w hX2 he
    exact hwnot w hX2 (he ▸ hj)
  have HprevH : Halts (Arena.stepPrev a') h := by
    refine Halts.step ?_ HprevU
    unfold Arena.stepPrev
    rw [hz, Option.some_bind, hzprev]
  have HprevW : ∀ w, X = some w → Halts (Arena.stepPrev a') w := by
    intro w hX2
    obtain ⟨mw, hw, hwv, hwp, hw'⟩ := hXhook w hX2
    refine Halts.step ?_ HprevH
    unfold Arena.stepPrev
    rw [hw', Option.some_bind]
  have HprevOcc : ∀ x mx, a.get x = some mx → Halts (Arena.stepPrev a') x := by
    intro x mx hx
    obtain ⟨L, hL⟩ := (hinv.prev_halts x mx hx).to_walk
    have hocc := hoccwalkV hL (by rw [hx]; rfl)
    refine halts_transport hL ?_
    intro j hj
    rcases hXsplit with hX2 | ⟨w, hX2⟩
    ·
      obtain ⟨mj, hmj⟩ := Option.isSome_iff_exists.mp (hocc j hj)
      exact Or.inl (hprevEq j (hne hmj)
        (fun w h0 => Option.noConfusion (hX2.symm.trans h0)))
    ·
      by_cases hjw : j = w
      · exact Or.inr (hjw ▸ HprevW w hX2)
      · obtain ⟨mj, hmj⟩ := Option.isSome_iff_exists.mp (hocc j hj)
        exact Or.inl (hprevEq j (hne hmj) (fun w' h0 => by
          cases Option.some.inj (hX2.symm.trans h0); exact hjw))
  have HparOcc : ∀ x mx, a.get x = some mx → Halts (Arena.stepParent a') x := by
    intro x mx hx
    obtain ⟨L, hL⟩ := (hinv.parent_halts x mx hx).to_walk
    have hocc := hoccwalkP hL (by rw [hx]; rfl)
    refine halts_transport hL ?_
    intro j hj
    obtain ⟨mj, hmj⟩ := Option.isSome_iff_exists.mp (hocc j hj)
    exact Or.inl (hparEq j (hne hmj))
  have HparH : Halts (Arena.stepParent a') h := by
    cases hP2 : P with
    | none =>
      refine Halts.stop ?_
      unfold Arena.stepParent
      rw [hz, Option.some_bind, hzpar, hP2]
    | some p =>
      obtain ⟨q, hq⟩ := hPocc p hP2
      refine Halts.step ?_ (HparOcc p q hq)
      unfold Arena.stepParent
      rw [hz, Option.some_bind, hzpar, hP2]
  refine ⟨hwf', ?_, ?_, ?_, ?_, ?_, ?_, ?_, ?_⟩
  · -- token_eq
    intro i mi' hi
    rcases hclass i mi' hi with ⟨hieq, hmieq⟩ | ⟨hieq, hmieq⟩ |
      ⟨w, mw, hX2, hieq, hw, hwv, hwp, hmieq⟩ | ⟨-, -, -, hfr⟩
    · rw [hmieq, hieq]
      exact hztok
    · rw [hmieq, hieq]
      exact hinv.token_eq u mu hu
    · rw [hmieq, hieq]
      exact hinv.token_eq w mw hw
    · exact hinv.token_eq i mi' hfr
  · -- next_prev
    intro i mi' j hi hj
    rcases hclass i mi' hi with ⟨hieq, hmieq⟩ | ⟨hieq, hmieq⟩ |
      ⟨w, mw, hX2, hieq, hw, hwv, hwp, hmieq⟩ | ⟨hih, hiu, hiw, hfr⟩
    · -- i = h: the new node's next is the right neighbour
      rw [hmieq, hznext] at hj
      obtain ⟨mw, hw, hwv, hwp, hw'⟩ := hXhook j hj
      refine ⟨{ mw with previousSibling := some h }, hw', ?_, ?_⟩
      · rw [hieq]
      · rw [hmieq, hzpar]
        exact hwp
    · -- i = u: the new node is u's next
      rw [hmieq] at hj
      have hjh : j = h := (Option.some.inj hj).symm
      refine ⟨z, ?_, ?_, ?_⟩
      · rw [hjh]
        exact hz
      · rw [hzprev, hieq]
      · rw [hmieq]
        exact hzpar.trans hup.symm
    · -- i = w: next unchanged
      rw [hmieq] at hj
      have hj' : mw.nextSibling = some j := hj
      obtain ⟨m, hm, hmp, hmpar⟩ := hinv.next_prev w mw j hw hj'
      have hju : j ≠ u := by
        intro he
        exact hn2c_next u mu w mw hu hw (hun.trans hX2) (he ▸ hj')
      have hjw : ∀ w', X = some w' → j ≠ w' := by
        intro w' h0 he
        cases Option.some.inj (hX2.symm.trans h0)
        rw [he] at hj'
        exact hnsl_next w mw hw hj'
      refine ⟨m, ?_, ?_, ?_⟩
      · rw [hframe j (hne hm) hju hjw]
        exact hm
      · rw [hieq]
        exact hmp
      · rw [hmieq]
        exact hmpar
    · -- frame node
      obtain ⟨m, hm, hmp, hmpar⟩ := hinv.next_prev i mi' j hfr hj
      by_cases hju : j = u
      · have hmu : m = mu := by
          rw [hju, hu] at hm
          exact (Option.some.inj hm).symm
        refine ⟨{ mu with nextSibling := some h }, ?_, ?_, ?_⟩
        · rw [hju]
          exact hu'
        · show mu.previousSibling = some i
          rw [← hmu]
          exact hmp
        · show mu.parent = mi'.parent
          rw [← hmu]
          exact hmpar
      rcases hXsplit with hX2 | ⟨w, hX2⟩
      ·
        have hjw : ∀ w', X = some w' → j ≠ w' :=
          fun w' h0 => Option.noConfusion (hX2.symm.trans h0)
        refine ⟨m, ?_, hmp, hmpar⟩
        rw [hframe j (hne hm) hju hjw]
        exact hm
      ·
        obtain ⟨mw, hw, hwv, hwp, hw'⟩ := hXhook w hX2
        by_cases hjw : j = w
        · have hmw : m = mw := by
            rw [hjw, hw] at hm
            exact (Option.some.inj hm).symm
          rw [hmw, hwv] at hmp
          exact absurd (Option.some.inj hmp).symm hiu
        · have hjcond : ∀ w', X = some w' → j ≠ w' := by
            intro w' h0
            cases Option.some.inj (hX2.symm.trans h0)
            exact hjw
          refine ⟨m, ?_, hmp, hmpar⟩
          rw [hframe j (hne hm) hju hjcond]
          exact hm
  · -- prev_next
    intro i mi' j hi hj
    rcases hclass i mi' hi with ⟨hieq, hmieq⟩ | ⟨hieq, hmieq⟩ |
      ⟨w, mw, hX2, hieq, hw, hwv, hwp, hmieq⟩ | ⟨hih, hiu, hiw, hfr⟩
    · -- i = h: the new node's previous is u
      rw [hmieq, hzprev] at hj
      have hju : j = u := (Option.some.inj hj).symm
      refine ⟨{ mu with nextSibling := some h }, ?_, ?_⟩
      · rw [hju]
        exact hu'
      · show some h = some i
        rw [hieq]
    · -- i = u: previous unchanged
      rw [hmieq] at hj
      have hj' : mu.previousSibling = some j := hj
      obtain ⟨m, hm, hmn⟩ := hinv.prev_next u mu j hu hj'
      have hju : j ≠ u := by
        intro he
        rw [he] at hj'
        exact hnsl_prev u mu hu hj'
      have hjw : ∀ w', X = some w' → j ≠ w' := by
        intro w' h0 he
        obtain ⟨mw, hw, hwv, hwp, hw'⟩ := hXhook w' h0
        have hmw : m = mw := by
          rw [he, hw] at hm
          exact (Option.some.inj hm).symm
        exact hn2c_next u mu w' mw hu hw (hun.trans h0) (hmw ▸ hmn)
      refine ⟨m, ?_, ?_⟩
      · rw [hframe j (hne hm) hju hjw]
        exact hm
      · rw [hieq]
        exact hmn
    · -- i = w: the new node is w's previous
      rw [hmieq] at hj
      have hjh : j = h := (Option.some.inj hj).symm
      refine ⟨z, ?_, ?_⟩
      · rw [hjh]
        exact hz
      · rw [hznext, hX2, hieq]
    · -- frame node
      obtain ⟨m, hm, hmn⟩ := hinv.prev_next i mi' j hfr hj
      by_cases hju : j = u
      · have hmu : m = mu := by
          rw [hju, hu] at hm
          exact (Option.some.inj hm).symm
        have hXi : X = some i := hun.symm.trans (hmu ▸ hmn)
        exact absurd rfl (hiw i hXi)
      rcases hXsplit with hX2 | ⟨w, hX2⟩
      ·
        have hjcond : ∀ w', X = some w' → j ≠ w' :=
          fun w' h0 => Option.noConfusion (hX2.symm.trans h0)
        refine ⟨m, ?_, hmn⟩
        rw [hframe j (hne hm) hju hjcond]
        exact hm
      ·
        obtain ⟨mw, hw, hwv, hwp, hw'⟩ := hXhook w hX2
        by_cases hjw : j = w
        · have hmw : m = mw := by
            rw [hjw, hw] at hm
            exact (Option.some.inj hm).symm
          refine ⟨{ mw with previousSibling := some h }, ?_, ?_⟩
          · rw [hjw]
            exact hw'
          · show mw.nextSibling = some i
            rw [← hmw]
            exact hmn
        · have hjcond : ∀ w', X = some w' → j ≠ w' := by
            intro w' h0
            cases Option.some.inj (hX2.symm.trans h0)
            exact hjw
          refine ⟨m, ?_, hmn⟩
          rw [hframe j (hne hm) hju hjcond]
          exact hm
  · -- first_child
    intro i mi' c hi hc
    rcases hclass i mi' hi with ⟨hieq, hmieq⟩ | ⟨hieq, hmieq⟩ |
      ⟨w, mw, hX2, hieq, hw, hwv, hwp, hmieq⟩ | ⟨hih, hiu, hiw, hfr⟩
    · rw [hmieq, hzfc] at hc
      cases hc
    · -- i = u
      rw [hmieq] at hc
      have hc' : mu.firstChild = some c := hc
      obtain ⟨m, hm, hmpar, hmprev⟩ := hinv.first_child u mu c hu hc'
      have hcu : c ≠ u := by
        intro he
        have hmu : m = mu := by
          rw [he, hu] at hm
          exact (Option.some.inj hm).symm
        exact hnsl_par u mu hu (by rw [← hmu]; exact hmpar)
      have hcw : ∀ w', X = some w' → c ≠ w' := by
        intro w' h0 he
        obtain ⟨mw, hw, hwv, hwp, hw'⟩ := hXhook w' h0
        have hmw : m = mw := by
          rw [he, hw] at hm
          exact (Option.some.inj hm).symm
        have hPu : P = some u := hwp.symm.trans (hmw ▸ hmpar)
        exact hnsl_par u mu hu (hup.trans hPu)
      refine ⟨m, ?_, ?_, hmprev⟩
      · rw [hframe c (hne hm) hcu hcw]
        exact hm
      · rw [hieq]
        exact hmpar
    · -- i = w
      rw [hmieq] at hc
      have hc' : mw.firstChild = some c := hc
      obtain ⟨m, hm, hmpar, hmprev⟩ := hinv.first_child w mw c hw hc'
      have hcu : c ≠ u := by
        intro he
        have hmu : m = mu := by
          rw [he, hu] at hm
          exact (Option.some.inj hm).symm
        have hPw : P = some w := hup.symm.trans (by rw [← hmu]; exact hmpar)
        exact hnsl_par w mw hw (hwp.trans hPw)
      have hcw : ∀ w', X = some w' → c ≠ w' := by
        intro w' h0 he
        cases Option.some.inj (hX2.symm.trans h0)
        have hmw2 : m = mw := by
          rw [he, hw] at hm
          exact (Option.some.inj hm).symm
        exact hnsl_par w mw hw (by rw [← hmw2]; exact hmpar)
      refine ⟨m, ?_, ?_, hmprev⟩
      · rw [hframe c (hne hm) hcu hcw]
        exact hm
      · rw [hieq]
        exact hmpar
    · -- frame node
      obtain ⟨m, hm, hmpar, hmprev⟩ := hinv.first_child i mi' c hfr hc
      by_cases hcu : c = u
      · have hmu : m = mu := by
          rw [hcu, hu] at hm
          exact (Option.some.inj hm).symm
        refine ⟨{ mu with nextSibling := some h }, ?_, ?_, ?_⟩
        · rw [hcu]
          exact hu'
        · show mu.parent = some i
          rw [← hmu]
          exact hmpar
        · show mu.previousSibling = none
          rw [← hmu]
          exact hmprev
      rcases hXsplit with hX2 | ⟨w, hX2⟩
      ·
        have hcw : ∀ w', X = some w' → c ≠ w' :=
          fun w' h0 => Option.noConfusion (hX2.symm.trans h0)
        refine ⟨m, ?_, hmpar, hmprev⟩
        rw [hframe c (hne hm) hcu hcw]
        exact hm
      ·
        obtain ⟨mw, hw, hwv, hwp, hw'⟩ := hXhook w hX2
        by_cases hcw : c = w
        · have hmw : m = mw := by
            rw [hcw, hw] at hm
            exact (Option.some.inj hm).symm
          rw [hmw, hwv] at hmprev
          cases hmprev
        · have hccond : ∀ w', X = some w' → c ≠ w' := by
            intro w' h0
            cases Option.some.inj (hX2.symm.trans h0)
            exact hcw
          refine ⟨m, ?_, hmpar, hmprev⟩
          rw [hframe c (hne hm) hcu hccond]
          exact hm
  · -- parent_first
    intro i mi' pr hi hp
    rcases hclass i mi' hi with ⟨hieq, hmieq⟩ | ⟨hieq, hmieq⟩ |
      ⟨w, mw, hX2, hieq, hw, hwv, hwp, hmieq⟩ | ⟨hih, hiu, hiw, hfr⟩
    · -- i = h: previous sibling is u, so the implication is vacuous
      rw [hmieq, hzpar] at hp
      obtain ⟨qn, hqn⟩ := hPocc pr hp
      have hpru : pr ≠ u := by
        intro he
        exact hnsl_par u mu hu (hup.trans (he ▸ hp))
      have hprw : ∀ w', X = some w' → pr ≠ w' := by
        intro w' h0 he
        obtain ⟨mw, hw, hwv, hwp, hw'⟩ := hXhook w' h0
        exact hnsl_par w' mw hw (hwp.trans (he ▸ hp))
      refine ⟨qn, ?_, ?_⟩
      · rw [hframe pr (hne hqn) hpru hprw]
        exact hqn
      · intro hcv
        rw [hmieq, hzprev] at hcv
        cases hcv
    · -- i = u
      rw [hmieq] at hp
      have hp' : mu.parent = some pr := hp
      obtain ⟨qn, hqn, hqnf⟩ := hinv.parent_first u mu pr hu hp'
      have hpru : pr ≠ u := by
        intro he
        exact hnsl_par u mu hu (he ▸ hp')
      have hprw : ∀ w', X = some w' → pr ≠ w' := by
        intro w' h0 he
        obtain ⟨mw, hw, hwv, hwp, hw'⟩ := hXhook w' h0
        have hPpr : P = some pr := hup.symm.trans hp'
        have hwpar : mw.parent = some w' := by rw [hwp, hPpr, he]
        exact hnsl_par w' mw hw hwpar
      refine ⟨qn, ?_, ?_⟩
      · rw [hframe pr (hne hqn) hpru hprw]
        exact hqn
      · intro hcv
        rw [hmieq] at hcv
        have hcv' : mu.previousSibling = none := hcv
        rw [hieq]
        exact hqnf hcv'
    · -- i = w: previous sibling is the new node, implication vacuous
      rw [hmieq] at hp
      have hp' : mw.parent = some pr := hp
      have hP2 : P = some pr := hwp.symm.trans hp'
      obtain ⟨qn, hqn⟩ := hPocc pr hP2
      have hpru : pr ≠ u := by
        intro he
        exact hnsl_par u mu hu (hup.trans (he ▸ hP2))
      have hprw : ∀ w', X = some w' → pr ≠ w' := by
        intro w' h0 he
        obtain ⟨mw2, hw2, hwv2, hwp2, hw2'⟩ := hXhook w' h0
        exact hnsl_par w' mw2 hw2 (hwp2.trans (he ▸ hP2))
      refine ⟨qn, ?_, ?_⟩
      · rw [hframe pr (hne hqn) hpru hprw]
        exact hqn
      · intro hcv
        rw [hmieq] at hcv
        cases hcv
    · -- frame node
      obtain ⟨qn, hqn, hqnf⟩ := hinv.parent_first i mi' pr hfr hp
      by_cases hpru : pr = u
      · have hqmu : qn = mu := by
          rw [hpru, hu] at hqn
          exact (Option.some.inj hqn).symm
        refine ⟨{ mu with nextSibling := some h }, ?_, ?_⟩
        · rw [hpru]
          exact hu'
        · intro hcv
          show mu.firstChild = some i
          rw [← hqmu]
          exact hqnf hcv
      rcases hXsplit with hX2 | ⟨w, hX2⟩
      ·
        have hprw : ∀ w', X = some w' → pr ≠ w' :=
          fun w' h0 => Option.noConfusion (hX2.symm.trans h0)
        refine ⟨qn, ?_, hqnf⟩
        rw [hframe pr (hne hqn) hpru hprw]
        exact hqn
      ·
        obtain ⟨mw, hw, hwv, hwp, hw'⟩ := hXhook w hX2
        by_cases hprw : pr = w
        · have hqmw : qn = mw := by
            rw [hprw, hw] at hqn
            exact (Option.some.inj hqn).symm
          refine ⟨{ mw with previousSibling := some h }, ?_, ?_⟩
          · rw [hprw]
            exact hw'
          · intro hcv
            show mw.firstChild = some i
            rw [← hqmw]
            exact hqnf hcv
        · have hprcond : ∀ w', X = some w' → pr ≠ w' := by
            intro w' h0
            cases Option.some.inj (hX2.symm.trans h0)
            exact hprw
          refine ⟨qn, ?_, hqnf⟩
          rw [hframe pr (hne hqn) hpru hprcond]
          exact hqn
  · -- parent_halts
    intro i mi' hi
    rcases hclass i mi' hi with ⟨hieq, -⟩ | ⟨hieq, -⟩ |
      ⟨w, mw, hX2, hieq, hw, hwv, hwp, -⟩ | ⟨-, -, -, hfr⟩
    · rw [hieq]
      exact HparH
    · rw [hieq]
      exact HparOcc u mu hu
    · rw [hieq]
      exact HparOcc w mw hw
    · exact HparOcc i mi' hfr
  · -- prev_halts
    intro i mi' hi
    rcases hclass i mi' hi with ⟨hieq, -⟩ | ⟨hieq, -⟩ |
      ⟨w, mw, hX2, hieq, hw, hwv, hwp, -⟩ | ⟨-, -, -, hfr⟩
    · rw [hieq]
      exact HprevH
    · rw [hieq]
      exact HprevU
    · rw [hieq]
      exact HprevW w hX2
    · exact HprevOcc i mi' hfr
  · -- next_halts
    intro i mi' hi
    rcases hclass i mi' hi with ⟨hieq, -⟩ | ⟨hieq, -⟩ |
      ⟨w, mw, hX2, hieq, hw, hwv, hwp, -⟩ | ⟨-, -, -, hfr⟩
    · rw [hieq]
      exact HnextH
    · rw [hieq]
      exact HnextU
    · rw [hieq]
      exact HnextOcc w mw hw
    · exact HnextOcc i mi' hfr

/-- Splicing a fresh node in at the front of a parent's child chain
preserves the structural invariant: the shared effect of `Token::append`
on a childless node and `Token::insert_before` on a first sibling.  The
new node occupies the previously free slot `h`; the parent's first-child
link and the old first child's previous-sibling link (when there is one)
are the only rewritten links. -/
theorem splice_inv_front {T : Type} {a a' : Arena T} (hinv : Inv a)
    (hwf' : Allocator.WF a'.allocator) {h p : Nat} {z q : Node T} {X : Option Nat}
    (hfree : a.get h = none)
    (hz : a'.get h = some z)
    (hztok : z.token = h) (hzpar : z.parent = some p) (hzprev : z.previousSibling = none)
    (hznext : z.nextSibling = X) (hzfc : z.firstChild = none)
    (hq : a.get p = some q) (hqfc : q.firstChild = X)
    (hp' : a'.get p = some { q with firstChild := some h })
    (hXhook : ∀ w, X = some w → ∃ mw, a.get w = some mw ∧ mw.previousSibling = none ∧
        mw.parent = some p ∧ a'.get w = some { mw with previousSibling := some h })
    (hframe : ∀ i, i ≠ h → i ≠ p → (∀ w, X = some w → i ≠ w) → a'.get i = a.get i) :
    Inv a' := by
  have hXsplit : X = none ∨ ∃ w, X = some w := by
    cases X with
    | none => exact Or.inl rfl
    | some w => exact Or.inr ⟨w, rfl⟩
  have hne : ∀ {x : Nat} {mx : Node T}, a.get x = some mx → x ≠ h := by
    intro x mx hx he
    rw [he, hfree] at hx
    cases hx
  have hnsl_next : ∀ x mx, a.get x = some mx → mx.nextSibling = some x → False := by
    intro x mx hx hc
    refine (hinv.next_halts x mx hx).no_self_loop ?_
    show Arena.stepNext a x = some x
    unfold Arena.stepNext
    rw [hx, Option.some_bind]
    exact hc
  have hnsl_prev : ∀ x mx, a.get x = some mx → mx.previousSibling = some x → False := by
    intro x mx hx hc
    refine (hinv.prev_halts x mx hx).no_self_loop ?_
    show Arena.stepPrev a x = some x
    unfold Arena.stepPrev
    rw [hx, Option.some_bind]
    exact hc
  have hnsl_par : ∀ x mx, a.get x = some mx → mx.parent = some x → False := by
    intro x mx hx hc
    refine (hinv.parent_halts x mx hx).no_self_loop ?_
    show Arena.stepParent a x = some x
    unfold Arena.stepParent
    rw [hx, Option.some_bind]
    exact hc
  have hn2c_par : ∀ x mx y my, a.get x = some mx → a.get y = some my →
      mx.parent = some y → my.parent = some x → False := by
    intro x mx y my hx hy hxy hyx
    refine (hinv.parent_halts x mx hx).no_two_cycle
      (show Arena.stepParent a x = some y by
        unfold Arena.stepParent; rw [hx, Option.some_bind]; exact hxy)
      (show Arena.stepParent a y = some x by
        unfold Arena.stepParent; rw [hy, Option.some_bind]; exact hyx)
  have hlinkN : ∀ i n j, a.get i = some n → n.nextSibling = some j →
      ((a.get j).isSome : Prop) := by
    intro i n j hi hj
    obtain ⟨m, hm, -, -⟩ := hinv.next_prev i n j hi hj
    rw [hm]
    rfl
  have hlinkV : ∀ i n j, a.get i = some n → n.previousSibling = some j →
      ((a.get j).isSome : Prop) := by
    intro i n j hi hj
    obtain ⟨m, hm, -⟩ := hinv.prev_next i n j hi hj
    rw [hm]
    rfl
  have hlinkP : ∀ i n j, a.get i = some n → n.parent = some j →
      ((a.get j).isSome : Prop) := by
    intro i n j hi hj
    obtain ⟨qq, hqq, -⟩ := hinv.parent_first i n j hi hj
    rw [hqq]
    rfl
  have hoccwalkN : ∀ {c L}, Walk (Arena.stepNext a) c L → ((a.get c).isSome : Prop) →
      ∀ j ∈ L, ((a.get j).isSome : Prop) :=
    fun hw hc => walk_occupied hlinkN (hw.congr fun j _ => rfl) hc
  have hoccwalkV : ∀ {c L}, Walk (Arena.stepPrev a) c L → ((a.get c).isSome : Prop) →
      ∀ j ∈ L, ((a.get j).isSome : Prop) :=
    fun hw hc => walk_occupied hlinkV (hw.congr fun j _ => rfl) hc
  have hoccwalkP : ∀ {c L}, Walk (Arena.stepParent a) c L → ((a.get c).isSome : Prop) →
      ∀ j ∈ L, ((a.get j).isSome : Prop) :=
    fun hw hc => walk_occupied hlinkP (hw.congr fun j _ => rfl) hc
  have hclass : ∀ i mi', a'.get i = some mi' →
      (i = h ∧ mi' = z) ∨ (i = p ∧ mi' = { q with firstChild := some h }) ∨
      (∃ w mw, X = some w ∧ i = w ∧ a.get w = some mw ∧ mw.previousSibling = none ∧
        mw.parent = some p ∧ mi' = { mw with previousSibling := some h }) ∨
      (i ≠ h ∧ i ≠ p ∧ (∀ w, X = some w → i ≠ w) ∧ a.get i = some mi') := by
    intro i mi' hi
    by_cases hih : i = h
    · rw [hih, hz] at hi
      exact Or.inl ⟨hih, (Option.some.inj hi).symm⟩
    by_cases hip : i = p
    · rw [hip, hp'] at hi
      exact Or.inr (Or.inl ⟨hip, (Option.some.inj hi).symm⟩)
    rcases hXsplit with hX2 | ⟨w, hX2⟩
    · have hcond : ∀ w, X = some w → i ≠ w :=
        fun w h0 => Option.noConfusion (hX2.symm.trans h0)
      refine Or.inr (Or.inr (Or.inr ⟨hih, hip, hcond, ?_⟩))
      rw [← hframe i hih hip hcond]
      exact hi
    · obtain ⟨mw, hw, hwv, hwp, hw'⟩ := hXhook w hX2
      by_cases hiw : i = w
      · rw [hiw, hw'] at hi
        exact Or.inr (Or.inr (Or.inl ⟨w, mw, hX2, hiw, hw, hwv, hwp, (Option.some.inj hi).symm⟩))
      · have hcond : ∀ w', X = some w' → i ≠ w' := by
          intro w' h0
          cases Option.some.inj (hX2.symm.trans h0)
          exact hiw
        refine Or.inr (Or.inr (Or.inr ⟨hih, hip, hcond, ?_⟩))
        rw [← hframe i hih hip hcond]
        exact hi
  have hparEq : ∀ j, j ≠ h → Arena.stepParent a' j = Arena.stepParent a j := by
    intro j hjh
    unfold Arena.stepParent
    by_cases hjp : j = p
    · rw [hjp, hp', hq]
      rfl
    rcases hXsplit with hX2 | ⟨w, hX2⟩
    · rw [hframe j hjh hjp (fun w h0 => Option.noConfusion (hX2.symm.trans h0))]
    · obtain ⟨mw, hw, hwv, hwp, hw'⟩ := hXhook w hX2
      by_cases hjw : j = w
      · rw [hjw, hw', hw]
        rfl
      · rw [hframe j hjh hjp (fun w' h0 => by
          cases Option.some.inj (hX2.symm.trans h0); exact hjw)]
  have hprevEq : ∀ j, j ≠ h → (∀ w, X = some w → j ≠ w) →
      Arena.stepPrev a' j = Arena.stepPrev a j := by
    intro j hjh hjw
    unfold Arena.stepPrev
    by_cases hjp : j = p
    · rw [hjp, hp', hq]
      rfl
    · rw [hframe j hjh hjp hjw]
  have hnextEq : ∀ j, j ≠ h → Arena.stepNext a' j = Arena.stepNext a j := by
    intro j hjh
    unfold Arena.stepNext
    by_cases hjp : j = p
    · rw [hjp, hp', hq]
      rfl
    rcases hXsplit with hX2 | ⟨w, hX2⟩
    · rw [hframe j hjh hjp (fun w h0 => Option.noConfusion (hX2.symm.trans h0))]
    · obtain ⟨mw, hw, hwv, hwp, hw'⟩ := hXhook w hX2
      by_cases hjw : j = w
      · rw [hjw, hw', hw]
        rfl
      · rw [hframe j hjh hjp (fun w' h0 => by
          cases Option.some.inj (hX2.symm.trans h0); exact hjw)]
  have HnextOcc : ∀ x mx, a.get x = some mx → Halts (Arena.stepNext a') x := by
    intro x mx hx
    obtain ⟨L, hL⟩ := (hinv.next_halts x mx hx).to_walk
    have hocc := hoccwalkN hL (by rw [hx]; rfl)
    refine halts_transport hL ?_
    intro j hj
    obtain ⟨mj, hmj⟩ := Option.isSome_iff_exists.mp (hocc j hj)
    exact Or.inl (hnextEq j (hne hmj))
  have HnextH : Halts (Arena.stepNext a') h := by
    rcases hXsplit with hX2 | ⟨w, hX2⟩
    · refine Halts.stop ?_
      unfold Arena.stepNext
      rw [hz, Option.some_bind, hznext, hX2]
    · obtain ⟨mw, hw, hwv, hwp, hw'⟩ := hXhook w hX2
      refine Halts.step ?_ (HnextOcc w mw hw)
      unfold Arena.stepNext
      rw [hz, Option.some_bind, hznext, hX2]
  have HprevH : Halts (Arena.stepPrev a') h := by
    refine Halts.stop ?_
    unfold Arena.stepPrev
    rw [hz, Option.some_bind, hzprev]
  have HprevW : ∀ w, X = some w → Halts (Arena.stepPrev a') w := by
    intro w hX2
    obtain ⟨mw, hw, hwv, hwp, hw'⟩ := hXhook w hX2
    refine Halts.step ?_ HprevH
    unfold Arena.stepPrev
    rw [hw', Option.some_bind]
  have HprevOcc : ∀ x mx, a.get x = some mx → Halts (Arena.stepPrev a') x := by
    intro x mx hx
    obtain ⟨L, hL⟩ := (hinv.prev_halts x mx hx).to_walk
    have hocc := hoccwalkV hL (by rw [hx]; rfl)
    refine halts_transport hL ?_
    intro j hj
    rcases hXsplit with hX2 | ⟨w, hX2⟩
    · obtain ⟨mj, hmj⟩ := Option.isSome_iff_exists.mp (hocc j hj)
      exact Or.inl (hprevEq j (hne hmj)
        (fun w h0 => Option.noConfusion (hX2.symm.trans h0)))
    · by_cases hjw : j = w
      · exact Or.inr (hjw ▸ HprevW w hX2)
      · obtain ⟨mj, hmj⟩ := Option.isSome_iff_exists.mp (hocc j hj)
        exact Or.inl (hprevEq j (hne hmj) (fun w' h0 => by
          cases Option.some.inj (hX2.symm.trans h0); exact hjw))
  have HparOcc : ∀ x mx, a.get x = some mx → Halts (Arena.stepParent a') x := by
    intro x mx hx
    obtain ⟨L, hL⟩ := (hinv.parent_halts x mx hx).to_walk
    have hocc := hoccwalkP hL (by rw [hx]; rfl)
    refine halts_transport hL ?_
    intro j hj
    obtain ⟨mj, hmj⟩ := Option.isSome_iff_exists.mp (hocc j hj)
    exact Or.inl (hparEq j (hne hmj))
  have HparH : Halts (Arena.stepParent a') h := by
    refine Halts.step ?_ (HparOcc p q hq)
    unfold Arena.stepParent
    rw [hz, Option.some_bind, hzpar]
  refine ⟨hwf', ?_, ?_, ?_, ?_, ?_, ?_, ?_, ?_⟩
  · -- token_eq
    intro i mi' hi
    rcases hclass i mi' hi with ⟨hieq, hmieq⟩ | ⟨hieq, hmieq⟩ |
      ⟨w, mw, hX2, hieq, hw, hwv, hwp, hmieq⟩ | ⟨-, -, -, hfr⟩
    · rw [hmieq, hieq]
      exact hztok
    · rw [hmieq, hieq]
      exact hinv.token_eq p q hq
    · rw [hmieq, hieq]
      exact hinv.token_eq w mw hw
    · exact hinv.token_eq i mi' hfr
  · -- next_prev
    intro i mi' j hi hj
    rcases hclass i mi' hi with ⟨hieq, hmieq⟩ | ⟨hieq, hmieq⟩ |
      ⟨w, mw, hX2, hieq, hw, hwv, hwp, hmieq⟩ | ⟨hih, hip, hiw, hfr⟩
    · -- i = h
      rw [hmieq, hznext] at hj
      obtain ⟨mw, hw, hwv, hwp, hw'⟩ := hXhook j hj
      refine ⟨{ mw with previousSibling := some h }, hw', ?_, ?_⟩
      · rw [hieq]
      · rw [hmieq, hzpar]
        exact hwp
    · -- i = p: next unchanged
      rw [hmieq] at hj
      have hj' : q.nextSibling = some j := hj
      obtain ⟨m, hm, hmp, hmpar⟩ := hinv.next_prev p q j hq hj'
      have hjp : j ≠ p := by
        intro he
        exact hnsl_next p q hq (he ▸ hj')
      have hjw : ∀ w', X = some w' → j ≠ w' := by
        intro w' h0 he
        obtain ⟨mw, hw, hwv, hwp, hw'⟩ := hXhook w' h0
        have hmw : m = mw := by
          rw [he, hw] at hm
          exact (Option.some.inj hm).symm
        rw [hmw, hwv] at hmp
        cases hmp
      refine ⟨m, ?_, ?_, ?_⟩
      · rw [hframe j (hne hm) hjp hjw]
        exact hm
      · rw [hieq]
        exact hmp
      · rw [hmieq]
        exact hmpar
    · -- i = w: next unchanged
      rw [hmieq] at hj
      have hj' : mw.nextSibling = some j := hj
      obtain ⟨m, hm, hmp, hmpar⟩ := hinv.next_prev w mw j hw hj'
      have hjp : j ≠ p := by
        intro he
        have hmq : m = q := by
          rw [he, hq] at hm
          exact (Option.some.inj hm).symm
        exact hnsl_par p q hq (by rw [← hmq]; exact hmpar.trans hwp)
      have hjw : ∀ w', X = some w' → j ≠ w' := by
        intro w' h0 he
        cases Option.some.inj (hX2.symm.trans h0)
        rw [he] at hj'
        exact hnsl_next w mw hw hj'
      refine ⟨m, ?_, ?_, ?_⟩
      · rw [hframe j (hne hm) hjp hjw]
        exact hm
      · rw [hieq]
        exact hmp
      · rw [hmieq]
        exact hmpar
    · -- frame node
      obtain ⟨m, hm, hmp, hmpar⟩ := hinv.next_prev i mi' j hfr hj
      by_cases hjp : j = p
      · have hmq : m = q := by
          rw [hjp, hq] at hm
          exact (Option.some.inj hm).symm
        refine ⟨{ q with firstChild := some h }, ?_, ?_, ?_⟩
        · rw [hjp]
          exact hp'
        · show q.previousSibling = some i
          rw [← hmq]
          exact hmp
        · show q.parent = mi'.parent
          rw [← hmq]
          exact hmpar
      rcases hXsplit with hX2 | ⟨w, hX2⟩
      · have hjw : ∀ w', X = some w' → j ≠ w' :=
          fun w' h0 => Option.noConfusion (hX2.symm.trans h0)
        refine ⟨m, ?_, hmp, hmpar⟩
        rw [hframe j (hne hm) hjp hjw]
        exact hm
      · obtain ⟨mw, hw, hwv, hwp, hw'⟩ := hXhook w hX2
        by_cases hjw : j = w
        · have hmw : m = mw := by
            rw [hjw, hw] at hm
            exact (Option.some.inj hm).symm
          rw [hmw, hwv] at hmp
          cases hmp
        · have hjcond : ∀ w', X = some w' → j ≠ w' := by
            intro w' h0
            cases Option.some.inj (hX2.symm.trans h0)
            exact hjw
          refine ⟨m, ?_, hmp, hmpar⟩
          rw [hframe j (hne hm) hjp hjcond]
          exact hm
  · -- prev_next
    intro i mi' j hi hj
    rcases hclass i mi' hi with ⟨hieq, hmieq⟩ | ⟨hieq, hmieq⟩ |
      ⟨w, mw, hX2, hieq, hw, hwv, hwp, hmieq⟩ | ⟨hih, hip, hiw, hfr⟩
    · -- i = h: no previous sibling
      rw [hmieq, hzprev] at hj
      cases hj
    · -- i = p: previous unchanged
      rw [hmieq] at hj
      have hj' : q.previousSibling = some j := hj
      obtain ⟨m, hm, hmn⟩ := hinv.prev_next p q j hq hj'
      have hjp : j ≠ p := by
        intro he
        exact hnsl_prev p q hq (he ▸ hj')
      have hjw : ∀ w', X = some w' → j ≠ w' := by
        intro w' h0 he
        obtain ⟨mw, hw, hwv, hwp, hw'⟩ := hXhook w' h0
        have hmw : m = mw := by
          rw [he, hw] at hm
          exact (Option.some.inj hm).symm
        rw [hmw] at hmn
        obtain ⟨m₂, hm₂, -, hm₂par⟩ := hinv.next_prev w' mw p hw hmn
        have hm₂q : m₂ = q := by
          rw [hq] at hm₂
          exact (Option.some.inj hm₂).symm
        exact hnsl_par p q hq (by rw [← hm₂q]; exact hm₂par.trans hwp)
      refine ⟨m, ?_, ?_⟩
      · rw [hframe j (hne hm) hjp hjw]
        exact hm
      · rw [hieq]
        exact hmn
    · -- i = w: the new node is w's previous
      rw [hmieq] at hj
      have hjh : j = h := (Option.some.inj hj).symm
      refine ⟨z, ?_, ?_⟩
      · rw [hjh]
        exact hz
      · rw [hznext, hX2, hieq]
    · -- frame node
      obtain ⟨m, hm, hmn⟩ := hinv.prev_next i mi' j hfr hj
      by_cases hjp : j = p
      · have hmq : m = q := by
          rw [hjp, hq] at hm
          exact (Option.some.inj hm).symm
        refine ⟨{ q with firstChild := some h }, ?_, ?_⟩
        · rw [hjp]
          exact hp'
        · show q.nextSibling = some i
          rw [← hmq]
          exact hmn
      rcases hXsplit with hX2 | ⟨w, hX2⟩
      · have hjcond : ∀ w', X = some w' → j ≠ w' :=
          fun w' h0 => Option.noConfusion (hX2.symm.trans h0)
        refine ⟨m, ?_, hmn⟩
        rw [hframe j (hne hm) hjp hjcond]
        exact hm
      · obtain ⟨mw, hw, hwv, hwp, hw'⟩ := hXhook w hX2
        by_cases hjw : j = w
        · have hmw : m = mw := by
            rw [hjw, hw] at hm
            exact (Option.some.inj hm).symm
          refine ⟨{ mw with previousSibling := some h }, ?_, ?_⟩
          · rw [hjw]
            exact hw'
          · show mw.nextSibling = some i
            rw [← hmw]
            exact hmn
        · have hjcond : ∀ w', X = some w' → j ≠ w' := by
            intro w' h0
            cases Option.some.inj (hX2.symm.trans h0)
            exact hjw
          refine ⟨m, ?_, hmn⟩
          rw [hframe j (hne hm) hjp hjcond]
          exact hm
  · -- first_child
    intro i mi' c hi hc
    rcases hclass i mi' hi with ⟨hieq, hmieq⟩ | ⟨hieq, hmieq⟩ |
      ⟨w, mw, hX2, hieq, hw, hwv, hwp, hmieq⟩ | ⟨hih, hip, hiw, hfr⟩
    · rw [hmieq, hzfc] at hc
      cases hc
    · -- i = p: first child is now the new node
      rw [hmieq] at hc
      have hch : c = h := (Option.some.inj hc).symm
      refine ⟨z, ?_, ?_, hzprev⟩
      · rw [hch]
        exact hz
      · rw [hzpar, hieq]
    · -- i = w
      rw [hmieq] at hc
      have hc' : mw.firstChild = some c := hc
      obtain ⟨m, hm, hmpar, hmprev⟩ := hinv.first_child w mw c hw hc'
      have hcp : c ≠ p := by
        intro he
        have hmq : m = q := by
          rw [he, hq] at hm
          exact (Option.some.inj hm).symm
        refine hn2c_par p q w mw hq hw ?_ hwp
        rw [← hmq]
        exact hmpar
      have hcw : ∀ w', X = some w' → c ≠ w' := by
        intro w' h0 he
        cases Option.some.inj (hX2.symm.trans h0)
        have hmw2 : m = mw := by
          rw [he, hw] at hm
          exact (Option.some.inj hm).symm
        exact hnsl_par w mw hw (by rw [← hmw2]; exact hmpar)
      refine ⟨m, ?_, ?_, hmprev⟩
      · rw [hframe c (hne hm) hcp hcw]
        exact hm
      · rw [hieq]
        exact hmpar
    · -- frame node
      obtain ⟨m, hm, hmpar, hmprev⟩ := hinv.first_child i mi' c hfr hc
      by_cases hcp : c = p
      · have hmq : m = q := by
          rw [hcp, hq] at hm
          exact (Option.some.inj hm).symm
        refine ⟨{ q with firstChild := some h }, ?_, ?_, ?_⟩
        · rw [hcp]
          exact hp'
        · show q.parent = some i
          rw [← hmq]
          exact hmpar
        · show q.previousSibling = none
          rw [← hmq]
          exact hmprev
      rcases hXsplit with hX2 | ⟨w, hX2⟩
      · have hcw : ∀ w', X = some w' → c ≠ w' :=
          fun w' h0 => Option.noConfusion (hX2.symm.trans h0)
        refine ⟨m, ?_, hmpar, hmprev⟩
        rw [hframe c (hne hm) hcp hcw]
        exact hm
      · obtain ⟨mw, hw, hwv, hwp, hw'⟩ := hXhook w hX2
        by_cases hcw : c = w
        · have hmw : m = mw := by
            rw [hcw, hw] at hm
            exact (Option.some.inj hm).symm
          rw [hmw, hwp] at hmpar
          exact absurd (Option.some.inj hmpar).symm hip
        · have hccond : ∀ w', X = some w' → c ≠ w' := by
            intro w' h0
            cases Option.some.inj (hX2.symm.trans h0)
            exact hcw
          refine ⟨m, ?_, hmpar, hmprev⟩
          rw [hframe c (hne hm) hcp hccond]
          exact hm
  · -- parent_first
    intro i mi' pr hi hp
    rcases hclass i mi' hi with ⟨hieq, hmieq⟩ | ⟨hieq, hmieq⟩ |
      ⟨w, mw, hX2, hieq, hw, hwv, hwp, hmieq⟩ | ⟨hih, hip, hiw, hfr⟩
    · -- i = h: the parent's first child is the new node itself
      rw [hmieq, hzpar] at hp
      have hprp : pr = p := (Option.some.inj hp).symm
      refine ⟨{ q with firstChild := some h }, ?_, ?_⟩
      · rw [hprp]
        exact hp'
      · intro hcv
        show some h = some i
        rw [hieq]
    · -- i = p
      rw [hmieq] at hp
      have hp' : q.parent = some pr := hp
      obtain ⟨qn, hqn, hqnf⟩ := hinv.parent_first p q pr hq hp'
      have hprp : pr ≠ p := by
        intro he
        exact hnsl_par p q hq (he ▸ hp')
      have hprw : ∀ w', X = some w' → pr ≠ w' := by
        intro w' h0 he
        obtain ⟨mw, hw, hwv, hwp, hw'⟩ := hXhook w' h0
        refine hn2c_par p q w' mw hq hw ?_ hwp
        rw [← he]
        exact hp'
      refine ⟨qn, ?_, ?_⟩
      · rw [hframe pr (hne hqn) hprp hprw]
        exact hqn
      · intro hcv
        rw [hmieq] at hcv
        have hcv' : q.previousSibling = none := hcv
        rw [hieq]
        exact hqnf hcv'
    · -- i = w: previous sibling is the new node, implication vacuous
      rw [hmieq] at hp
      have hp2 : mw.parent = some pr := hp
      have hprp : pr = p := (Option.some.inj (hwp.symm.trans hp2)).symm
      refine ⟨{ q with firstChild := some h }, ?_, ?_⟩
      · rw [hprp]
        exact hp'
      · intro hcv
        rw [hmieq] at hcv
        cases hcv
    · -- frame node
      obtain ⟨qn, hqn, hqnf⟩ := hinv.parent_first i mi' pr hfr hp
      by_cases hprp : pr = p
      · have hqnq : qn = q := by
          rw [hprp, hq] at hqn
          exact (Option.some.inj hqn).symm
        refine ⟨{ q with firstChild := some h }, ?_, ?_⟩
        · rw [hprp]
          exact hp'
        · intro hcv
          have h1 : q.firstChild = some i := by
            rw [← hqnq]
            exact hqnf hcv
          have hXi : X = some i := hqfc.symm.trans h1
          exact absurd rfl (hiw i hXi)
      rcases hXsplit with hX2 | ⟨w, hX2⟩
      · have hprw : ∀ w', X = some w' → pr ≠ w' :=
          fun w' h0 => Option.noConfusion (hX2.symm.trans h0)
        refine ⟨qn, ?_, hqnf⟩
        rw [hframe pr (hne hqn) hprp hprw]
        exact hqn
      · obtain ⟨mw, hw, hwv, hwp, hw'⟩ := hXhook w hX2
        by_cases hprw : pr = w
        · have hqnmw : qn = mw := by
            rw [hprw, hw] at hqn
            exact (Option.some.inj hqn).symm
          refine ⟨{ mw with previousSibling := some h }, ?_, ?_⟩
          · rw [hprw]
            exact hw'
          · intro hcv
            show mw.firstChild = some i
            rw [← hqnmw]
            exact hqnf hcv
        · have hprcond : ∀ w', X = some w' → pr ≠ w' := by
            intro w' h0
            cases Option.some.inj (hX2.symm.trans h0)
            exact hprw
          refine ⟨qn, ?_, hqnf⟩
          rw [hframe pr (hne hqn) hprp hprcond]
          exact hqn
  · -- parent_halts
    intro i mi' hi
    rcases hclass i mi' hi with ⟨hieq, -⟩ | ⟨hieq, -⟩ |
      ⟨w, mw, hX2, hieq, hw, hwv, hwp, -⟩ | ⟨-, -, -, hfr⟩
    · rw [hieq]
      exact HparH
    · rw [hieq]
      exact HparOcc p q hq
    · rw [hieq]
      exact HparOcc w mw hw
    · exact HparOcc i mi' hfr
  · -- prev_halts
    intro i mi' hi
    rcases hclass i mi' hi with ⟨hieq, -⟩ | ⟨hieq, -⟩ |
      ⟨w, mw, hX2, hieq, hw, hwv, hwp, -⟩ | ⟨-, -, -, hfr⟩
    · rw [hieq]
      exact HprevH
    · rw [hieq]
      exact HprevOcc p q hq
    · rw [hieq]
      exact HprevW w hX2
    · exact HprevOcc i mi' hfr
  · -- next_halts
    intro i mi' hi
    rcases hclass i mi' hi with ⟨hieq, -⟩ | ⟨hieq, -⟩ |
      ⟨w, mw, hX2, hieq, hw, hwv, hwp, -⟩ | ⟨-, -, -, hfr⟩
    · rw [hieq]
      exact HnextH
    · rw [hieq]
      exact HnextOcc p q hq
    · rw [hieq]
      exact HnextOcc w mw hw
    · exact HnextOcc i mi' hfr

/-- The silent iterator yields nothing from an absent start link. -/
theorem mutIterIdx_none {T : Type} (a : Arena T) (f : Node T → Option Nat) (fuel : Nat) :
    mutIterIdx a f fuel none = some [] := by
  cases fuel <;> rfl

theorem getLast?_some_mem {α : Type} {l : List α} {x : α} (h : l.getLast? = some x) :
    x ∈ l := by
  obtain ⟨hne, hx⟩ := List.mem_getLast?_eq_getLast (Option.mem_def.mpr h)
  rw [hx]
  exact List.getLast_mem hne

/-- `Token::append` preserves the structural invariant. -/
theorem append_pres {T : Type} {a a' : Arena T} {s tk : Nat} {v : T} (hinv : Inv a)
    (hrun : append s a v = some (a', tk)) : Inv a' := by
  obtain ⟨al, h, hht, hwal, halhead, hallen, halcap, halkeep, ⟨nx, halfree⟩⟩ :=
    Allocator.headTok_wf hinv.wf_alloc
  unfold append at hrun
  rw [hht] at hrun
  simp only [Option.some_bind] at hrun
  have hgeteq : ∀ i, (⟨al⟩ : Arena T).get i = a.get i :=
    fun i => Allocator.headTok_get_eq hht i
  have hinv₀ : Inv (⟨al⟩ : Arena T) := Inv_congr_get hinv hwal hgeteq
  have hfree₀ : (⟨al⟩ : Arena T).get h = none := Allocator.get_eq_none_of_free halfree
  have hlinkN₀ : ∀ i m j, (⟨al⟩ : Arena T).get i = some m → m.nextSibling = some j →
      (((⟨al⟩ : Arena T).get j).isSome : Prop) := by
    intro i m j hi hj
    obtain ⟨m2, hm2, -, -⟩ := hinv₀.next_prev i m j hi hj
    rw [hm2]
    rfl
  cases hsget : (⟨al⟩ : Arena T).get s with
  | none =>
    rw [hsget] at hrun
    cases hrun
  | some n =>
    rw [hsget] at hrun
    simp only [Option.some_bind] at hrun
    cases hkids : mutIterIdx (⟨al⟩ : Arena T) (fun m => m.nextSibling)
        ((⟨al⟩ : Arena T).capacity + 1) n.firstChild with
    | none =>
      rw [hkids] at hrun
      cases hrun
    | some kids =>
      rw [hkids] at hrun
      simp only [Option.some_bind] at hrun
      split at hrun
      next hlast =>
        rw [Arena.modifyNode_eq hsget] at hrun
        simp only [Option.map_some', Option.some_bind] at hrun
        have hkidsnil : kids = [] := List.getLast?_eq_none_iff.mp hlast
        have hfc : n.firstChild = none := by
          cases hfc0 : n.firstChild with
          | none => rfl
          | some c₀ =>
            rw [hfc0] at hkids
            obtain ⟨mc, hmc, -, -⟩ := hinv₀.first_child s n c₀ hsget hfc0
            have hW := mutIter_walk hlinkN₀ hkids (by rw [hmc]; rfl)
            rw [hkidsnil] at hW
            cases hW
        have hwf₁ : Allocator.WF
            ((⟨al⟩ : Arena T).setNodeAt s { n with firstChild := some h }).allocator :=
          Arena.wf_setNodeAt hinv₀.wf_alloc hsget _
        have hh₁ : ((⟨al⟩ : Arena T).setNodeAt s
            { n with firstChild := some h }).allocator.head = some h := halhead
        obtain ⟨a₂, hsn, hwf₂, hz₂, hframe₂, hcnt₂, hcap₂, hfree₂⟩ :=
          setNode_fresh hwf₁ hh₁ { data := v, token := h, parent := some s, previousSibling := none, nextSibling := none, firstChild := none }
        rw [hsn] at hrun
        simp only [Option.map_some'] at hrun
        obtain ⟨ha', htk⟩ := Prod.mk.inj (Option.some.inj hrun)
        rw [← ha']
        have hsh : s ≠ h := by
          intro he
          rw [he, hfree₀] at hsget
          cases hsget
        refine splice_inv_front hinv₀ hwf₂ hfree₀ hz₂ rfl rfl rfl rfl rfl hsget hfc
          ?_ ?_ ?_
        · rw [hframe₂ s hsh]
          exact Arena.get_setNodeAt_same hsget _
        · exact fun w h0 => Option.noConfusion h0
        · intro i hih his hw0
          rw [hframe₂ i hih]
          exact Arena.get_setNodeAt_ne hsget _ his
      next lastIdx hlast =>
        cases hlget : (⟨al⟩ : Arena T).get lastIdx with
        | none =>
          rw [hlget] at hrun
          simp only [Option.none_bind] at hrun
          cases hrun
        | some lastChild =>
          rw [hlget, Arena.modifyNode_eq hlget] at hrun
          simp only [Option.some_bind, Option.map_some'] at hrun
          cases hfc0 : n.firstChild with
          | none =>
            rw [hfc0, mutIterIdx_none] at hkids
            cases Option.some.inj hkids
            cases hlast
          | some c₀ =>
            obtain ⟨mc, hmc, hmcp, -⟩ := hinv₀.first_child s n c₀ hsget hfc0
            rw [hfc0] at hkids
            have hW := mutIter_walk hlinkN₀ hkids (by rw [hmc]; rfl)
            have hmem : lastIdx ∈ kids := getLast?_some_mem hlast
            have hlastnext : lastChild.nextSibling = none := by
              have hg := Walk.getLast_none hW lastIdx hlast
              have hg' : (((⟨al⟩ : Arena T).get lastIdx).bind
                  fun m => m.nextSibling) = none := hg
              rw [hlget, Option.some_bind] at hg'
              exact hg'
            have hlastpar : lastChild.parent = some s := by
              obtain ⟨m2, hm2, hm2p⟩ :=
                children_walk_parent hinv₀ hsget hfc0 hW lastIdx hmem
              rw [hlget] at hm2
              cases Option.some.inj hm2
              exact hm2p
            have htok : lastChild.token = lastIdx := hinv₀.token_eq lastIdx lastChild hlget
            have hwf₁ : Allocator.WF ((⟨al⟩ : Arena T).setNodeAt lastIdx
                { lastChild with nextSibling := some h }).allocator :=
              Arena.wf_setNodeAt hinv₀.wf_alloc hlget _
            have hh₁ : ((⟨al⟩ : Arena T).setNodeAt lastIdx
                { lastChild with nextSibling := some h }).allocator.head = some h := halhead
            obtain ⟨a₂, hsn, hwf₂, hz₂, hframe₂, hcnt₂, hcap₂, hfree₂⟩ :=
              setNode_fresh hwf₁ hh₁ { data := v, token := h, parent := some s, previousSibling := some lastChild.token, nextSibling := none, firstChild := none }
            rw [hsn] at hrun
            simp only [Option.map_some'] at hrun
            obtain ⟨ha', htk'⟩ := Prod.mk.inj (Option.some.inj hrun)
            rw [← ha']
            have hlne : lastIdx ≠ h := by
              intro he
              rw [he, hfree₀] at hlget
              cases hlget
            refine splice_inv_after hinv₀ hwf₂ hfree₀ hz₂ rfl rfl ?_ rfl rfl hlget
              hlastnext hlastpar ?_ ?_ ?_ ?_
            · show some lastChild.token = some lastIdx
              rw [htok]
            · rw [hframe₂ lastIdx hlne]
              exact Arena.get_setNodeAt_same hlget _
            · exact fun w h0 => Option.noConfusion h0
            · intro p hp
              cases Option.some.inj hp
              exact ⟨n, hsget⟩
            · intro i hih hil hw0
              rw [hframe₂ i hih]
              exact Arena.get_setNodeAt_ne hlget _ hil

/-- `Token::insert_before` preserves the structural invariant. -/
theorem insertBefore_pres {T : Type} {a a' : Arena T} {s tk : Nat} {v : T} (hinv : Inv a)
    (hrun : insertBefore s a v = some (a', tk)) : Inv a' := by
  obtain ⟨al, h, hht, hwal, halhead, hallen, halcap, halkeep, ⟨nx, halfree⟩⟩ :=
    Allocator.headTok_wf hinv.wf_alloc
  unfold insertBefore at hrun
  rw [hht] at hrun
  simp only [Option.some_bind] at hrun
  have hgeteq : ∀ i, (⟨al⟩ : Arena T).get i = a.get i :=
    fun i => Allocator.headTok_get_eq hht i
  have hinv₀ : Inv (⟨al⟩ : Arena T) := Inv_congr_get hinv hwal hgeteq
  have hfree₀ : (⟨al⟩ : Arena T).get h = none := Allocator.get_eq_none_of_free halfree
  cases hsget : (⟨al⟩ : Arena T).get s with
  | none =>
    rw [hsget] at hrun
    cases hrun
  | some n =>
    rw [hsget] at hrun
    simp only [Option.some_bind] at hrun
    rw [Arena.modifyNode_eq hsget] at hrun
    simp only [Option.some_bind] at hrun
    have hsh : s ≠ h := by
      intro he
      rw [he, hfree₀] at hsget
      cases hsget
    split at hrun
    next u hprev =>
      -- self had a previous sibling u
      obtain ⟨mu, hmu, hmun⟩ := hinv₀.prev_next s n u hsget hprev
      have hus : u ≠ s := by
        intro he
        rw [he] at hprev
        refine (hinv₀.prev_halts s n hsget).no_self_loop ?_
        show Arena.stepPrev (⟨al⟩ : Arena T) s = some s
        unfold Arena.stepPrev
        rw [hsget, Option.some_bind]
        exact hprev
      have huh : u ≠ h := by
        intro he
        rw [he, hfree₀] at hmu
        cases hmu
      have hup : mu.parent = n.parent := by
        obtain ⟨m2, hm2, -, hm2par⟩ := hinv₀.next_prev u mu s hmu hmun
        rw [hsget] at hm2
        cases Option.some.inj hm2
        exact hm2par.symm
      have ha₁u : ((⟨al⟩ : Arena T).setNodeAt s
          { n with previousSibling := some h }).get u = some mu := by
        rw [Arena.get_setNodeAt_ne hsget _ hus]
        exact hmu
      rw [Arena.modifyNode_eq ha₁u] at hrun
      simp only [Option.map_some', Option.some_bind] at hrun
      have hwf₂ : Allocator.WF (((⟨al⟩ : Arena T).setNodeAt s
          { n with previousSibling := some h }).setNodeAt u
          { mu with nextSibling := some h }).allocator :=
        Arena.wf_setNodeAt (Arena.wf_setNodeAt hinv₀.wf_alloc hsget _) ha₁u _
      have hh₂ : (((⟨al⟩ : Arena T).setNodeAt s
          { n with previousSibling := some h }).setNodeAt u
          { mu with nextSibling := some h }).allocator.head = some h := halhead
      obtain ⟨a₃, hsn, hwf₃, hz₃, hframe₃, hcnt₃, hcap₃, hfree₃⟩ :=
        setNode_fresh hwf₂ hh₂ { data := v, token := h, parent := n.parent, previousSibling := some u, nextSibling := some s, firstChild := none }
      rw [hsn] at hrun
      simp only [Option.map_some'] at hrun
      obtain ⟨ha', htk'⟩ := Prod.mk.inj (Option.some.inj hrun)
      rw [← ha']
      refine splice_inv_after hinv₀ hwf₃ hfree₀ hz₃ rfl rfl rfl rfl rfl hmu hmun hup
        ?_ ?_ ?_ ?_
      · rw [hframe₃ u huh]
        exact Arena.get_setNodeAt_same ha₁u _
      · intro w h0
        cases Option.some.inj h0
        refine ⟨n, hsget, hprev, rfl, ?_⟩
        rw [hframe₃ s hsh, Arena.get_setNodeAt_ne ha₁u _ hus.symm]
        exact Arena.get_setNodeAt_same hsget _
      · intro p hp
        obtain ⟨q, hq, -⟩ := hinv₀.parent_first s n p hsget hp
        exact ⟨q, hq⟩
      · intro i hih hiu hiw
        rw [hframe₃ i hih, Arena.get_setNodeAt_ne ha₁u _ hiu]
        exact Arena.get_setNodeAt_ne hsget _ (hiw s rfl)
    next hprev =>
      -- self had no previous sibling: hook through the parent
      split at hrun
      next hpar =>
        cases hrun
      next p hpar =>
        obtain ⟨q, hq, hqf⟩ := hinv₀.parent_first s n p hsget hpar
        have hqfc : q.firstChild = some s := hqf hprev
        have hps : p ≠ s := by
          intro he
          refine (hinv₀.parent_halts s n hsget).no_self_loop ?_
          show Arena.stepParent (⟨al⟩ : Arena T) s = some s
          unfold Arena.stepParent
          rw [hsget, Option.some_bind, hpar, he]
        have hph : p ≠ h := by
          intro he
          rw [he, hfree₀] at hq
          cases hq
        have ha₁p : ((⟨al⟩ : Arena T).setNodeAt s
            { n with previousSibling := some h }).get p = some q := by
          rw [Arena.get_setNodeAt_ne hsget _ hps]
          exact hq
        rw [Arena.modifyNode_eq ha₁p] at hrun
        simp only [Option.map_some', Option.some_bind] at hrun
        have hwf₂ : Allocator.WF (((⟨al⟩ : Arena T).setNodeAt s
            { n with previousSibling := some h }).setNodeAt p
            { q with firstChild := some h }).allocator :=
          Arena.wf_setNodeAt (Arena.wf_setNodeAt hinv₀.wf_alloc hsget _) ha₁p _
        have hh₂ : (((⟨al⟩ : Arena T).setNodeAt s
            { n with previousSibling := some h }).setNodeAt p
            { q with firstChild := some h }).allocator.head = some h := halhead
        obtain ⟨a₃, hsn, hwf₃, hz₃, hframe₃, hcnt₃, hcap₃, hfree₃⟩ :=
          setNode_fresh hwf₂ hh₂ { data := v, token := h, parent := n.parent, previousSibling := none, nextSibling := some s, firstChild := none }
        rw [hsn] at hrun
        simp only [Option.map_some'] at hrun
        obtain ⟨ha', htk'⟩ := Prod.mk.inj (Option.some.inj hrun)
        rw [← ha']
        refine splice_inv_front hinv₀ hwf₃ hfree₀ hz₃ rfl hpar rfl rfl rfl hq hqfc
          ?_ ?_ ?_
        · rw [hframe₃ p hph]
          exact Arena.get_setNodeAt_same ha₁p _
        · intro w h0
          cases Option.some.inj h0
          refine ⟨n, hsget, hprev, hpar, ?_⟩
          rw [hframe₃ s hsh, Arena.get_setNodeAt_ne ha₁p _ hps.symm]
          exact Arena.get_setNodeAt_same hsget _
        · intro i hih hip hiw
          rw [hframe₃ i hih, Arena.get_setNodeAt_ne ha₁p _ hip]
          exact Arena.get_setNodeAt_ne hsget _ (hiw s rfl)

/-- `Token::insert_after` preserves the structural invariant. -/
theorem insertAfter_pres {T : Type} {a a' : Arena T} {s tk : Nat} {v : T} (hinv : Inv a)
    (hrun : insertAfter s a v = some (a', tk)) : Inv a' := by
  obtain ⟨al, h, hht, hwal, halhead, hallen, halcap, halkeep, ⟨nx, halfree⟩⟩ :=
    Allocator.headTok_wf hinv.wf_alloc
  unfold insertAfter at hrun
  rw [hht] at hrun
  simp only [Option.some_bind] at hrun
  have hgeteq : ∀ i, (⟨al⟩ : Arena T).get i = a.get i :=
    fun i => Allocator.headTok_get_eq hht i
  have hinv₀ : Inv (⟨al⟩ : Arena T) := Inv_congr_get hinv hwal hgeteq
  have hfree₀ : (⟨al⟩ : Arena T).get h = none := Allocator.get_eq_none_of_free halfree
  cases hsget : (⟨al⟩ : Arena T).get s with
  | none =>
    rw [hsget] at hrun
    cases hrun
  | some n =>
    rw [hsget] at hrun
    simp only [Option.some_bind] at hrun
    rw [Arena.modifyNode_eq hsget] at hrun
    simp only [Option.some_bind] at hrun
    have hsh : s ≠ h := by
      intro he
      rw [he, hfree₀] at hsget
      cases hsget
    split at hrun
    next hnext =>
      -- no next sibling
      simp only [Option.some_bind] at hrun
      have hwf₁ : Allocator.WF ((⟨al⟩ : Arena T).setNodeAt s
          { n with nextSibling := some h }).allocator :=
        Arena.wf_setNodeAt hinv₀.wf_alloc hsget _
      have hh₁ : ((⟨al⟩ : Arena T).setNodeAt s
          { n with nextSibling := some h }).allocator.head = some h := halhead
      obtain ⟨a₂, hsn, hwf₂, hz₂, hframe₂, hcnt₂, hcap₂, hfree₂⟩ :=
        setNode_fresh hwf₁ hh₁ { data := v, token := h, parent := n.parent, previousSibling := some s, nextSibling := none, firstChild := none }
      rw [hsn] at hrun
      simp only [Option.map_some'] at hrun
      obtain ⟨ha', htk'⟩ := Prod.mk.inj (Option.some.inj hrun)
      rw [← ha']
      refine splice_inv_after hinv₀ hwf₂ hfree₀ hz₂ rfl rfl rfl rfl rfl hsget hnext rfl
        ?_ ?_ ?_ ?_
      · rw [hframe₂ s hsh]
        exact Arena.get_setNodeAt_same hsget _
      · exact fun w h0 => Option.noConfusion h0
      · intro p hp
        obtain ⟨q, hq, -⟩ := hinv₀.parent_first s n p hsget hp
        exact ⟨q, hq⟩
      · intro i hih his hiw
        rw [hframe₂ i hih]
        exact Arena.get_setNodeAt_ne hsget _ his
    next y hnext =>
      -- next sibling y gets its previous-sibling link rewritten
      obtain ⟨my, hmy, hmyp, hmypar⟩ := hinv₀.next_prev s n y hsget hnext
      have hys : y ≠ s := by
        intro he
        refine (hinv₀.next_halts s n hsget).no_self_loop ?_
        show Arena.stepNext (⟨al⟩ : Arena T) s = some s
        unfold Arena.stepNext
        rw [hsget, Option.some_bind, hnext, he]
      have hyh : y ≠ h := by
        intro he
        rw [he, hfree₀] at hmy
        cases hmy
      have ha₁y : ((⟨al⟩ : Arena T).setNodeAt s
          { n with nextSibling := some h }).get y = some my := by
        rw [Arena.get_setNodeAt_ne hsget _ hys]
        exact hmy
      rw [Arena.modifyNode_eq ha₁y] at hrun
      simp only [Option.map_some', Option.some_bind] at hrun
      have hwf₂ : Allocator.WF (((⟨al⟩ : Arena T).setNodeAt s
          { n with nextSibling := some h }).setNodeAt y
          { my with previousSibling := some h }).allocator :=
        Arena.wf_setNodeAt (Arena.wf_setNodeAt hinv₀.wf_alloc hsget _) ha₁y _
      have hh₂ : (((⟨al⟩ : Arena T).setNodeAt s
          { n with nextSibling := some h }).setNodeAt y
          { my with previousSibling := some h }).allocator.head = some h := halhead
      obtain ⟨a₃, hsn, hwf₃, hz₃, hframe₃, hcnt₃, hcap₃, hfree₃⟩ :=
        setNode_fresh hwf₂ hh₂ { data := v, token := h, parent := n.parent, previousSibling := some s, nextSibling := some y, firstChild := none }
      rw [hsn] at hrun
      simp only [Option.map_some'] at hrun
      obtain ⟨ha', htk'⟩ := Prod.mk.inj (Option.some.inj hrun)
      rw [← ha']
      refine splice_inv_after hinv₀ hwf₃ hfree₀ hz₃ rfl rfl rfl rfl rfl hsget hnext rfl
        ?_ ?_ ?_ ?_
      · rw [hframe₃ s hsh, Arena.get_setNodeAt_ne ha₁y _ hys.symm]
        exact Arena.get_setNodeAt_same hsget _
      · intro w h0
        cases Option.some.inj h0
        refine ⟨my, hmy, hmyp, hmypar, ?_⟩
        rw [hframe₃ y hyh]
        exact Arena.get_setNodeAt_same ha₁y _
      · intro p hp
        obtain ⟨q, hq, -⟩ := hinv₀.parent_first s n p hsget hp
        exact ⟨q, hq⟩
      · intro i hih his hiw
        rw [hframe₃ i hih, Arena.get_setNodeAt_ne ha₁y _ (hiw y rfl)]
        exact Arena.get_setNodeAt_ne hsget _ his

/-- Freeing a standalone root (no parent, no siblings, no children) whose
slot nothing else references preserves the structural invariant. -/
theorem free_isolated_pres {T : Type} {b b' : Arena T} (hinv : Inv b) {t : Nat} {nt : Node T}
    (hget : b.get t = some nt) (hpar : nt.parent = none) (hprev : nt.previousSibling = none)
    (hnext : nt.nextSibling = none) (hfc : nt.firstChild = none)
    (hwf' : Allocator.WF b'.allocator)
    (ht' : b'.get t = none) (hframe : ∀ i, i ≠ t → b'.get i = b.get i) : Inv b' := by
  have hno_next : ∀ x mx, b.get x = some mx → mx.nextSibling ≠ some t := by
    intro x mx hx hc
    obtain ⟨m2, hm2, hm2p, -⟩ := hinv.next_prev x mx t hx hc
    rw [hget] at hm2
    cases Option.some.inj hm2
    rw [hprev] at hm2p
    cases hm2p
  have hno_prev : ∀ x mx, b.get x = some mx → mx.previousSibling ≠ some t := by
    intro x mx hx hc
    obtain ⟨m2, hm2, hm2n⟩ := hinv.prev_next x mx t hx hc
    rw [hget] at hm2
    cases Option.some.inj hm2
    rw [hnext] at hm2n
    cases hm2n
  have hno_fc : ∀ x mx, b.get x = some mx → mx.firstChild ≠ some t := by
    intro x mx hx hc
    obtain ⟨m2, hm2, hm2par, -⟩ := hinv.first_child x mx t hx hc
    rw [hget] at hm2
    cases Option.some.inj hm2
    rw [hpar] at hm2par
    cases hm2par
  have hno_par : ∀ x mx, b.get x = some mx → mx.parent ≠ some t := by
    intro x mx hx hc
    obtain ⟨cs, hcs, hmem⟩ := hinv.mem_children hx hc
    unfold childrenTokensList at hcs
    rw [hget, Option.some_bind, hfc, tokenIterCollect_none] at hcs
    cases Option.some.inj hcs
    cases hmem
  have hclass : ∀ i mi', b'.get i = some mi' → i ≠ t ∧ b.get i = some mi' := by
    intro i mi' hi
    by_cases hit : i = t
    · rw [hit, ht'] at hi
      cases hi
    · rw [hframe i hit] at hi
      exact ⟨hit, hi⟩
  have hparEq : ∀ j, j ≠ t → Arena.stepParent b' j = Arena.stepParent b j := by
    intro j hjt
    unfold Arena.stepParent
    rw [hframe j hjt]
  have hprevEq : ∀ j, j ≠ t → Arena.stepPrev b' j = Arena.stepPrev b j := by
    intro j hjt
    unfold Arena.stepPrev
    rw [hframe j hjt]
  have hnextEq : ∀ j, j ≠ t → Arena.stepNext b' j = Arena.stepNext b j := by
    intro j hjt
    unfold Arena.stepNext
    rw [hframe j hjt]
  refine ⟨hwf', ?_, ?_, ?_, ?_, ?_, ?_, ?_, ?_⟩
  · intro i mi' hi
    obtain ⟨-, hfr⟩ := hclass i mi' hi
    exact hinv.token_eq i mi' hfr
  · intro i mi' j hi hj
    obtain ⟨hit, hfr⟩ := hclass i mi' hi
    obtain ⟨m, hm, hmp, hmpar⟩ := hinv.next_prev i mi' j hfr hj
    have hjt : j ≠ t := by
      intro he
      exact hno_next i mi' hfr (he ▸ hj)
    refine ⟨m, ?_, hmp, hmpar⟩
    rw [hframe j hjt]
    exact hm
  · intro i mi' j hi hj
    obtain ⟨hit, hfr⟩ := hclass i mi' hi
    obtain ⟨m, hm, hmn⟩ := hinv.prev_next i mi' j hfr hj
    have hjt : j ≠ t := by
      intro he
      exact hno_prev i mi' hfr (he ▸ hj)
    refine ⟨m, ?_, hmn⟩
    rw [hframe j hjt]
    exact hm
  · intro i mi' c hi hc
    obtain ⟨hit, hfr⟩ := hclass i mi' hi
    obtain ⟨m, hm, hmpar, hmprev⟩ := hinv.first_child i mi' c hfr hc
    have hct : c ≠ t := by
      intro he
      exact hno_fc i mi' hfr (he ▸ hc)
    refine ⟨m, ?_, hmpar, hmprev⟩
    rw [hframe c hct]
    exact hm
  · intro i mi' pr hi hp
    obtain ⟨hit, hfr⟩ := hclass i mi' hi
    obtain ⟨qn, hqn, hqnf⟩ := hinv.parent_first i mi' pr hfr hp
    have hprt : pr ≠ t := by
      intro he
      exact hno_par i mi' hfr (he ▸ hp)
    refine ⟨qn, ?_, hqnf⟩
    rw [hframe pr hprt]
    exact hqn
  · intro i mi' hi
    obtain ⟨hit, hfr⟩ := hclass i mi' hi
    obtain ⟨L, hL⟩ := (hinv.parent_halts i mi' hfr).to_walk
    have hsub : ∀ j ∈ L, j ≠ t ∧ ∃ mj, b.get j = some mj := by
      refine walk_closed_subset hL ⟨hit, mi', hfr⟩ ?_
      intro j k hj hgk
      obtain ⟨hjt, mj, hmj⟩ := hj
      have hgk' : mj.parent = some k := by
        have h2 : (b.get j).bind (fun m => m.parent) = some k := hgk
        rw [hmj, Option.some_bind] at h2
        exact h2
      obtain ⟨qk, hqk, -⟩ := hinv.parent_first j mj k hmj hgk'
      exact ⟨fun he => hno_par j mj hmj (he ▸ hgk'), qk, hqk⟩
    refine halts_transport hL ?_
    intro j hj
    exact Or.inl (hparEq j (hsub j hj).1)
  · intro i mi' hi
    obtain ⟨hit, hfr⟩ := hclass i mi' hi
    obtain ⟨L, hL⟩ := (hinv.prev_halts i mi' hfr).to_walk
    have hsub : ∀ j ∈ L, j ≠ t ∧ ∃ mj, b.get j = some mj := by
      refine walk_closed_subset hL ⟨hit, mi', hfr⟩ ?_
      intro j k hj hgk
      obtain ⟨hjt, mj, hmj⟩ := hj
      have hgk' : mj.previousSibling = some k := by
        have h2 : (b.get j).bind (fun m => m.previousSibling) = some k := hgk
        rw [hmj, Option.some_bind] at h2
        exact h2
      obtain ⟨mk, hmk, -⟩ := hinv.prev_next j mj k hmj hgk'
      exact ⟨fun he => hno_prev j mj hmj (he ▸ hgk'), mk, hmk⟩
    refine halts_transport hL ?_
    intro j hj
    exact Or.inl (hprevEq j (hsub j hj).1)
  · intro i mi' hi
    obtain ⟨hit, hfr⟩ := hclass i mi' hi
    obtain ⟨L, hL⟩ := (hinv.next_halts i mi' hfr).to_walk
    have hsub : ∀ j ∈ L, j ≠ t ∧ ∃ mj, b.get j = some mj := by
      refine walk_closed_subset hL ⟨hit, mi', hfr⟩ ?_
      intro j k hj hgk
      obtain ⟨hjt, mj, hmj⟩ := hj
      have hgk' : mj.nextSibling = some k := by
        have h2 : (b.get j).bind (fun m => m.nextSibling) = some k := hgk
        rw [hmj, Option.some_bind] at h2
        exact h2
      obtain ⟨mk, hmk, -, -⟩ := hinv.next_prev j mj k hmj hgk'
      exact ⟨fun he => hno_next j mj hmj (he ▸ hgk'), mk, hmk⟩
    refine halts_transport hL ?_
    intro j hj
    exact Or.inl (hnextEq j (hsub j hj).1)

/-- `Arena::uproot` preserves the structural invariant whenever the
removed node is not a first child with a next sibling (in that one case
the source forgets to clear the next sibling's previous-sibling link). -/
theorem uproot_pres {T : Type} {a a' : Arena T} {t : Nat} {n : Node T} (hinv : Inv a)
    (hget : a.get t = some n)
    (hok : n.previousSibling ≠ none ∨ n.nextSibling = none)
    (hrun : uproot a t = some a') : Inv a' := by
  obtain ⟨a₁, ds, hPF, hrd, hcap₁, hcnt₁, hwf₁, hat, hfreeds, hframe₁⟩ :=
    removeDescendants_spec hinv hget
  obtain ⟨a₁x, hrdx, hinv₁, -⟩ := removeDescendants_pres hinv hget
  have he : a₁ = a₁x := Option.some.inj (hrd.symm.trans hrdx)
  subst he
  unfold uproot at hrun
  rw [hrd] at hrun
  simp only [Option.some_bind] at hrun
  have hcell : a₁.allocator.getCell t = some (Cell.just { n with firstChild := none }) :=
    Allocator.get_eq_some_iff.mp hat
  obtain ⟨hp2, hdata₂, hhead₂, hlen₂, hcaplen₂, hother₂, hwf₂⟩ :=
    Allocator.remove_wf hwf₁ hcell
  have hframe₂ : ∀ i, i ≠ t → (⟨(a₁.allocator.remove t).1⟩ : Arena T).get i = a₁.get i := by
    intro i hit
    show Allocator.get _ i = Allocator.get _ i
    unfold Allocator.get
    rw [hother₂ i hit]
  have ht₂ : (⟨(a₁.allocator.remove t).1⟩ : Arena T).get t = none := by
    obtain ⟨nx2, hx2⟩ := hwf₂.head_free hhead₂
    exact Allocator.get_eq_none_of_free hx2
  split at hrun
  next hp2' =>
    cases hrun
  next node hp2' =>
    have hnode : node = { n with firstChild := none } :=
      Option.some.inj (hp2'.symm.trans hp2)
    subst hnode
    split at hrun
    next x otkn ytkn hpar2 hprev2 hnext2 =>
      -- parent, previous sibling and next sibling all present: bridge both ways
      obtain ⟨mo, hmo, hmon⟩ := hinv₁.prev_next t _ otkn hat hprev2
      have hot : otkn ≠ t := by
        intro heq
        refine (hinv₁.prev_halts t _ hat).no_self_loop ?_
        show Arena.stepPrev a₁ t = some t
        unfold Arena.stepPrev
        rw [hat, Option.some_bind, hprev2, heq]
      obtain ⟨myy, hmyy, hmyyp, -⟩ := hinv₁.next_prev t _ ytkn hat hnext2
      have hyt : ytkn ≠ t := by
        intro heq
        refine (hinv₁.next_halts t _ hat).no_self_loop ?_
        show Arena.stepNext a₁ t = some t
        unfold Arena.stepNext
        rw [hat, Option.some_bind, hnext2, heq]
      have hoy : ytkn ≠ otkn := by
        intro heq
        refine (hinv₁.next_halts t _ hat).no_two_cycle
          (show Arena.stepNext a₁ t = some otkn by
            unfold Arena.stepNext
            rw [hat, Option.some_bind, hnext2, heq])
          (show Arena.stepNext a₁ otkn = some t by
            unfold Arena.stepNext
            rw [hmo, Option.some_bind]
            exact hmon)
      have ha₂o : (⟨(a₁.allocator.remove t).1⟩ : Arena T).get otkn = some mo := by
        rw [hframe₂ otkn hot]
        exact hmo
      rw [Arena.modifyNode_eq ha₂o] at hrun
      simp only [Option.some_bind] at hrun
      have ha₃y : ((⟨(a₁.allocator.remove t).1⟩ : Arena T).setNodeAt otkn
          { mo with nextSibling := some ytkn }).get ytkn = some myy := by
        rw [Arena.get_setNodeAt_ne ha₂o _ hoy, hframe₂ ytkn hyt]
        exact hmyy
      rw [Arena.modifyNode_eq ha₃y] at hrun
      have ha' := Option.some.inj hrun
      rw [← ha']
      obtain ⟨a₁d, hdet, hcapd, hcntd, hheadd, hwfd, hatd, hprevcl, hparcl, hnextcl, hframed⟩ :=
        detach_spec hinv₁ hat
      obtain ⟨a₁dx, hdetx, hinvd, -⟩ := detach_pres hinv₁ hat
      have he2 : a₁d = a₁dx := Option.some.inj (hdet.symm.trans hdetx)
      subst he2
      refine free_isolated_pres hinvd hatd rfl rfl rfl rfl ?_ ?_ ?_
      · exact Arena.wf_setNodeAt (Arena.wf_setNodeAt hwf₂ ha₂o _) ha₃y _
      · rw [Arena.get_setNodeAt_ne ha₃y _ hyt.symm, Arena.get_setNodeAt_ne ha₂o _ hot.symm]
        exact ht₂
      · intro i hit
        by_cases hiy : i = ytkn
        · rw [hiy, Arena.get_setNodeAt_same ha₃y]
          obtain ⟨myy', hmyy', hyyd⟩ := hnextcl ytkn hnext2
          rw [hmyy] at hmyy'
          cases Option.some.inj hmyy'
          have hyyd' : a₁d.get ytkn = some { myy with previousSibling := n.previousSibling } :=
            hyyd
          rw [hprev2] at hyyd'
          rw [hyyd']
        by_cases hio : i = otkn
        · rw [hio, Arena.get_setNodeAt_ne ha₃y _ (fun heq => hiy (hio ▸ heq.symm ▸ rfl))]
          rw [Arena.get_setNodeAt_same ha₂o]
          obtain ⟨mo', hmo', hod⟩ := hprevcl otkn hprev2
          rw [hmo] at hmo'
          cases Option.some.inj hmo'
          have hod' : a₁d.get otkn = some { mo with nextSibling := n.nextSibling } := hod
          rw [hnext2] at hod'
          rw [hod']
        · rw [Arena.get_setNodeAt_ne ha₃y _ hiy, Arena.get_setNodeAt_ne ha₂o _ hio,
            hframe₂ i hit]
          rw [hframed i hit ?_ ?_ ?_]
          · intro hc
            have hc' : n.previousSibling = some i := hc
            rw [hprev2] at hc'
            exact hio (Option.some.inj hc').symm
          · intro hc
            have hc' : n.previousSibling = none := hc.1
            rw [hprev2] at hc'
            cases hc'
          · intro hc
            have hc' : n.nextSibling = some i := hc
            rw [hnext2] at hc'
            exact hiy (Option.some.inj hc').symm
    next x otkn hpar2 hprev2 hnext2 =>
      -- previous sibling present, no next sibling
      obtain ⟨mo, hmo, hmon⟩ := hinv₁.prev_next t _ otkn hat hprev2
      have hot : otkn ≠ t := by
        intro heq
        refine (hinv₁.prev_halts t _ hat).no_self_loop ?_
        show Arena.stepPrev a₁ t = some t
        unfold Arena.stepPrev
        rw [hat, Option.some_bind, hprev2, heq]
      have ha₂o : (⟨(a₁.allocator.remove t).1⟩ : Arena T).get otkn = some mo := by
        rw [hframe₂ otkn hot]
        exact hmo
      rw [Arena.modifyNode_eq ha₂o] at hrun
      have ha' := Option.some.inj hrun
      rw [← ha']
      obtain ⟨a₁d, hdet, hcapd, hcntd, hheadd, hwfd, hatd, hprevcl, hparcl, hnextcl, hframed⟩ :=
        detach_spec hinv₁ hat
      obtain ⟨a₁dx, hdetx, hinvd, -⟩ := detach_pres hinv₁ hat
      have he2 : a₁d = a₁dx := Option.some.inj (hdet.symm.trans hdetx)
      subst he2
      refine free_isolated_pres hinvd hatd rfl rfl rfl rfl ?_ ?_ ?_
      · exact Arena.wf_setNodeAt hwf₂ ha₂o _
      · rw [Arena.get_setNodeAt_ne ha₂o _ hot.symm]
        exact ht₂
      · intro i hit
        by_cases hio : i = otkn
        · rw [hio, Arena.get_setNodeAt_same ha₂o]
          obtain ⟨mo', hmo', hod⟩ := hprevcl otkn hprev2
          rw [hmo] at hmo'
          cases Option.some.inj hmo'
          have hod' : a₁d.get otkn = some { mo with nextSibling := n.nextSibling } := hod
          rw [hnext2] at hod'
          rw [hod']
        · rw [Arena.get_setNodeAt_ne ha₂o _ hio, hframe₂ i hit]
          rw [hframed i hit ?_ ?_ ?_]
          · intro hc
            have hc' : n.previousSibling = some i := hc
            rw [hprev2] at hc'
            exact hio (Option.some.inj hc').symm
          · intro hc
            have hc' : n.previousSibling = none := hc.1
            rw [hprev2] at hc'
            cases hc'
          · intro hc
            have hc' : n.nextSibling = some i := hc
            rw [hnext2] at hc'
            cases hc'
    next ptkn ytkn hpar2 hprev2 hnext2 =>
      -- first child with a next sibling: excluded by hypothesis
      exfalso
      have h1 : n.previousSibling = none := hprev2
      have h2 : n.nextSibling = some ytkn := hnext2
      rcases hok with hk | hk
      · exact hk h1
      · rw [h2] at hk
        cases hk
    next ptkn hpar2 hprev2 hnext2 =>
      -- only child: clear the parent's first-child link
      obtain ⟨q, hq, hqf⟩ := hinv₁.parent_first t _ ptkn hat hpar2
      have hpt : ptkn ≠ t := by
        intro heq
        refine (hinv₁.parent_halts t _ hat).no_self_loop ?_
        show Arena.stepParent a₁ t = some t
        unfold Arena.stepParent
        rw [hat, Option.some_bind, hpar2, heq]
      have ha₂p : (⟨(a₁.allocator.remove t).1⟩ : Arena T).get ptkn = some q := by
        rw [hframe₂ ptkn hpt]
        exact hq
      rw [Arena.modifyNode_eq ha₂p] at hrun
      have ha' := Option.some.inj hrun
      rw [← ha']
      obtain ⟨a₁d, hdet, hcapd, hcntd, hheadd, hwfd, hatd, hprevcl, hparcl, hnextcl, hframed⟩ :=
        detach_spec hinv₁ hat
      obtain ⟨a₁dx, hdetx, hinvd, -⟩ := detach_pres hinv₁ hat
      have he2 : a₁d = a₁dx := Option.some.inj (hdet.symm.trans hdetx)
      subst he2
      refine free_isolated_pres hinvd hatd rfl rfl rfl rfl ?_ ?_ ?_
      · exact Arena.wf_setNodeAt hwf₂ ha₂p _
      · rw [Arena.get_setNodeAt_ne ha₂p _ hpt.symm]
        exact ht₂
      · intro i hit
        by_cases hip : i = ptkn
        · rw [hip, Arena.get_setNodeAt_same ha₂p]
          obtain ⟨mq', hmq', hpd⟩ := hparcl ptkn hprev2 hpar2
          rw [hq] at hmq'
          cases Option.some.inj hmq'
          have hpd' : a₁d.get ptkn = some { q with firstChild := n.nextSibling } := hpd
          rw [hnext2] at hpd'
          rw [hpd']
        · rw [Arena.get_setNodeAt_ne ha₂p _ hip, hframe₂ i hit]
          rw [hframed i hit ?_ ?_ ?_]
          · intro hc
            have hc' : n.previousSibling = some i := hc
            rw [hprev2] at hc'
            cases hc'
          · intro hc
            have hc' : n.parent = some i := hc.2
            rw [hpar2] at hc'
            exact hip (Option.some.inj hc').symm
          · intro hc
            have hc' : n.nextSibling = some i := hc
            rw [hnext2] at hc'
            cases hc'
    next hpar2 hprev2 hnext2 =>
      -- standalone root: nothing to repair
      have ha' := Option.some.inj hrun
      rw [← ha']
      exact free_isolated_pres hinv₁ hat hpar2 hprev2 hnext2 rfl hwf₂ ht₂ hframe₂
    next y hpar2 hprev2 hnext2 =>
      cases hrun
    next y hpar2 hprev2 hnext2 =>
      cases hrun
    next y z hpar2 hprev2 hnext2 =>
      cases hrun

/-- Every element of a halting walk is the start or the target of a step
from another element. -/
theorem Walk.mem_source {g : Nat → Option Nat} :
    ∀ {c L x}, Walk g c L → x ∈ L → x = c ∨ ∃ j ∈ L, g j = some x := by
  intro c L x h
  induction h with
  | last hg =>
    intro hx
    rcases List.mem_singleton.mp hx with rfl
    exact Or.inl rfl
  | step hg hw ih =>
    intro hx
    rcases List.mem_cons.mp hx with rfl | hx2
    · exact Or.inl rfl
    · rcases ih hx2 with rfl | ⟨j, hj, hgj⟩
      · exact Or.inr ⟨_, List.mem_cons_self _ _, hg⟩
      · exact Or.inr ⟨j, List.mem_cons_of_mem _ hj, hgj⟩

/-- Hooking an occupied standalone root `o` (no parent, no siblings —
`other` in `Token::replace_node`) into a sibling chain directly after an
existing member `u` preserves the structural invariant, provided the
target position's ancestor chain does not pass through `o`.  `o` keeps its
own children. -/
theorem attach_root_after {T : Type} {a a' : Arena T} (hinv : Inv a)
    (hwf' : Allocator.WF a'.allocator) {o u : Nat} {mo mu : Node T} {P X : Option Nat}
    (ho : a.get o = some mo)
    (hmopar : mo.parent = none) (hmoprev : mo.previousSibling = none)
    (hmonext : mo.nextSibling = none)
    (hz : a'.get o = some { mo with parent := P, previousSibling := some u, nextSibling := X })
    (hu : a.get u = some mu) (hun : mu.nextSibling = X) (hup : mu.parent = P)
    (hou : u ≠ o)
    (hu' : a'.get u = some { mu with nextSibling := some o })
    (hXhook : ∀ w, X = some w → w ≠ o ∧ ∃ mw, a.get w = some mw ∧
        mw.previousSibling = some u ∧ mw.parent = P ∧
        a'.get w = some { mw with previousSibling := some o })
    (hPocc : ∀ p, P = some p → ∃ q, a.get p = some q)
    (hPavoid : ∀ p, P = some p → ∀ L, Walk (Arena.stepParent a) p L → o ∉ L)
    (hframe : ∀ i, i ≠ o → i ≠ u → (∀ w, X = some w → i ≠ w) → a'.get i = a.get i) :
    Inv a' := by
  have hXsplit : X = none ∨ ∃ w, X = some w := by
    cases X with
    | none => exact Or.inl rfl
    | some w => exact Or.inr ⟨w, rfl⟩
  have hno_next : ∀ x mx, a.get x = some mx → mx.nextSibling ≠ some o := by
    intro x mx hx hc
    obtain ⟨m2, hm2, hm2p, -⟩ := hinv.next_prev x mx o hx hc
    rw [ho] at hm2
    cases Option.some.inj hm2
    rw [hmoprev] at hm2p
    cases hm2p
  have hno_prev : ∀ x mx, a.get x = some mx → mx.previousSibling ≠ some o := by
    intro x mx hx hc
    obtain ⟨m2, hm2, hm2n⟩ := hinv.prev_next x mx o hx hc
    rw [ho] at hm2
    cases Option.some.inj hm2
    rw [hmonext] at hm2n
    cases hm2n
  have hno_fc : ∀ x mx, a.get x = some mx → mx.firstChild ≠ some o := by
    intro x mx hx hc
    obtain ⟨m2, hm2, hm2par, -⟩ := hinv.first_child x mx o hx hc
    rw [ho] at hm2
    cases Option.some.inj hm2
    rw [hmopar] at hm2par
    cases hm2par
  have hPno : ∀ p, P = some p → p ≠ o := by
    intro p hP2 he
    obtain ⟨q, hq⟩ := hPocc p hP2
    obtain ⟨L, hL⟩ := (hinv.parent_halts p q hq).to_walk
    exact hPavoid p hP2 L hL (he ▸ hL.head_mem)
  have hnsl_next : ∀ x mx, a.get x = some mx → mx.nextSibling = some x → False := by
    intro x mx hx hc
    refine (hinv.next_halts x mx hx).no_self_loop ?_
    show Arena.stepNext a x = some x
    unfold Arena.stepNext
    rw [hx, Option.some_bind]
    exact hc
  have hnsl_prev : ∀ x mx, a.get x = some mx → mx.previousSibling = some x → False := by
    intro x mx hx hc
    refine (hinv.prev_halts x mx hx).no_self_loop ?_
    show Arena.stepPrev a x = some x
    unfold Arena.stepPrev
    rw [hx, Option.some_bind]
    exact hc
  have hnsl_par : ∀ x mx, a.get x = some mx → mx.parent = some x → False := by
    intro x mx hx hc
    refine (hinv.parent_halts x mx hx).no_self_loop ?_
    show Arena.stepParent a x = some x
    unfold Arena.stepParent
    rw [hx, Option.some_bind]
    exact hc
  have hn2c_next : ∀ x mx y my, a.get x = some mx → a.get y = some my →
      mx.nextSibling = some y → my.nextSibling = some x → False := by
    intro x mx y my hx hy hxy hyx
    refine (hinv.next_halts x mx hx).no_two_cycle
      (show Arena.stepNext a x = some y by
        unfold Arena.stepNext; rw [hx, Option.some_bind]; exact hxy)
      (show Arena.stepNext a y = some x by
        unfold Arena.stepNext; rw [hy, Option.some_bind]; exact hyx)
  have hlinkN : ∀ i n j, a.get i = some n → n.nextSibling = some j →
      ((a.get j).isSome : Prop) := by
    intro i n j hi hj
    obtain ⟨m, hm, -, -⟩ := hinv.next_prev i n j hi hj
    rw [hm]
    rfl
  have hlinkV : ∀ i n j, a.get i = some n → n.previousSibling = some j →
      ((a.get j).isSome : Prop) := by
    intro i n j hi hj
    obtain ⟨m, hm, -⟩ := hinv.prev_next i n j hi hj
    rw [hm]
    rfl
  have hlinkP : ∀ i n j, a.get i = some n → n.parent = some j →
      ((a.get j).isSome : Prop) := by
    intro i n j hi hj
    obtain ⟨qq, hqq, -⟩ := hinv.parent_first i n j hi hj
    rw [hqq]
    rfl
  have hoccwalkN : ∀ {c L}, Walk (Arena.stepNext a) c L → ((a.get c).isSome : Prop) →
      ∀ j ∈ L, ((a.get j).isSome : Prop) :=
    fun hw hc => walk_occupied hlinkN (hw.congr fun j _ => rfl) hc
  have hoccwalkV : ∀ {c L}, Walk (Arena.stepPrev a) c L → ((a.get c).isSome : Prop) →
      ∀ j ∈ L, ((a.get j).isSome : Prop) :=
    fun hw hc => walk_occupied hlinkV (hw.congr fun j _ => rfl) hc
  have hclass : ∀ i mi', a'.get i = some mi' →
      (i = o ∧ mi' = { mo with parent := P, previousSibling := some u, nextSibling := X }) ∨
      (i = u ∧ mi' = { mu with nextSibling := some o }) ∨
      (∃ w mw, X = some w ∧ i = w ∧ a.get w = some mw ∧ mw.previousSibling = some u ∧
        mw.parent = P ∧ mi' = { mw with previousSibling := some o }) ∨
      (i ≠ o ∧ i ≠ u ∧ (∀ w, X = some w → i ≠ w) ∧ a.get i = some mi') := by
    intro i mi' hi
    by_cases hio : i = o
    · rw [hio, hz] at hi
      exact Or.inl ⟨hio, (Option.some.inj hi).symm⟩
    by_cases hiu : i = u
    · rw [hiu, hu'] at hi
      exact Or.inr (Or.inl ⟨hiu, (Option.some.inj hi).symm⟩)
    rcases hXsplit with hX2 | ⟨w, hX2⟩
    · have hcond : ∀ w, X = some w → i ≠ w :=
        fun w h0 => Option.noConfusion (hX2.symm.trans h0)
      refine Or.inr (Or.inr (Or.inr ⟨hio, hiu, hcond, ?_⟩))
      rw [← hframe i hio hiu hcond]
      exact hi
    · obtain ⟨hwo, mw, hw, hwv, hwp, hw'⟩ := hXhook w hX2
      by_cases hiw : i = w
      · rw [hiw, hw'] at hi
        exact Or.inr (Or.inr (Or.inl ⟨w, mw, hX2, hiw, hw, hwv, hwp, (Option.some.inj hi).symm⟩))
      · have hcond : ∀ w', X = some w' → i ≠ w' := by
          intro w' h0
          cases Option.some.inj (hX2.symm.trans h0)
          exact hiw
        refine Or.inr (Or.inr (Or.inr ⟨hio, hiu, hcond, ?_⟩))
        rw [← hframe i hio hiu hcond]
        exact hi
  have hparEq : ∀ j, j ≠ o → Arena.stepParent a' j = Arena.stepParent a j := by
    intro j hjo
    unfold Arena.stepParent
    by_cases hju : j = u
    · rw [hju, hu', hu]
      rfl
    rcases hXsplit with hX2 | ⟨w, hX2⟩
    · rw [hframe j hjo hju (fun w h0 => Option.noConfusion (hX2.symm.trans h0))]
    · obtain ⟨hwo, mw, hw, hwv, hwp, hw'⟩ := hXhook w hX2
      by_cases hjw : j = w
      · rw [hjw, hw', hw]
        rfl
      · rw [hframe j hjo hju (fun w' h0 => by
          cases Option.some.inj (hX2.symm.trans h0); exact hjw)]
  have hprevEq : ∀ j, j ≠ o → (∀ w, X = some w → j ≠ w) →
      Arena.stepPrev a' j = Arena.stepPrev a j := by
    intro j hjo hjw
    unfold Arena.stepPrev
    by_cases hju : j = u
    · rw [hju, hu', hu]
      rfl
    · rw [hframe j hjo hju hjw]
  have hnextEq : ∀ j, j ≠ o → j ≠ u → Arena.stepNext a' j = Arena.stepNext a j := by
    intro j hjo hju
    unfold Arena.stepNext
    rcases hXsplit with hX2 | ⟨w, hX2⟩
    · rw [hframe j hjo hju (fun w h0 => Option.noConfusion (hX2.symm.trans h0))]
    · obtain ⟨hwo, mw, hw, hwv, hwp, hw'⟩ := hXhook w hX2
      by_cases hjw : j = w
      · rw [hjw, hw', hw]
        rfl
      · rw [hframe j hjo hju (fun w' h0 => by
          cases Option.some.inj (hX2.symm.trans h0); exact hjw)]
  have HnextW : ∀ w, X = some w → Halts (Arena.stepNext a') w := by
    intro w hX2
    obtain ⟨hwo, mw, hw, hwv, hwp, hw'⟩ := hXhook w hX2
    obtain ⟨Lw, hLw⟩ := (hinv.next_halts w mw hw).to_walk
    have hocc := hoccwalkN hLw (by rw [hw]; rfl)
    have hnu : u ∉ Lw := by
      intro hmem
      refine walk_no_cycle hLw hmem ?_
      show Arena.stepNext a u = some w
      unfold Arena.stepNext
      rw [hu, Option.some_bind, hun, hX2]
    have hno : o ∉ Lw := by
      intro hmem
      rcases Walk.mem_source hLw hmem with he | ⟨j, hj, hgj⟩
      · exact hwo he.symm
      · obtain ⟨mj, hmj⟩ := Option.isSome_iff_exists.mp (hocc j hj)
        have hg' : (a.get j).bind (fun m => m.nextSibling) = some o := hgj
        rw [hmj, Option.some_bind] at hg'
        exact hno_next j mj hmj hg'
    refine halts_transport hLw ?_
    intro j hj
    refine Or.inl (hnextEq j (fun he => hno (he ▸ hj)) (fun he => hnu (he ▸ hj)))
  have HnextO : Halts (Arena.stepNext a') o := by
    rcases hXsplit with hX2 | ⟨w, hX2⟩
    · refine Halts.stop ?_
      unfold Arena.stepNext
      rw [hz, Option.some_bind]
      show X = none
      exact hX2
    · refine Halts.step ?_ (HnextW w hX2)
      unfold Arena.stepNext
      rw [hz, Option.some_bind]
      show X = some w
      exact hX2
  have HnextU : Halts (Arena.stepNext a') u := by
    refine Halts.step ?_ HnextO
    unfold Arena.stepNext
    rw [hu', Option.some_bind]
  have HnextOcc : ∀ x mx, a.get x = some mx → Halts (Arena.stepNext a') x := by
    intro x mx hx
    obtain ⟨L, hL⟩ := (hinv.next_halts x mx hx).to_walk
    refine halts_transport hL ?_
    intro j hj
    by_cases hju : j = u
    · exact Or.inr (hju ▸ HnextU)
    by_cases hjo : j = o
    · exact Or.inr (hjo ▸ HnextO)
    · exact Or.inl (hnextEq j hjo hju)
  have HprevU : Halts (Arena.stepPrev a') u := by
    obtain ⟨Lu, hLu⟩ := (hinv.prev_halts u mu hu).to_walk
    have hocc := hoccwalkV hLu (by rw [hu]; rfl)
    have hwnot : ∀ w, X = some w → w ∉ Lu := by
      intro w hX2 hmem
      obtain ⟨hwo, mw, hw, hwv, hwp, hw'⟩ := hXhook w hX2
      refine walk_no_cycle hLu hmem ?_
      show Arena.stepPrev a w = some u
      unfold Arena.stepPrev
      rw [hw, Option.some_bind, hwv]
    have honot : o ∉ Lu := by
      intro hmem
      rcases Walk.mem_source hLu hmem with he | ⟨j, hj, hgj⟩
      · exact hou he.symm
      · obtain ⟨mj, hmj⟩ := Option.isSome_iff_exists.mp (hocc j hj)
        have hg' : (a.get j).bind (fun m => m.previousSibling) = some o := hgj
        rw [hmj, Option.some_bind] at hg'
        exact hno_prev j mj hmj hg'
    refine halts_transport hLu ?_
    intro j hj
    refine Or.inl (hprevEq j (fun he => honot (he ▸ hj)) ?_)
    intro w hX2 he
    exact hwnot w hX2 (he ▸ hj)
  have HprevO : Halts (Arena.stepPrev a') o := by
    refine Halts.step ?_ HprevU
    unfold Arena.stepPrev
    rw [hz, Option.some_bind]
  have HprevW : ∀ w, X = some w → Halts (Arena.stepPrev a') w := by
    intro w hX2
    obtain ⟨hwo, mw, hw, hwv, hwp, hw'⟩ := hXhook w hX2
    refine Halts.step ?_ HprevO
    unfold Arena.stepPrev
    rw [hw', Option.some_bind]
  have HprevOcc : ∀ x mx, a.get x = some mx → Halts (Arena.stepPrev a') x := by
    intro x mx hx
    obtain ⟨L, hL⟩ := (hinv.prev_halts x mx hx).to_walk
    refine halts_transport hL ?_
    intro j hj
    by_cases hjo : j = o
    · exact Or.inr (hjo ▸ HprevO)
    rcases hXsplit with hX2 | ⟨w, hX2⟩
    · exact Or.inl (hprevEq j hjo (fun w h0 => Option.noConfusion (hX2.symm.trans h0)))
    · by_cases hjw : j = w
      · exact Or.inr (hjw ▸ HprevW w hX2)
      · exact Or.inl (hprevEq j hjo (fun w' h0 => by
          cases Option.some.inj (hX2.symm.trans h0); exact hjw))
  have hPcases : P = none ∨ ∃ p, P = some p := by
    cases P with
    | none => exact Or.inl rfl
    | some p => exact Or.inr ⟨p, rfl⟩
  have HparO : Halts (Arena.stepParent a') o := by
    rcases hPcases with hP2 | ⟨p, hP2⟩
    · refine Halts.stop ?_
      unfold Arena.stepParent
      rw [hz, Option.some_bind]
      show P = none
      exact hP2
    · obtain ⟨q, hq⟩ := hPocc p hP2
      obtain ⟨Lp, hLp⟩ := (hinv.parent_halts p q hq).to_walk
      have hno := hPavoid p hP2 Lp hLp
      refine Halts.step ?_ (halts_transport hLp ?_)
      · unfold Arena.stepParent
        rw [hz, Option.some_bind]
        show P = some p
        exact hP2
      · intro j hj
        exact Or.inl (hparEq j (fun he => hno (he ▸ hj)))
  have HparOcc : ∀ x mx, a.get x = some mx → Halts (Arena.stepParent a') x := by
    intro x mx hx
    obtain ⟨L, hL⟩ := (hinv.parent_halts x mx hx).to_walk
    refine halts_transport hL ?_
    intro j hj
    by_cases hjo : j = o
    · exact Or.inr (hjo ▸ HparO)
    · exact Or.inl (hparEq j hjo)
  refine ⟨hwf', ?_, ?_, ?_, ?_, ?_, ?_, ?_, ?_⟩
  · -- token_eq
    intro i mi' hi
    rcases hclass i mi' hi with ⟨hieq, hmieq⟩ | ⟨hieq, hmieq⟩ |
      ⟨w, mw, hX2, hieq, hw, hwv, hwp, hmieq⟩ | ⟨-, -, -, hfr⟩
    · rw [hmieq, hieq]
      exact hinv.token_eq o mo ho
    · rw [hmieq, hieq]
      exact hinv.token_eq u mu hu
    · rw [hmieq, hieq]
      exact hinv.token_eq w mw hw
    · exact hinv.token_eq i mi' hfr
  · -- next_prev
    intro i mi' j hi hj
    rcases hclass i mi' hi with ⟨hieq, hmieq⟩ | ⟨hieq, hmieq⟩ |
      ⟨w, mw, hX2, hieq, hw, hwv, hwp, hmieq⟩ | ⟨hio, hiu, hiw, hfr⟩
    · -- i = o
      rw [hmieq] at hj
      have hj' : X = some j := hj
      obtain ⟨hjo, mw, hw, hwv, hwp, hw'⟩ := hXhook j hj'
      refine ⟨{ mw with previousSibling := some o }, hw', ?_, ?_⟩
      · rw [hieq]
      · rw [hmieq]
        show mw.parent = P
        exact hwp
    · -- i = u
      rw [hmieq] at hj
      have hjo : j = o := (Option.some.inj hj).symm
      refine ⟨{ mo with parent := P, previousSibling := some u, nextSibling := X }, ?_, ?_, ?_⟩
      · rw [hjo]
        exact hz
      · show some u = some i
        rw [hieq]
      · rw [hmieq]
        show P = mu.parent
        exact hup.symm
    · -- i = w
      rw [hmieq] at hj
      have hj' : mw.nextSibling = some j := hj
      obtain ⟨m, hm, hmp, hmpar⟩ := hinv.next_prev w mw j hw hj'
      have hjo : j ≠ o := by
        intro he
        exact hno_next w mw hw (he ▸ hj')
      have hju : j ≠ u := by
        intro he
        exact hn2c_next u mu w mw hu hw (hun.trans hX2) (he ▸ hj')
      have hjw : ∀ w', X = some w' → j ≠ w' := by
        intro w' h0 he
        cases Option.some.inj (hX2.symm.trans h0)
        rw [he] at hj'
        exact hnsl_next w mw hw hj'
      refine ⟨m, ?_, ?_, ?_⟩
      · rw [hframe j hjo hju hjw]
        exact hm
      · rw [hieq]
        exact hmp
      · rw [hmieq]
        exact hmpar
    · -- frame node
      obtain ⟨m, hm, hmp, hmpar⟩ := hinv.next_prev i mi' j hfr hj
      have hjo : j ≠ o := by
        intro he
        exact hno_next i mi' hfr (he ▸ hj)
      by_cases hju : j = u
      · have hmu : m = mu := by
          rw [hju, hu] at hm
          exact (Option.some.inj hm).symm
        refine ⟨{ mu with nextSibling := some o }, ?_, ?_, ?_⟩
        · rw [hju]
          exact hu'
        · show mu.previousSibling = some i
          rw [← hmu]
          exact hmp
        · show mu.parent = mi'.parent
          rw [← hmu]
          exact hmpar
      rcases hXsplit with hX2 | ⟨w, hX2⟩
      · have hjw : ∀ w', X = some w' → j ≠ w' :=
          fun w' h0 => Option.noConfusion (hX2.symm.trans h0)
        refine ⟨m, ?_, hmp, hmpar⟩
        rw [hframe j hjo hju hjw]
        exact hm
      · obtain ⟨hwo, mw, hw, hwv, hwp, hw'⟩ := hXhook w hX2
        by_cases hjw : j = w
        · have hmw : m = mw := by
            rw [hjw, hw] at hm
            exact (Option.some.inj hm).symm
          rw [hmw, hwv] at hmp
          exact absurd (Option.some.inj hmp).symm hiu
        · have hjcond : ∀ w', X = some w' → j ≠ w' := by
            intro w' h0
            cases Option.some.inj (hX2.symm.trans h0)
            exact hjw
          refine ⟨m, ?_, hmp, hmpar⟩
          rw [hframe j hjo hju hjcond]
          exact hm
  · -- prev_next
    intro i mi' j hi hj
    rcases hclass i mi' hi with ⟨hieq, hmieq⟩ | ⟨hieq, hmieq⟩ |
      ⟨w, mw, hX2, hieq, hw, hwv, hwp, hmieq⟩ | ⟨hio, hiu, hiw, hfr⟩
    · -- i = o
      rw [hmieq] at hj
      have hju : j = u := (Option.some.inj hj).symm
      refine ⟨{ mu with nextSibling := some o }, ?_, ?_⟩
      · rw [hju]
        exact hu'
      · show some o = some i
        rw [hieq]
    · -- i = u
      rw [hmieq] at hj
      have hj' : mu.previousSibling = some j := hj
      obtain ⟨m, hm, hmn⟩ := hinv.prev_next u mu j hu hj'
      have hjo : j ≠ o := by
        intro he
        exact hno_prev u mu hu (he ▸ hj')
      have hju : j ≠ u := by
        intro he
        rw [he] at hj'
        exact hnsl_prev u mu hu hj'
      have hjw : ∀ w', X = some w' → j ≠ w' := by
        intro w' h0 he
        obtain ⟨hwo, mw, hw, hwv, hwp, hw'⟩ := hXhook w' h0
        have hmw : m = mw := by
          rw [he, hw] at hm
          exact (Option.some.inj hm).symm
        exact hn2c_next u mu w' mw hu hw (hun.trans h0) (hmw ▸ hmn)
      refine ⟨m, ?_, ?_⟩
      · rw [hframe j hjo hju hjw]
        exact hm
      · rw [hieq]
        exact hmn
    · -- i = w
      rw [hmieq] at hj
      have hjo : j = o := (Option.some.inj hj).symm
      refine ⟨{ mo with parent := P, previousSibling := some u, nextSibling := X }, ?_, ?_⟩
      · rw [hjo]
        exact hz
      · show X = some i
        rw [hX2, hieq]
    · -- frame node
      obtain ⟨m, hm, hmn⟩ := hinv.prev_next i mi' j hfr hj
      have hjo : j ≠ o := by
        intro he
        exact hno_prev i mi' hfr (he ▸ hj)
      by_cases hju : j = u
      · have hmu : m = mu := by
          rw [hju, hu] at hm
          exact (Option.some.inj hm).symm
        have hXi : X = some i := hun.symm.trans (hmu ▸ hmn)
        exact absurd rfl (hiw i hXi)
      rcases hXsplit with hX2 | ⟨w, hX2⟩
      · have hjcond : ∀ w', X = some w' → j ≠ w' :=
          fun w' h0 => Option.noConfusion (hX2.symm.trans h0)
        refine ⟨m, ?_, hmn⟩
        rw [hframe j hjo hju hjcond]
        exact hm
      · obtain ⟨hwo, mw, hw, hwv, hwp, hw'⟩ := hXhook w hX2
        by_cases hjw : j = w
        · have hmw : m = mw := by
            rw [hjw, hw] at hm
            exact (Option.some.inj hm).symm
          refine ⟨{ mw with previousSibling := some o }, ?_, ?_⟩
          · rw [hjw]
            exact hw'
          · show mw.nextSibling = some i
            rw [← hmw]
            exact hmn
        · have hjcond : ∀ w', X = some w' → j ≠ w' := by
            intro w' h0
            cases Option.some.inj (hX2.symm.trans h0)
            exact hjw
          refine ⟨m, ?_, hmn⟩
          rw [hframe j hjo hju hjcond]
          exact hm
  · -- first_child
    intro i mi' c hi hc
    rcases hclass i mi' hi with ⟨hieq, hmieq⟩ | ⟨hieq, hmieq⟩ |
      ⟨w, mw, hX2, hieq, hw, hwv, hwp, hmieq⟩ | ⟨hio, hiu, hiw, hfr⟩
    · -- i = o: o keeps its children
      rw [hmieq] at hc
      have hc' : mo.firstChild = some c := hc
      obtain ⟨m, hm, hmpar, hmprev⟩ := hinv.first_child o mo c ho hc'
      have hco : c ≠ o := by
        intro he
        have hmo2 : m = mo := by
          rw [he, ho] at hm
          exact (Option.some.inj hm).symm
        rw [hmo2, hmopar] at hmpar
        cases hmpar
      have hcu : c ≠ u := by
        intro he
        have hmu : m = mu := by
          rw [he, hu] at hm
          exact (Option.some.inj hm).symm
        have hPo : P = some o := hup.symm.trans (by rw [← hmu]; exact hmpar)
        exact hPno o hPo rfl
      have hcw : ∀ w', X = some w' → c ≠ w' := by
        intro w' h0 he
        obtain ⟨hwo, mw, hw, hwv, hwp, hw'⟩ := hXhook w' h0
        have hmw : m = mw := by
          rw [he, hw] at hm
          exact (Option.some.inj hm).symm
        have hPo : P = some o := hwp.symm.trans (by rw [← hmw]; exact hmpar)
        exact hPno o hPo rfl
      refine ⟨m, ?_, ?_, hmprev⟩
      · rw [hframe c hco hcu hcw]
        exact hm
      · rw [hieq]
        exact hmpar
    · -- i = u
      rw [hmieq] at hc
      have hc' : mu.firstChild = some c := hc
      obtain ⟨m, hm, hmpar, hmprev⟩ := hinv.first_child u mu c hu hc'
      have hco : c ≠ o := by
        intro he
        have hmo2 : m = mo := by
          rw [he, ho] at hm
          exact (Option.some.inj hm).symm
        rw [hmo2, hmopar] at hmpar
        cases hmpar
      have hcu : c ≠ u := by
        intro he
        have hmu : m = mu := by
          rw [he, hu] at hm
          exact (Option.some.inj hm).symm
        exact hnsl_par u mu hu (by rw [← hmu]; exact hmpar)
      have hcw : ∀ w', X = some w' → c ≠ w' := by
        intro w' h0 he
        obtain ⟨hwo, mw, hw, hwv, hwp, hw'⟩ := hXhook w' h0
        have hmw : m = mw := by
          rw [he, hw] at hm
          exact (Option.some.inj hm).symm
        have hPu : P = some u := hwp.symm.trans (hmw ▸ hmpar)
        exact hnsl_par u mu hu (hup.trans hPu)
      refine ⟨m, ?_, ?_, hmprev⟩
      · rw [hframe c hco hcu hcw]
        exact hm
      · rw [hieq]
        exact hmpar
    · -- i = w
      rw [hmieq] at hc
      have hc' : mw.firstChild = some c := hc
      obtain ⟨m, hm, hmpar, hmprev⟩ := hinv.first_child w mw c hw hc'
      have hco : c ≠ o := by
        intro he
        have hmo2 : m = mo := by
          rw [he, ho] at hm
          exact (Option.some.inj hm).symm
        rw [hmo2, hmopar] at hmpar
        cases hmpar
      have hcu : c ≠ u := by
        intro he
        have hmu : m = mu := by
          rw [he, hu] at hm
          exact (Option.some.inj hm).symm
        have hPw : P = some w := hup.symm.trans (by rw [← hmu]; exact hmpar)
        exact hnsl_par w mw hw (hwp.trans hPw)
      have hcw : ∀ w', X = some w' → c ≠ w' := by
        intro w' h0 he
        cases Option.some.inj (hX2.symm.trans h0)
        have hmw2 : m = mw := by
          rw [he, hw] at hm
          exact (Option.some.inj hm).symm
        exact hnsl_par w mw hw (by rw [← hmw2]; exact hmpar)
      refine ⟨m, ?_, ?_, hmprev⟩
      · rw [hframe c hco hcu hcw]
        exact hm
      · rw [hieq]
        exact hmpar
    · -- frame node
      obtain ⟨m, hm, hmpar, hmprev⟩ := hinv.first_child i mi' c hfr hc
      have hco : c ≠ o := by
        intro he
        have hmo2 : m = mo := by
          rw [he, ho] at hm
          exact (Option.some.inj hm).symm
        rw [hmo2, hmopar] at hmpar
        cases hmpar
      by_cases hcu : c = u
      · have hmu : m = mu := by
          rw [hcu, hu] at hm
          exact (Option.some.inj hm).symm
        refine ⟨{ mu with nextSibling := some o }, ?_, ?_, ?_⟩
        · rw [hcu]
          exact hu'
        · show mu.parent = some i
          rw [← hmu]
          exact hmpar
        · show mu.previousSibling = none
          rw [← hmu]
          exact hmprev
      rcases hXsplit with hX2 | ⟨w, hX2⟩
      · have hcw : ∀ w', X = some w' → c ≠ w' :=
          fun w' h0 => Option.noConfusion (hX2.symm.trans h0)
        refine ⟨m, ?_, hmpar, hmprev⟩
        rw [hframe c hco hcu hcw]
        exact hm
      · obtain ⟨hwo, mw, hw, hwv, hwp, hw'⟩ := hXhook w hX2
        by_cases hcw : c = w
        · have hmw : m = mw := by
            rw [hcw, hw] at hm
            exact (Option.some.inj hm).symm
          rw [hmw, hwv] at hmprev
          cases hmprev
        · have hccond : ∀ w', X = some w' → c ≠ w' := by
            intro w' h0
            cases Option.some.inj (hX2.symm.trans h0)
            exact hcw
          refine ⟨m, ?_, hmpar, hmprev⟩
          rw [hframe c hco hcu hccond]
          exact hm
  · -- parent_first
    intro i mi' pr hi hp
    rcases hclass i mi' hi with ⟨hieq, hmieq⟩ | ⟨hieq, hmieq⟩ |
      ⟨w, mw, hX2, hieq, hw, hwv, hwp, hmieq⟩ | ⟨hio, hiu, hiw, hfr⟩
    · -- i = o: previous sibling is u, implication vacuous
      rw [hmieq] at hp
      have hp' : P = some pr := hp
      obtain ⟨qn, hqn⟩ := hPocc pr hp'
      have hpro : pr ≠ o := hPno pr hp'
      have hpru : pr ≠ u := by
        intro he
        exact hnsl_par u mu hu (hup.trans (he ▸ hp'))
      have hprw : ∀ w', X = some w' → pr ≠ w' := by
        intro w' h0 he
        obtain ⟨hwo, mw, hw, hwv, hwp, hw'⟩ := hXhook w' h0
        exact hnsl_par w' mw hw (hwp.trans (he ▸ hp'))
      refine ⟨qn, ?_, ?_⟩
      · rw [hframe pr hpro hpru hprw]
        exact hqn
      · intro hcv
        rw [hmieq] at hcv
        cases hcv
    · -- i = u
      rw [hmieq] at hp
      have hp' : mu.parent = some pr := hp
      obtain ⟨qn, hqn, hqnf⟩ := hinv.parent_first u mu pr hu hp'
      have hpro : pr ≠ o := hPno pr (hup.symm.trans hp')
      have hpru : pr ≠ u := by
        intro he
        exact hnsl_par u mu hu (he ▸ hp')
      have hprw : ∀ w', X = some w' → pr ≠ w' := by
        intro w' h0 he
        obtain ⟨hwo, mw, hw, hwv, hwp, hw'⟩ := hXhook w' h0
        have hPpr : P = some pr := hup.symm.trans hp'
        have hwpar : mw.parent = some w' := by rw [hwp, hPpr, he]
        exact hnsl_par w' mw hw hwpar
      refine ⟨qn, ?_, ?_⟩
      · rw [hframe pr hpro hpru hprw]
        exact hqn
      · intro hcv
        rw [hmieq] at hcv
        have hcv' : mu.previousSibling = none := hcv
        rw [hieq]
        exact hqnf hcv'
    · -- i = w: previous sibling is o, implication vacuous
      rw [hmieq] at hp
      have hp' : mw.parent = some pr := hp
      have hP2 : P = some pr := hwp.symm.trans hp'
      obtain ⟨qn, hqn⟩ := hPocc pr hP2
      have hpro : pr ≠ o := hPno pr hP2
      have hpru : pr ≠ u := by
        intro he
        exact hnsl_par u mu hu (hup.trans (he ▸ hP2))
      have hprw : ∀ w', X = some w' → pr ≠ w' := by
        intro w' h0 he
        obtain ⟨hwo2, mw2, hw2, hwv2, hwp2, hw2'⟩ := hXhook w' h0
        exact hnsl_par w' mw2 hw2 (hwp2.trans (he ▸ hP2))
      refine ⟨qn, ?_, ?_⟩
      · rw [hframe pr hpro hpru hprw]
        exact hqn
      · intro hcv
        rw [hmieq] at hcv
        cases hcv
    · -- frame node
      obtain ⟨qn, hqn, hqnf⟩ := hinv.parent_first i mi' pr hfr hp
      by_cases hpro : pr = o
      · have hqno : qn = mo := by
          rw [hpro, ho] at hqn
          exact (Option.some.inj hqn).symm
        refine ⟨{ mo with parent := P, previousSibling := some u, nextSibling := X }, ?_, ?_⟩
        · rw [hpro]
          exact hz
        · intro hcv
          show mo.firstChild = some i
          rw [← hqno]
          exact hqnf hcv
      by_cases hpru : pr = u
      · have hqmu : qn = mu := by
          rw [hpru, hu] at hqn
          exact (Option.some.inj hqn).symm
        refine ⟨{ mu with nextSibling := some o }, ?_, ?_⟩
        · rw [hpru]
          exact hu'
        · intro hcv
          show mu.firstChild = some i
          rw [← hqmu]
          exact hqnf hcv
      rcases hXsplit with hX2 | ⟨w, hX2⟩
      · have hprw : ∀ w', X = some w' → pr ≠ w' :=
          fun w' h0 => Option.noConfusion (hX2.symm.trans h0)
        refine ⟨qn, ?_, hqnf⟩
        rw [hframe pr hpro hpru hprw]
        exact hqn
      · obtain ⟨hwo, mw, hw, hwv, hwp, hw'⟩ := hXhook w hX2
        by_cases hprw : pr = w
        · have hqmw : qn = mw := by
            rw [hprw, hw] at hqn
            exact (Option.some.inj hqn).symm
          refine ⟨{ mw with previousSibling := some o }, ?_, ?_⟩
          · rw [hprw]
            exact hw'
          · intro hcv
            show mw.firstChild = some i
            rw [← hqmw]
            exact hqnf hcv
        · have hprcond : ∀ w', X = some w' → pr ≠ w' := by
            intro w' h0
            cases Option.some.inj (hX2.symm.trans h0)
            exact hprw
          refine ⟨qn, ?_, hqnf⟩
          rw [hframe pr hpro hpru hprcond]
          exact hqn
  · -- parent_halts
    intro i mi' hi
    rcases hclass i mi' hi with ⟨hieq, -⟩ | ⟨hieq, -⟩ |
      ⟨w, mw, hX2, hieq, hw, hwv, hwp, -⟩ | ⟨-, -, -, hfr⟩
    · rw [hieq]
      exact HparO
    · rw [hieq]
      exact HparOcc u mu hu
    · rw [hieq]
      exact HparOcc w mw hw
    · exact HparOcc i mi' hfr
  · -- prev_halts
    intro i mi' hi
    rcases hclass i mi' hi with ⟨hieq, -⟩ | ⟨hieq, -⟩ |
      ⟨w, mw, hX2, hieq, hw, hwv, hwp, -⟩ | ⟨-, -, -, hfr⟩
    · rw [hieq]
      exact HprevO
    · rw [hieq]
      exact HprevU
    · rw [hieq]
      exact HprevW w hX2
    · exact HprevOcc i mi' hfr
  · -- next_halts
    intro i mi' hi
    rcases hclass i mi' hi with ⟨hieq, -⟩ | ⟨hieq, -⟩ |
      ⟨w, mw, hX2, hieq, hw, hwv, hwp, -⟩ | ⟨-, -, -, hfr⟩
    · rw [hieq]
      exact HnextO
    · rw [hieq]
      exact HnextU
    · rw [hieq]
      exact HnextOcc w mw hw
    · exact HnextOcc i mi' hfr

/-- Hooking an occupied standalone root `o` in as the first child of `p`
preserves the structural invariant, provided `p`'s ancestor chain does not
pass through `o`.  `o` keeps its own children. -/
theorem attach_root_front {T : Type} {a a' : Arena T} (hinv : Inv a)
    (hwf' : Allocator.WF a'.allocator) {o p : Nat} {mo q : Node T} {X : Option Nat}
    (ho : a.get o = some mo)
    (hmopar : mo.parent = none) (hmoprev : mo.previousSibling = none)
    (hmonext : mo.nextSibling = none)
    (hz : a'.get o = some { mo with parent := some p, previousSibling := none, nextSibling := X })
    (hq : a.get p = some q) (hqfc : q.firstChild = X)
    (hpo : p ≠ o)
    (hp' : a'.get p = some { q with firstChild := some o })
    (hXhook : ∀ w, X = some w → w ≠ o ∧ ∃ mw, a.get w = some mw ∧
        mw.previousSibling = none ∧ mw.parent = some p ∧
        a'.get w = some { mw with previousSibling := some o })
    (hPavoid : ∀ L, Walk (Arena.stepParent a) p L → o ∉ L)
    (hframe : ∀ i, i ≠ o → i ≠ p → (∀ w, X = some w → i ≠ w) → a'.get i = a.get i) :
    Inv a' := by
  have hXsplit : X = none ∨ ∃ w, X = some w := by
    cases X with
    | none => exact Or.inl rfl
    | some w => exact Or.inr ⟨w, rfl⟩
  have hno_next : ∀ x mx, a.get x = some mx → mx.nextSibling ≠ some o := by
    intro x mx hx hc
    obtain ⟨m2, hm2, hm2p, -⟩ := hinv.next_prev x mx o hx hc
    rw [ho] at hm2
    cases Option.some.inj hm2
    rw [hmoprev] at hm2p
    cases hm2p
  have hno_prev : ∀ x mx, a.get x = some mx → mx.previousSibling ≠ some o := by
    intro x mx hx hc
    obtain ⟨m2, hm2, hm2n⟩ := hinv.prev_next x mx o hx hc
    rw [ho] at hm2
    cases Option.some.inj hm2
    rw [hmonext] at hm2n
    cases hm2n
  have hno_fc : ∀ x mx, a.get x = some mx → mx.firstChild ≠ some o := by
    intro x mx hx hc
    obtain ⟨m2, hm2, hm2par, -⟩ := hinv.first_child x mx o hx hc
    rw [ho] at hm2
    cases Option.some.inj hm2
    rw [hmopar] at hm2par
    cases hm2par
  have hparpo : q.parent ≠ some o := by
    intro hc
    obtain ⟨L, hL⟩ := (hinv.parent_halts p q hq).to_walk
    refine hPavoid L hL (hL.mem_next hL.head_mem ?_)
    show (a.get p).bind (fun m => m.parent) = some o
    rw [hq, Option.some_bind]
    exact hc
  have hnsl_next : ∀ x mx, a.get x = some mx → mx.nextSibling = some x → False := by
    intro x mx hx hc
    refine (hinv.next_halts x mx hx).no_self_loop ?_
    show Arena.stepNext a x = some x
    unfold Arena.stepNext
    rw [hx, Option.some_bind]
    exact hc
  have hnsl_prev : ∀ x mx, a.get x = some mx → mx.previousSibling = some x → False := by
    intro x mx hx hc
    refine (hinv.prev_halts x mx hx).no_self_loop ?_
    show Arena.stepPrev a x = some x
    unfold Arena.stepPrev
    rw [hx, Option.some_bind]
    exact hc
  have hnsl_par : ∀ x mx, a.get x = some mx → mx.parent = some x → False := by
    intro x mx hx hc
    refine (hinv.parent_halts x mx hx).no_self_loop ?_
    show Arena.stepParent a x = some x
    unfold Arena.stepParent
    rw [hx, Option.some_bind]
    exact hc
  have hn2c_par : ∀ x mx y my, a.get x = some mx → a.get y = some my →
      mx.parent = some y → my.parent = some x → False := by
    intro x mx y my hx hy hxy hyx
    refine (hinv.parent_halts x mx hx).no_two_cycle
      (show Arena.stepParent a x = some y by
        unfold Arena.stepParent; rw [hx, Option.some_bind]; exact hxy)
      (show Arena.stepParent a y = some x by
        unfold Arena.stepParent; rw [hy, Option.some_bind]; exact hyx)
  have hlinkN : ∀ i n j, a.get i = some n → n.nextSibling = some j →
      ((a.get j).isSome : Prop) := by
    intro i n j hi hj
    obtain ⟨m, hm, -, -⟩ := hinv.next_prev i n j hi hj
    rw [hm]
    rfl
  have hlinkV : ∀ i n j, a.get i = some n → n.previousSibling = some j →
      ((a.get j).isSome : Prop) := by
    intro i n j hi hj
    obtain ⟨m, hm, -⟩ := hinv.prev_next i n j hi hj
    rw [hm]
    rfl
  have hlinkP : ∀ i n j, a.get i = some n → n.parent = some j →
      ((a.get j).isSome : Prop) := by
    intro i n j hi hj
    obtain ⟨qq, hqq, -⟩ := hinv.parent_first i n j hi hj
    rw [hqq]
    rfl
  have hoccwalkN : ∀ {c L}, Walk (Arena.stepNext a) c L → ((a.get c).isSome : Prop) →
      ∀ j ∈ L, ((a.get j).isSome : Prop) :=
    fun hw hc => walk_occupied hlinkN (hw.congr fun j _ => rfl) hc
  have hoccwalkV : ∀ {c L}, Walk (Arena.stepPrev a) c L → ((a.get c).isSome : Prop) →
      ∀ j ∈ L, ((a.get j).isSome : Prop) :=
    fun hw hc => walk_occupied hlinkV (hw.congr fun j _ => rfl) hc
  have hclass : ∀ i mi', a'.get i = some mi' →
      (i = o ∧ mi' = { mo with parent := some p, previousSibling := none, nextSibling := X }) ∨
      (i = p ∧ mi' = { q with firstChild := some o }) ∨
      (∃ w mw, X = some w ∧ i = w ∧ a.get w = some mw ∧ mw.previousSibling = none ∧
        mw.parent = some p ∧ mi' = { mw with previousSibling := some o }) ∨
      (i ≠ o ∧ i ≠ p ∧ (∀ w, X = some w → i ≠ w) ∧ a.get i = some mi') := by
    intro i mi' hi
    by_cases hio : i = o
    · rw [hio, hz] at hi
      exact Or.inl ⟨hio, (Option.some.inj hi).symm⟩
    by_cases hip : i = p
    · rw [hip, hp'] at hi
      exact Or.inr (Or.inl ⟨hip, (Option.some.inj hi).symm⟩)
    rcases hXsplit with hX2 | ⟨w, hX2⟩
    · have hcond : ∀ w, X = some w → i ≠ w :=
        fun w h0 => Option.noConfusion (hX2.symm.trans h0)
      refine Or.inr (Or.inr (Or.inr ⟨hio, hip, hcond, ?_⟩))
      rw [← hframe i hio hip hcond]
      exact hi
    · obtain ⟨hwo, mw, hw, hwv, hwp, hw'⟩ := hXhook w hX2
      by_cases hiw : i = w
      · rw [hiw, hw'] at hi
        exact Or.inr (Or.inr (Or.inl ⟨w, mw, hX2, hiw, hw, hwv, hwp, (Option.some.inj hi).symm⟩))
      · have hcond : ∀ w', X = some w' → i ≠ w' := by
          intro w' h0
          cases Option.some.inj (hX2.symm.trans h0)
          exact hiw
        refine Or.inr (Or.inr (Or.inr ⟨hio, hip, hcond, ?_⟩))
        rw [← hframe i hio hip hcond]
        exact hi
  have hparEq : ∀ j, j ≠ o → Arena.stepParent a' j = Arena.stepParent a j := by
    intro j hjo
    unfold Arena.stepParent
    by_cases hjp : j = p
    · rw [hjp, hp', hq]
      rfl
    rcases hXsplit with hX2 | ⟨w, hX2⟩
    · rw [hframe j hjo hjp (fun w h0 => Option.noConfusion (hX2.symm.trans h0))]
    · obtain ⟨hwo, mw, hw, hwv, hwp, hw'⟩ := hXhook w hX2
      by_cases hjw : j = w
      · rw [hjw, hw', hw]
        rfl
      · rw [hframe j hjo hjp (fun w' h0 => by
          cases Option.some.inj (hX2.symm.trans h0); exact hjw)]
  have hprevEq : ∀ j, j ≠ o → (∀ w, X = some w → j ≠ w) →
      Arena.stepPrev a' j = Arena.stepPrev a j := by
    intro j hjo hjw
    unfold Arena.stepPrev
    by_cases hjp : j = p
    · rw [hjp, hp', hq]
      rfl
    · rw [hframe j hjo hjp hjw]
  have hnextEq : ∀ j, j ≠ o → Arena.stepNext a' j = Arena.stepNext a j := by
    intro j hjo
    unfold Arena.stepNext
    by_cases hjp : j = p
    · rw [hjp, hp', hq]
      rfl
    rcases hXsplit with hX2 | ⟨w, hX2⟩
    · rw [hframe j hjo hjp (fun w h0 => Option.noConfusion (hX2.symm.trans h0))]
    · obtain ⟨hwo, mw, hw, hwv, hwp, hw'⟩ := hXhook w hX2
      by_cases hjw : j = w
      · rw [hjw, hw', hw]
        rfl
      · rw [hframe j hjo hjp (fun w' h0 => by
          cases Option.some.inj (hX2.symm.trans h0); exact hjw)]
  have HnextOcc : ∀ x mx, a.get x = some mx → x ≠ o → Halts (Arena.stepNext a') x := by
    intro x mx hx hxo
    obtain ⟨L, hL⟩ := (hinv.next_halts x mx hx).to_walk
    have hocc := hoccwalkN hL (by rw [hx]; rfl)
    have hno : o ∉ L := by
      intro hmem
      rcases Walk.mem_source hL hmem with he | ⟨j, hj, hgj⟩
      · exact hxo he.symm
      · obtain ⟨mj, hmj⟩ := Option.isSome_iff_exists.mp (hocc j hj)
        have hg' : (a.get j).bind (fun m => m.nextSibling) = some o := hgj
        rw [hmj, Option.some_bind] at hg'
        exact hno_next j mj hmj hg'
    refine halts_transport hL ?_
    intro j hj
    exact Or.inl (hnextEq j (fun he => hno (he ▸ hj)))
  have HnextO : Halts (Arena.stepNext a') o := by
    rcases hXsplit with hX2 | ⟨w, hX2⟩
    · refine Halts.stop ?_
      unfold Arena.stepNext
      rw [hz, Option.some_bind]
      show X = none
      exact hX2
    · obtain ⟨hwo, mw, hw, hwv, hwp, hw'⟩ := hXhook w hX2
      refine Halts.step ?_ (HnextOcc w mw hw hwo)
      unfold Arena.stepNext
      rw [hz, Option.some_bind]
      show X = some w
      exact hX2
  have HprevO : Halts (Arena.stepPrev a') o := by
    refine Halts.stop ?_
    unfold Arena.stepPrev
    rw [hz, Option.some_bind]
  have HprevW : ∀ w, X = some w → Halts (Arena.stepPrev a') w := by
    intro w hX2
    obtain ⟨hwo, mw, hw, hwv, hwp, hw'⟩ := hXhook w hX2
    refine Halts.step ?_ HprevO
    unfold Arena.stepPrev
    rw [hw', Option.some_bind]
  have HprevOcc : ∀ x mx, a.get x = some mx → Halts (Arena.stepPrev a') x := by
    intro x mx hx
    obtain ⟨L, hL⟩ := (hinv.prev_halts x mx hx).to_walk
    refine halts_transport hL ?_
    intro j hj
    by_cases hjo : j = o
    · exact Or.inr (hjo ▸ HprevO)
    rcases hXsplit with hX2 | ⟨w, hX2⟩
    · exact Or.inl (hprevEq j hjo (fun w h0 => Option.noConfusion (hX2.symm.trans h0)))
    · by_cases hjw : j = w
      · exact Or.inr (hjw ▸ HprevW w hX2)
      · exact Or.inl (hprevEq j hjo (fun w' h0 => by
          cases Option.some.inj (hX2.symm.trans h0); exact hjw))
  have HparO : Halts (Arena.stepParent a') o := by
    obtain ⟨Lp, hLp⟩ := (hinv.parent_halts p q hq).to_walk
    have hno := hPavoid Lp hLp
    refine Halts.step ?_ (halts_transport hLp ?_)
    · unfold Arena.stepParent
      rw [hz, Option.some_bind]
    · intro j hj
      exact Or.inl (hparEq j (fun he => hno (he ▸ hj)))
  have HparOcc : ∀ x mx, a.get x = some mx → Halts (Arena.stepParent a') x := by
    intro x mx hx
    obtain ⟨L, hL⟩ := (hinv.parent_halts x mx hx).to_walk
    refine halts_transport hL ?_
    intro j hj
    by_cases hjo : j = o
    · exact Or.inr (hjo ▸ HparO)
    · exact Or.inl (hparEq j hjo)
  refine ⟨hwf', ?_, ?_, ?_, ?_, ?_, ?_, ?_, ?_⟩
  · -- token_eq
    intro i mi' hi
    rcases hclass i mi' hi with ⟨hieq, hmieq⟩ | ⟨hieq, hmieq⟩ |
      ⟨w, mw, hX2, hieq, hw, hwv, hwp, hmieq⟩ | ⟨-, -, -, hfr⟩
    · rw [hmieq, hieq]
      exact hinv.token_eq o mo ho
    · rw [hmieq, hieq]
      exact hinv.token_eq p q hq
    · rw [hmieq, hieq]
      exact hinv.token_eq w mw hw
    · exact hinv.token_eq i mi' hfr
  · -- next_prev
    intro i mi' j hi hj
    rcases hclass i mi' hi with ⟨hieq, hmieq⟩ | ⟨hieq, hmieq⟩ |
      ⟨w, mw, hX2, hieq, hw, hwv, hwp, hmieq⟩ | ⟨hio, hip, hiw, hfr⟩
    · -- i = o
      rw [hmieq] at hj
      have hj' : X = some j := hj
      obtain ⟨hjo, mw, hw, hwv, hwp, hw'⟩ := hXhook j hj'
      refine ⟨{ mw with previousSibling := some o }, hw', ?_, ?_⟩
      · rw [hieq]
      · rw [hmieq]
        show mw.parent = some p
        exact hwp
    · -- i = p
      rw [hmieq] at hj
      have hj' : q.nextSibling = some j := hj
      obtain ⟨m, hm, hmp, hmpar⟩ := hinv.next_prev p q j hq hj'
      have hjo : j ≠ o := by
        intro he
        exact hno_next p q hq (he ▸ hj')
      have hjp : j ≠ p := by
        intro he
        exact hnsl_next p q hq (he ▸ hj')
      have hjw : ∀ w', X = some w' → j ≠ w' := by
        intro w' h0 he
        obtain ⟨hwo, mw, hw, hwv, hwp, hw'⟩ := hXhook w' h0
        have hmw : m = mw := by
          rw [he, hw] at hm
          exact (Option.some.inj hm).symm
        rw [hmw, hwv] at hmp
        cases hmp
      refine ⟨m, ?_, ?_, ?_⟩
      · rw [hframe j hjo hjp hjw]
        exact hm
      · rw [hieq]
        exact hmp
      · rw [hmieq]
        exact hmpar
    · -- i = w
      rw [hmieq] at hj
      have hj' : mw.nextSibling = some j := hj
      obtain ⟨m, hm, hmp, hmpar⟩ := hinv.next_prev w mw j hw hj'
      have hjo : j ≠ o := by
        intro he
        exact hno_next w mw hw (he ▸ hj')
      have hjp : j ≠ p := by
        intro he
        have hmq : m = q := by
          rw [he, hq] at hm
          exact (Option.some.inj hm).symm
        exact hnsl_par p q hq (by rw [← hmq]; exact hmpar.trans hwp)
      have hjw : ∀ w', X = some w' → j ≠ w' := by
        intro w' h0 he
        cases Option.some.inj (hX2.symm.trans h0)
        rw [he] at hj'
        exact hnsl_next w mw hw hj'
      refine ⟨m, ?_, ?_, ?_⟩
      · rw [hframe j hjo hjp hjw]
        exact hm
      · rw [hieq]
        exact hmp
      · rw [hmieq]
        exact hmpar
    · -- frame node
      obtain ⟨m, hm, hmp, hmpar⟩ := hinv.next_prev i mi' j hfr hj
      have hjo : j ≠ o := by
        intro he
        exact hno_next i mi' hfr (he ▸ hj)
      by_cases hjp : j = p
      · have hmq : m = q := by
          rw [hjp, hq] at hm
          exact (Option.some.inj hm).symm
        refine ⟨{ q with firstChild := some o }, ?_, ?_, ?_⟩
        · rw [hjp]
          exact hp'
        · show q.previousSibling = some i
          rw [← hmq]
          exact hmp
        · show q.parent = mi'.parent
          rw [← hmq]
          exact hmpar
      rcases hXsplit with hX2 | ⟨w, hX2⟩
      · have hjw : ∀ w', X = some w' → j ≠ w' :=
          fun w' h0 => Option.noConfusion (hX2.symm.trans h0)
        refine ⟨m, ?_, hmp, hmpar⟩
        rw [hframe j hjo hjp hjw]
        exact hm
      · obtain ⟨hwo, mw, hw, hwv, hwp, hw'⟩ := hXhook w hX2
        by_cases hjw : j = w
        · have hmw : m = mw := by
            rw [hjw, hw] at hm
            exact (Option.some.inj hm).symm
          rw [hmw, hwv] at hmp
          cases hmp
        · have hjcond : ∀ w', X = some w' → j ≠ w' := by
            intro w' h0
            cases Option.some.inj (hX2.symm.trans h0)
            exact hjw
          refine ⟨m, ?_, hmp, hmpar⟩
          rw [hframe j hjo hjp hjcond]
          exact hm
  · -- prev_next
    intro i mi' j hi hj
    rcases hclass i mi' hi with ⟨hieq, hmieq⟩ | ⟨hieq, hmieq⟩ |
      ⟨w, mw, hX2, hieq, hw, hwv, hwp, hmieq⟩ | ⟨hio, hip, hiw, hfr⟩
    · -- i = o: no previous sibling
      rw [hmieq] at hj
      cases hj
    · -- i = p
      rw [hmieq] at hj
      have hj' : q.previousSibling = some j := hj
      obtain ⟨m, hm, hmn⟩ := hinv.prev_next p q j hq hj'
      have hjo : j ≠ o := by
        intro he
        exact hno_prev p q hq (he ▸ hj')
      have hjp : j ≠ p := by
        intro he
        exact hnsl_prev p q hq (he ▸ hj')
      have hjw : ∀ w', X = some w' → j ≠ w' := by
        intro w' h0 he
        obtain ⟨hwo, mw, hw, hwv, hwp, hw'⟩ := hXhook w' h0
        have hmw : m = mw := by
          rw [he, hw] at hm
          exact (Option.some.inj hm).symm
        rw [hmw] at hmn
        obtain ⟨m₂, hm₂, -, hm₂par⟩ := hinv.next_prev w' mw p hw hmn
        have hm₂q : m₂ = q := by
          rw [hq] at hm₂
          exact (Option.some.inj hm₂).symm
        exact hnsl_par p q hq (by rw [← hm₂q]; exact hm₂par.trans hwp)
      refine ⟨m, ?_, ?_⟩
      · rw [hframe j hjo hjp hjw]
        exact hm
      · rw [hieq]
        exact hmn
    · -- i = w: the hooked root is w's previous
      rw [hmieq] at hj
      have hjo : j = o := (Option.some.inj hj).symm
      refine ⟨{ mo with parent := some p, previousSibling := none, nextSibling := X }, ?_, ?_⟩
      · rw [hjo]
        exact hz
      · show X = some i
        rw [hX2, hieq]
    · -- frame node
      obtain ⟨m, hm, hmn⟩ := hinv.prev_next i mi' j hfr hj
      have hjo : j ≠ o := by
        intro he
        exact hno_prev i mi' hfr (he ▸ hj)
      by_cases hjp : j = p
      · have hmq : m = q := by
          rw [hjp, hq] at hm
          exact (Option.some.inj hm).symm
        refine ⟨{ q with firstChild := some o }, ?_, ?_⟩
        · rw [hjp]
          exact hp'
        · show q.nextSibling = some i
          rw [← hmq]
          exact hmn
      rcases hXsplit with hX2 | ⟨w, hX2⟩
      · have hjcond : ∀ w', X = some w' → j ≠ w' :=
          fun w' h0 => Option.noConfusion (hX2.symm.trans h0)
        refine ⟨m, ?_, hmn⟩
        rw [hframe j hjo hjp hjcond]
        exact hm
      · obtain ⟨hwo, mw, hw, hwv, hwp, hw'⟩ := hXhook w hX2
        by_cases hjw : j = w
        · have hmw : m = mw := by
            rw [hjw, hw] at hm
            exact (Option.some.inj hm).symm
          refine ⟨{ mw with previousSibling := some o }, ?_, ?_⟩
          · rw [hjw]
            exact hw'
          · show mw.nextSibling = some i
            rw [← hmw]
            exact hmn
        · have hjcond : ∀ w', X = some w' → j ≠ w' := by
            intro w' h0
            cases Option.some.inj (hX2.symm.trans h0)
            exact hjw
          refine ⟨m, ?_, hmn⟩
          rw [hframe j hjo hjp hjcond]
          exact hm
  · -- first_child
    intro i mi' c hi hc
    rcases hclass i mi' hi with ⟨hieq, hmieq⟩ | ⟨hieq, hmieq⟩ |
      ⟨w, mw, hX2, hieq, hw, hwv, hwp, hmieq⟩ | ⟨hio, hip, hiw, hfr⟩
    · -- i = o: o keeps its children
      rw [hmieq] at hc
      have hc' : mo.firstChild = some c := hc
      obtain ⟨m, hm, hmpar, hmprev⟩ := hinv.first_child o mo c ho hc'
      have hco : c ≠ o := by
        intro he
        have hmo2 : m = mo := by
          rw [he, ho] at hm
          exact (Option.some.inj hm).symm
        rw [hmo2, hmopar] at hmpar
        cases hmpar
      have hcp : c ≠ p := by
        intro he
        have hmq : m = q := by
          rw [he, hq] at hm
          exact (Option.some.inj hm).symm
        exact hparpo (by rw [← hmq]; exact hmpar)
      have hcw : ∀ w', X = some w' → c ≠ w' := by
        intro w' h0 he
        obtain ⟨hwo, mw, hw, hwv, hwp, hw'⟩ := hXhook w' h0
        have hmw : m = mw := by
          rw [he, hw] at hm
          exact (Option.some.inj hm).symm
        have hpo2 : p = o := by
          have h1 : mw.parent = some o := by rw [← hmw]; exact hmpar
          exact Option.some.inj (hwp.symm.trans h1)
        exact hpo hpo2
      refine ⟨m, ?_, ?_, hmprev⟩
      · rw [hframe c hco hcp hcw]
        exact hm
      · rw [hieq]
        exact hmpar
    · -- i = p: first child is now o
      rw [hmieq] at hc
      have hco : c = o := (Option.some.inj hc).symm
      refine ⟨{ mo with parent := some p, previousSibling := none, nextSibling := X }, ?_, ?_, rfl⟩
      · rw [hco]
        exact hz
      · show some p = some i
        rw [hieq]
    · -- i = w
      rw [hmieq] at hc
      have hc' : mw.firstChild = some c := hc
      obtain ⟨m, hm, hmpar, hmprev⟩ := hinv.first_child w mw c hw hc'
      have hco : c ≠ o := by
        intro he
        have hmo2 : m = mo := by
          rw [he, ho] at hm
          exact (Option.some.inj hm).symm
        rw [hmo2, hmopar] at hmpar
        cases hmpar
      have hcp : c ≠ p := by
        intro he
        have hmq : m = q := by
          rw [he, hq] at hm
          exact (Option.some.inj hm).symm
        refine hn2c_par p q w mw hq hw ?_ hwp
        rw [← hmq]
        exact hmpar
      have hcw : ∀ w', X = some w' → c ≠ w' := by
        intro w' h0 he
        cases Option.some.inj (hX2.symm.trans h0)
        have hmw2 : m = mw := by
          rw [he, hw] at hm
          exact (Option.some.inj hm).symm
        exact hnsl_par w mw hw (by rw [← hmw2]; exact hmpar)
      refine ⟨m, ?_, ?_, hmprev⟩
      · rw [hframe c hco hcp hcw]
        exact hm
      · rw [hieq]
        exact hmpar
    · -- frame node
      obtain ⟨m, hm, hmpar, hmprev⟩ := hinv.first_child i mi' c hfr hc
      have hco : c ≠ o := by
        intro he
        have hmo2 : m = mo := by
          rw [he, ho] at hm
          exact (Option.some.inj hm).symm
        rw [hmo2, hmopar] at hmpar
        cases hmpar
      by_cases hcp : c = p
      · have hmq : m = q := by
          rw [hcp, hq] at hm
          exact (Option.some.inj hm).symm
        refine ⟨{ q with firstChild := some o }, ?_, ?_, ?_⟩
        · rw [hcp]
          exact hp'
        · show q.parent = some i
          rw [← hmq]
          exact hmpar
        · show q.previousSibling = none
          rw [← hmq]
          exact hmprev
      rcases hXsplit with hX2 | ⟨w, hX2⟩
      · have hcw : ∀ w', X = some w' → c ≠ w' :=
          fun w' h0 => Option.noConfusion (hX2.symm.trans h0)
        refine ⟨m, ?_, hmpar, hmprev⟩
        rw [hframe c hco hcp hcw]
        exact hm
      · obtain ⟨hwo, mw, hw, hwv, hwp, hw'⟩ := hXhook w hX2
        by_cases hcw : c = w
        · have hmw : m = mw := by
            rw [hcw, hw] at hm
            exact (Option.some.inj hm).symm
          rw [hmw, hwp] at hmpar
          exact absurd (Option.some.inj hmpar).symm hip
        · have hccond : ∀ w', X = some w' → c ≠ w' := by
            intro w' h0
            cases Option.some.inj (hX2.symm.trans h0)
            exact hcw
          refine ⟨m, ?_, hmpar, hmprev⟩
          rw [hframe c hco hcp hccond]
          exact hm
  · -- parent_first
    intro i mi' pr hi hp
    rcases hclass i mi' hi with ⟨hieq, hmieq⟩ | ⟨hieq, hmieq⟩ |
      ⟨w, mw, hX2, hieq, hw, hwv, hwp, hmieq⟩ | ⟨hio, hip, hiw, hfr⟩
    · -- i = o: p's first child is o itself
      rw [hmieq] at hp
      have hprp : pr = p := (Option.some.inj hp).symm
      refine ⟨{ q with firstChild := some o }, ?_, ?_⟩
      · rw [hprp]
        exact hp'
      · intro hcv
        show some o = some i
        rw [hieq]
    · -- i = p
      rw [hmieq] at hp
      have hp2 : q.parent = some pr := hp
      obtain ⟨qn, hqn, hqnf⟩ := hinv.parent_first p q pr hq hp2
      have hpro : pr ≠ o := by
        intro he
        exact hparpo (he ▸ hp2)
      have hprp : pr ≠ p := by
        intro he
        exact hnsl_par p q hq (he ▸ hp2)
      have hprw : ∀ w', X = some w' → pr ≠ w' := by
        intro w' h0 he
        obtain ⟨hwo, mw, hw, hwv, hwp, hw'⟩ := hXhook w' h0
        refine hn2c_par p q w' mw hq hw ?_ hwp
        rw [← he]
        exact hp2
      refine ⟨qn, ?_, ?_⟩
      · rw [hframe pr hpro hprp hprw]
        exact hqn
      · intro hcv
        rw [hmieq] at hcv
        have hcv' : q.previousSibling = none := hcv
        rw [hieq]
        exact hqnf hcv'
    · -- i = w: previous sibling is o, implication vacuous
      rw [hmieq] at hp
      have hp2 : mw.parent = some pr := hp
      have hprp : pr = p := (Option.some.inj (hwp.symm.trans hp2)).symm
      refine ⟨{ q with firstChild := some o }, ?_, ?_⟩
      · rw [hprp]
        exact hp'
      · intro hcv
        rw [hmieq] at hcv
        cases hcv
    · -- frame node
      obtain ⟨qn, hqn, hqnf⟩ := hinv.parent_first i mi' pr hfr hp
      by_cases hpro : pr = o
      · have hqno : qn = mo := by
          rw [hpro, ho] at hqn
          exact (Option.some.inj hqn).symm
        refine ⟨{ mo with parent := some p, previousSibling := none, nextSibling := X }, ?_, ?_⟩
        · rw [hpro]
          exact hz
        · intro hcv
          show mo.firstChild = some i
          rw [← hqno]
          exact hqnf hcv
      by_cases hprp : pr = p
      · have hqnq : qn = q := by
          rw [hprp, hq] at hqn
          exact (Option.some.inj hqn).symm
        refine ⟨{ q with firstChild := some o }, ?_, ?_⟩
        · rw [hprp]
          exact hp'
        · intro hcv
          have h1 : q.firstChild = some i := by
            rw [← hqnq]
            exact hqnf hcv
          have hXi : X = some i := hqfc.symm.trans h1
          exact absurd rfl (hiw i hXi)
      rcases hXsplit with hX2 | ⟨w, hX2⟩
      · have hprw : ∀ w', X = some w' → pr ≠ w' :=
          fun w' h0 => Option.noConfusion (hX2.symm.trans h0)
        refine ⟨qn, ?_, hqnf⟩
        rw [hframe pr hpro hprp hprw]
        exact hqn
      · obtain ⟨hwo, mw, hw, hwv, hwp, hw'⟩ := hXhook w hX2
        by_cases hprw : pr = w
        · have hqnmw : qn = mw := by
            rw [hprw, hw] at hqn
            exact (Option.some.inj hqn).symm
          refine ⟨{ mw with previousSibling := some o }, ?_, ?_⟩
          · rw [hprw]
            exact hw'
          · intro hcv
            show mw.firstChild = some i
            rw [← hqnmw]
            exact hqnf hcv
        · have hprcond : ∀ w', X = some w' → pr ≠ w' := by
            intro w' h0
            cases Option.some.inj (hX2.symm.trans h0)
            exact hprw
          refine ⟨qn, ?_, hqnf⟩
          rw [hframe pr hpro hprp hprcond]
          exact hqn
  · -- parent_halts
    intro i mi' hi
    rcases hclass i mi' hi with ⟨hieq, -⟩ | ⟨hieq, -⟩ |
      ⟨w, mw, hX2, hieq, hw, hwv, hwp, -⟩ | ⟨-, -, -, hfr⟩
    · rw [hieq]
      exact HparO
    · rw [hieq]
      exact HparOcc p q hq
    · rw [hieq]
      exact HparOcc w mw hw
    · exact HparOcc i mi' hfr
  · -- prev_halts
    intro i mi' hi
    rcases hclass i mi' hi with ⟨hieq, -⟩ | ⟨hieq, -⟩ |
      ⟨w, mw, hX2, hieq, hw, hwv, hwp, -⟩ | ⟨-, -, -, hfr⟩
    · rw [hieq]
      exact HprevO
    · rw [hieq]
      exact HprevOcc p q hq
    · rw [hieq]
      exact HprevW w hX2
    · exact HprevOcc i mi' hfr
  · -- next_halts
    intro i mi' hi
    rcases hclass i mi' hi with ⟨hieq, -⟩ | ⟨hieq, -⟩ |
      ⟨w, mw, hX2, hieq, hw, hwv, hwp, -⟩ | ⟨hio, -, -, hfr⟩
    · rw [hieq]
      exact HnextO
    · rw [hieq]
      exact HnextOcc p q hq hpo
    · rw [hieq]
      obtain ⟨hwo, mw2, hw2, -, -, -⟩ := hXhook w hX2
      exact HnextOcc w mw hw hwo
    · exact HnextOcc i mi' hfr hio

/-- Hooking an occupied standalone root `o` in as the head of a parentless
sibling chain (the position of a formerly orphaned chain head) preserves
the structural invariant.  `o` keeps its own children. -/
theorem attach_root_lone {T : Type} {b a' : Arena T} (hinv : Inv b)
    (hwf' : Allocator.WF a'.allocator) {o : Nat} {mo : Node T} {X : Option Nat}
    (ho : b.get o = some mo)
    (hmopar : mo.parent = none) (hmoprev : mo.previousSibling = none)
    (hmonext : mo.nextSibling = none)
    (hz : a'.get o = some { mo with parent := none, previousSibling := none, nextSibling := X })
    (hXhook : ∀ w, X = some w → w ≠ o ∧ ∃ mw, b.get w = some mw ∧
        mw.previousSibling = none ∧ mw.parent = none ∧
        a'.get w = some { mw with previousSibling := some o })
    (hframe : ∀ i, i ≠ o → (∀ w, X = some w → i ≠ w) → a'.get i = b.get i) :
    Inv a' := by
  have hXsplit : X = none ∨ ∃ w, X = some w := by
    cases X with
    | none => exact Or.inl rfl
    | some w => exact Or.inr ⟨w, rfl⟩
  have hno_next : ∀ x mx, b.get x = some mx → mx.nextSibling ≠ some o := by
    intro x mx hx hc
    obtain ⟨m2, hm2, hm2p, -⟩ := hinv.next_prev x mx o hx hc
    rw [ho] at hm2
    cases Option.some.inj hm2
    rw [hmoprev] at hm2p
    cases hm2p
  have hno_prev : ∀ x mx, b.get x = some mx → mx.previousSibling ≠ some o := by
    intro x mx hx hc
    obtain ⟨m2, hm2, hm2n⟩ := hinv.prev_next x mx o hx hc
    rw [ho] at hm2
    cases Option.some.inj hm2
    rw [hmonext] at hm2n
    cases hm2n
  have hnsl_next : ∀ x mx, b.get x = some mx → mx.nextSibling = some x → False := by
    intro x mx hx hc
    refine (hinv.next_halts x mx hx).no_self_loop ?_
    show Arena.stepNext b x = some x
    unfold Arena.stepNext
    rw [hx, Option.some_bind]
    exact hc
  have hnsl_par : ∀ x mx, b.get x = some mx → mx.parent = some x → False := by
    intro x mx hx hc
    refine (hinv.parent_halts x mx hx).no_self_loop ?_
    show Arena.stepParent b x = some x
    unfold Arena.stepParent
    rw [hx, Option.some_bind]
    exact hc
  have hlinkN : ∀ i n j, b.get i = some n → n.nextSibling = some j →
      ((b.get j).isSome : Prop) := by
    intro i n j hi hj
    obtain ⟨m, hm, -, -⟩ := hinv.next_prev i n j hi hj
    rw [hm]
    rfl
  have hoccwalkN : ∀ {c L}, Walk (Arena.stepNext b) c L → ((b.get c).isSome : Prop) →
      ∀ j ∈ L, ((b.get j).isSome : Prop) :=
    fun hw hc => walk_occupied hlinkN (hw.congr fun j _ => rfl) hc
  have hclass : ∀ i mi', a'.get i = some mi' →
      (i = o ∧ mi' = { mo with parent := none, previousSibling := none, nextSibling := X }) ∨
      (∃ w mw, X = some w ∧ i = w ∧ b.get w = some mw ∧ mw.previousSibling = none ∧
        mw.parent = none ∧ mi' = { mw with previousSibling := some o }) ∨
      (i ≠ o ∧ (∀ w, X = some w → i ≠ w) ∧ b.get i = some mi') := by
    intro i mi' hi
    by_cases hio : i = o
    · rw [hio, hz] at hi
      exact Or.inl ⟨hio, (Option.some.inj hi).symm⟩
    rcases hXsplit with hX2 | ⟨w, hX2⟩
    · have hcond : ∀ w, X = some w → i ≠ w :=
        fun w h0 => Option.noConfusion (hX2.symm.trans h0)
      refine Or.inr (Or.inr ⟨hio, hcond, ?_⟩)
      rw [← hframe i hio hcond]
      exact hi
    · obtain ⟨hwo, mw, hw, hwv, hwp, hw'⟩ := hXhook w hX2
      by_cases hiw : i = w
      · rw [hiw, hw'] at hi
        exact Or.inr (Or.inl ⟨w, mw, hX2, hiw, hw, hwv, hwp, (Option.some.inj hi).symm⟩)
      · have hcond : ∀ w', X = some w' → i ≠ w' := by
          intro w' h0
          cases Option.some.inj (hX2.symm.trans h0)
          exact hiw
        refine Or.inr (Or.inr ⟨hio, hcond, ?_⟩)
        rw [← hframe i hio hcond]
        exact hi
  have hparEq : ∀ j, Arena.stepParent a' j = Arena.stepParent b j := by
    intro j
    unfold Arena.stepParent
    by_cases hjo : j = o
    · rw [hjo, hz, ho]
      show (none : Option Nat) = mo.parent
      rw [hmopar]
    rcases hXsplit with hX2 | ⟨w, hX2⟩
    · rw [hframe j hjo (fun w h0 => Option.noConfusion (hX2.symm.trans h0))]
    · obtain ⟨hwo, mw, hw, hwv, hwp, hw'⟩ := hXhook w hX2
      by_cases hjw : j = w
      · rw [hjw, hw', hw]
        rfl
      · rw [hframe j hjo (fun w' h0 => by
          cases Option.some.inj (hX2.symm.trans h0); exact hjw)]
  have hprevEq : ∀ j, (∀ w, X = some w → j ≠ w) →
      Arena.stepPrev a' j = Arena.stepPrev b j := by
    intro j hjw
    unfold Arena.stepPrev
    by_cases hjo : j = o
    · rw [hjo, hz, ho]
      show (none : Option Nat) = mo.previousSibling
      rw [hmoprev]
    · rw [hframe j hjo hjw]
  have hnextEq : ∀ j, j ≠ o → Arena.stepNext a' j = Arena.stepNext b j := by
    intro j hjo
    unfold Arena.stepNext
    rcases hXsplit with hX2 | ⟨w, hX2⟩
    · rw [hframe j hjo (fun w h0 => Option.noConfusion (hX2.symm.trans h0))]
    · obtain ⟨hwo, mw, hw, hwv, hwp, hw'⟩ := hXhook w hX2
      by_cases hjw : j = w
      · rw [hjw, hw', hw]
        rfl
      · rw [hframe j hjo (fun w' h0 => by
          cases Option.some.inj (hX2.symm.trans h0); exact hjw)]
  have HnextOcc : ∀ x mx, b.get x = some mx → x ≠ o → Halts (Arena.stepNext a') x := by
    intro x mx hx hxo
    obtain ⟨L, hL⟩ := (hinv.next_halts x mx hx).to_walk
    have hocc := hoccwalkN hL (by rw [hx]; rfl)
    have hno : o ∉ L := by
      intro hmem
      rcases Walk.mem_source hL hmem with he | ⟨j, hj, hgj⟩
      · exact hxo he.symm
      · obtain ⟨mj, hmj⟩ := Option.isSome_iff_exists.mp (hocc j hj)
        have hg' : (b.get j).bind (fun m => m.nextSibling) = some o := hgj
        rw [hmj, Option.some_bind] at hg'
        exact hno_next j mj hmj hg'
    refine halts_transport hL ?_
    intro j hj
    exact Or.inl (hnextEq j (fun he => hno (he ▸ hj)))
  have HnextO : Halts (Arena.stepNext a') o := by
    rcases hXsplit with hX2 | ⟨w, hX2⟩
    · refine Halts.stop ?_
      unfold Arena.stepNext
      rw [hz, Option.some_bind]
      show X = none
      exact hX2
    · obtain ⟨hwo, mw, hw, hwv, hwp, hw'⟩ := hXhook w hX2
      refine Halts.step ?_ (HnextOcc w mw hw hwo)
      unfold Arena.stepNext
      rw [hz, Option.some_bind]
      show X = some w
      exact hX2
  have HprevO : Halts (Arena.stepPrev a') o := by
    refine Halts.stop ?_
    unfold Arena.stepPrev
    rw [hz, Option.some_bind]
  have HprevW : ∀ w, X = some w → Halts (Arena.stepPrev a') w := by
    intro w hX2
    obtain ⟨hwo, mw, hw, hwv, hwp, hw'⟩ := hXhook w hX2
    refine Halts.step ?_ HprevO
    unfold Arena.stepPrev
    rw [hw', Option.some_bind]
  have HprevOcc : ∀ x mx, b.get x = some mx → Halts (Arena.stepPrev a') x := by
    intro x mx hx
    obtain ⟨L, hL⟩ := (hinv.prev_halts x mx hx).to_walk
    refine halts_transport hL ?_
    intro j hj
    rcases hXsplit with hX2 | ⟨w, hX2⟩
    · exact Or.inl (hprevEq j (fun w h0 => Option.noConfusion (hX2.symm.trans h0)))
    · by_cases hjw : j = w
      · exact Or.inr (hjw ▸ HprevW w hX2)
      · exact Or.inl (hprevEq j (fun w' h0 => by
          cases Option.some.inj (hX2.symm.trans h0); exact hjw))
  have HparOcc : ∀ x mx, b.get x = some mx → Halts (Arena.stepParent a') x := by
    intro x mx hx
    obtain ⟨L, hL⟩ := (hinv.parent_halts x mx hx).to_walk
    refine halts_transport hL ?_
    intro j hj
    exact Or.inl (hparEq j)
  refine ⟨hwf', ?_, ?_, ?_, ?_, ?_, ?_, ?_, ?_⟩
  · -- token_eq
    intro i mi' hi
    rcases hclass i mi' hi with ⟨hieq, hmieq⟩ |
      ⟨w, mw, hX2, hieq, hw, hwv, hwp, hmieq⟩ | ⟨-, -, hfr⟩
    · rw [hmieq, hieq]
      exact hinv.token_eq o mo ho
    · rw [hmieq, hieq]
      exact hinv.token_eq w mw hw
    · exact hinv.token_eq i mi' hfr
  · -- next_prev
    intro i mi' j hi hj
    rcases hclass i mi' hi with ⟨hieq, hmieq⟩ |
      ⟨w, mw, hX2, hieq, hw, hwv, hwp, hmieq⟩ | ⟨hio, hiw, hfr⟩
    · -- i = o
      rw [hmieq] at hj
      have hj' : X = some j := hj
      obtain ⟨hjo, mw, hw, hwv, hwp, hw'⟩ := hXhook j hj'
      refine ⟨{ mw with previousSibling := some o }, hw', ?_, ?_⟩
      · rw [hieq]
      · rw [hmieq]
        show mw.parent = none
        exact hwp
    · -- i = w
      rw [hmieq] at hj
      have hj' : mw.nextSibling = some j := hj
      obtain ⟨m, hm, hmp, hmpar⟩ := hinv.next_prev w mw j hw hj'
      have hjo : j ≠ o := by
        intro he
        exact hno_next w mw hw (he ▸ hj')
      have hjw : ∀ w', X = some w' → j ≠ w' := by
        intro w' h0 he
        cases Option.some.inj (hX2.symm.trans h0)
        rw [he] at hj'
        exact hnsl_next w mw hw hj'
      refine ⟨m, ?_, ?_, ?_⟩
      · rw [hframe j hjo hjw]
        exact hm
      · rw [hieq]
        exact hmp
      · rw [hmieq]
        exact hmpar
    · -- frame node
      obtain ⟨m, hm, hmp, hmpar⟩ := hinv.next_prev i mi' j hfr hj
      have hjo : j ≠ o := by
        intro he
        exact hno_next i mi' hfr (he ▸ hj)
      rcases hXsplit with hX2 | ⟨w, hX2⟩
      · have hjw : ∀ w', X = some w' → j ≠ w' :=
          fun w' h0 => Option.noConfusion (hX2.symm.trans h0)
        refine ⟨m, ?_, hmp, hmpar⟩
        rw [hframe j hjo hjw]
        exact hm
      · obtain ⟨hwo, mw, hw, hwv, hwp, hw'⟩ := hXhook w hX2
        by_cases hjw : j = w
        · have hmw : m = mw := by
            rw [hjw, hw] at hm
            exact (Option.some.inj hm).symm
          rw [hmw, hwv] at hmp
          cases hmp
        · have hjcond : ∀ w', X = some w' → j ≠ w' := by
            intro w' h0
            cases Option.some.inj (hX2.symm.trans h0)
            exact hjw
          refine ⟨m, ?_, hmp, hmpar⟩
          rw [hframe j hjo hjcond]
          exact hm
  · -- prev_next
    intro i mi' j hi hj
    rcases hclass i mi' hi with ⟨hieq, hmieq⟩ |
      ⟨w, mw, hX2, hieq, hw, hwv, hwp, hmieq⟩ | ⟨hio, hiw, hfr⟩
    · -- i = o: no previous sibling
      rw [hmieq] at hj
      cases hj
    · -- i = w: the hooked root is w's previous
      rw [hmieq] at hj
      have hjo : j = o := (Option.some.inj hj).symm
      refine ⟨{ mo with parent := none, previousSibling := none, nextSibling := X }, ?_, ?_⟩
      · rw [hjo]
        exact hz
      · show X = some i
        rw [hX2, hieq]
    · -- frame node
      obtain ⟨m, hm, hmn⟩ := hinv.prev_next i mi' j hfr hj
      have hjo : j ≠ o := by
        intro he
        exact hno_prev i mi' hfr (he ▸ hj)
      rcases hXsplit with hX2 | ⟨w, hX2⟩
      · have hjcond : ∀ w', X = some w' → j ≠ w' :=
          fun w' h0 => Option.noConfusion (hX2.symm.trans h0)
        refine ⟨m, ?_, hmn⟩
        rw [hframe j hjo hjcond]
        exact hm
      · obtain ⟨hwo, mw, hw, hwv, hwp, hw'⟩ := hXhook w hX2
        by_cases hjw : j = w
        · have hmw : m = mw := by
            rw [hjw, hw] at hm
            exact (Option.some.inj hm).symm
          refine ⟨{ mw with previousSibling := some o }, ?_, ?_⟩
          · rw [hjw]
            exact hw'
          · show mw.nextSibling = some i
            rw [← hmw]
            exact hmn
        · have hjcond : ∀ w', X = some w' → j ≠ w' := by
            intro w' h0
            cases Option.some.inj (hX2.symm.trans h0)
            exact hjw
          refine ⟨m, ?_, hmn⟩
          rw [hframe j hjo hjcond]
          exact hm
  · -- first_child
    intro i mi' c hi hc
    rcases hclass i mi' hi with ⟨hieq, hmieq⟩ |
      ⟨w, mw, hX2, hieq, hw, hwv, hwp, hmieq⟩ | ⟨hio, hiw, hfr⟩
    · -- i = o: o keeps its children
      rw [hmieq] at hc
      have hc' : mo.firstChild = some c := hc
      obtain ⟨m, hm, hmpar, hmprev⟩ := hinv.first_child o mo c ho hc'
      have hco : c ≠ o := by
        intro he
        have hmo2 : m = mo := by
          rw [he, ho] at hm
          exact (Option.some.inj hm).symm
        rw [hmo2, hmopar] at hmpar
        cases hmpar
      have hcw : ∀ w', X = some w' → c ≠ w' := by
        intro w' h0 he
        obtain ⟨hwo, mw, hw, hwv, hwp, hw'⟩ := hXhook w' h0
        have hmw : m = mw := by
          rw [he, hw] at hm
          exact (Option.some.inj hm).symm
        rw [hmw, hwp] at hmpar
        cases hmpar
      refine ⟨m, ?_, ?_, hmprev⟩
      · rw [hframe c hco hcw]
        exact hm
      · rw [hieq]
        exact hmpar
    · -- i = w
      rw [hmieq] at hc
      have hc' : mw.firstChild = some c := hc
      obtain ⟨m, hm, hmpar, hmprev⟩ := hinv.first_child w mw c hw hc'
      have hco : c ≠ o := by
        intro he
        have hmo2 : m = mo := by
          rw [he, ho] at hm
          exact (Option.some.inj hm).symm
        rw [hmo2, hmopar] at hmpar
        cases hmpar
      have hcw : ∀ w', X = some w' → c ≠ w' := by
        intro w' h0 he
        cases Option.some.inj (hX2.symm.trans h0)
        have hmw2 : m = mw := by
          rw [he, hw] at hm
          exact (Option.some.inj hm).symm
        exact hnsl_par w mw hw (by rw [← hmw2]; exact hmpar)
      refine ⟨m, ?_, ?_, hmprev⟩
      · rw [hframe c hco hcw]
        exact hm
      · rw [hieq]
        exact hmpar
    · -- frame node
      obtain ⟨m, hm, hmpar, hmprev⟩ := hinv.first_child i mi' c hfr hc
      have hco : c ≠ o := by
        intro he
        have hmo2 : m = mo := by
          rw [he, ho] at hm
          exact (Option.some.inj hm).symm
        rw [hmo2, hmopar] at hmpar
        cases hmpar
      rcases hXsplit with hX2 | ⟨w, hX2⟩
      · have hcw : ∀ w', X = some w' → c ≠ w' :=
          fun w' h0 => Option.noConfusion (hX2.symm.trans h0)
        refine ⟨m, ?_, hmpar, hmprev⟩
        rw [hframe c hco hcw]
        exact hm
      · obtain ⟨hwo, mw, hw, hwv, hwp, hw'⟩ := hXhook w hX2
        by_cases hcw : c = w
        · have hmw : m = mw := by
            rw [hcw, hw] at hm
            exact (Option.some.inj hm).symm
          rw [hmw, hwp] at hmpar
          cases hmpar
        · have hccond : ∀ w', X = some w' → c ≠ w' := by
            intro w' h0
            cases Option.some.inj (hX2.symm.trans h0)
            exact hcw
          refine ⟨m, ?_, hmpar, hmprev⟩
          rw [hframe c hco hccond]
          exact hm
  · -- parent_first
    intro i mi' pr hi hp
    rcases hclass i mi' hi with ⟨hieq, hmieq⟩ |
      ⟨w, mw, hX2, hieq, hw, hwv, hwp, hmieq⟩ | ⟨hio, hiw, hfr⟩
    · -- i = o: no parent
      rw [hmieq] at hp
      cases hp
    · -- i = w: no parent
      rw [hmieq] at hp
      have hp2 : mw.parent = some pr := hp
      rw [hwp] at hp2
      cases hp2
    · -- frame node
      obtain ⟨qn, hqn, hqnf⟩ := hinv.parent_first i mi' pr hfr hp
      by_cases hpro : pr = o
      · have hqno : qn = mo := by
          rw [hpro, ho] at hqn
          exact (Option.some.inj hqn).symm
        refine ⟨{ mo with parent := none, previousSibling := none, nextSibling := X }, ?_, ?_⟩
        · rw [hpro]
          exact hz
        · intro hcv
          show mo.firstChild = some i
          rw [← hqno]
          exact hqnf hcv
      rcases hXsplit with hX2 | ⟨w, hX2⟩
      · have hprw : ∀ w', X = some w' → pr ≠ w' :=
          fun w' h0 => Option.noConfusion (hX2.symm.trans h0)
        refine ⟨qn, ?_, hqnf⟩
        rw [hframe pr hpro hprw]
        exact hqn
      · obtain ⟨hwo, mw, hw, hwv, hwp, hw'⟩ := hXhook w hX2
        by_cases hprw : pr = w
        · have hqnmw : qn = mw := by
            rw [hprw, hw] at hqn
            exact (Option.some.inj hqn).symm
          refine ⟨{ mw with previousSibling := some o }, ?_, ?_⟩
          · rw [hprw]
            exact hw'
          · intro hcv
            show mw.firstChild = some i
            rw [← hqnmw]
            exact hqnf hcv
        · have hprcond : ∀ w', X = some w' → pr ≠ w' := by
            intro w' h0
            cases Option.some.inj (hX2.symm.trans h0)
            exact hprw
          refine ⟨qn, ?_, hqnf⟩
          rw [hframe pr hpro hprcond]
          exact hqn
  · -- parent_halts
    intro i mi' hi
    rcases hclass i mi' hi with ⟨hieq, -⟩ |
      ⟨w, mw, hX2, hieq, hw, hwv, hwp, -⟩ | ⟨-, -, hfr⟩
    · rw [hieq]
      exact HparOcc o mo ho
    · rw [hieq]
      exact HparOcc w mw hw
    · exact HparOcc i mi' hfr
  · -- prev_halts
    intro i mi' hi
    rcases hclass i mi' hi with ⟨hieq, -⟩ |
      ⟨w, mw, hX2, hieq, hw, hwv, hwp, -⟩ | ⟨-, -, hfr⟩
    · rw [hieq]
      exact HprevO
    · rw [hieq]
      exact HprevW w hX2
    · exact HprevOcc i mi' hfr
  · -- next_halts
    intro i mi' hi
    rcases hclass i mi' hi with ⟨hieq, -⟩ |
      ⟨w, mw, hX2, hieq, hw, hwv, hwp, -⟩ | ⟨hio, -, hfr⟩
    · rw [hieq]
      exact HnextO
    · rw [hieq]
      obtain ⟨hwo, mw2, hw2, -, -, -⟩ := hXhook w hX2
      exact HnextOcc w mw hw hwo
    · exact HnextOcc i mi' hfr hio

/-- `Token::replace_node` preserves the structural invariant, provided the
replaced node is not inside the replacement's own subtree (the source
documents that violating this may create a cyclic graph).  Covers both the
success path and the `NotAFreeNode` error path (which leaves the arena
unchanged). -/
theorem replaceNode_pres {T : Type} {a a' : Arena T} {s o : Nat} {r : Option Error}
    (hinv : Inv a)
    (havoid : ∀ L, Walk (Arena.stepParent a) s L → o ∉ L)
    (hrun : replaceNode s a o = some (a', r)) : Inv a' := by
  unfold replaceNode at hrun
  cases hsget : a.get s with
  | none =>
    rw [hsget] at hrun
    cases hrun
  | some n =>
    rw [hsget] at hrun
    simp only [Option.some_bind] at hrun
    cases hoget : a.get o with
    | none =>
      rw [hoget] at hrun
      cases hrun
    | some mo =>
      rw [hoget] at hrun
      simp only [Option.some_bind] at hrun
      split at hrun
      next hmoprev hmonext hmopar =>
        have hos : o ≠ s := by
          intro he
          obtain ⟨Ls, hLs⟩ := (hinv.parent_halts s n hsget).to_walk
          exact havoid Ls hLs (he ▸ hLs.head_mem)
        have hso : s ≠ o := fun he => hos he.symm
        rw [Arena.modifyNode_eq hoget] at hrun
        simp only [Option.some_bind] at hrun
        have ha₁s : ((a.setNodeAt o { mo with parent := n.parent, nextSibling := n.nextSibling, previousSibling := n.previousSibling }).get s) = some n := by
          rw [Arena.get_setNodeAt_ne hoget _ hso]
          exact hsget
        rw [Arena.modifyNode_eq ha₁s] at hrun
        simp only [Option.some_bind] at hrun
        obtain ⟨ad, hdet, hcapd, hcntd, hheadd, hwfd, hatd, hprevcl, hparcl, hnextcl, hframed⟩ :=
          detach_spec hinv hsget
        obtain ⟨adx, hdetx, hinvd, -⟩ := detach_pres hinv hsget
        have he2 : ad = adx := Option.some.inj (hdet.symm.trans hdetx)
        subst he2
        split at hrun
        next u hprev =>
          obtain ⟨mu, hmu, hmun⟩ := hinv.prev_next s n u hsget hprev
          have hus : u ≠ s := by
            intro he
            refine (hinv.prev_halts s n hsget).no_self_loop ?_
            show Arena.stepPrev a s = some s
            unfold Arena.stepPrev
            rw [hsget, Option.some_bind, hprev, he]
          have huo : u ≠ o := by
            intro he
            have hmuo : mu = mo := by
              rw [he, hoget] at hmu
              exact (Option.some.inj hmu).symm
            rw [hmuo, hmonext] at hmun
            cases hmun
          have hmupar : mu.parent = n.parent := by
            obtain ⟨m2, hm2, -, hm2par⟩ := hinv.next_prev u mu s hmu hmun
            rw [hsget] at hm2
            cases Option.some.inj hm2
            exact hm2par.symm
          have ha₂u : (((a.setNodeAt o { mo with parent := n.parent, nextSibling := n.nextSibling, previousSibling := n.previousSibling }).setNodeAt s { n with parent := none, previousSibling := none, nextSibling := none }).get u) = some mu := by
            rw [Arena.get_setNodeAt_ne ha₁s _ hus, Arena.get_setNodeAt_ne hoget _ huo]
            exact hmu
          rw [Arena.modifyNode_eq ha₂u] at hrun
          simp only [Option.some_bind] at hrun
          have hadu : ad.get u = some { mu with nextSibling := n.nextSibling } := by
            obtain ⟨mu', hmu'a, hu'd⟩ := hprevcl u hprev
            rw [hmu] at hmu'a
            cases Option.some.inj hmu'a
            exact hu'd
          split at hrun
          next w hnext =>
            obtain ⟨mw, hmw, hmwp, hmwpar⟩ := hinv.next_prev s n w hsget hnext
            have hws : w ≠ s := by
              intro he
              refine (hinv.next_halts s n hsget).no_self_loop ?_
              show Arena.stepNext a s = some s
              unfold Arena.stepNext
              rw [hsget, Option.some_bind, hnext, he]
            have hwo : w ≠ o := by
              intro he
              have hmwo : mw = mo := by
                rw [he, hoget] at hmw
                exact (Option.some.inj hmw).symm
              rw [hmwo, hmoprev] at hmwp
              cases hmwp
            have hwu : w ≠ u := by
              intro he
              refine (hinv.next_halts s n hsget).no_two_cycle
                (show Arena.stepNext a s = some u by
                  unfold Arena.stepNext
                  rw [hsget, Option.some_bind, hnext, he])
                (show Arena.stepNext a u = some s by
                  unfold Arena.stepNext
                  rw [hmu, Option.some_bind]
                  exact hmun)
            have ha₃w : ((((a.setNodeAt o { mo with parent := n.parent, nextSibling := n.nextSibling, previousSibling := n.previousSibling }).setNodeAt s { n with parent := none, previousSibling := none, nextSibling := none }).setNodeAt u { mu with nextSibling := some o }).get w) = some mw := by
              rw [Arena.get_setNodeAt_ne ha₂u _ hwu, Arena.get_setNodeAt_ne ha₁s _ hws,
                Arena.get_setNodeAt_ne hoget _ hwo]
              exact hmw
            rw [Arena.modifyNode_eq ha₃w] at hrun
            simp only [Option.map_some'] at hrun
            obtain ⟨ha', hr⟩ := Prod.mk.inj (Option.some.inj hrun)
            rw [← ha']
            have hadw : ad.get w = some { mw with previousSibling := n.previousSibling } := by
              obtain ⟨mw', hmw'a, hw'd⟩ := hnextcl w hnext
              rw [hmw] at hmw'a
              cases Option.some.inj hmw'a
              exact hw'd
            have hado : ad.get o = some mo := by
              rw [hframed o hos ?_ ?_ ?_]
              · exact hoget
              · intro hc
                rw [hprev] at hc
                exact huo (Option.some.inj hc)
              · rintro ⟨hcc, -⟩
                rw [hprev] at hcc
                cases hcc
              · intro hc
                rw [hnext] at hc
                exact hwo (Option.some.inj hc)
            have hzo : ((((a.setNodeAt o { mo with parent := n.parent, nextSibling := n.nextSibling, previousSibling := n.previousSibling }).setNodeAt s { n with parent := none, previousSibling := none, nextSibling := none }).setNodeAt u { mu with nextSibling := some o }).setNodeAt w { mw with previousSibling := some o }).get o = some { mo with parent := n.parent, nextSibling := n.nextSibling, previousSibling := n.previousSibling } := by
              rw [Arena.get_setNodeAt_ne ha₃w _ (fun he => hwo he.symm),
                Arena.get_setNodeAt_ne ha₂u _ (fun he => huo he.symm),
                Arena.get_setNodeAt_ne ha₁s _ hos]
              exact Arena.get_setNodeAt_same hoget _
            conv at hzo => rhs; rw [hprev]
            have hwffinal : Allocator.WF ((((a.setNodeAt o { mo with parent := n.parent, nextSibling := n.nextSibling, previousSibling := n.previousSibling }).setNodeAt s { n with parent := none, previousSibling := none, nextSibling := none }).setNodeAt u { mu with nextSibling := some o }).setNodeAt w { mw with previousSibling := some o }).allocator :=
              Arena.wf_setNodeAt (Arena.wf_setNodeAt (Arena.wf_setNodeAt
                (Arena.wf_setNodeAt hinv.wf_alloc hoget _) ha₁s _) ha₂u _) ha₃w _
            refine attach_root_after hinvd hwffinal hado hmopar hmoprev hmonext hzo
              hadu rfl ?_ huo ?_ ?_ ?_ ?_ ?_
            · show mu.parent = n.parent
              exact hmupar
            · rw [Arena.get_setNodeAt_ne ha₃w _ hwu.symm]
              exact Arena.get_setNodeAt_same ha₂u _
            · intro w' h0
              have h0' : n.nextSibling = some w' := h0
              rw [hnext] at h0'
              cases Option.some.inj h0'
              refine ⟨hwo, { mw with previousSibling := n.previousSibling }, hadw, ?_, ?_, ?_⟩
              · show n.previousSibling = some u
                exact hprev
              · show mw.parent = n.parent
                exact hmwpar
              · exact Arena.get_setNodeAt_same ha₃w _
            · intro p hp
              have hp' : n.parent = some p := hp
              obtain ⟨q, hq, -⟩ := hinv.parent_first s n p hsget hp'
              have hps : p ≠ s := by
                intro he
                refine (hinv.parent_halts s n hsget).no_self_loop ?_
                show Arena.stepParent a s = some s
                unfold Arena.stepParent
                rw [hsget, Option.some_bind, hp', he]
              have hpu : p ≠ u := by
                intro he
                refine (hinv.parent_halts u mu hmu).no_self_loop ?_
                show Arena.stepParent a u = some u
                unfold Arena.stepParent
                rw [hmu, Option.some_bind, hmupar, hp', he]
              have hpw : p ≠ w := by
                intro he
                refine (hinv.parent_halts w mw hmw).no_self_loop ?_
                show Arena.stepParent a w = some w
                unfold Arena.stepParent
                rw [hmw, Option.some_bind, hmwpar, hp', he]
              refine ⟨q, ?_⟩
              rw [hframed p hps ?_ ?_ ?_]
              · exact hq
              · intro hc
                rw [hprev] at hc
                exact hpu (Option.some.inj hc).symm
              · rintro ⟨hcc, -⟩
                rw [hprev] at hcc
                cases hcc
              · intro hc
                rw [hnext] at hc
                exact hpw (Option.some.inj hc).symm
            · intro p hp L hL hmem
              have hp' : n.parent = some p := hp
              obtain ⟨q, hq, -⟩ := hinv.parent_first s n p hsget hp'
              obtain ⟨Lp, hLp⟩ := (hinv.parent_halts p q hq).to_walk
              have hswalk : Walk (Arena.stepParent a) s (s :: Lp) := by
                refine Walk.step ?_ hLp
                unfold Arena.stepParent
                rw [hsget, Option.some_bind]
                exact hp'
              have hsnot : s ∉ Lp := (List.nodup_cons.mp hswalk.nodup).1
              have hLpad : Walk (Arena.stepParent ad) p Lp := by
                refine hLp.congr ?_
                intro j hj
                unfold Arena.stepParent
                by_cases hju : j = u
                · rw [hju, hadu, hmu]
                  rfl
                by_cases hjw : j = w
                · rw [hjw, hadw, hmw]
                  rfl
                have hjs : j ≠ s := fun he => hsnot (he ▸ hj)
                rw [hframed j hjs ?_ ?_ ?_]
                · intro hc
                  rw [hprev] at hc
                  exact hju (Option.some.inj hc).symm
                · rintro ⟨hcc, -⟩
                  rw [hprev] at hcc
                  cases hcc
                · intro hc
                  rw [hnext] at hc
                  exact hjw (Option.some.inj hc).symm
              have hLeq : L = Lp := Walk.deterministic hL hLpad
              rw [hLeq] at hmem
              exact havoid (s :: Lp) hswalk (List.mem_cons_of_mem _ hmem)
            · intro i hio hiu hiwx
              have hiw : i ≠ w := hiwx w hnext
              by_cases his : i = s
              · rw [his, Arena.get_setNodeAt_ne ha₃w _ hws.symm,
                  Arena.get_setNodeAt_ne ha₂u _ hus.symm,
                  Arena.get_setNodeAt_same ha₁s, hatd]
              · have hc1 : n.previousSibling ≠ some i := by
                  intro hc
                  rw [hprev] at hc
                  exact hiu (Option.some.inj hc).symm
                have hc2 : ¬(n.previousSibling = none ∧ n.parent = some i) := by
                  rintro ⟨hcc, -⟩
                  rw [hprev] at hcc
                  cases hcc
                have hc3 : n.nextSibling ≠ some i := by
                  intro hc
                  rw [hnext] at hc
                  exact hiw (Option.some.inj hc).symm
                rw [Arena.get_setNodeAt_ne ha₃w _ hiw, Arena.get_setNodeAt_ne ha₂u _ hiu,
                  Arena.get_setNodeAt_ne ha₁s _ his, Arena.get_setNodeAt_ne hoget _ hio,
                  hframed i his hc1 hc2 hc3]
          next hnext =>
            simp only [Option.some_bind, Option.map_some'] at hrun
            obtain ⟨ha', hr⟩ := Prod.mk.inj (Option.some.inj hrun)
            rw [← ha']
            have hado : ad.get o = some mo := by
              rw [hframed o hos ?_ ?_ ?_]
              · exact hoget
              · intro hc
                rw [hprev] at hc
                exact huo (Option.some.inj hc)
              · rintro ⟨hcc, -⟩
                rw [hprev] at hcc
                cases hcc
              · intro hc
                rw [hnext] at hc
                cases hc
            have hzo : (((a.setNodeAt o { mo with parent := n.parent, nextSibling := n.nextSibling, previousSibling := n.previousSibling }).setNodeAt s { n with parent := none, previousSibling := none, nextSibling := none }).setNodeAt u { mu with nextSibling := some o }).get o = some { mo with parent := n.parent, nextSibling := n.nextSibling, previousSibling := n.previousSibling } := by
              rw [Arena.get_setNodeAt_ne ha₂u _ (fun he => huo he.symm),
                Arena.get_setNodeAt_ne ha₁s _ hos]
              exact Arena.get_setNodeAt_same hoget _
            conv at hzo => rhs; rw [hprev]
            have hwffinal : Allocator.WF (((a.setNodeAt o { mo with parent := n.parent, nextSibling := n.nextSibling, previousSibling := n.previousSibling }).setNodeAt s { n with parent := none, previousSibling := none, nextSibling := none }).setNodeAt u { mu with nextSibling := some o }).allocator :=
              Arena.wf_setNodeAt (Arena.wf_setNodeAt
                (Arena.wf_setNodeAt hinv.wf_alloc hoget _) ha₁s _) ha₂u _
            refine attach_root_after hinvd hwffinal hado hmopar hmoprev hmonext hzo
              hadu rfl ?_ huo ?_ ?_ ?_ ?_ ?_
            · show mu.parent = n.parent
              exact hmupar
            · exact Arena.get_setNodeAt_same ha₂u _
            · intro w' h0
              have h0' : n.nextSibling = some w' := h0
              rw [hnext] at h0'
              cases h0'
            · intro p hp
              have hp' : n.parent = some p := hp
              obtain ⟨q, hq, -⟩ := hinv.parent_first s n p hsget hp'
              have hps : p ≠ s := by
                intro he
                refine (hinv.parent_halts s n hsget).no_self_loop ?_
                show Arena.stepParent a s = some s
                unfold Arena.stepParent
                rw [hsget, Option.some_bind, hp', he]
              have hpu : p ≠ u := by
                intro he
                refine (hinv.parent_halts u mu hmu).no_self_loop ?_
                show Arena.stepParent a u = some u
                unfold Arena.stepParent
                rw [hmu, Option.some_bind, hmupar, hp', he]
              refine ⟨q, ?_⟩
              rw [hframed p hps ?_ ?_ ?_]
              · exact hq
              · intro hc
                rw [hprev] at hc
                exact hpu (Option.some.inj hc).symm
              · rintro ⟨hcc, -⟩
                rw [hprev] at hcc
                cases hcc
              · intro hc
                rw [hnext] at hc
                cases hc
            · intro p hp L hL hmem
              have hp' : n.parent = some p := hp
              obtain ⟨q, hq, -⟩ := hinv.parent_first s n p hsget hp'
              obtain ⟨Lp, hLp⟩ := (hinv.parent_halts p q hq).to_walk
              have hswalk : Walk (Arena.stepParent a) s (s :: Lp) := by
                refine Walk.step ?_ hLp
                unfold Arena.stepParent
                rw [hsget, Option.some_bind]
                exact hp'
              have hsnot : s ∉ Lp := (List.nodup_cons.mp hswalk.nodup).1
              have hLpad : Walk (Arena.stepParent ad) p Lp := by
                refine hLp.congr ?_
                intro j hj
                unfold Arena.stepParent
                by_cases hju : j = u
                · rw [hju, hadu, hmu]
                  rfl
                have hjs : j ≠ s := fun he => hsnot (he ▸ hj)
                rw [hframed j hjs ?_ ?_ ?_]
                · intro hc
                  rw [hprev] at hc
                  exact hju (Option.some.inj hc).symm
                · rintro ⟨hcc, -⟩
                  rw [hprev] at hcc
                  cases hcc
                · intro hc
                  rw [hnext] at hc
                  cases hc
              have hLeq : L = Lp := Walk.deterministic hL hLpad
              rw [hLeq] at hmem
              exact havoid (s :: Lp) hswalk (List.mem_cons_of_mem _ hmem)
            · intro i hio hiu hiwx
              by_cases his : i = s
              · rw [his, Arena.get_setNodeAt_ne ha₂u _ hus.symm,
                  Arena.get_setNodeAt_same ha₁s, hatd]
              · have hc1 : n.previousSibling ≠ some i := by
                  intro hc
                  rw [hprev] at hc
                  exact hiu (Option.some.inj hc).symm
                have hc2 : ¬(n.previousSibling = none ∧ n.parent = some i) := by
                  rintro ⟨hcc, -⟩
                  rw [hprev] at hcc
                  cases hcc
                have hc3 : n.nextSibling ≠ some i := by
                  intro hc
                  rw [hnext] at hc
                  cases hc
                rw [Arena.get_setNodeAt_ne ha₂u _ hiu, Arena.get_setNodeAt_ne ha₁s _ his,
                  Arena.get_setNodeAt_ne hoget _ hio, hframed i his hc1 hc2 hc3]
        next hprev =>
          split at hrun
          next p hpar =>
            obtain ⟨q, hq, hqf⟩ := hinv.parent_first s n p hsget hpar
            have hqfc : q.firstChild = some s := hqf hprev
            have hps : p ≠ s := by
              intro he
              refine (hinv.parent_halts s n hsget).no_self_loop ?_
              show Arena.stepParent a s = some s
              unfold Arena.stepParent
              rw [hsget, Option.some_bind, hpar, he]
            have hpo : p ≠ o := by
              intro he
              obtain ⟨Lp, hLp⟩ := (hinv.parent_halts p q hq).to_walk
              have hswalk : Walk (Arena.stepParent a) s (s :: Lp) := by
                refine Walk.step ?_ hLp
                unfold Arena.stepParent
                rw [hsget, Option.some_bind]
                exact hpar
              exact havoid (s :: Lp) hswalk
                (List.mem_cons_of_mem _ (he ▸ hLp.head_mem))
            have ha₂p : (((a.setNodeAt o { mo with parent := n.parent, nextSibling := n.nextSibling, previousSibling := n.previousSibling }).setNodeAt s { n with parent := none, previousSibling := none, nextSibling := none }).get p) = some q := by
              rw [Arena.get_setNodeAt_ne ha₁s _ hps, Arena.get_setNodeAt_ne hoget _ hpo]
              exact hq
            rw [Arena.modifyNode_eq ha₂p] at hrun
            simp only [Option.some_bind] at hrun
            have hadp : ad.get p = some { q with firstChild := n.nextSibling } := by
              obtain ⟨mq', hmq'a, hpd⟩ := hparcl p hprev hpar
              rw [hq] at hmq'a
              cases Option.some.inj hmq'a
              exact hpd
            split at hrun
            next w hnext =>
              obtain ⟨mw, hmw, hmwp, hmwpar⟩ := hinv.next_prev s n w hsget hnext
              have hws : w ≠ s := by
                intro he
                refine (hinv.next_halts s n hsget).no_self_loop ?_
                show Arena.stepNext a s = some s
                unfold Arena.stepNext
                rw [hsget, Option.some_bind, hnext, he]
              have hwo : w ≠ o := by
                intro he
                have hmwo : mw = mo := by
                  rw [he, hoget] at hmw
                  exact (Option.some.inj hmw).symm
                rw [hmwo, hmoprev] at hmwp
                cases hmwp
              have hwp : w ≠ p := by
                intro he
                refine (hinv.parent_halts w mw hmw).no_self_loop ?_
                show Arena.stepParent a w = some w
                unfold Arena.stepParent
                rw [hmw, Option.some_bind, hmwpar, hpar, he]
              have ha₃w : ((((a.setNodeAt o { mo with parent := n.parent, nextSibling := n.nextSibling, previousSibling := n.previousSibling }).setNodeAt s { n with parent := none, previousSibling := none, nextSibling := none }).setNodeAt p { q with firstChild := some o }).get w) = some mw := by
                rw [Arena.get_setNodeAt_ne ha₂p _ hwp, Arena.get_setNodeAt_ne ha₁s _ hws,
                  Arena.get_setNodeAt_ne hoget _ hwo]
                exact hmw
              rw [Arena.modifyNode_eq ha₃w] at hrun
              simp only [Option.map_some'] at hrun
              obtain ⟨ha', hr⟩ := Prod.mk.inj (Option.some.inj hrun)
              rw [← ha']
              have hadw : ad.get w = some { mw with previousSibling := n.previousSibling } := by
                obtain ⟨mw', hmw'a, hw'd⟩ := hnextcl w hnext
                rw [hmw] at hmw'a
                cases Option.some.inj hmw'a
                exact hw'd
              have hado : ad.get o = some mo := by
                rw [hframed o hos ?_ ?_ ?_]
                · exact hoget
                · intro hc
                  rw [hprev] at hc
                  cases hc
                · rintro ⟨-, hcc⟩
                  rw [hpar] at hcc
                  exact hpo (Option.some.inj hcc)
                · intro hc
                  rw [hnext] at hc
                  exact hwo (Option.some.inj hc)
              have hzo : ((((a.setNodeAt o { mo with parent := n.parent, nextSibling := n.nextSibling, previousSibling := n.previousSibling }).setNodeAt s { n with parent := none, previousSibling := none, nextSibling := none }).setNodeAt p { q with firstChild := some o }).setNodeAt w { mw with previousSibling := some o }).get o = some { mo with parent := n.parent, nextSibling := n.nextSibling, previousSibling := n.previousSibling } := by
                rw [Arena.get_setNodeAt_ne ha₃w _ (fun he => hwo he.symm),
                  Arena.get_setNodeAt_ne ha₂p _ (fun he => hpo he.symm),
                  Arena.get_setNodeAt_ne ha₁s _ hos]
                exact Arena.get_setNodeAt_same hoget _
              conv at hzo => rhs; rw [hprev, hpar]
              have hwffinal : Allocator.WF ((((a.setNodeAt o { mo with parent := n.parent, nextSibling := n.nextSibling, previousSibling := n.previousSibling }).setNodeAt s { n with parent := none, previousSibling := none, nextSibling := none }).setNodeAt p { q with firstChild := some o }).setNodeAt w { mw with previousSibling := some o }).allocator :=
                Arena.wf_setNodeAt (Arena.wf_setNodeAt (Arena.wf_setNodeAt
                  (Arena.wf_setNodeAt hinv.wf_alloc hoget _) ha₁s _) ha₂p _) ha₃w _
              refine attach_root_front hinvd hwffinal hado hmopar hmoprev hmonext hzo
                hadp rfl hpo ?_ ?_ ?_ ?_
              · rw [Arena.get_setNodeAt_ne ha₃w _ (fun he => hwp he.symm)]
                exact Arena.get_setNodeAt_same ha₂p _
              · intro w' h0
                have h0' : n.nextSibling = some w' := h0
                rw [hnext] at h0'
                cases Option.some.inj h0'
                refine ⟨hwo, { mw with previousSibling := n.previousSibling }, hadw, ?_, ?_, ?_⟩
                · show n.previousSibling = none
                  exact hprev
                · show mw.parent = some p
                  exact hmwpar.trans hpar
                · exact Arena.get_setNodeAt_same ha₃w _
              · intro L hL hmem
                obtain ⟨Lp, hLp⟩ := (hinv.parent_halts p q hq).to_walk
                have hswalk : Walk (Arena.stepParent a) s (s :: Lp) := by
                  refine Walk.step ?_ hLp
                  unfold Arena.stepParent
                  rw [hsget, Option.some_bind]
                  exact hpar
                have hsnot : s ∉ Lp := (List.nodup_cons.mp hswalk.nodup).1
                have hLpad : Walk (Arena.stepParent ad) p Lp := by
                  refine hLp.congr ?_
                  intro j hj
                  unfold Arena.stepParent
                  by_cases hjp : j = p
                  · rw [hjp, hadp, hq]
                    rfl
                  by_cases hjw : j = w
                  · rw [hjw, hadw, hmw]
                    rfl
                  have hjs : j ≠ s := fun he => hsnot (he ▸ hj)
                  rw [hframed j hjs ?_ ?_ ?_]
                  · intro hc
                    rw [hprev] at hc
                    cases hc
                  · rintro ⟨-, hcc⟩
                    rw [hpar] at hcc
                    exact hjp (Option.some.inj hcc).symm
                  · intro hc
                    rw [hnext] at hc
                    exact hjw (Option.some.inj hc).symm
                have hLeq : L = Lp := Walk.deterministic hL hLpad
                rw [hLeq] at hmem
                exact havoid (s :: Lp) hswalk (List.mem_cons_of_mem _ hmem)
              · intro i hio hip hiwx
                have hiw : i ≠ w := hiwx w hnext
                by_cases his : i = s
                · rw [his, Arena.get_setNodeAt_ne ha₃w _ hws.symm,
                    Arena.get_setNodeAt_ne ha₂p _ (fun he => hps he.symm),
                    Arena.get_setNodeAt_same ha₁s, hatd]
                · have hc1 : n.previousSibling ≠ some i := by
                    intro hc
                    rw [hprev] at hc
                    cases hc
                  have hc2 : ¬(n.previousSibling = none ∧ n.parent = some i) := by
                    rintro ⟨-, hcc⟩
                    rw [hpar] at hcc
                    exact hip (Option.some.inj hcc).symm
                  have hc3 : n.nextSibling ≠ some i := by
                    intro hc
                    rw [hnext] at hc
                    exact hiw (Option.some.inj hc).symm
                  rw [Arena.get_setNodeAt_ne ha₃w _ hiw, Arena.get_setNodeAt_ne ha₂p _ hip,
                    Arena.get_setNodeAt_ne ha₁s _ his, Arena.get_setNodeAt_ne hoget _ hio,
                    hframed i his hc1 hc2 hc3]
            next hnext =>
              simp only [Option.some_bind, Option.map_some'] at hrun
              obtain ⟨ha', hr⟩ := Prod.mk.inj (Option.some.inj hrun)
              rw [← ha']
              have hado : ad.get o = some mo := by
                rw [hframed o hos ?_ ?_ ?_]
                · exact hoget
                · intro hc
                  rw [hprev] at hc
                  cases hc
                · rintro ⟨-, hcc⟩
                  rw [hpar] at hcc
                  exact hpo (Option.some.inj hcc)
                · intro hc
                  rw [hnext] at hc
                  cases hc
              have hzo : (((a.setNodeAt o { mo with parent := n.parent, nextSibling := n.nextSibling, previousSibling := n.previousSibling }).setNodeAt s { n with parent := none, previousSibling := none, nextSibling := none }).setNodeAt p { q with firstChild := some o }).get o = some { mo with parent := n.parent, nextSibling := n.nextSibling, previousSibling := n.previousSibling } := by
                rw [Arena.get_setNodeAt_ne ha₂p _ (fun he => hpo he.symm),
                  Arena.get_setNodeAt_ne ha₁s _ hos]
                exact Arena.get_setNodeAt_same hoget _
              conv at hzo => rhs; rw [hprev, hpar]
              have hwffinal : Allocator.WF (((a.setNodeAt o { mo with parent := n.parent, nextSibling := n.nextSibling, previousSibling := n.previousSibling }).setNodeAt s { n with parent := none, previousSibling := none, nextSibling := none }).setNodeAt p { q with firstChild := some o }).allocator :=
                Arena.wf_setNodeAt (Arena.wf_setNodeAt
                  (Arena.wf_setNodeAt hinv.wf_alloc hoget _) ha₁s _) ha₂p _
              refine attach_root_front hinvd hwffinal hado hmopar hmoprev hmonext hzo
                hadp rfl hpo ?_ ?_ ?_ ?_
              · exact Arena.get_setNodeAt_same ha₂p _
              · intro w' h0
                have h0' : n.nextSibling = some w' := h0
                rw [hnext] at h0'
                cases h0'
              · intro L hL hmem
                obtain ⟨Lp, hLp⟩ := (hinv.parent_halts p q hq).to_walk
                have hswalk : Walk (Arena.stepParent a) s (s :: Lp) := by
                  refine Walk.step ?_ hLp
                  unfold Arena.stepParent
                  rw [hsget, Option.some_bind]
                  exact hpar
                have hsnot : s ∉ Lp := (List.nodup_cons.mp hswalk.nodup).1
                have hLpad : Walk (Arena.stepParent ad) p Lp := by
                  refine hLp.congr ?_
                  intro j hj
                  unfold Arena.stepParent
                  by_cases hjp : j = p
                  · rw [hjp, hadp, hq]
                    rfl
                  have hjs : j ≠ s := fun he => hsnot (he ▸ hj)
                  rw [hframed j hjs ?_ ?_ ?_]
                  · intro hc
                    rw [hprev] at hc
                    cases hc
                  · rintro ⟨-, hcc⟩
                    rw [hpar] at hcc
                    exact hjp (Option.some.inj hcc).symm
                  · intro hc
                    rw [hnext] at hc
                    cases hc
                have hLeq : L = Lp := Walk.deterministic hL hLpad
                rw [hLeq] at hmem
                exact havoid (s :: Lp) hswalk (List.mem_cons_of_mem _ hmem)
              · intro i hio hip hiwx
                by_cases his : i = s
                · rw [his, Arena.get_setNodeAt_ne ha₂p _ (fun he => hps he.symm),
                    Arena.get_setNodeAt_same ha₁s, hatd]
                · have hc1 : n.previousSibling ≠ some i := by
                    intro hc
                    rw [hprev] at hc
                    cases hc
                  have hc2 : ¬(n.previousSibling = none ∧ n.parent = some i) := by
                    rintro ⟨-, hcc⟩
                    rw [hpar] at hcc
                    exact hip (Option.some.inj hcc).symm
                  have hc3 : n.nextSibling ≠ some i := by
                    intro hc
                    rw [hnext] at hc
                    cases hc
                  rw [Arena.get_setNodeAt_ne ha₂p _ hip, Arena.get_setNodeAt_ne ha₁s _ his,
                    Arena.get_setNodeAt_ne hoget _ hio, hframed i his hc1 hc2 hc3]
          next hpar =>
            simp only [Option.some_bind] at hrun
            split at hrun
            next w hnext =>
              obtain ⟨mw, hmw, hmwp, hmwpar⟩ := hinv.next_prev s n w hsget hnext
              have hws : w ≠ s := by
                intro he
                refine (hinv.next_halts s n hsget).no_self_loop ?_
                show Arena.stepNext a s = some s
                unfold Arena.stepNext
                rw [hsget, Option.some_bind, hnext, he]
              have hwo : w ≠ o := by
                intro he
                have hmwo : mw = mo := by
                  rw [he, hoget] at hmw
                  exact (Option.some.inj hmw).symm
                rw [hmwo, hmoprev] at hmwp
                cases hmwp
              have ha₂w : (((a.setNodeAt o { mo with parent := n.parent, nextSibling := n.nextSibling, previousSibling := n.previousSibling }).setNodeAt s { n with parent := none, previousSibling := none, nextSibling := none }).get w) = some mw := by
                rw [Arena.get_setNodeAt_ne ha₁s _ hws, Arena.get_setNodeAt_ne hoget _ hwo]
                exact hmw
              rw [Arena.modifyNode_eq ha₂w] at hrun
              simp only [Option.map_some'] at hrun
              obtain ⟨ha', hr⟩ := Prod.mk.inj (Option.some.inj hrun)
              rw [← ha']
              have hadw : ad.get w = some { mw with previousSibling := n.previousSibling } := by
                obtain ⟨mw', hmw'a, hw'd⟩ := hnextcl w hnext
                rw [hmw] at hmw'a
                cases Option.some.inj hmw'a
                exact hw'd
              have hado : ad.get o = some mo := by
                rw [hframed o hos ?_ ?_ ?_]
                · exact hoget
                · intro hc
                  rw [hprev] at hc
                  cases hc
                · rintro ⟨-, hcc⟩
                  rw [hpar] at hcc
                  cases hcc
                · intro hc
                  rw [hnext] at hc
                  exact hwo (Option.some.inj hc)
              have hzo : (((a.setNodeAt o { mo with parent := n.parent, nextSibling := n.nextSibling, previousSibling := n.previousSibling }).setNodeAt s { n with parent := none, previousSibling := none, nextSibling := none }).setNodeAt w { mw with previousSibling := some o }).get o = some { mo with parent := n.parent, nextSibling := n.nextSibling, previousSibling := n.previousSibling } := by
                rw [Arena.get_setNodeAt_ne ha₂w _ (fun he => hwo he.symm),
                  Arena.get_setNodeAt_ne ha₁s _ hos]
                exact Arena.get_setNodeAt_same hoget _
              conv at hzo => rhs; rw [hprev, hpar]
              have hwffinal : Allocator.WF (((a.setNodeAt o { mo with parent := n.parent, nextSibling := n.nextSibling, previousSibling := n.previousSibling }).setNodeAt s { n with parent := none, previousSibling := none, nextSibling := none }).setNodeAt w { mw with previousSibling := some o }).allocator :=
                Arena.wf_setNodeAt (Arena.wf_setNodeAt
                  (Arena.wf_setNodeAt hinv.wf_alloc hoget _) ha₁s _) ha₂w _
              refine attach_root_lone hinvd hwffinal hado hmopar hmoprev hmonext hzo
                ?_ ?_
              · intro w' h0
                have h0' : n.nextSibling = some w' := h0
                rw [hnext] at h0'
                cases Option.some.inj h0'
                refine ⟨hwo, { mw with previousSibling := n.previousSibling }, hadw, ?_, ?_, ?_⟩
                · show n.previousSibling = none
                  exact hprev
                · show mw.parent = none
                  exact hmwpar.trans hpar
                · exact Arena.get_setNodeAt_same ha₂w _
              · intro i hio hiwx
                have hiw : i ≠ w := hiwx w hnext
                by_cases his : i = s
                · rw [his, Arena.get_setNodeAt_ne ha₂w _ hws.symm,
                    Arena.get_setNodeAt_same ha₁s, hatd]
                · have hc1 : n.previousSibling ≠ some i := by
                    intro hc
                    rw [hprev] at hc
                    cases hc
                  have hc2 : ¬(n.previousSibling = none ∧ n.parent = some i) := by
                    rintro ⟨-, hcc⟩
                    rw [hpar] at hcc
                    cases hcc
                  have hc3 : n.nextSibling ≠ some i := by
                    intro hc
                    rw [hnext] at hc
                    exact hiw (Option.some.inj hc).symm
                  rw [Arena.get_setNodeAt_ne ha₂w _ hiw, Arena.get_setNodeAt_ne ha₁s _ his,
                    Arena.get_setNodeAt_ne hoget _ hio, hframed i his hc1 hc2 hc3]
            next hnext =>
              simp only [Option.some_bind, Option.map_some'] at hrun
              obtain ⟨ha', hr⟩ := Prod.mk.inj (Option.some.inj hrun)
              rw [← ha']
              have hado : ad.get o = some mo := by
                rw [hframed o hos ?_ ?_ ?_]
                · exact hoget
                · intro hc
                  rw [hprev] at hc
                  cases hc
                · rintro ⟨-, hcc⟩
                  rw [hpar] at hcc
                  cases hcc
                · intro hc
                  rw [hnext] at hc
                  cases hc
              have hzo : ((a.setNodeAt o { mo with parent := n.parent, nextSibling := n.nextSibling, previousSibling := n.previousSibling }).setNodeAt s { n with parent := none, previousSibling := none, nextSibling := none }).get o = some { mo with parent := n.parent, nextSibling := n.nextSibling, previousSibling := n.previousSibling } := by
                rw [Arena.get_setNodeAt_ne ha₁s _ hos]
                exact Arena.get_setNodeAt_same hoget _
              conv at hzo => rhs; rw [hprev, hpar]
              have hwffinal : Allocator.WF ((a.setNodeAt o { mo with parent := n.parent, nextSibling := n.nextSibling, previousSibling := n.previousSibling }).setNodeAt s { n with parent := none, previousSibling := none, nextSibling := none }).allocator :=
                Arena.wf_setNodeAt (Arena.wf_setNodeAt hinv.wf_alloc hoget _) ha₁s _
              refine attach_root_lone hinvd hwffinal hado hmopar hmoprev hmonext hzo
                ?_ ?_
              · intro w' h0
                have h0' : n.nextSibling = some w' := h0
                rw [hnext] at h0'
                cases h0'
              · intro i hio hiwx
                by_cases his : i = s
                · rw [his, Arena.get_setNodeAt_same ha₁s, hatd]
                · have hc1 : n.previousSibling ≠ some i := by
                    intro hc
                    rw [hprev] at hc
                    cases hc
                  have hc2 : ¬(n.previousSibling = none ∧ n.parent = some i) := by
                    rintro ⟨-, hcc⟩
                    rw [hpar] at hcc
                    cases hcc
                  have hc3 : n.nextSibling ≠ some i := by
                    intro hc
                    rw [hnext] at hc
                    cases hc
                  rw [Arena.get_setNodeAt_ne ha₁s _ his,
                    Arena.get_setNodeAt_ne hoget _ hio, hframed i his hc1 hc2 hc3]
      all_goals
        obtain ⟨ha', hr⟩ := Prod.mk.inj (Option.some.inj hrun)
        rw [← ha']
        exact hinv

/-- `Token::detach` in backward form: a successful run preserves the
structural invariant. -/
theorem detach_pres_run {T : Type} {a a' : Arena T} {s : Nat} (hinv : Inv a)
    (hrun : detach s a = some a') : Inv a' := by
  cases hget : a.get s with
  | none =>
    unfold detach at hrun
    rw [hget] at hrun
    cases hrun
  | some n =>
    obtain ⟨a'', hdet, hinv', -⟩ := detach_pres hinv hget
    have he : a'' = a' := Option.some.inj (hdet.symm.trans hrun)
    exact he ▸ hinv'

/-- `Arena::remove` in backward form: a successful run preserves the
structural invariant. -/
theorem arenaRemove_pres_run {T : Type} {a a' : Arena T} {t : Nat} {cs : List Nat}
    (hinv : Inv a) (hrun : arenaRemove a t = some (a', cs)) : Inv a' := by
  cases hget : a.get t with
  | none =>
    have hd : detach t a = none := by
      unfold detach
      rw [hget]
      rfl
    unfold arenaRemove at hrun
    rw [hd] at hrun
    cases hrun
  | some n =>
    obtain ⟨a'', cs', hrem, hinv'⟩ := arenaRemove_pres hinv hget
    have he := Prod.mk.inj (Option.some.inj (hrem.symm.trans hrun))
    exact he.1 ▸ hinv'

/-- One structural operation of the tree API, applied with its stated
preconditions met: `append`, `insert_before`, `insert_after`, `detach`,
`Arena::remove`, `uproot` (on a node that is not a first child with a next
sibling — removing such a node leaves its next sibling's
`previous_sibling` dangling at the freed slot, see
`uproot_first_child_dangles_sibling_prev`), and `replace_node` (with the
documented precondition that `self` is not a descendant of `other`,
phrased as: `other` does not occur on `self`'s ancestor walk). -/
inductive Step {T : Type} : Arena T → Arena T → Prop where
  | ofAppend {a a' : Arena T} {s tk : Nat} {v : T}
      (h : append s a v = some (a', tk)) : Step a a'
  | ofInsertBefore {a a' : Arena T} {s tk : Nat} {v : T}
      (h : insertBefore s a v = some (a', tk)) : Step a a'
  | ofInsertAfter {a a' : Arena T} {s tk : Nat} {v : T}
      (h : insertAfter s a v = some (a', tk)) : Step a a'
  | ofDetach {a a' : Arena T} {s : Nat}
      (h : detach s a = some a') : Step a a'
  | ofRemove {a a' : Arena T} {t : Nat} {cs : List Nat}
      (h : arenaRemove a t = some (a', cs)) : Step a a'
  | ofUproot {a a' : Arena T} {t : Nat} {n : Node T}
      (hget : a.get t = some n)
      (hok : n.previousSibling ≠ none ∨ n.nextSibling = none)
      (h : uproot a t = some a') : Step a a'
  | ofReplaceNode {a a' : Arena T} {s o : Nat} {r : Option Error}
      (havoid : ∀ L, Walk (Arena.stepParent a) s L → o ∉ L)
      (h : replaceNode s a o = some (a', r)) : Step a a'

/-- A finite sequence of structural operations. -/
inductive OpSeq {T : Type} : Arena T → Arena T → Prop where
  | refl (a : Arena T) : OpSeq a a
  | snoc {a b c : Arena T} : OpSeq a b → Step b c → OpSeq a c

/-- Each single operation preserves the structural invariant. -/
theorem Step.pres_inv {T : Type} {a a' : Arena T} (h : Step a a') (hinv : Inv a) :
    Inv a' := by
  cases h with
  | ofAppend h => exact append_pres hinv h
  | ofInsertBefore h => exact insertBefore_pres hinv h
  | ofInsertAfter h => exact insertAfter_pres hinv h
  | ofDetach h => exact detach_pres_run hinv h
  | ofRemove h => exact arenaRemove_pres_run hinv h
  | ofUproot hget hok h => exact uproot_pres hinv hget hok h
  | ofReplaceNode havoid h => exact replaceNode_pres hinv havoid h

/-- Any sequence of structural operations preserves the invariant. -/
theorem OpSeq.preserve_inv {T : Type} {a a' : Arena T} (h : OpSeq a a') (hinv : Inv a) :
    Inv a' := by
  induction h with
  | refl => exact hinv
  | snoc hseq hstep ih => exact hstep.pres_inv ih

/-- The repair code of `Token::uproot` forgets to clear the next sibling's
`previous_sibling` when the uprooted node is a first child that has a next
sibling (the `(Some(ptkn), None, Some(ytkn))` arm of the match only
rewrites the parent's `first_child`): afterwards the sibling's
`previous_sibling` still points at the freed slot. -/
theorem uproot_first_child_dangles_sibling_prev :
    ∃ a' : Arena Nat, uproot w9arena 2 = some a' ∧ a'.get 2 = none ∧
      ∃ m, a'.get 3 = some m ∧ m.previousSibling = some 2 := by
  refine ⟨⟨{ data := [Cell.just { w9n1 with firstChild := some 3 }, Cell.nothing none, Cell.just w9n3], head := some 2, len := 2 }⟩, rfl, rfl, w9n3, rfl, rfl⟩

/-- The arena obtained from the three-node tree `w9arena` (root 1 with
children 2, 3) by `append(1, 99)`: the allocator grows to capacity 6, the
new node gets token 4 and is linked after node 3. -/
def c3arena : Arena Nat :=
  ⟨{ data := [Cell.just w9n1, Cell.just w9n2, Cell.just { data := 30, token := 3, parent := some 1, previousSibling := some 2, nextSibling := some 4, firstChild := none }, Cell.just { data := 99, token := 4, parent := some 1, previousSibling := some 3, nextSibling := none, firstChild := none }, Cell.nothing (some 6), Cell.nothing none], head := some 5, len := 4 }⟩

/-- C3: for every sequence of `append`, `insert_before`, `insert_after`,
`detach`, `Arena::remove`, `uproot` and `replace_node` operations applied
to an arena satisfying the structural link invariant (with `uproot`
restricted to nodes that are not a first child with a next sibling, and
`replace_node` restricted by its documented no-descendant precondition),
every occupied node of the resulting arena satisfies the link invariants:
(a) consecutive siblings' `next_sibling`/`previous_sibling` are mutual
inverses and siblings share their parent link, (b) a node's first child
has that node as parent and no previous sibling, and (c) every node with a
parent appears in that parent's child-chain sequence.  The original
claim's fourth bullet (parentless nodes have no sibling links) is not
preserved — see `remove_breaks_parentless_no_sibling_invariant` — and the
restrictions on `uproot` (see `uproot_first_child_dangles_sibling_prev`)
and `replace_node` are necessary. -/
theorem link_invariants_preserved_by_operation_sequences {T : Type}
    {a₀ a : Arena T} (hinv : Inv a₀) (hops : OpSeq a₀ a) :
    (∀ i n j, a.get i = some n → n.nextSibling = some j →
      ∃ m, a.get j = some m ∧ m.previousSibling = some i ∧ m.parent = n.parent) ∧
    (∀ i n j, a.get i = some n → n.previousSibling = some j →
      ∃ m, a.get j = some m ∧ m.nextSibling = some i ∧ m.parent = n.parent) ∧
    (∀ i n c, a.get i = some n → n.firstChild = some c →
      ∃ m, a.get c = some m ∧ m.parent = some i ∧ m.previousSibling = none) ∧
    (∀ i n p, a.get i = some n → n.parent = some p →
      ∃ cs, childrenTokensList p a (a.capacity + 1) = some cs ∧ i ∈ cs) := by
  have hinv' : Inv a := hops.preserve_inv hinv
  refine ⟨hinv'.next_prev, ?_, hinv'.first_child, ?_⟩
  · intro i n j hn hj
    obtain ⟨m, hm, hmn⟩ := hinv'.prev_next i n j hn hj
    obtain ⟨m2, hm2, -, hm2par⟩ := hinv'.next_prev j m i hm hmn
    rw [hn] at hm2
    cases Option.some.inj hm2
    exact ⟨m, hm, hmn, hm2par.symm⟩
  · intro i n p hn hp
    exact hinv'.mem_children hn hp

/-- Witness for C3: running `append(1, 99)` on the concrete three-node
tree and reading off clause (a) at node 3 (whose next sibling is the new
node 4). -/
theorem link_invariants_preserved_by_operation_sequences_witness :
    ∃ m, Arena.get c3arena 4 = some m ∧ m.previousSibling = some 3 ∧
      m.parent = some 1 := by
  have hrun : append 1 w9arena 99 = some (c3arena, 4) := by rfl
  have hops : OpSeq w9arena c3arena := OpSeq.snoc (OpSeq.refl _) (Step.ofAppend hrun)
  obtain ⟨m, hm, hmp, hmpar⟩ :=
    (link_invariants_preserved_by_operation_sequences w9arena_inv hops).1 3
      { data := 30, token := 3, parent := some 1, previousSibling := some 2, nextSibling := some 4, firstChild := none } 4 rfl rfl
  exact ⟨m, hm, hmp, hmpar⟩
